import Mathlib

/-!
Partitioning core of the logic-synthesis oracle.

A shallow embedding of `partition_manager.hpp` and `partition_view.hpp`:
the Partition Ledger, the Partition View, the Cone Analyzer and the
Synchronizer, followed by the properties proved about them.
-/

namespace Oracle

/-! ## Circuit Graph -/

/-- A signal is a node index together with its inversion bit; the raw
`data` word of the source is `2 * index + complement`. -/
structure signal where
  index : Nat
  complement : Bool
deriving DecidableEq, Repr

/-- Raw data word of a signal (`signal::data`). -/
def signal.data (s : signal) : Nat := 2 * s.index + (if s.complement then 1 else 0)

/-- Signal stored in a raw data word. -/
def signal.ofData (d : Nat) : signal := ⟨d / 2, d % 2 == 1⟩

/-- Modelled from the spec: the Circuit Graph capability of §6 (the logic
network class `Ntk` is an external collaborator).  Nodes are the indices
`0 .. size-1`; `fanin` is what `foreach_fanin` enumerates, `children` is the
raw fan-in storage `_storage->nodes[n].children`, `outputs` is
`_storage->outputs`, and `constant_false` / `constant_true` are
`get_node(get_constant(false / true))`. -/
structure Ntk where
  size : Nat
  is_constant : Nat → Bool
  is_pi : Nat → Bool
  is_ro : Nat → Bool
  is_po : Nat → Bool
  fanin : Nat → List signal
  children : Nat → List signal
  outputs : List signal
  constant_false : Nat
  constant_true : Nat
  num_pis : Nat
  num_pos : Nat
  num_latches : Nat
  foreach_pi : List Nat
  foreach_po : List signal
  foreach_gate : List Nat

/-- Nodes enumerated by `foreach_node`. -/
def Ntk.foreach_node (ntk : Ntk) : List Nat := List.range ntk.size

/-- The translation `index_to_node` is the identity on indices. -/
def Ntk.index_to_node (_ntk : Ntk) (i : Nat) : Nat := i

/-! ## Ordered sets (`std::set<node>`) as ascending duplicate-free lists -/

/-- Insertion `std::set::insert`. -/
def set_insert (x : Nat) : List Nat → List Nat
  | [] => [x]
  | y :: ys =>
    if x < y then x :: y :: ys
    else if x = y then y :: ys
    else y :: set_insert x ys

/-- Removal `std::set::erase(key)`. -/
def set_erase (x : Nat) (s : List Nat) : List Nat := s.filter (fun y => y != x)

/-- Union `std::set_union` into an inserter of an empty set. -/
def set_union (a b : List Nat) : List Nat := b.foldl (fun acc x => set_insert x acc) (a.foldl (fun acc x => set_insert x acc) [])

/-! ## Partition Ledger -/

/-- Lookup `partition[n]` on a `std::map<node,int>`: a missing key reads as
the value-initialised `0`. -/
def map_at (partition : Nat → Option Int) (n : Nat) : Int := (partition n).getD 0

/-- Insertion `_part_scope[p].insert(n)`; indexing the vector outside its bounds
has no defined behaviour and is reported as `none`. -/
def scope_insert (scope : List (List Nat)) (p : Int) (n : Nat) : Option (List (List Nat)) :=
  if 0 ≤ p ∧ p.toNat < scope.length then
    some (scope.set p.toNat (set_insert n (scope.getD p.toNat [])))
  else none

/-- The tables filled while the constructor walks the network. -/
structure part_tables where
  _part_scope : List (List Nat)
  _part_pis : List (Int × Nat)
  _part_pos : List (Int × Nat)
  _part_ros : List (Int × Nat)
  _part_ris : List (Int × Nat)

/-- Body of the `foreach_fanin` lambda of the constructors (lines 103-111 and
256-263): a fan-in edge crossing a partition boundary marks the producer as an
input of the consumer's partition and as an output of its own. -/
def crossing_edge (ntk : Ntk) (part_of : Nat → Option Int) (curr_node : Nat)
    (t : part_tables) (conn : signal) : Option part_tables :=
  (part_of (ntk.index_to_node conn.index)).bind fun pn =>
  (part_of curr_node).bind fun pc =>
  if pn ≠ pc ∧ !ntk.is_constant (ntk.index_to_node conn.index) then
    (scope_insert t._part_scope pc curr_node).map fun sc =>
      { t with
        _part_scope := sc
        _part_pis := t._part_pis ++ [(pc, ntk.index_to_node conn.index)]
        _part_pos := t._part_pos ++ [(pn, ntk.index_to_node conn.index)] }
  else some t

/-- First statement of the `foreach_node` lambda of the assignment-map
constructor (lines 74-79): a primary input enters the scope and the inputs of
its partition. -/
def classify_pi (ntk : Ntk) (partition : Nat → Option Int) (t : part_tables)
    (curr_node : Nat) : Option part_tables :=
  if ntk.is_pi curr_node then
    (scope_insert t._part_scope (map_at partition curr_node) curr_node).map fun sc =>
      { t with _part_scope := sc, _part_pis := t._part_pis ++ [(map_at partition curr_node, curr_node)] }
  else some t

/-- The `if / else if / else if` chain of the `foreach_node` lambda (lines
81-98): register outputs, primary outputs, and every other non-constant node. -/
def classify_kind (ntk : Ntk) (partition : Nat → Option Int) (t : part_tables)
    (curr_node : Nat) : Option part_tables :=
  if ntk.is_ro curr_node && !ntk.is_constant curr_node then
    (scope_insert t._part_scope (map_at partition curr_node) curr_node).map fun sc =>
      if ntk.is_po curr_node && !ntk.is_constant curr_node then
        { t with _part_scope := sc
                 _part_pis := t._part_pis ++ [(map_at partition curr_node, curr_node)]
                 _part_pos := t._part_pos ++ [(map_at partition curr_node, curr_node)] }
      else
        { t with _part_scope := sc
                 _part_pis := t._part_pis ++ [(map_at partition curr_node, curr_node)] }
  else if ntk.is_po curr_node && !ntk.is_constant curr_node then
    (scope_insert t._part_scope (map_at partition curr_node) curr_node).map fun sc =>
      { t with _part_scope := sc, _part_pos := t._part_pos ++ [(map_at partition curr_node, curr_node)] }
  else if !ntk.is_constant curr_node then
    (scope_insert t._part_scope (map_at partition curr_node) curr_node).map fun sc =>
      { t with _part_scope := sc }
  else some t

/-- Last statement of the `foreach_node` lambdas (lines 101-112 and 255-264):
the fan-in edges of a node that is neither a primary input nor a register
output are inspected one by one. -/
def classify_fanins (ntk : Ntk) (part_of : Nat → Option Int) (t : part_tables)
    (curr_node : Nat) : Option part_tables :=
  if !ntk.is_pi curr_node && !ntk.is_ro curr_node then
    (ntk.fanin curr_node).foldlM (crossing_edge ntk part_of curr_node) t
  else some t

/-- Body of the `foreach_node` lambda of the constructor taking an explicit
assignment map (lines 71-113). -/
def classify_node (ntk : Ntk) (partition : Nat → Option Int) (t : part_tables)
    (curr_node : Nat) : Option part_tables :=
  (classify_pi ntk partition t curr_node).bind fun t1 =>
  (classify_kind ntk partition t1 curr_node).bind fun t2 =>
  classify_fanins ntk (fun n => some (map_at partition n)) t2 curr_node

/-- Values stored under key `part_index` in a multimap (`equal_range`). -/
def equal_range (m : List (Int × Nat)) (part_index : Int) : List Nat :=
  (m.filter (fun e => e.1 == part_index)).map Prod.snd

/-- Set of the values of a multimap range, as built by `create_part_inputs`,
`create_part_outputs`, `create_part_latches` and `create_part_latches_in`. -/
def create_part_set (m : List (Int × Nat)) (part_index : Int) : List Nat :=
  (equal_range m part_index).foldl
    (fun acc n => if n ∈ acc then acc else set_insert n acc) []

/-- Modelled from the spec: a truth table (`kitty::dynamic_truth_table`), a
bit-vector of length `2 ^ num_vars`; `bits[m]` is the value at assignment `m`.
The value-initialised table has no variables and no bits. -/
structure dynamic_truth_table where
  num_vars : Nat
  bits : List Bool
deriving DecidableEq, Repr

/-- The Partition Ledger (`partition_manager`). -/
structure partition_manager where
  num_partitions : Int
  _part_nodes : Nat → Int
  tables : part_tables
  combined_deleted_nodes : Int → List Nat
  input_partition : Nat → List Int
  output_partition : Nat → List Int
  partitionOutputs : Int → List Nat
  partitionInputs : Int → List Nat
  partitionReg : Int → List Nat
  partitionRegIn : Int → List Nat
  output_substitutions : List (Nat × signal)
  logic_cone_inputs : Nat → List Nat
  cone_size : Nat → Nat
  tt_map : Nat → dynamic_truth_table
  output_tt : Nat → Option dynamic_truth_table

/-- Ledger whose tables are those collected by a constructor and whose maps are
all still empty. -/
def partition_manager.init (part_num : Int) (t : part_tables) : partition_manager :=
  { num_partitions := part_num
    _part_nodes := fun _ => 0
    tables := t
    combined_deleted_nodes := fun _ => []
    input_partition := fun _ => []
    output_partition := fun _ => []
    partitionOutputs := fun _ => []
    partitionInputs := fun _ => []
    partitionReg := fun _ => []
    partitionRegIn := fun _ => []
    output_substitutions := []
    logic_cone_inputs := fun _ => []
    cone_size := fun _ => 0
    tt_map := fun _ => ⟨0, []⟩
    output_tt := fun _ => none }

/-- Map update `m[k] = v`. -/
def upd {α β : Type} [DecidableEq α] (m : α → β) (k : α) (v : β) : α → β :=
  fun x => if x = k then v else m x

/-- The method `update_io` (lines 1156-1164). -/
def partition_manager.update_io (pm : partition_manager) (part_index : Int) : partition_manager :=
  let ip := (pm.partitionInputs part_index).foldl
    (fun m n => upd m n (m n ++ [part_index])) pm.input_partition
  let op := (pm.partitionOutputs part_index).foldl
    (fun m n => upd m n (m n ++ [part_index])) pm.output_partition
  { pm with input_partition := ip, output_partition := op }

/-- Getter `get_part_inputs`. -/
def partition_manager.get_part_inputs (pm : partition_manager) (partition : Int) : List Nat :=
  pm.partitionInputs partition

/-- Getter `get_part_outputs`. -/
def partition_manager.get_part_outputs (pm : partition_manager) (partition : Int) : List Nat :=
  pm.partitionOutputs partition

/-- Empty tables with `part_num` empty scope sets. -/
def part_tables.empty (part_num : Int) : part_tables :=
  { _part_scope := List.replicate part_num.toNat []
    _part_pis := [], _part_pos := [], _part_ros := [], _part_ris := [] }

/-- Final loop of the assignment-map constructor (lines 115-120). -/
def finish_from_map (pm : partition_manager) (i : Int) : partition_manager :=
  let pm1 := { pm with partitionInputs := upd pm.partitionInputs i (create_part_set pm.tables._part_pis i) }
  let pm2 := { pm1 with partitionOutputs := upd pm1.partitionOutputs i (create_part_set pm1.tables._part_pos i) }
  pm2.update_io i

/-- Partition ids `0 .. part_num-1` visited by the `for` loops. -/
def part_ids (part_num : Int) : List Int := (List.range part_num.toNat).map Int.ofNat

/-- Constructor `partition_manager(ntk, partition, part_num)` (lines 65-121). -/
def partition_manager.from_map (ntk : Ntk) (partition : Nat → Option Int) (part_num : Int) :
    Option partition_manager :=
  (ntk.foreach_node.foldlM (classify_node ntk partition) (part_tables.empty part_num)).map fun t =>
  (part_ids part_num).foldl finish_from_map (partition_manager.init part_num t)

/-- Loop over the combinational inputs `1 .. num_pis` of the partitioner-driven
constructor (lines 238-247); the last `num_latches` of them are register
outputs.  The difference `num_pis - num_latches` is that of a network with
`num_latches ≤ num_pis`; on any other the unsigned subtraction of the code wraps
around, which is not modelled. -/
def kahypar_inputs (ntk : Ntk) (partition : List Int) (t : part_tables) (i : Nat) :
    Option part_tables :=
  (partition.get? i).map fun p =>
  if i ≤ ntk.num_pis - ntk.num_latches then
    { t with _part_pis := t._part_pis ++ [(p, ntk.index_to_node i)] }
  else
    { t with
      _part_pis := t._part_pis ++ [(p, ntk.index_to_node i)]
      _part_ros := t._part_ros ++ [(p, ntk.index_to_node i)] }

/-- First statement of the `foreach_node` lambda of the partitioner-driven
constructor (lines 250-252). -/
def kahypar_scope (ntk : Ntk) (partition : List Int) (t : part_tables) (curr_node : Nat) :
    Option part_tables :=
  if !ntk.is_constant curr_node then
    (partition.get? curr_node).bind fun pc =>
    (scope_insert t._part_scope pc curr_node).map fun sc => { t with _part_scope := sc }
  else some t

/-- Body of the `foreach_node` lambda of the partitioner-driven constructor
(lines 249-266). -/
def kahypar_node (ntk : Ntk) (partition : List Int) (t : part_tables) (curr_node : Nat) :
    Option part_tables :=
  (kahypar_scope ntk partition t curr_node).bind fun t1 =>
  classify_fanins ntk (fun n => partition.get? n) t1 curr_node

/-- Loop over the outputs of the partitioner-driven constructor (lines
268-277); the last `num_latches` outputs are register inputs.  The difference
`num_pos - num_latches` is that of a network with `num_latches ≤ num_pos`; on any
other the unsigned subtraction of the code wraps around, which is not modelled. -/
def kahypar_outputs (ntk : Ntk) (partition : List Int) (t : part_tables) (i : Nat) :
    Option part_tables :=
  (ntk.outputs.get? i).bind fun o =>
  if i < ntk.num_pos - ntk.num_latches ∧ !ntk.is_constant (ntk.index_to_node o.index) then
    (partition.get? o.index).map fun p =>
      { t with _part_pos := t._part_pos ++ [(p, ntk.index_to_node o.index)] }
  else if !ntk.is_constant (ntk.index_to_node o.index) then
    (partition.get? o.index).map fun p =>
      { t with _part_ris := t._part_ris ++ [(p, ntk.index_to_node o.index)] }
  else some t

/-- Final loop of the partitioner-driven constructor (lines 279-286). -/
def finish_from_kahypar (pm : partition_manager) (i : Int) : partition_manager :=
  let pm1 := { pm with partitionInputs := upd pm.partitionInputs i (create_part_set pm.tables._part_pis i) }
  let pm2 := { pm1 with partitionReg := upd pm1.partitionReg i (create_part_set pm1.tables._part_ros i) }
  let pm3 := { pm2 with partitionRegIn := upd pm2.partitionRegIn i (create_part_set pm2.tables._part_ris i) }
  let pm4 := { pm3 with partitionOutputs := upd pm3.partitionOutputs i (create_part_set pm3.tables._part_pos i) }
  pm4.update_io i

/-- Final loop of the single-partition branch (lines 166-171). -/
def finish_single (pm : partition_manager) (i : Int) : partition_manager :=
  let pm1 := { pm with partitionInputs := upd pm.partitionInputs i (create_part_set pm.tables._part_pis i) }
  let pm2 := { pm1 with partitionOutputs := upd pm1.partitionOutputs i (create_part_set pm1.tables._part_pos i) }
  let pm3 := { pm2 with partitionReg := upd pm2.partitionReg i (create_part_set pm2.tables._part_ros i) }
  { pm3 with partitionRegIn := upd pm3.partitionRegIn i (create_part_set pm3.tables._part_ris i) }

/-- Body of the `foreach_pi` lambda of the single-partition branch (lines 152-155). -/
def single_pi (ntk : Ntk) (t : part_tables) (pi : Nat) : Option part_tables :=
  (scope_insert t._part_scope 0 (ntk.index_to_node pi)).map fun sc =>
    { t with _part_scope := sc, _part_pis := t._part_pis ++ [(0, ntk.index_to_node pi)] }

/-- Body of the `foreach_po` lambda of the single-partition branch (lines 156-160). -/
def single_po (ntk : Ntk) (t : part_tables) (po : signal) : Option part_tables :=
  (scope_insert t._part_scope 0 (ntk.index_to_node po.index)).map fun sc =>
    { t with _part_scope := sc, _part_pos := t._part_pos ++ [(0, ntk.index_to_node po.index)] }

/-- Body of the `foreach_gate` lambda of the single-partition branch (lines
161-164); `_part_nodes[g] = 0` stores the value a missing key already reads as. -/
def single_gate (t : part_tables) (g : Nat) : Option part_tables :=
  (scope_insert t._part_scope 0 g).map fun sc => { t with _part_scope := sc }

/-- Single-partition branch of the partitioner-driven constructor (lines
151-172): the whole network is partition 0. -/
def partition_manager.single (ntk : Ntk) (part_num : Int) : Option partition_manager :=
  (ntk.foreach_pi.foldlM (single_pi ntk) (part_tables.empty part_num)).bind fun t1 =>
  (ntk.foreach_po.foldlM (single_po ntk) t1).bind fun t2 =>
  (ntk.foreach_gate.foldlM single_gate t2).map fun t3 =>
  (part_ids part_num).foldl finish_single (partition_manager.init part_num t3)

/-- Constructor `partition_manager(ntk, part_num, config)` (lines 134-290).  The
external hypergraph partitioner is consulted only when `part_num ≠ 1`; the
vector it fills is the argument `partition`. -/
def partition_manager.from_kahypar (ntk : Ntk) (partition : List Int) (part_num : Int) :
    Option partition_manager :=
  if part_num = 1 then partition_manager.single ntk part_num
  else
    (((List.range ntk.num_pis).map (· + 1)).foldlM (kahypar_inputs ntk partition)
      (part_tables.empty part_num)).bind fun t1 =>
    (ntk.foreach_node.foldlM (kahypar_node ntk partition) t1).bind fun t2 =>
    ((List.range ntk.num_pos).foldlM (kahypar_outputs ntk partition) t2).map fun t3 =>
    (part_ids part_num).foldl finish_from_kahypar (partition_manager.init part_num t3)

/-- Growth of the tables: the scope vector keeps its length and the boundary
multimaps only gain entries. -/
def tables_le (t t' : part_tables) : Prop :=
  t'._part_scope.length = t._part_scope.length ∧
  (∀ e, e ∈ t._part_pis → e ∈ t'._part_pis) ∧ (∀ e, e ∈ t._part_pos → e ∈ t'._part_pos)

/-- What holds of a table once the edge `conn` into `c` has been processed. -/
def edge_done (ntk : Ntk) (part_of : Nat → Option Int) (c : Nat) (conn : signal)
    (t : part_tables) : Prop :=
  ∃ pn pc, part_of conn.index = some pn ∧ part_of c = some pc ∧
    (pn ≠ pc → ntk.is_constant conn.index = false →
      (pc, conn.index) ∈ t._part_pis ∧ (pn, conn.index) ∈ t._part_pos ∧
      0 ≤ pc ∧ pc < t._part_scope.length)

/-- What holds of a table once node `c` has been classified: a non-constant node
has a partition id inside the scope vector, and every fan-in edge of a node that
is neither a primary input nor a register output has been processed. -/
def node_done (ntk : Ntk) (part_of : Nat → Option Int) (c : Nat) (t : part_tables) : Prop :=
  (ntk.is_constant c = false → ∃ pc, part_of c = some pc ∧ 0 ≤ pc ∧ pc < t._part_scope.length) ∧
  (ntk.is_pi c = false → ntk.is_ro c = false →
    ∀ conn ∈ ntk.fanin c, edge_done ntk part_of c conn t)

/-- Example network: constant 0, inputs 1 and 2, gate 3 = AND(1,2), and gate
4 = AND(3,!2) driving the only output. -/
def ntk_ex1 : Ntk :=
  { size := 5
    is_constant := fun n => n == 0
    is_pi := fun n => n == 1 || n == 2
    is_ro := fun _ => false
    is_po := fun n => n == 4
    fanin := fun n => if n = 3 then [⟨1, false⟩, ⟨2, false⟩] else if n = 4 then [⟨3, false⟩, ⟨2, true⟩] else []
    children := fun n => if n = 3 then [⟨1, false⟩, ⟨2, false⟩] else if n = 4 then [⟨3, false⟩, ⟨2, true⟩] else []
    outputs := [⟨4, false⟩]
    constant_false := 0
    constant_true := 0
    num_pis := 2
    num_pos := 1
    num_latches := 0
    foreach_pi := [1, 2]
    foreach_po := [⟨4, false⟩]
    foreach_gate := [3, 4] }

/-- Assignment putting gate 4 into partition 1 and everything else into partition 0. -/
def part_ex1 : Nat → Option Int := fun n => if n = 4 then some 1 else if n < 4 then some 0 else none

/-! ## Partition View -/

/-- Modelled from the spec: `make_signal(node)` of the Circuit Graph capability,
the non-inverted signal of a node. -/
def make_signal (n : Nat) : signal := ⟨n, false⟩

/-- Modelled from the spec: `create_not(signal)` of the Circuit Graph capability,
the same node with the inversion bit flipped. -/
def create_not (s : signal) : signal := ⟨s.index, !s.complement⟩

/-- Modelled from the spec: `is_complemented(signal)`, the inversion bit. -/
def is_complemented (s : signal) : Bool := s.complement

/-- Modelled from the spec: `get_node(signal)`, the node a signal refers to. -/
def get_node (s : signal) : Nat := s.index

/-- The Partition View (`partition_view`), together with the transient
visitation marks it keeps in the underlying graph. -/
structure partition_view where
  _num_constants : Nat
  _num_leaves : Nat
  _nodes : List Nat
  _node_to_index : Nat → Option Nat
  _roots : List signal
  _fanout_size : List Nat
  _nodes_lut : List Nat
  visited : Nat → Nat

/-- Member initialisers of the class (lines 244-255) after `clear_visited()`. -/
def partition_view.fresh : partition_view :=
  { _num_constants := 1, _num_leaves := 0, _nodes := [], _node_to_index := fun _ => none
    _roots := [], _fanout_size := [], _nodes_lut := [], visited := fun _ => 0 }

/-- The method `set_visited`. -/
def partition_view.set_visited (v : partition_view) (n : Nat) (mark : Nat) : partition_view :=
  { v with visited := upd v.visited n mark }

/-- The method `add_node` (lines 194-209). -/
def partition_view.add_node (ntk : Ntk) (v : partition_view) (n : Nat) : partition_view :=
  let lut := n :: v._nodes_lut
  let fanout_counter := ((ntk.fanin n).filter (fun f => decide (get_node f ∈ lut))).length
  { v with
    _node_to_index := upd v._node_to_index n (some v._nodes.length)
    _nodes := v._nodes ++ [n]
    _nodes_lut := lut
    _fanout_size := v._fanout_size ++ [fanout_counter] }

/-- The method `traverse` (lines 211-223).  The recursion depth is bounded by
`fuel`; running out of it is reported as `none`. -/
def traverse (ntk : Ntk) : Nat → Nat → partition_view → Option partition_view
  | 0, _, _ => none
  | fuel + 1, n, v =>
    if v.visited n = 1 then some v
    else
      ((ntk.fanin n).foldlM (fun v f => traverse ntk fuel (get_node f) v) v).map fun v' =>
        (v'.add_node ntk n).set_visited n 1

/-- Constants of the constructor (lines 79-87). -/
def view_constants (ntk : Ntk) (v : partition_view) : partition_view :=
  let v1 := (v.add_node ntk ntk.constant_false).set_visited ntk.constant_false 1
  if ntk.constant_true ≠ ntk.constant_false then
    { (v1.add_node ntk ntk.constant_true).set_visited ntk.constant_true 1 with
      _num_constants := v1._num_constants + 1 }
  else v1

/-- Body of the loop over the declared inputs (lines 90-98). -/
def view_leaf (ntk : Ntk) (v : partition_view) (leaf : Nat) : partition_view :=
  if v.visited leaf = 1 then v
  else { (v.add_node ntk leaf).set_visited leaf 1 with _num_leaves := v._num_leaves + 1 }

/-- Body of the loop recording the roots (lines 105-112). -/
def view_root (v : partition_view) (n : Nat) : partition_view :=
  let sig := make_signal n
  let sig := if is_complemented sig then create_not sig else sig
  { v with _roots := v._roots ++ [sig] }

/-- Last two loops of the constructor (lines 105-117): the roots are recorded
and the visitation marks of the nodes of the view are restored. -/
def view_finish (pivots : List Nat) (v : partition_view) : partition_view :=
  let v5 := pivots.foldl view_root v
  v5._nodes.foldl (fun v n => v.set_visited n 0) v5

/-- Constructor `partition_view(ntk, leaves, pivots)` (lines 67-118); `leaves`
and `pivots` are the declared inputs and outputs in iteration order. -/
def partition_view.construct (ntk : Ntk) (leaves pivots : List Nat) (fuel : Nat) :
    Option partition_view :=
  let v3 := leaves.foldl (view_leaf ntk) (view_constants ntk partition_view.fresh)
  (pivots.foldlM (fun v p => traverse ntk fuel p v) v3).map (view_finish pivots)

/-- The query `size`. -/
def partition_view.size (v : partition_view) : Nat := v._nodes.length

/-- The query `node_to_index` (`_node_to_index.at(n)`, which throws on a node
that is not in the view). -/
def partition_view.node_to_index (v : partition_view) (n : Nat) : Option Nat := v._node_to_index n

/-- The query `index_to_node` (`_nodes[index]`). -/
def partition_view.index_to_node (v : partition_view) (index : Nat) : Option Nat := v._nodes.get? index

/-- Nodes not expanded by the traversal: the constants and the declared inputs. -/
def view_boundary (ntk : Ntk) (leaves : List Nat) (n : Nat) : Prop :=
  n = ntk.constant_false ∨ n = ntk.constant_true ∨ n ∈ leaves

/-- Reachability in the sense of the Partition View: `n` is reached from a
declared output along fan-in edges by a path none of whose nodes, `n` and the
output included, is a constant or a declared input. -/
inductive cone_reach (ntk : Ntk) (leaves pivots : List Nat) : Nat → Prop
  | root (p : Nat) : p ∈ pivots → ¬ view_boundary ntk leaves p → cone_reach ntk leaves pivots p
  | step (m : Nat) (f : signal) : cone_reach ntk leaves pivots m → f ∈ ntk.fanin m →
      ¬ view_boundary ntk leaves (get_node f) → cone_reach ntk leaves pivots (get_node f)

/-- Invariant of a view under construction. -/
structure view_inv (ntk : Ntk) (leaves pivots : List Nat) (v : partition_view) : Prop where
  nodup : v._nodes.Nodup
  visited_iff : ∀ n, v.visited n = 1 ↔ n ∈ v._nodes
  index_iff : ∀ n i, v._node_to_index n = some i ↔ v._nodes[i]? = some n
  prefix_len : v._num_constants + v._num_leaves ≤ v._nodes.length
  boundary : ∀ i n, i < v._num_constants + v._num_leaves → v._nodes[i]? = some n →
    view_boundary ntk leaves n
  fanin_before : ∀ i n, v._num_constants + v._num_leaves ≤ i → v._nodes[i]? = some n →
    ∀ f ∈ ntk.fanin n, ∃ j, j < i ∧ v._nodes[j]? = some (get_node f)
  gate_reach : ∀ i n, v._num_constants + v._num_leaves ≤ i → v._nodes[i]? = some n →
    cone_reach ntk leaves pivots n

/-- The view `v'` extends `v` by nodes appended behind the reserved prefix. -/
def view_ext (v v' : partition_view) : Prop :=
  (∃ l, v'._nodes = v._nodes ++ l) ∧ v'._num_constants = v._num_constants ∧
  v'._num_leaves = v._num_leaves ∧ v'._roots = v._roots

/-- Result of a successful traversal from `n`. -/
def traverse_post (ntk : Ntk) (leaves pivots : List Nat) (rank : Nat → Nat)
    (n : Nat) (v v' : partition_view) : Prop :=
  view_inv ntk leaves pivots v' ∧ view_ext v v' ∧ n ∈ v'._nodes ∧
    ∀ m ∈ v'._nodes, m ∉ v._nodes → rank m ≤ rank n

/-- Invariant of the first two phases of the constructor, while the view holds
constants and declared inputs only. -/
def prefix_inv (ntk : Ntk) (leaves : List Nat) (v : partition_view) : Prop :=
  v._nodes.Nodup ∧ (∀ n, v.visited n = 1 ↔ n ∈ v._nodes) ∧
  (∀ n i, v._node_to_index n = some i ↔ v._nodes[i]? = some n) ∧
  (∀ n ∈ v._nodes, view_boundary ntk leaves n)

/-- The method `get_shared_io` (lines 1166-1191): the nodes that are an input of
one of the two partitions and an output of the other. -/
def partition_manager.get_shared_io (pm : partition_manager) (part_1 part_2 : Int) : List Nat :=
  let part_1_inputs := pm.partitionInputs part_1
  let part_1_outputs := pm.partitionOutputs part_1
  let part_2_inputs := pm.partitionInputs part_2
  let part_2_outputs := pm.partitionOutputs part_2
  let shared_io := part_1_inputs.foldl (fun acc i =>
    part_2_outputs.foldl (fun acc j => if i = j then set_insert i acc else acc) acc) []
  part_1_outputs.foldl (fun acc i =>
    part_2_inputs.foldl (fun acc j => if i = j then set_insert i acc else acc) acc) shared_io

/-- First loop of `combine_partitions` (lines 1214-1223) for one input `n` of
`part_2`: the condition `input_partition[n].at(i) = part_2` is an assignment, so
every entry of the list is overwritten with `part_2` and then, when `part_2` is
non-zero, with `part_1`. -/
def rehome_inputs (part_1 part_2 : Int) (m : Nat → List Int) (n : Nat) : Nat → List Int :=
  upd m n ((m n).map (fun _ => if part_2 ≠ 0 then part_1 else part_2))

/-- Second loop of `combine_partitions` (lines 1227-1231) for one output `n` of `part_2`. -/
def rehome_nodes (part_1 part_2 : Int) (m : Nat → Int) (n : Nat) : Nat → Int :=
  if m n = part_2 then upd m n part_1 else m

/-- The state of the last loop of `combine_partitions`: the two merged sets and
the deleted-node history of `part_1`. -/
structure merge_state where
  merged_inputs : List Nat
  merged_outputs : List Nat
  deleted : List Nat

/-- Body of the last loop of `combine_partitions` (lines 1235-1254). -/
def merge_shared (ntk : Ntk) (s : merge_state) (shared_node : Nat) : merge_state :=
  let mi := if !ntk.is_pi shared_node then set_erase shared_node s.merged_inputs else s.merged_inputs
  let mo := if !ntk.is_po shared_node then set_erase shared_node s.merged_outputs else s.merged_outputs
  let del := if decide (shared_node ∉ s.deleted) && !ntk.is_pi shared_node && !ntk.is_po shared_node
    then set_insert shared_node s.deleted else s.deleted
  { merged_inputs := mi, merged_outputs := mo, deleted := del }

/-- The method `combine_partitions` (lines 1193-1260); it returns the updated
ledger and the vector `[merged_inputs, merged_outputs]`. -/
def partition_manager.combine_partitions (pm : partition_manager) (ntk : Ntk)
    (part_1 part_2 : Int) : partition_manager × List (List Nat) :=
  let shared_io := pm.get_shared_io part_1 part_2
  let shared_history := set_union shared_io (pm.combined_deleted_nodes part_1)
  let merged_inputs := set_union (pm.partitionInputs part_1) (pm.partitionInputs part_2)
  let merged_outputs := set_union (pm.partitionOutputs part_1) (pm.partitionOutputs part_2)
  let ip := (pm.partitionInputs part_2).foldl (rehome_inputs part_1 part_2) pm.input_partition
  let pn := (pm.partitionOutputs part_2).foldl (rehome_nodes part_1 part_2) pm._part_nodes
  let merged_inputs := set_erase (ntk.index_to_node 0) merged_inputs
  let s := shared_history.foldl (merge_shared ntk)
    { merged_inputs := merged_inputs, merged_outputs := merged_outputs
      deleted := pm.combined_deleted_nodes part_1 }
  ({ pm with
      input_partition := ip
      _part_nodes := pn
      combined_deleted_nodes := upd pm.combined_deleted_nodes part_1 s.deleted },
    [s.merged_inputs, s.merged_outputs])

/-- Example sequential network: constant 0, register output 1, primary input 2
and gate 3 = AND(1,2), which drives no output. -/
def ntk_ex2 : Ntk :=
  { size := 4
    is_constant := fun n => n == 0
    is_pi := fun n => n == 2
    is_ro := fun n => n == 1
    is_po := fun _ => false
    fanin := fun n => if n = 3 then [⟨1, false⟩, ⟨2, false⟩] else []
    children := fun n => if n = 3 then [⟨1, false⟩, ⟨2, false⟩] else []
    outputs := []
    constant_false := 0
    constant_true := 0
    num_pis := 2
    num_pos := 0
    num_latches := 1
    foreach_pi := [2]
    foreach_po := []
    foreach_gate := [3] }

/-- Assignment placing node `n` of the example into partition `n - 1`. -/
def part_ex2 : Nat → Option Int := fun n => some (Int.ofNat (n - 1))

/-- Soundness of the boundary multimaps built from an assignment: an output
entry is filed under the home partition of its node, and an input entry filed
under the home partition of its node is a primary input or a register output. -/
def tables_sound (ntk : Ntk) (part : Nat → Int) (t : part_tables) : Prop :=
  (∀ p n, (p, n) ∈ t._part_pos → p = part n) ∧
  (∀ p n, (p, n) ∈ t._part_pis → p = part n → ntk.is_pi n = true ∨ ntk.is_ro n = true)

/-! ## Cone Analyzer: truth tables and Karnaugh images -/

/-- Modelled from the spec: `kitty::to_binary`, the bits of a truth table as a
string of `'0'` and `'1'` with the highest assignment first. -/
def kitty_to_binary (tt : dynamic_truth_table) : List Char :=
  tt.bits.reverse.map (fun b => if b then '1' else '0')

/-- The helper `flip` (lines 299-301). -/
def flip (c : Char) : Char := if c = '0' then '1' else '0'

/-- Loop of `to_binary` (lines 412-415); it halves `dec` until it is zero, which
takes at most `dec` rounds. -/
def to_binary_loop : Nat → Nat → List Char → List Char
  | 0, _, bin => bin
  | fuel + 1, dec, bin =>
    if dec ≠ 0 then to_binary_loop fuel (dec / 2) ((if dec % 2 = 0 then '0' else '1') :: bin)
    else bin

/-- The helper `to_binary` (lines 409-417): binary digits of `dec`, most
significant first, the empty string for zero. -/
def to_binary (dec : Nat) : List Char := to_binary_loop dec dec []

/-- Loop of `graytoBinary` (lines 426-436); `prev` is `binary[i - 1]`. -/
def graytoBinary_loop : Char → List Char → List Char
  | _, [] => []
  | prev, c :: cs =>
    (if c = '0' then prev else flip prev) ::
      graytoBinary_loop (if c = '0' then prev else flip prev) cs

/-- The helper `graytoBinary` (lines 419-439); `gray[0]` of an empty string is
the terminating null character. -/
def graytoBinary (gray : List Char) : List Char :=
  gray.headD (Char.ofNat 0) :: graytoBinary_loop (gray.headD (Char.ofNat 0)) gray.tail

/-- Value `std::stoi(s, nullptr, 2)` of a string of binary digits. -/
def stoi2 (s : List Char) : Nat := s.foldl (fun acc c => 2 * acc + (if c = '1' then 1 else 0)) 0

/-- A loop whose body may fail, run over a list and collecting the results. -/
def opt_mapM {α β : Type} (f : α → Option β) : List α → Option (List β)
  | [] => some []
  | a :: l => (f a).bind fun b => (opt_mapM f l).map (fun bs => b :: bs)

/-- Padding and reversal of one onset index (lines 650-653): zeros are inserted
in front until the length equals `size`; on a longer string the loop does not
terminate, which is reported as `none`. -/
def pad_reverse (size : Nat) (s : List Char) : Option (List Char) :=
  if s.length ≤ size then some (List.replicate (size - s.length) '0' ++ s).reverse else none

/-- The strings `onset_indeces` (lines 640-654): for every position of the
truth table that holds a one, counted from the end of the binary string, its
index in binary, padded to `size` digits and reversed. -/
def onset_indeces (tt : List Char) (size : Nat) : Option (List (List Char)) :=
  opt_mapM (pad_reverse size)
    ((List.range tt.length).filterMap (fun indx =>
      if tt.getD (tt.length - 1 - indx) '0' = '1' then some (to_binary indx) else none))

/-- Assignment `a[y][x] = v` on a two-dimensional array. -/
def upd2 (a : Nat → Nat → Nat) (y x v : Nat) : Nat → Nat → Nat :=
  fun y' x' => if y' = y ∧ x' = x then v else a y' x'

/-- Row coordinate of an onset index string (lines 678, 680, 682). -/
def km_row_index (rows : Nat) (idx : List Char) : Nat :=
  stoi2 (graytoBinary (idx.take rows))

/-- Column coordinate of an onset index string (lines 679, 681, 683). -/
def km_col_index (rows : Nat) (idx : List Char) : Nat :=
  stoi2 (graytoBinary ((idx.drop rows).take (idx.length - 1)))

/-- Number of column-address bits (line 655). -/
def km_columns (num_inputs : Nat) : Nat := num_inputs / 2

/-- Number of row-address bits (lines 658-663). -/
def km_rows (num_inputs : Nat) : Nat :=
  if num_inputs % 2 ≠ 0 then km_columns num_inputs + 1 else km_columns num_inputs

/-- The unpadded grid `k_map` (lines 665-686), indexed `[column][row]`: zero
everywhere, then 2 at the coordinates of every onset index. -/
def km_grid (num_inputs : Nat) (onset : List (List Char)) : Nat → Nat → Nat :=
  onset.foldl (fun k_map idx =>
    upd2 k_map (km_col_index (km_rows num_inputs) idx) (km_row_index (km_rows num_inputs) idx) 2)
    (fun _ _ => 0)

/-- The padded grid `k_map_pad` (lines 688-714): 256 x 256 cells holding 1 with
the `col_num` x `row_num` grid copied into the middle. -/
def km_pad (row_num col_num : Nat) (k_map : Nat → Nat → Nat) : Nat → Nat → Nat :=
  let padded_row := 256
  let padded_col := 256
  let row_offset := padded_row - row_num
  let row_offset := if row_offset % 2 ≠ 0 then row_offset + 1 else row_offset
  let col_offset := padded_col - col_num
  let col_offset := if col_offset % 2 ≠ 0 then col_offset + 1 else col_offset
  let row_offset := row_offset / 2
  let col_offset := col_offset / 2
  (List.range col_num).foldl (fun pad y =>
    (List.range row_num).foldl (fun pad x =>
      upd2 pad (y + col_offset) (x + row_offset) (k_map y x)) pad) (fun _ _ => 1)

/-- Flattening loop (lines 715-720 and 724-729): `data_1d[x + y * stride] =
grid[y][x]` for `y < col_num`, `x < row_num`, on a zero-initialised vector of
`size` cells. -/
def km_flatten (size row_num col_num stride : Nat) (grid : Nat → Nat → Nat) : List Nat :=
  (List.range size).map
    ((List.range col_num).foldl (fun data y =>
      (List.range row_num).foldl (fun data x => upd data (x + y * stride) (grid y x)) data)
      (fun _ => 0))

/-- Lines 636-734 of `get_km_image`, as a function of the number of cone inputs
and of the binary string of the truth table of the output. -/
def km_image (num_inputs : Nat) (tt : List Char) : Option (List Nat) :=
  (onset_indeces tt num_inputs).map fun onset =>
    if num_inputs ≤ 16 ∧ num_inputs ≥ 2 then
      let row_num := 2 ^ km_rows num_inputs
      let col_num := 2 ^ km_columns num_inputs
      let k_map := km_grid num_inputs onset
      if num_inputs < 16 then
        km_flatten (256 * 256) 256 256 256 (km_pad row_num col_num k_map)
      else
        km_flatten (row_num * col_num) row_num col_num col_num k_map
    else []

/-- The address string that `get_km_image` derives from assignment index `m` of
a cone with `k` inputs: `k` binary digits, least significant first. -/
def km_address (k m : Nat) : List Char := (pad_reverse k (to_binary m)).getD []

/-- Row coordinate of assignment `m`: the Gray decoding of its first `rows`
address bits. -/
def km_row (k m : Nat) : Nat := km_row_index (km_rows k) (km_address k m)

/-- Column coordinate of assignment `m`: the Gray decoding of its remaining
`columns` address bits. -/
def km_col (k m : Nat) : Nat := km_col_index (km_rows k) (km_address k m)

/-- A string of binary digits. -/
def is_bin (s : List Char) : Prop := ∀ c ∈ s, c = '0' ∨ c = '1'

/-- The truth table of the conjunction of four inputs, `1000000000000000`. -/
def and4 : dynamic_truth_table := ⟨4, (List.range 16).map (fun m => m == 15)⟩

/-! ## Synchronizer -/

/-- Assignment `m[k] = v` on an `std::unordered_map` kept as an association
list: an existing key keeps its place and gets the new value, a new key is
appended.  The list is in the order of first insertion; the order in which the
code iterates over the map is unspecified and is not modelled. -/
def map_assign {β : Type} (m : List (Nat × β)) (k : Nat) (v : β) : List (Nat × β) :=
  if m.any (fun e => e.1 == k) then m.map (fun e => if e.1 = k then (k, v) else e)
  else m ++ [(k, v)]

/-- Lookup in an association list. -/
def map_find {β : Type} (m : List (Nat × β)) (k : Nat) : Option β :=
  (m.find? (fun e => e.1 == k)).map Prod.snd

/-- The method `foreach_pi` of a view: the nodes at the leaf positions. -/
def partition_view.foreach_pi (v : partition_view) : List Nat :=
  (v._nodes.drop v._num_constants).take v._num_leaves

/-- The parent graph under synchronization and the map `old_to_new` from the
nodes of the optimized network to signals of the parent. -/
structure sync_state where
  ntk : Ntk
  old_to_new : Nat → signal

/-- Body of the `foreach_fanin` lambda of `synchronize_part` (lines 558-571):
the signal handed to `clone_node` for one fan-in of a node of the optimized
network.  `pis.at` throws when the index is out of range. -/
def sync_child (opt : Ntk) (pis : List signal) (old_to_new : Nat → signal) (child : signal) :
    Option signal :=
  (if opt.is_pi (get_node child) || opt.is_ro (get_node child) then
      (if child.index = 0 then none else pis.get? (child.index - 1))
    else some (old_to_new (get_node child))).map fun f =>
  if is_complemented child then create_not f else f

/-- Body of the `foreach_node` lambda of `synchronize_part` (lines 550-574).
The primitive `clone_node` of the parent graph is a parameter. -/
def sync_node (clone_node : Ntk → Ntk → Nat → List signal → Ntk × signal) (opt : Ntk)
    (pis : List signal) (st : sync_state) (node : Nat) : Option sync_state :=
  if opt.is_constant node || opt.is_pi node || opt.is_ro node then some st
  else
    (opt_mapM (sync_child opt pis st.old_to_new) (opt.fanin node)).map fun children =>
      { ntk := (clone_node st.ntk opt node children).1
        old_to_new := upd st.old_to_new node (clone_node st.ntk opt node children).2 }

/-- The replacement signal computed for output `o` of the optimized network
(lines 578-583): the mapped signal of its driver, with `data += 1` when the
output is complemented. -/
def sync_opt_out (old_to_new : Nat → signal) (o : signal) : signal :=
  if is_complemented o then signal.ofData ((old_to_new (get_node o)).data + 1)
  else old_to_new (get_node o)

/-- Body of the output loop of `synchronize_part` (lines 576-588). -/
def sync_output (opt : Ntk) (roots : List signal) (old_to_new : Nat → signal)
    (subs : List (Nat × signal)) (i : Nat) : Option (List (Nat × signal)) :=
  (opt.outputs.get? i).bind fun o =>
  (roots.get? i).map fun part_out =>
    if !opt.is_constant (get_node o) && !opt.is_pi (get_node o) && !opt.is_ro (get_node o) then
      map_assign subs (get_node part_out) (sync_opt_out old_to_new o)
    else subs

/-- The method `synchronize_part` (lines 535-589).  `topo` is the node sequence
enumerated by the topological view of the optimized network; the result is the
updated ledger together with the parent graph. -/
def partition_manager.synchronize_part (pm : partition_manager)
    (clone_node : Ntk → Ntk → Nat → List signal → Ntk × signal)
    (part : partition_view) (opt : Ntk) (topo : List Nat) (ntk : Ntk) :
    Option (partition_manager × Ntk) :=
  let pis := part.foreach_pi.map make_signal
  (topo.foldlM (sync_node clone_node opt pis) { ntk := ntk, old_to_new := fun _ => ⟨0, false⟩ }).bind
    fun st =>
  ((List.range opt.outputs.length).foldlM (sync_output opt part._roots st.old_to_new)
      pm.output_substitutions).map fun subs =>
  ({ pm with output_substitutions := subs }, st.ntk)

/-- Example parent graph: inputs 1 and 2, gate 3 = AND(1,2) in partition 1, and
in partition 0 the gates 4 = AND(!1,!3), 5 = AND(!2,!3) and 6 = AND(!4,!5), the
only primary output; node 6 computes (1 AND 2) OR 3. -/
def ntk_ex3 : Ntk :=
  { size := 7
    is_constant := fun n => n == 0
    is_pi := fun n => n == 1 || n == 2
    is_ro := fun _ => false
    is_po := fun n => n == 6
    fanin := fun n =>
      if n = 3 then [⟨1, false⟩, ⟨2, false⟩] else if n = 4 then [⟨1, true⟩, ⟨3, true⟩]
      else if n = 5 then [⟨2, true⟩, ⟨3, true⟩] else if n = 6 then [⟨4, true⟩, ⟨5, true⟩] else []
    children := fun n =>
      if n = 3 then [⟨1, false⟩, ⟨2, false⟩] else if n = 4 then [⟨1, true⟩, ⟨3, true⟩]
      else if n = 5 then [⟨2, true⟩, ⟨3, true⟩] else if n = 6 then [⟨4, true⟩, ⟨5, true⟩] else []
    outputs := [⟨6, false⟩]
    constant_false := 0
    constant_true := 0
    num_pis := 2
    num_pos := 1
    num_latches := 0
    foreach_pi := [1, 2]
    foreach_po := [⟨6, false⟩]
    foreach_gate := [3, 4, 5, 6] }

/-- Example optimized network for partition 0 of `ntk_ex3`: inputs 1, 2, 3,
gate 4 = AND(1,2), gate 5 = AND(!3,!4), and the single output !5, which
computes (1 AND 2) OR 3. -/
def opt_ex3 : Ntk :=
  { size := 6
    is_constant := fun n => n == 0
    is_pi := fun n => n == 1 || n == 2 || n == 3
    is_ro := fun _ => false
    is_po := fun n => n == 5
    fanin := fun n =>
      if n = 4 then [⟨1, false⟩, ⟨2, false⟩] else if n = 5 then [⟨3, true⟩, ⟨4, true⟩] else []
    children := fun n =>
      if n = 4 then [⟨1, false⟩, ⟨2, false⟩] else if n = 5 then [⟨3, true⟩, ⟨4, true⟩] else []
    outputs := [⟨5, true⟩]
    constant_false := 0
    constant_true := 0
    num_pis := 3
    num_pos := 1
    num_latches := 0
    foreach_pi := [1, 2, 3]
    foreach_po := [⟨5, true⟩]
    foreach_gate := [4, 5] }

/-- An instance of the external primitive `clone_node` for AND-inverter graphs
with structural hashing: a gate whose two fan-ins are the same signal is that
signal, a gate that already exists is reused, and any other gate is appended. -/
def clone_and (ntk : Ntk) (_opt : Ntk) (_node : Nat) (children : List signal) : Ntk × signal :=
  match children with
  | [a, b] =>
    if a.index = b.index then
      (ntk, if a.complement = b.complement then a else ⟨ntk.constant_false, false⟩)
    else
      match (List.range ntk.size).find? (fun n => decide (ntk.fanin n = [a, b])) with
      | some n => (ntk, ⟨n, false⟩)
      | none =>
        ({ ntk with
            size := ntk.size + 1
            fanin := upd ntk.fanin ntk.size [a, b]
            children := upd ntk.children ntk.size [a, b]
            foreach_gate := ntk.foreach_gate ++ [ntk.size] }, ⟨ntk.size, false⟩)
  | _ => (ntk, ⟨ntk.constant_false, false⟩)

/-! ## Cone Analyzer: logic cones and truth tables -/

/-- Modelled from the spec: the constructor `kitty::dynamic_truth_table(num_vars)`,
the all-zero table over `num_vars` variables. -/
def kitty_construct (num_vars : Nat) : dynamic_truth_table :=
  ⟨num_vars, List.replicate (2 ^ num_vars) false⟩

/-- Modelled from the spec: `kitty::create_nth_var`, the single-variable table
in which bit `idx` of the assignment varies. -/
def kitty_create_nth_var (tt : dynamic_truth_table) (idx : Nat) : dynamic_truth_table :=
  ⟨tt.num_vars, (List.range (2 ^ tt.num_vars)).map (fun m => m.testBit idx)⟩

/-- Modelled from the spec: the bitwise complement `~tt` of a truth table. -/
def kitty_not (tt : dynamic_truth_table) : dynamic_truth_table :=
  ⟨tt.num_vars, tt.bits.map (fun b => !b)⟩

/-- Modelled from the spec: `kitty::binary_and`; the operands must have the
same number of variables. -/
def kitty_binary_and (a b : dynamic_truth_table) : Option dynamic_truth_table :=
  if a.num_vars = b.num_vars then some ⟨a.num_vars, List.zipWith (fun x y => x && y) a.bits b.bits⟩
  else none

/-- Majority of three bits. -/
def maj3 (x y z : Bool) : Bool := (x && y) || (x && z) || (y && z)

/-- Modelled from the spec: `kitty::ternary_majority`; the operands must have
the same number of variables. -/
def kitty_ternary_majority (a b c : dynamic_truth_table) : Option dynamic_truth_table :=
  if a.num_vars = b.num_vars ∧ b.num_vars = c.num_vars then
    some ⟨a.num_vars, List.zipWith3 maj3 a.bits b.bits c.bits⟩
  else none

/-- State of the breadth-first traversal. -/
structure bfs_state where
  net_queue : List Nat
  visited : Nat → Bool
  inputs : List Nat
  size : Nat

/-- Innermost statements of `BFS_traversal` for one child (lines 351-366); the
stored children are those with a valid index. -/
def bfs_child (st : bfs_state) (child : signal) : bfs_state :=
  if !st.visited child.index then
    { st with
      net_queue := st.net_queue ++ [child.index]
      visited := upd st.visited child.index true
      size := st.size + 1 }
  else st

/-- Body of the `while` loop of `BFS_traversal` (lines 342-371) for the node
`curr_node` taken from the front of the queue. -/
def bfs_visit (ntk : Ntk) (part_inputs : List Nat) (st : bfs_state) (curr_node : Nat) : bfs_state :=
  if curr_node ∉ part_inputs then (ntk.children curr_node).foldl bfs_child st
  else { st with inputs := set_insert curr_node st.inputs }

/-- The `while` loop of `BFS_traversal` (lines 340-372), run for at most `fuel`
rounds. -/
def bfs_loop (ntk : Ntk) (part_inputs : List Nat) : Nat → bfs_state → Option bfs_state
  | fuel, st =>
    match st.net_queue, fuel with
    | [], _ => some st
    | _ :: _, 0 => none
    | curr_node :: rest, fuel + 1 =>
      bfs_loop ntk part_inputs fuel (bfs_visit ntk part_inputs { st with net_queue := rest } curr_node)

/-- The method `BFS_traversal` (lines 327-375). -/
def partition_manager.BFS_traversal (pm : partition_manager) (ntk : Ntk) (output : Nat)
    (partition : Int) (fuel : Nat) : Option partition_manager :=
  (bfs_loop ntk (pm.partitionInputs partition) fuel
    { net_queue := [output], visited := upd (fun _ => false) output true, inputs := [], size := 0 }).map
    fun st =>
      { pm with
        cone_size := upd pm.cone_size output st.size
        logic_cone_inputs := upd pm.logic_cone_inputs output st.inputs }

/-- The helper `get_output_index` (lines 303-312): it asserts that the node
drives an output and returns the position of the first such output. -/
def get_output_index (ntk : Ntk) (nodeIdx : Nat) : Option Nat :=
  if ntk.is_po nodeIdx then
    (if ntk.outputs.findIdx (fun o => o.index == nodeIdx) < ntk.outputs.length then
      some (ntk.outputs.findIdx (fun o => o.index == nodeIdx)) else none)
  else none

/-- The expression `ntk._storage->outputs.at(get_output_index(ntk, nodeIdx))`. -/
def get_output (ntk : Ntk) (nodeIdx : Nat) : Option signal :=
  (get_output_index ntk nodeIdx).bind fun i => ntk.outputs.get? i

/-- Complement of the table of `nodeIdx` when the output driven by `po` is
inverted (`if(output.data & 1) tt_map[nodeIdx] = ~tt_map[nodeIdx]`). -/
def tt_flip_output (ntk : Ntk) (po nodeIdx : Nat) (tt_map : Nat → dynamic_truth_table) :
    Option (Nat → dynamic_truth_table) :=
  (get_output ntk po).map fun output =>
    if output.complement then upd tt_map nodeIdx (kitty_not (tt_map nodeIdx)) else tt_map

/-- First branch of `tt_build` (lines 468-477), taken on a cone input or a node
outside the scope of the partition. -/
def tt_build_boundary (ntk : Ntk) (cone_inputs : List Nat) (root nodeIdx : Nat)
    (tt_map : Nat → dynamic_truth_table) : Option (Nat → dynamic_truth_table) :=
  if root ∈ cone_inputs then tt_flip_output ntk root nodeIdx tt_map else some tt_map

/-- The table used for one fan-in (lines 493-509): the table of the child,
complemented when the edge is inverted, and complemented once more when the child
is a cone input that drives an inverted primary output. -/
def tt_child (ntk : Ntk) (cone_inputs : List Nat) (tt_map : Nat → dynamic_truth_table)
    (conn : signal) : Option dynamic_truth_table :=
  if ntk.is_po conn.index && decide (conn.index ∈ cone_inputs) then
    (get_output ntk conn.index).map fun output =>
      if output.complement then
        kitty_not (if is_complemented conn then kitty_not (tt_map conn.index) else tt_map conn.index)
      else (if is_complemented conn then kitty_not (tt_map conn.index) else tt_map conn.index)
  else some (if is_complemented conn then kitty_not (tt_map conn.index) else tt_map conn.index)

/-- Combination of the child tables (lines 511-517); `child_tts.at` throws on a
missing entry. -/
def tt_combine (fanin_size : Nat) (child_tts : List dynamic_truth_table) :
    Option dynamic_truth_table :=
  if fanin_size = 3 then
    (child_tts.get? 0).bind fun a => (child_tts.get? 1).bind fun b => (child_tts.get? 2).bind fun c =>
      kitty_ternary_majority a b c
  else
    (child_tts.get? 0).bind fun a => (child_tts.get? 1).bind fun b => kitty_binary_and a b

/-- Evaluation of an interior node of `tt_build` (lines 490-519). -/
def tt_build_gate (ntk : Ntk) (cone_inputs : List Nat) (nodeIdx : Nat)
    (tt_map : Nat → dynamic_truth_table) : Option (Nat → dynamic_truth_table) :=
  if !ntk.is_constant nodeIdx && decide (nodeIdx ∉ cone_inputs) then
    (opt_mapM (tt_child ntk cone_inputs tt_map) (ntk.fanin nodeIdx)).bind fun child_tts =>
    (tt_combine (ntk.fanin nodeIdx).length child_tts).map fun tt => upd tt_map nodeIdx tt
  else some tt_map

/-- Last statement of `tt_build` (lines 521-526): the inversion bit of the
designated output. -/
def tt_build_root (ntk : Ntk) (root nodeIdx : Nat) (tt_map : Nat → dynamic_truth_table) :
    Option (Nat → dynamic_truth_table) :=
  if ntk.is_po nodeIdx && decide (nodeIdx = root) then tt_flip_output ntk nodeIdx nodeIdx tt_map
  else some tt_map

/-- The method `tt_build` (lines 466-527) for the scope set of the partition and
the cone inputs of `root`; the recursion depth is bounded by `fuel`. -/
def tt_build (ntk : Ntk) (scope cone_inputs : List Nat) (root : Nat) :
    Nat → Nat → (Nat → dynamic_truth_table) → Option (Nat → dynamic_truth_table)
  | 0, _, _ => none
  | fuel + 1, curr_node, tt_map =>
    if curr_node ∈ cone_inputs ∨ curr_node ∉ scope then
      tt_build_boundary ntk cone_inputs root curr_node tt_map
    else
      ((ntk.fanin curr_node).foldlM
        (fun m child => tt_build ntk scope cone_inputs root fuel (get_node child) m) tt_map).bind
        fun tt_map1 =>
      (tt_build_gate ntk cone_inputs curr_node tt_map1).bind fun tt_map2 =>
      tt_build_root ntk root curr_node tt_map2

/-- Loop assigning the single-variable tables to the cone inputs (lines
601-610); `idx` counts the inputs in ascending order. -/
def tt_init_vars (size : Nat) : Nat → List Nat → (Nat → dynamic_truth_table) →
    (Nat → dynamic_truth_table)
  | _, [], tt_map => tt_map
  | idx, nodeIdx :: rest, tt_map =>
    tt_init_vars size (idx + 1) rest
      (upd tt_map nodeIdx (kitty_create_nth_var (kitty_construct size) idx))

/-- The set `_part_scope[partition]`; an index outside the vector has no defined
behaviour. -/
def partition_manager.scope_at (pm : partition_manager) (partition : Int) : Option (List Nat) :=
  if 0 ≤ partition then pm.tables._part_scope.get? partition.toNat else none

/-- Body of the inner loop of `generate_truth_tables` (lines 595-621) for the
output `curr_output` of partition `i`. -/
def partition_manager.gen_tt_output (ntk : Ntk) (fuel : Nat) (pm : partition_manager) (i : Int)
    (curr_output : Nat) : Option partition_manager :=
  (pm.BFS_traversal ntk curr_output i fuel).bind fun pm1 =>
  if ntk.is_constant curr_output then some pm1
  else if (pm1.logic_cone_inputs curr_output).length ≤ 16 && !ntk.is_constant curr_output then
    (pm1.scope_at i).bind fun scope =>
    (tt_build ntk scope (pm1.logic_cone_inputs curr_output) curr_output fuel curr_output
      (tt_init_vars (pm1.logic_cone_inputs curr_output).length 0
        (pm1.logic_cone_inputs curr_output) pm1.tt_map)).map fun tt_map =>
      { pm1 with
        tt_map := tt_map
        output_tt := upd pm1.output_tt curr_output (some (tt_map curr_output)) }
  else some pm1

/-- The method `generate_truth_tables` (lines 591-624). -/
def partition_manager.generate_truth_tables (pm : partition_manager) (ntk : Ntk) (fuel : Nat) :
    Option partition_manager :=
  (part_ids pm.num_partitions).foldlM (fun pm i =>
    (pm.partitionOutputs i).foldlM (fun pm o => partition_manager.gen_tt_output ntk fuel pm i o) pm) pm

/-- Value carried by a fan-in edge: the value of the child, complemented when
the edge is inverted and once more when `extra` says so. -/
def edge_value (extra : signal → Bool) (f : signal) (v : Bool) : Bool :=
  xor (xor v f.complement) (extra f)

/-- Direct simulation of a logic cone at assignment `m`: variable `i` is the
`i`-th cone input, a 2-input gate is the conjunction and a 3-input gate the
majority of the values carried by its fan-in edges. -/
inductive cone_sim (ntk : Ntk) (cone_inputs : List Nat) (extra : signal → Bool) (m : Nat) :
    Nat → Bool → Prop
  | input (n : Nat) : n ∈ cone_inputs → cone_sim ntk cone_inputs extra m n
      (m.testBit (cone_inputs.indexOf n))
  | and2 (n : Nat) (a b : signal) (va vb : Bool) : n ∉ cone_inputs → ntk.fanin n = [a, b] →
      cone_sim ntk cone_inputs extra m a.index va → cone_sim ntk cone_inputs extra m b.index vb →
      cone_sim ntk cone_inputs extra m n (edge_value extra a va && edge_value extra b vb)
  | maj (n : Nat) (a b c : signal) (va vb vc : Bool) : n ∉ cone_inputs →
      ntk.fanin n = [a, b, c] → cone_sim ntk cone_inputs extra m a.index va →
      cone_sim ntk cone_inputs extra m b.index vb → cone_sim ntk cone_inputs extra m c.index vc →
      cone_sim ntk cone_inputs extra m n
        (maj3 (edge_value extra a va) (edge_value extra b vb) (edge_value extra c vc))

/-- Inversion bit of the first primary output driven by a node; `false` for a
node that drives none. -/
def output_inverted (ntk : Ntk) (n : Nat) : Bool :=
  match get_output ntk n with
  | some o => o.complement
  | none => false

/-- The additional inversion `tt_build` applies to a fan-in that is a cone input
driving an inverted primary output (lines 503-508). -/
def po_input_inverted (ntk : Ntk) (cone_inputs : List Nat) (f : signal) : Bool :=
  ntk.is_po f.index && decide (f.index ∈ cone_inputs) && output_inverted ntk f.index

/-- Example network: inputs 1 and 2, gate 3 = AND(1,2); the outputs are the
inverted input 1 and gate 3. -/
def ntk_ex4 : Ntk :=
  { size := 4
    is_constant := fun n => n == 0
    is_pi := fun n => n == 1 || n == 2
    is_ro := fun _ => false
    is_po := fun n => n == 1 || n == 3
    fanin := fun n => if n = 3 then [⟨1, false⟩, ⟨2, false⟩] else []
    children := fun n => if n = 3 then [⟨1, false⟩, ⟨2, false⟩] else []
    outputs := [⟨1, true⟩, ⟨3, false⟩]
    constant_false := 0
    constant_true := 0
    num_pis := 2
    num_pos := 2
    num_latches := 0
    foreach_pi := [1, 2]
    foreach_po := [⟨1, true⟩, ⟨3, false⟩]
    foreach_gate := [3] }

/-- The truth table over `k` variables whose bit at assignment `m` is `f m`. -/
def tbl (k : Nat) (f : Nat → Bool) : dynamic_truth_table := ⟨k, (List.range (2 ^ k)).map f⟩

/-- The table of node `n` in `M` tabulates the direct simulation of `n`, with
the additional inversion of `tt_build` on fan-ins that are inverted outputs. -/
def good_tbl (ntk : Ntk) (I : List Nat) (M : Nat → dynamic_truth_table) (n : Nat) : Prop :=
  ∃ val : Nat → Bool, M n = tbl I.length val ∧
    ∀ m, m < 2 ^ I.length → cone_sim ntk I (po_input_inverted ntk I) m n (val m)

/-- The cone inputs hold their single-variable tables. -/
def tt_agree (I : List Nat) (M : Nat → dynamic_truth_table) : Prop :=
  ∀ n ∈ I, M n = tbl I.length (fun m => m.testBit (I.indexOf n))

/-- What `tt_build` needs of the nodes `C` it can reach from the root: the
network is acyclic, a node that drives an output is found among the outputs, and
a reached node is a cone input or a gate of the scope with two or three fan-ins,
all of them reached. -/
structure tt_ctx (ntk : Ntk) (scope I : List Nat) (rank : Nat → Nat) (C : Nat → Prop) : Prop where
  acyc : ∀ n, ∀ f ∈ ntk.fanin n, rank (get_node f) < rank n
  po_out : ∀ n, ntk.is_po n = true → ∃ o, get_output ntk n = some o
  node_ok : ∀ n, C n → n ∈ I ∨ (n ∈ scope ∧ ntk.is_constant n = false ∧
    ((ntk.fanin n).length = 2 ∨ (ntk.fanin n).length = 3) ∧ ∀ f ∈ ntk.fanin n, C (get_node f))

/-- The scope sets only grow. -/
def scope_le (t t' : part_tables) : Prop :=
  tables_le t t' ∧ ∀ i x, x ∈ t._part_scope.getD i [] → x ∈ t'._part_scope.getD i []

/-- What holds of a table once node `c` has been classified, as to its home
partition: a non-constant node is in the scope set of its partition, and a
primary input or non-constant register output is filed as an input of it. -/
def node_home (ntk : Ntk) (part : Nat → Int) (c : Nat) (t : part_tables) : Prop :=
  (ntk.is_constant c = false → c ∈ t._part_scope.getD (part c).toNat []) ∧
  (ntk.is_pi c = true ∨ (ntk.is_ro c = true ∧ ntk.is_constant c = false) →
    (part c, c) ∈ t._part_pis)

/-- Nodes of the logic cone of `o`: those reached from `o` along fan-in edges
by a path that does not continue behind an input of the partition. -/
inductive cone_node (ntk : Ntk) (part_inputs : List Nat) (o : Nat) : Nat → Prop
  | root : cone_node ntk part_inputs o o
  | step (c : Nat) (f : signal) : cone_node ntk part_inputs o c → c ∉ part_inputs →
      f ∈ ntk.fanin c → cone_node ntk part_inputs o (get_node f)

/-- Invariant of the breadth-first traversal from `out` that stops at the set
`part_inputs`. -/
structure bfs_inv (ntk : Ntk) (part_inputs : List Nat) (out : Nat) (st : bfs_state) : Prop where
  queue_visited : ∀ x ∈ st.net_queue, st.visited x = true
  out_visited : st.visited out = true
  closed : ∀ x, st.visited x = true → x ∉ st.net_queue →
    (x ∈ part_inputs ∧ x ∈ st.inputs) ∨
    (x ∉ part_inputs ∧ ∀ c ∈ ntk.children x, st.visited c.index = true)
  inputs_sub : ∀ x ∈ st.inputs, x ∈ part_inputs
  inputs_sorted : st.inputs.Pairwise (fun a b => a < b)

/-- Number of nodes of the network not yet visited. -/
def bfs_unvisited (ntk : Ntk) (st : bfs_state) : Nat :=
  (List.range ntk.size).countP (fun x => !st.visited x)

/-- Result of `tt_build` on a node other than the root. -/
def tt_post (ntk : Ntk) (I : List Nat) (n : Nat) (M M' : Nat → dynamic_truth_table) : Prop :=
  tt_agree I M' ∧ good_tbl ntk I M' n ∧ ∀ x, good_tbl ntk I M x → good_tbl ntk I M' x

/-- The table stored for output `o` tabulates the direct simulation of its cone
over the cone inputs recorded for `o`, with the additional inversion of `tt_build`
on fan-ins that are inverted outputs, complemented when `o` drives an inverted
output. -/
def tt_stored (ntk : Ntk) (pm : partition_manager) (o : Nat) : Prop :=
  ∃ T, pm.output_tt o = some T ∧
    (pm.logic_cone_inputs o).Pairwise (fun a b => a < b) ∧
    T.num_vars = (pm.logic_cone_inputs o).length ∧
    T.bits.length = 2 ^ (pm.logic_cone_inputs o).length ∧
    ∀ m, m < 2 ^ (pm.logic_cone_inputs o).length →
      ∃ b, cone_sim ntk (pm.logic_cone_inputs o)
          (po_input_inverted ntk (pm.logic_cone_inputs o)) m o b ∧
        T.bits[m]? = some (xor b (ntk.is_po o && output_inverted ntk o))

/-- The state agrees with the ledger `pm0` on the tables and the boundary sets. -/
def tt_frame (pm0 pm : partition_manager) : Prop :=
  pm.tables = pm0.tables ∧ pm.partitionInputs = pm0.partitionInputs ∧
    pm.partitionOutputs = pm0.partitionOutputs

/-- The table of a non-constant output with at most 16 recorded cone inputs has
been stored and is as described by `tt_stored`. -/
def tt_done (ntk : Ntk) (o : Nat) (pm : partition_manager) : Prop :=
  ntk.is_constant o = false → (pm.logic_cone_inputs o).length ≤ 16 → tt_stored ntk pm o

/-- Later rounds keep what was stored. -/
def tt_keep (ntk : Ntk) (pm pm' : partition_manager) : Prop :=
  ∀ o, tt_done ntk o pm → tt_done ntk o pm'

/-- The method `connect_outputs` (lines 1106-1110): every recorded substitution
is applied to the graph.  The primitive `substitute_node` of the graph is a
parameter. -/
def partition_manager.connect_outputs (pm : partition_manager)
    (substitute_node : Ntk → Nat → signal → Ntk) (ntk : Ntk) : Ntk :=
  pm.output_substitutions.foldl (fun g e => substitute_node g e.1 e.2) ntk

/-- Replacement of one reference: a reference to `old` becomes `new`, inverted
when the reference was. -/
def substitute_ref (old : Nat) (new : signal) (s : signal) : signal :=
  if s.index = old then ⟨new.index, xor new.complement s.complement⟩ else s

/-- An instance of the external primitive `substitute_node`: every fan-in and
every output that refers to `old` is redirected to `new`. -/
def substitute_refs (ntk : Ntk) (old : Nat) (new : signal) : Ntk :=
  { ntk with
    fanin := fun n => (ntk.fanin n).map (substitute_ref old new)
    children := fun n => (ntk.children n).map (substitute_ref old new)
    outputs := ntk.outputs.map (substitute_ref old new)
    foreach_po := ntk.foreach_po.map (substitute_ref old new) }

/-- Modelled from the spec: simulation of a node over the values `x` of the
nodes in `inputs`; a constant is 0, a 2-input gate is the conjunction and a
3-input gate the majority of its fan-ins, each complemented when its edge is
inverted.  The recursion depth is bounded by `fuel`. -/
def simulate_node (ntk : Ntk) (inputs : List Nat) (x : Nat → Bool) : Nat → Nat → Option Bool
  | 0, _ => none
  | fuel + 1, n =>
    if n ∈ inputs then some (x n)
    else if ntk.is_constant n then some false
    else
      (opt_mapM (fun f : signal =>
        (simulate_node ntk inputs x fuel f.index).map (fun v => xor v f.complement))
        (ntk.fanin n)).bind fun vs =>
      match vs with
      | [a, b] => some (a && b)
      | [a, b, c] => some (maj3 a b c)
      | _ => none

/-- Modelled from the spec: the value of a signal, the value of its node
complemented when the signal is inverted. -/
def simulate_signal (ntk : Ntk) (inputs : List Nat) (x : Nat → Bool) (fuel : Nat) (s : signal) :
    Option Bool :=
  (simulate_node ntk inputs x fuel s.index).map (fun v => xor v s.complement)

/-- Partition assignment for `ntk_ex3`: the gates 4, 5 and 6 form partition 0,
the inputs and gate 3 partition 1. -/
def part_ex3 (n : Nat) : Option Int := if 4 ≤ n then some 0 else some 1

/-- Input vector over the nodes 1, 2, 3. -/
def vec3 (a b c : Bool) (n : Nat) : Bool := if n = 1 then a else if n = 2 then b else c

/-- The run of the example: the ledger of `ntk_ex3`, the view of partition 0,
and the synchronization with `opt_ex3`, observed through `f`. -/
def ex3_run {α : Type} (f : partition_manager → partition_view → partition_manager × Ntk → α) :
    Option α :=
  (partition_manager.from_map ntk_ex3 part_ex3 2).bind (fun pm =>
    (partition_view.construct ntk_ex3 (pm.get_part_inputs 0) (pm.get_part_outputs 0) 7).bind
      (fun v => (pm.synchronize_part clone_and v opt_ex3 [0, 1, 2, 3, 4, 5] ntk_ex3).map
        (fun r => f pm v r)))

/-- The query `num_pis` (line 121). -/
def partition_view.num_pis (v : partition_view) : Nat := v._num_leaves

/-- The query `num_pos` (line 122). -/
def partition_view.num_pos (v : partition_view) : Nat := v._roots.length

/-- The query `is_pi` (lines 131-140): `std::find` over the `_num_leaves`
positions behind the constants; the collected fan-ins are not used. -/
def partition_view.is_pi (v : partition_view) (pi : Nat) : Bool :=
  decide (pi ∈ (v._nodes.drop v._num_constants).take v._num_leaves)

/-- The query `is_ci` (lines 142-150). -/
def partition_view.is_ci (v : partition_view) (pi : Nat) : Bool :=
  decide (pi ∈ (v._nodes.drop v._num_constants).take v._num_leaves)

/-- The query `fanout_size` (lines 177-180): `_fanout_size.at(node_to_index(n))`. -/
def partition_view.fanout_size (v : partition_view) (n : Nat) : Option Nat :=
  (v.node_to_index n).bind fun i => v._fanout_size.get? i

/-- The quantity named by the specification of `fanout_size`: the number of
nodes of the view that have `n` as a fan-in. -/
def view_consumers (ntk : Ntk) (v : partition_view) (n : Nat) : Nat :=
  (v._nodes.filter (fun m => (ntk.fanin m).any (fun f => get_node f == n))).length

/-- The constant nodes in the order in which the constructor inserts them. -/
def view_constant_nodes (ntk : Ntk) : List Nat :=
  if ntk.constant_true ≠ ntk.constant_false then [ntk.constant_false, ntk.constant_true]
  else [ntk.constant_false]

/-- The declared inputs that are not constant nodes. -/
def view_leaf_nodes (ntk : Ntk) (leaves : List Nat) : List Nat :=
  leaves.filter (fun n => decide (n ∉ view_constant_nodes ntk))

/-- Every visitation mark is 0 or 1. -/
def marks01 (v : partition_view) : Prop := ∀ n, v.visited n = 0 ∨ v.visited n = 1

/-- Getter `get_input_part` (lines 1343-1345). -/
def partition_manager.get_input_part (pm : partition_manager) (curr_node : Nat) : List Int :=
  pm.input_partition curr_node

/-- Getter `get_output_part` (lines 1346-1348). -/
def partition_manager.get_output_part (pm : partition_manager) (curr_node : Nat) : List Int :=
  pm.output_partition curr_node

/-- Insertion into a `std::set<int>`, kept as an ascending duplicate-free list. -/
def int_set_insert (x : Int) : List Int → List Int
  | [] => [x]
  | y :: ys =>
    if x < y then x :: y :: ys
    else if x = y then y :: ys
    else y :: int_set_insert x ys

/-- The method `get_connected_parts` (lines 1313-1341). -/
def partition_manager.get_connected_parts (pm : partition_manager) (ntk : Ntk)
    (partition_num : Int) : List Int :=
  let conn_parts := (pm.partitionInputs partition_num).foldl (fun acc n =>
    (pm.output_partition n).foldl (fun acc q =>
      if decide (q ≠ partition_num) && !ntk.is_pi n then int_set_insert q acc else acc) acc) []
  (pm.partitionOutputs partition_num).foldl (fun acc n =>
    (pm.input_partition n).foldl (fun acc q =>
      if decide (q ≠ partition_num) && !ntk.is_pi n then int_set_insert q acc else acc) acc)
    conn_parts

/-- Example network: inputs 1 and 2, gate 3 = AND(1,2), and the gates
4 = AND(3,1) and 5 = AND(3,2), which drive the two outputs. -/
def ntk_ex5 : Ntk :=
  { size := 6
    is_constant := fun n => n == 0
    is_pi := fun n => n == 1 || n == 2
    is_ro := fun _ => false
    is_po := fun n => n == 4 || n == 5
    fanin := fun n =>
      if n = 3 then [⟨1, false⟩, ⟨2, false⟩] else if n = 4 then [⟨3, false⟩, ⟨1, false⟩]
      else if n = 5 then [⟨3, false⟩, ⟨2, false⟩] else []
    children := fun n =>
      if n = 3 then [⟨1, false⟩, ⟨2, false⟩] else if n = 4 then [⟨3, false⟩, ⟨1, false⟩]
      else if n = 5 then [⟨3, false⟩, ⟨2, false⟩] else []
    outputs := [⟨4, false⟩, ⟨5, false⟩]
    constant_false := 0
    constant_true := 0
    num_pis := 2
    num_pos := 2
    num_latches := 0
    foreach_pi := [1, 2]
    foreach_po := [⟨4, false⟩, ⟨5, false⟩]
    foreach_gate := [3, 4, 5] }

/-- Assignment putting gate 4 into partition 1, gate 5 into partition 2 and
everything else into partition 0. -/
def part_ex5 : Nat → Option Int := fun n => if n = 4 then some 1 else if n = 5 then some 2 else some 0

/-- Observation of the ledger of `ntk_ex5` through `f`. -/
def ex5_run {α : Type} (f : partition_manager → α) : Option α :=
  (partition_manager.from_map ntk_ex5 part_ex5 3).map f

/-- Assignment for `ntk_ex1` with no entry for gate 4; every other node is in
partition 1. -/
def part_ex6 : Nat → Option Int := fun n => if n = 4 then none else some 1

/-- The getter `get_part_context` (lines 1302-1304): the scope set
`_part_scope[partition_num]`; an index outside the vector has no defined
behaviour. -/
def partition_manager.get_part_context (pm : partition_manager) (partition_num : Int) :
    Option (List Nat) :=
  if 0 ≤ partition_num then pm.tables._part_scope.get? partition_num.toNat else none

/-- Every member of a scope set is a non-constant node, filed under the
partition the assignment gives it. -/
def scope_origin (ntk : Ntk) (part : Nat → Int) (t : part_tables) : Prop :=
  ∀ i x, x ∈ t._part_scope.getD i [] →
    ntk.is_constant x = false ∧ 0 ≤ part x ∧ i = (part x).toNat

/-- Justification of an entry of the output multimap: it is filed under the home
partition of its node, which is a primary output or a fan-in of a node of another
partition. -/
def pos_ok (ntk : Ntk) (part : Nat → Int) (e : Int × Nat) : Prop :=
  e.1 = part e.2 ∧ (ntk.is_po e.2 = true ∨
    ∃ c f, c < ntk.size ∧ f ∈ ntk.fanin c ∧ get_node f = e.2 ∧ part c ≠ e.1)

/-- Justification of an entry of the input multimap: its node is a primary input
or register output filed under its home partition, or a non-constant node of
another partition that is a fan-in of a node of the partition it is filed under. -/
def pis_ok (ntk : Ntk) (part : Nat → Int) (e : Int × Nat) : Prop :=
  ((ntk.is_pi e.2 = true ∨ ntk.is_ro e.2 = true) ∧ part e.2 = e.1) ∨
  (ntk.is_constant e.2 = false ∧ part e.2 ≠ e.1 ∧
    ∃ c f, c < ntk.size ∧ f ∈ ntk.fanin c ∧ get_node f = e.2 ∧ part c = e.1)

/-- Every entry of the two boundary multimaps is justified. -/
def tables_origin (ntk : Ntk) (part : Nat → Int) (t : part_tables) : Prop :=
  (∀ e ∈ t._part_pos, pos_ok ntk part e) ∧ (∀ e ∈ t._part_pis, pis_ok ntk part e)

/-- Once node `c` has been classified, it is filed as an output of its partition
when it is a non-constant primary output. -/
def node_po_done (ntk : Ntk) (part : Nat → Int) (c : Nat) (t : part_tables) : Prop :=
  ntk.is_po c = true → ntk.is_constant c = false → (part c, c) ∈ t._part_pos

/-- Nodes reached by the breadth-first traversal from `out`: those reached
along stored fan-in edges by a path on which no node before the last is an input
of the partition. -/
inductive bfs_reach (ntk : Ntk) (part_inputs : List Nat) (out : Nat) : Nat → Prop
  | root : bfs_reach ntk part_inputs out out
  | step (c : Nat) (f : signal) : bfs_reach ntk part_inputs out c → c ∉ part_inputs →
      f ∈ ntk.children c → bfs_reach ntk part_inputs out f.index

/-- Every visited node is reached from `out`, and every recorded input has been
visited. -/
def bfs_sound (ntk : Ntk) (part_inputs : List Nat) (out : Nat) (st : bfs_state) : Prop :=
  (∀ x, st.visited x = true → bfs_reach ntk part_inputs out x) ∧
  (∀ x ∈ st.inputs, st.visited x = true)

/-- A recording instance of the external primitive `substitute_node`: it leaves
the graph alone and appends the node to `foreach_gate` and the signal to
`foreach_po`, which serve as the log of the calls made. -/
def substitute_log (ntk : Ntk) (old : Nat) (new : signal) : Ntk :=
  { ntk with
    foreach_gate := ntk.foreach_gate ++ [old]
    foreach_po := ntk.foreach_po ++ [new] }

/-- Example optimized network with two inputs only: inputs 1, 2, gate
3 = AND(!1,!2), and the single output 3. -/
def opt_ex8 : Ntk :=
  { size := 4
    is_constant := fun n => n == 0
    is_pi := fun n => n == 1 || n == 2
    is_ro := fun _ => false
    is_po := fun n => n == 3
    fanin := fun n => if n = 3 then [⟨1, true⟩, ⟨2, true⟩] else []
    children := fun n => if n = 3 then [⟨1, true⟩, ⟨2, true⟩] else []
    outputs := [⟨3, false⟩]
    constant_false := 0
    constant_true := 0
    num_pis := 2
    num_pos := 1
    num_latches := 0
    foreach_pi := [1, 2]
    foreach_po := [⟨3, false⟩]
    foreach_gate := [3] }

/-- The ledger of `ntk_ex3`, the view of its partition 0 and the
synchronization with the optimized network `opt`, observed through `f`. -/
def ex3_sync {α : Type} (opt : Ntk) (topo : List Nat)
    (f : partition_manager → partition_view → partition_manager × Ntk → α) : Option α :=
  (partition_manager.from_map ntk_ex3 part_ex3 2).bind (fun pm =>
    (partition_view.construct ntk_ex3 (pm.get_part_inputs 0) (pm.get_part_outputs 0) 7).bind
      (fun v => (pm.synchronize_part clone_and v opt topo ntk_ex3).map (fun r => f pm v r)))

/-- The driver of an output of the optimized network is a gate: neither a
constant, nor an input, nor a register output. -/
def opt_gate (opt : Ntk) (o : signal) : Prop :=
  opt.is_constant (get_node o) = false ∧ opt.is_pi (get_node o) = false ∧
    opt.is_ro (get_node o) = false

/-- The counter of the breadth-first traversal from `out`: it is the number of
visited nodes other than `out`. -/
def bfs_count (out : Nat) (st : bfs_state) : Prop :=
  st.visited out = true ∧
  ∃ l : List Nat, l.Nodup ∧ (∀ n, n ∈ l ↔ st.visited n = true ∧ n ≠ out) ∧ st.size = l.length

/-- The truth table of the projection onto the single input of a cone with one
input, `10`. -/
def var1 : dynamic_truth_table := ⟨1, [false, true]⟩

/-- The ledger after a sequence of calls `combine_partitions(a, b)` on the same
network, the returned vectors being dropped. -/
def combine_seq (ntk : Ntk) (pm : partition_manager) (calls : List (Int × Int)) :
    partition_manager :=
  calls.foldl (fun pm c => (pm.combine_partitions ntk c.1 c.2).1) pm

/-- A view with one constant, the three inputs 7, 8 and 9 and the root 10, used
to illustrate how the inputs of an optimized network are matched. -/
def view_ex9 : partition_view :=
  { partition_view.fresh with
    _num_constants := 1, _num_leaves := 3, _nodes := [0, 7, 8, 9], _roots := [⟨10, false⟩] }

/-- Loop of the reflected-binary Gray encoding: every digit is replaced by its
exclusive or with the digit before it, `prev`. -/
def gray_encode_loop : Char → List Char → List Char
  | _, [] => []
  | prev, c :: cs => (if c = prev then '0' else '1') :: gray_encode_loop c cs

/-- The reflected-binary Gray code of a string of binary digits, most
significant digit first, as the claim words it: `g[0] = b[0]` and
`g[i] = b[i] XOR b[i-1]`. -/
def gray_encode (b : List Char) : List Char :=
  match b with
  | [] => []
  | c :: cs => c :: gray_encode_loop c cs

/-- The signal that is to be handed to `clone_node` for the fan-in `child` of a
gate of the optimized network, as the claim words it: a fan-in that refers to the
input or register output with node index `i` becomes the signal of the `i`-th
input of the view in `foreach_pi` order, counted from 1, with the inversion bit of
the fan-in edge; any other fan-in becomes the signal its node was mapped to,
complemented when the edge is inverted. -/
def positional_signal (part : partition_view) (opt : Ntk) (old_to_new : Nat → signal)
    (child : signal) : signal :=
  if opt.is_pi (get_node child) || opt.is_ro (get_node child) then
    ⟨part.foreach_pi.getD (child.index - 1) 0, is_complemented child⟩
  else if is_complemented child then create_not (old_to_new (get_node child))
  else old_to_new (get_node child)

/-- One step of the cloning pass as the claim words it: a gate of the optimized
network gives one call of `clone_node`, with the signals of its fan-ins in
order, and is mapped to the signal returned; any other node gives no call. -/
def clone_calls (clone_node : Ntk → Ntk → Nat → List signal → Ntk × signal)
    (part : partition_view) (opt : Ntk) (st : sync_state) (node : Nat) : sync_state :=
  if opt.is_constant node || opt.is_pi node || opt.is_ro node then st
  else
    { ntk := (clone_node st.ntk opt node
        ((opt.fanin node).map (positional_signal part opt st.old_to_new))).1
      old_to_new := upd st.old_to_new node (clone_node st.ntk opt node
        ((opt.fanin node).map (positional_signal part opt st.old_to_new))).2 }

/-- A recording instance of the external primitive `clone_node`: it leaves the
graph alone, appends the node to `foreach_gate` and the signals it is given to
`foreach_po`, which serve as the log of the calls made, and returns the plain
signal of the node. -/
def clone_log (ntk : Ntk) (_opt : Ntk) (node : Nat) (children : List signal) : Ntk × signal :=
  ({ ntk with
      foreach_gate := ntk.foreach_gate ++ [node]
      foreach_po := ntk.foreach_po ++ children }, ⟨node, false⟩)

/-! ## Properties -/

theorem mem_set_insert (a x : Nat) (s : List Nat) : a ∈ set_insert x s ↔ a = x ∨ a ∈ s := by
  induction s with
  | nil => simp [set_insert]
  | cons y ys ih =>
    unfold set_insert
    split_ifs with h1 h2
    · simp
    · subst h2; simp
    · simp [ih]; tauto

theorem mem_create_part_set_aux (l : List Nat) (acc : List Nat) (n : Nat) :
    n ∈ l.foldl (fun acc n => if n ∈ acc then acc else set_insert n acc) acc ↔ n ∈ acc ∨ n ∈ l := by
  induction l generalizing acc with
  | nil => simp
  | cons y ys ih =>
    simp only [List.foldl_cons, ih, List.mem_cons]
    split_ifs with h
    · constructor
      · rintro (h1 | h1) <;> tauto
      · rintro (h1 | h1 | h1)
        · tauto
        · subst h1; tauto
        · tauto
    · rw [mem_set_insert]; tauto

theorem mem_create_part_set (m : List (Int × Nat)) (i : Int) (n : Nat) :
    n ∈ create_part_set m i ↔ (i, n) ∈ m := by
  unfold create_part_set equal_range
  rw [mem_create_part_set_aux]
  simp only [List.not_mem_nil, false_or, List.mem_map, List.mem_filter, beq_iff_eq]
  constructor
  · rintro ⟨⟨a, b⟩, ⟨h1, h2⟩, h3⟩
    simp only at h2 h3
    subst h2 h3; exact h1
  · intro h; exact ⟨(i, n), ⟨h, rfl⟩, rfl⟩

/-- A fold in `Option` that succeeds relates its start and end states by any
reflexive, transitive relation that every step respects. -/
theorem foldlM_rel {α β : Type} (f : β → α → Option β) (R : β → β → Prop)
    (hrefl : ∀ b, R b b) (htrans : ∀ a b c, R a b → R b c → R a c)
    (hstep : ∀ b a b', f b a = some b' → R b b') :
    ∀ (l : List α) (b b' : β), l.foldlM f b = some b' → R b b' := by
  intro l
  induction l with
  | nil => intro b b' h; simp at h; subst h; exact hrefl _
  | cons a l ih =>
    intro b b' h
    simp only [List.foldlM_cons, Option.bind_eq_bind, Option.bind_eq_some] at h
    obtain ⟨b1, h1, h2⟩ := h
    exact htrans _ _ _ (hstep _ _ _ h1) (ih _ _ h2)

/-- What a step establishes for its element survives to the end of the fold. -/
theorem foldlM_each {α β : Type} (f : β → α → Option β) (R : β → β → Prop) (Q : α → β → Prop)
    (hrefl : ∀ b, R b b) (htrans : ∀ a b c, R a b → R b c → R a c)
    (hstep : ∀ b a b', f b a = some b' → R b b')
    (hQ : ∀ b a b', f b a = some b' → Q a b')
    (hmono : ∀ a b b', Q a b → R b b' → Q a b') :
    ∀ (l : List α) (b b' : β), l.foldlM f b = some b' → ∀ a ∈ l, Q a b' := by
  intro l
  induction l with
  | nil => intro b b' _ a ha; simp at ha
  | cons x l ih =>
    intro b b' h a ha
    simp only [List.foldlM_cons, Option.bind_eq_bind, Option.bind_eq_some] at h
    obtain ⟨b1, h1, h2⟩ := h
    rcases List.mem_cons.1 ha with rfl | ha
    · exact hmono _ _ _ (hQ _ _ _ h1) (foldlM_rel f R hrefl htrans hstep _ _ _ h2)
    · exact ih _ _ h2 a ha

theorem tables_le_refl (t : part_tables) : tables_le t t := ⟨rfl, fun _ h => h, fun _ h => h⟩

theorem tables_le_trans (a b c : part_tables) (h1 : tables_le a b) (h2 : tables_le b c) :
    tables_le a c :=
  ⟨h2.1.trans h1.1, fun e h => h2.2.1 e (h1.2.1 e h), fun e h => h2.2.2 e (h1.2.2 e h)⟩

theorem scope_insert_some {scope : List (List Nat)} {p : Int} {n : Nat} {sc : List (List Nat)}
    (h : scope_insert scope p n = some sc) :
    sc.length = scope.length ∧ 0 ≤ p ∧ p < scope.length := by
  unfold scope_insert at h
  split_ifs at h with hc
  simp only [Option.some.injEq] at h
  subst h
  refine ⟨by simp, hc.1, ?_⟩
  have := hc.2
  omega

/-- Effect of one fan-in edge. -/
theorem crossing_edge_spec {ntk : Ntk} {part_of : Nat → Option Int} {c : Nat}
    {t t' : part_tables} {conn : signal} (h : crossing_edge ntk part_of c t conn = some t') :
    tables_le t t' ∧ ∃ pn pc, part_of conn.index = some pn ∧ part_of c = some pc ∧
      (pn ≠ pc → ntk.is_constant conn.index = false →
        (pc, conn.index) ∈ t'._part_pis ∧ (pn, conn.index) ∈ t'._part_pos ∧
        0 ≤ pc ∧ pc < t'._part_scope.length) := by
  unfold crossing_edge at h
  simp only [Ntk.index_to_node, Option.bind_eq_some] at h
  obtain ⟨pn, hpn, pc, hpc, h⟩ := h
  split_ifs at h with hc
  · simp only [Option.map_eq_some'] at h
    obtain ⟨sc, hsc, rfl⟩ := h
    obtain ⟨hl, h0, h1⟩ := scope_insert_some hsc
    refine ⟨⟨hl, ?_, ?_⟩, pn, pc, hpn, hpc, ?_⟩
    · intro e he; simp [he]
    · intro e he; simp [he]
    · intro _ _; simp [h0, hl, h1]
  · simp only [Option.some.injEq] at h
    subst h
    refine ⟨tables_le_refl _, pn, pc, hpn, hpc, ?_⟩
    intro h1 h2
    exact absurd ⟨h1, by simp [h2]⟩ hc

theorem edge_done_mono {ntk : Ntk} {part_of : Nat → Option Int} {c : Nat} {conn : signal}
    {t t' : part_tables} (h : edge_done ntk part_of c conn t) (hle : tables_le t t') :
    edge_done ntk part_of c conn t' := by
  obtain ⟨pn, pc, h1, h2, h3⟩ := h
  refine ⟨pn, pc, h1, h2, fun a b => ?_⟩
  obtain ⟨q1, q2, q3, q4⟩ := h3 a b
  exact ⟨hle.2.1 _ q1, hle.2.2 _ q2, q3, by rw [hle.1]; exact q4⟩

theorem classify_fanins_spec {ntk : Ntk} {part_of : Nat → Option Int} {c : Nat}
    {t t' : part_tables} (h : classify_fanins ntk part_of t c = some t') :
    tables_le t t' ∧ (ntk.is_pi c = false → ntk.is_ro c = false →
      ∀ conn ∈ ntk.fanin c, edge_done ntk part_of c conn t') := by
  unfold classify_fanins at h
  split_ifs at h with hc
  · constructor
    · exact foldlM_rel _ tables_le tables_le_refl tables_le_trans
        (fun _ _ _ hs => (crossing_edge_spec hs).1) _ _ _ h
    · intro _ _
      exact foldlM_each _ tables_le (fun conn t => edge_done ntk part_of c conn t)
        tables_le_refl tables_le_trans
        (fun _ _ _ hs => (crossing_edge_spec hs).1)
        (fun _ _ _ hs => (crossing_edge_spec hs).2)
        (fun _ _ _ hq hle => edge_done_mono hq hle) _ _ _ h
  · simp only [Option.some.injEq] at h; subst h
    refine ⟨tables_le_refl _, fun a b => ?_⟩
    simp [a, b] at hc

/-- A scope insertion, whatever is appended to the multimaps next to it, grows
the tables and certifies that the partition id is inside the scope vector. -/
theorem scope_step {t : part_tables} (t' : part_tables) {p : Int} {n : Nat} {sc : List (List Nat)}
    (hsc : scope_insert t._part_scope p n = some sc)
    (h1 : t'._part_scope = sc)
    (h2 : ∀ e, e ∈ t._part_pis → e ∈ t'._part_pis)
    (h3 : ∀ e, e ∈ t._part_pos → e ∈ t'._part_pos) :
    tables_le t t' ∧ 0 ≤ p ∧ p < t'._part_scope.length := by
  obtain ⟨hl, h0, hlt⟩ := scope_insert_some hsc
  exact ⟨⟨by rw [h1, hl], h2, h3⟩, h0, by rw [h1, hl]; exact hlt⟩

theorem classify_pi_spec {ntk : Ntk} {partition : Nat → Option Int} {t t' : part_tables}
    {c : Nat} (h : classify_pi ntk partition t c = some t') :
    tables_le t t' ∧ (ntk.is_pi c = true →
      0 ≤ map_at partition c ∧ map_at partition c < t'._part_scope.length) := by
  unfold classify_pi at h
  split_ifs at h with hc
  · simp only [Option.map_eq_some'] at h
    obtain ⟨sc, hsc, rfl⟩ := h
    have := scope_step { t with _part_scope := sc, _part_pis := t._part_pis ++ [(map_at partition c, c)] }
      hsc rfl (fun e he => by simp [he]) (fun e he => he)
    exact ⟨this.1, fun _ => this.2⟩
  · simp only [Option.some.injEq] at h; subst h
    exact ⟨tables_le_refl _, fun hh => absurd hh hc⟩

theorem classify_kind_spec {ntk : Ntk} {partition : Nat → Option Int} {t t' : part_tables}
    {c : Nat} (h : classify_kind ntk partition t c = some t') :
    tables_le t t' ∧ (ntk.is_pi c = false → ntk.is_constant c = false →
      0 ≤ map_at partition c ∧ map_at partition c < t'._part_scope.length) := by
  unfold classify_kind at h
  split_ifs at h with hc1 hc2 hc3 hc4
  · simp only [Option.map_eq_some'] at h
    obtain ⟨sc, hsc, rfl⟩ := h
    obtain ⟨hl, h0, hlt⟩ := scope_insert_some hsc
    exact ⟨⟨hl, fun e he => by simp [he], fun e he => by simp [he]⟩,
      fun _ _ => ⟨h0, by simpa [hl] using hlt⟩⟩
  · simp only [Option.map_eq_some'] at h
    obtain ⟨sc, hsc, rfl⟩ := h
    obtain ⟨hl, h0, hlt⟩ := scope_insert_some hsc
    exact ⟨⟨hl, fun e he => by simp [he], fun e he => by simp [he]⟩,
      fun _ _ => ⟨h0, by simpa [hl] using hlt⟩⟩
  · simp only [Option.map_eq_some'] at h
    obtain ⟨sc, hsc, rfl⟩ := h
    obtain ⟨hl, h0, hlt⟩ := scope_insert_some hsc
    exact ⟨⟨hl, fun e he => by simp [he], fun e he => by simp [he]⟩,
      fun _ _ => ⟨h0, by simpa [hl] using hlt⟩⟩
  · simp only [Option.map_eq_some'] at h
    obtain ⟨sc, hsc, rfl⟩ := h
    obtain ⟨hl, h0, hlt⟩ := scope_insert_some hsc
    exact ⟨⟨hl, fun e he => by simp [he], fun e he => by simp [he]⟩,
      fun _ _ => ⟨h0, by simpa [hl] using hlt⟩⟩
  · simp only [Option.some.injEq] at h; subst h
    refine ⟨tables_le_refl _, fun _ hk => ?_⟩
    simp [hk] at hc4

theorem node_done_mono {ntk : Ntk} {part_of : Nat → Option Int} {c : Nat}
    {t t' : part_tables} (h : node_done ntk part_of c t) (hle : tables_le t t') :
    node_done ntk part_of c t' := by
  refine ⟨fun hc => ?_, fun h1 h2 conn hconn => edge_done_mono (h.2 h1 h2 conn hconn) hle⟩
  obtain ⟨pc, q1, q2, q3⟩ := h.1 hc
  exact ⟨pc, q1, q2, by rw [hle.1]; exact q3⟩

theorem classify_node_spec {ntk : Ntk} {partition : Nat → Option Int} {t t' : part_tables}
    {c : Nat} (h : classify_node ntk partition t c = some t') :
    tables_le t t' ∧ node_done ntk (fun n => some (map_at partition n)) c t' := by
  unfold classify_node at h
  simp only [Option.bind_eq_some] at h
  obtain ⟨t1, h1, t2, h2, h3⟩ := h
  have le1 := classify_pi_spec h1
  have le2 := classify_kind_spec h2
  have le3 := classify_fanins_spec h3
  have le12 := tables_le_trans _ _ _ le1.1 le2.1
  refine ⟨tables_le_trans _ _ _ le12 le3.1, fun hk => ?_, le3.2⟩
  refine ⟨map_at partition c, rfl, ?_⟩
  cases hp : ntk.is_pi c
  · obtain ⟨a, b⟩ := le2.2 hp hk
    exact ⟨a, by rw [le3.1.1]; exact b⟩
  · obtain ⟨a, b⟩ := le1.2 hp
    exact ⟨a, by rw [le3.1.1, le2.1.1]; exact b⟩

theorem kahypar_node_spec {ntk : Ntk} {partition : List Int} {t t' : part_tables}
    {c : Nat} (h : kahypar_node ntk partition t c = some t') :
    tables_le t t' ∧ node_done ntk (fun n => partition.get? n) c t' := by
  unfold kahypar_node at h
  simp only [Option.bind_eq_some] at h
  obtain ⟨t1, h1, h3⟩ := h
  have le3 := classify_fanins_spec h3
  have le1 : tables_le t t1 ∧ (ntk.is_constant c = false →
      ∃ pc, partition.get? c = some pc ∧ 0 ≤ pc ∧ pc < t1._part_scope.length) := by
    unfold kahypar_scope at h1
    split_ifs at h1 with hc
    · simp only [Option.bind_eq_some, Option.map_eq_some'] at h1
      obtain ⟨pc, hpc, sc, hsc, rfl⟩ := h1
      have := scope_step { t with _part_scope := sc } hsc rfl (fun e he => he) (fun e he => he)
      exact ⟨this.1, fun _ => ⟨pc, hpc, this.2⟩⟩
    · simp only [Option.some.injEq] at h1; subst h1
      refine ⟨tables_le_refl _, fun hk => ?_⟩
      simp [hk] at hc
  refine ⟨tables_le_trans _ _ _ le1.1 le3.1, fun hk => ?_, le3.2⟩
  obtain ⟨pc, a, b, d⟩ := le1.2 hk
  exact ⟨pc, a, b, by rw [le3.1.1]; exact d⟩

/-- After the node loop every node of the network has been classified. -/
theorem node_loop_spec {ntk : Ntk} (part_of : Nat → Option Int)
    (f : part_tables → Nat → Option part_tables)
    (hf : ∀ t c t', f t c = some t' → tables_le t t' ∧ node_done ntk part_of c t')
    {t t' : part_tables} (h : ntk.foreach_node.foldlM f t = some t') :
    tables_le t t' ∧ ∀ c, c < ntk.size → node_done ntk part_of c t' := by
  constructor
  · exact foldlM_rel _ tables_le tables_le_refl tables_le_trans (fun _ _ _ hs => (hf _ _ _ hs).1) _ _ _ h
  · intro c hc
    exact foldlM_each _ tables_le (fun c t => node_done ntk part_of c t)
      tables_le_refl tables_le_trans (fun _ _ _ hs => (hf _ _ _ hs).1)
      (fun _ _ _ hs => (hf _ _ _ hs).2) (fun _ _ _ hq hle => node_done_mono hq hle) _ _ _ h c
      (by simp [Ntk.foreach_node, hc])

theorem mem_part_ids (part_num i : Int) : i ∈ part_ids part_num ↔ 0 ≤ i ∧ i < part_num := by
  unfold part_ids
  simp only [List.mem_map, List.mem_range]
  constructor
  · rintro ⟨a, ha, rfl⟩
    constructor
    · exact Int.ofNat_nonneg a
    · have : (a : Int) < (part_num.toNat : Int) := by exact_mod_cast ha
      have h2 : (part_num.toNat : Int) = max part_num 0 := Int.toNat_eq_max part_num
      rcases le_or_lt 0 part_num with h | h
      · rw [h2, max_eq_left h] at this; exact this
      · have : part_num.toNat = 0 := Int.toNat_eq_zero.2 (le_of_lt h)
        omega
  · rintro ⟨h0, h1⟩
    refine ⟨i.toNat, ?_, ?_⟩
    · omega
    · simp [Int.toNat_of_nonneg h0]

theorem update_io_fields (pm : partition_manager) (i : Int) :
    (pm.update_io i).tables = pm.tables ∧ (pm.update_io i).partitionInputs = pm.partitionInputs ∧
    (pm.update_io i).partitionOutputs = pm.partitionOutputs := ⟨rfl, rfl, rfl⟩

/-- The final loop of a constructor fills the boundary sets of every partition
id it visits from the multimaps and leaves the tables alone. -/
theorem finish_loop_spec (f : partition_manager → Int → partition_manager)
    (hf : ∀ pm i, (f pm i).tables = pm.tables ∧
      (f pm i).partitionInputs = upd pm.partitionInputs i (create_part_set pm.tables._part_pis i) ∧
      (f pm i).partitionOutputs = upd pm.partitionOutputs i (create_part_set pm.tables._part_pos i))
    (l : List Int) (pm : partition_manager) :
    (l.foldl f pm).tables = pm.tables ∧
    (∀ i, (l.foldl f pm).partitionInputs i =
      if i ∈ l then create_part_set pm.tables._part_pis i else pm.partitionInputs i) ∧
    (∀ i, (l.foldl f pm).partitionOutputs i =
      if i ∈ l then create_part_set pm.tables._part_pos i else pm.partitionOutputs i) := by
  induction l generalizing pm with
  | nil => simp
  | cons j l ih =>
    obtain ⟨h1, h2, h3⟩ := ih (f pm j)
    obtain ⟨g1, g2, g3⟩ := hf pm j
    simp only [List.foldl_cons, List.mem_cons]
    refine ⟨h1.trans g1, fun i => ?_, fun i => ?_⟩
    · rw [h2 i, g1, g2]
      by_cases hi : i ∈ l
      · simp [hi]
      · by_cases hij : i = j
        · simp [hi, hij, upd]
        · simp [hi, hij, upd]
    · rw [h3 i, g1, g3]
      by_cases hi : i ∈ l
      · simp [hi]
      · by_cases hij : i = j
        · simp [hi, hij, upd]
        · simp [hi, hij, upd]

theorem finish_from_map_fields (pm : partition_manager) (i : Int) :
    (finish_from_map pm i).tables = pm.tables ∧
    (finish_from_map pm i).partitionInputs = upd pm.partitionInputs i (create_part_set pm.tables._part_pis i) ∧
    (finish_from_map pm i).partitionOutputs = upd pm.partitionOutputs i (create_part_set pm.tables._part_pos i) :=
  ⟨rfl, rfl, rfl⟩

theorem finish_from_kahypar_fields (pm : partition_manager) (i : Int) :
    (finish_from_kahypar pm i).tables = pm.tables ∧
    (finish_from_kahypar pm i).partitionInputs = upd pm.partitionInputs i (create_part_set pm.tables._part_pis i) ∧
    (finish_from_kahypar pm i).partitionOutputs = upd pm.partitionOutputs i (create_part_set pm.tables._part_pos i) :=
  ⟨rfl, rfl, rfl⟩

/-- The boundary sets of a ledger built from tables `t` by a final loop. -/
theorem built_sets (f : partition_manager → Int → partition_manager)
    (hf : ∀ pm i, (f pm i).tables = pm.tables ∧
      (f pm i).partitionInputs = upd pm.partitionInputs i (create_part_set pm.tables._part_pis i) ∧
      (f pm i).partitionOutputs = upd pm.partitionOutputs i (create_part_set pm.tables._part_pos i))
    (part_num : Int) (t : part_tables) (p : Int) (n : Nat) (h0 : 0 ≤ p) (h1 : p < part_num) :
    (n ∈ ((part_ids part_num).foldl f (partition_manager.init part_num t)).get_part_inputs p ↔
      (p, n) ∈ t._part_pis) ∧
    (n ∈ ((part_ids part_num).foldl f (partition_manager.init part_num t)).get_part_outputs p ↔
      (p, n) ∈ t._part_pos) := by
  obtain ⟨_, h2, h3⟩ := finish_loop_spec f hf (part_ids part_num) (partition_manager.init part_num t)
  have hp : p ∈ part_ids part_num := (mem_part_ids _ _).2 ⟨h0, h1⟩
  unfold partition_manager.get_part_inputs partition_manager.get_part_outputs
  rw [h2 p, h3 p]
  simp only [hp, if_true, partition_manager.init, mem_create_part_set, and_self]

theorem empty_scope_length (part_num : Int) (h : 0 ≤ part_num) :
    ((part_tables.empty part_num)._part_scope.length : Int) = part_num := by
  simp [part_tables.empty, Int.toNat_of_nonneg h]

theorem scope_length_le (part_num : Int) :
    ((part_tables.empty part_num)._part_scope.length : Int) ≤ max part_num 0 := by
  simp [part_tables.empty, Int.toNat_eq_max]

/-- C1 (boundary completeness).  For a ledger built from a node-to-partition
assignment, by either constructor, every node `c` of the network that is neither
a primary input nor a register output and every non-constant fan-in node `n` of
`c`: if the partitions of `n` and `c` differ then `n` is in
`get_part_outputs(partition(n))` and in `get_part_inputs(partition(c))`. -/
theorem boundary_completeness (ntk : Ntk) (part_num : Int) (pm : partition_manager)
    (c : Nat) (hc : c < ntk.size) (hpi : ntk.is_pi c = false) (hro : ntk.is_ro c = false)
    (conn : signal) (hconn : conn ∈ ntk.fanin c) (hn : conn.index < ntk.size)
    (hk : ntk.is_constant conn.index = false) :
    (∀ partition : Nat → Option Int,
      partition_manager.from_map ntk partition part_num = some pm →
      map_at partition conn.index ≠ map_at partition c →
      conn.index ∈ pm.get_part_outputs (map_at partition conn.index) ∧
      conn.index ∈ pm.get_part_inputs (map_at partition c)) ∧
    (∀ partition : List Int, part_num ≠ 1 →
      partition_manager.from_kahypar ntk partition part_num = some pm →
      ∃ pn pc, partition.get? conn.index = some pn ∧ partition.get? c = some pc ∧
        (pn ≠ pc → conn.index ∈ pm.get_part_outputs pn ∧ conn.index ∈ pm.get_part_inputs pc)) := by
  have key : ∀ (part_of : Nat → Option Int) (t0 t : part_tables),
      (t0._part_scope.length : Int) ≤ max part_num 0 → tables_le t0 t →
      (∀ c, c < ntk.size → node_done ntk part_of c t) →
      ∃ pn pc, part_of conn.index = some pn ∧ part_of c = some pc ∧
        (pn ≠ pc → ((pc, conn.index) ∈ t._part_pis ∧ (pn, conn.index) ∈ t._part_pos) ∧
          (0 ≤ pn ∧ pn < part_num) ∧ (0 ≤ pc ∧ pc < part_num)) := by
    intro part_of t0 t hlen hle hdone
    obtain ⟨pn, pc, h1, h2, h3⟩ := (hdone c hc).2 hpi hro conn hconn
    refine ⟨pn, pc, h1, h2, fun hne => ?_⟩
    obtain ⟨q1, q2, q3, q4⟩ := h3 hne hk
    obtain ⟨pn', r1, r2, r3⟩ := (hdone conn.index hn).1 hk
    rw [h1] at r1
    obtain rfl : pn = pn' := Option.some.inj r1
    have hl : (t._part_scope.length : Int) ≤ max part_num 0 := by rw [hle.1]; exact hlen
    have hpos : 0 < max part_num 0 := lt_of_lt_of_le (lt_of_le_of_lt q3 q4) hl
    have hmax : max part_num 0 = part_num := by
      rcases le_or_lt 0 part_num with h | h
      · exact max_eq_left h
      · rw [max_eq_right (le_of_lt h)] at hpos; exact absurd hpos (lt_irrefl _)
    rw [hmax] at hl
    exact ⟨⟨q1, q2⟩, ⟨r2, lt_of_lt_of_le r3 hl⟩, ⟨q3, lt_of_lt_of_le q4 hl⟩⟩
  constructor
  · intro partition hb hne
    unfold partition_manager.from_map at hb
    simp only [Option.map_eq_some'] at hb
    obtain ⟨t, ht, rfl⟩ := hb
    obtain ⟨hle, hdone⟩ := node_loop_spec (fun n => some (map_at partition n))
      (classify_node ntk partition) (fun _ _ _ hs => classify_node_spec hs) ht
    obtain ⟨pn, pc, h1, h2, h3⟩ := key _ _ t (scope_length_le part_num) hle hdone
    obtain rfl := Option.some.inj h1
    obtain rfl := Option.some.inj h2
    obtain ⟨⟨q1, q2⟩, ⟨a1, a2⟩, ⟨b1, b2⟩⟩ := h3 hne
    exact ⟨(built_sets _ finish_from_map_fields part_num t _ _ a1 a2).2.2 q2,
      (built_sets _ finish_from_map_fields part_num t _ _ b1 b2).1.2 q1⟩
  · intro partition hp1 hb
    unfold partition_manager.from_kahypar at hb
    rw [if_neg hp1] at hb
    simp only [Option.bind_eq_some, Option.map_eq_some'] at hb
    obtain ⟨t1, ht1, t2, ht2, t3, ht3, rfl⟩ := hb
    obtain ⟨hle2, hdone⟩ := node_loop_spec (fun n => partition.get? n)
      (kahypar_node ntk partition) (fun _ _ _ hs => kahypar_node_spec hs) ht2
    have hle1 : tables_le (part_tables.empty part_num) t1 := by
      refine foldlM_rel _ tables_le tables_le_refl tables_le_trans ?_ _ _ _ ht1
      intro b a b' hs
      unfold kahypar_inputs at hs
      simp only [Option.map_eq_some'] at hs
      obtain ⟨p, _, rfl⟩ := hs
      split_ifs
      · exact ⟨rfl, fun e he => by simp [he], fun e he => he⟩
      · exact ⟨rfl, fun e he => by simp [he], fun e he => he⟩
    have hle3 : tables_le t2 t3 := by
      refine foldlM_rel _ tables_le tables_le_refl tables_le_trans ?_ _ _ _ ht3
      intro b a b' hs
      unfold kahypar_outputs at hs
      simp only [Option.bind_eq_some] at hs
      obtain ⟨o, _, hs⟩ := hs
      split_ifs at hs
      · simp only [Option.map_eq_some'] at hs
        obtain ⟨p, _, rfl⟩ := hs
        exact ⟨rfl, fun e he => he, fun e he => by simp [he]⟩
      · simp only [Option.map_eq_some'] at hs
        obtain ⟨p, _, rfl⟩ := hs
        exact ⟨rfl, fun e he => he, fun e he => he⟩
      · simp only [Option.some.injEq] at hs; subst hs
        exact tables_le_refl _
    obtain ⟨pn, pc, h1, h2, h3⟩ := key _ _ t3 (scope_length_le part_num)
      (tables_le_trans _ _ _ (tables_le_trans _ _ _ hle1 hle2) hle3)
      (fun c hc => node_done_mono (hdone c hc) hle3)
    refine ⟨pn, pc, h1, h2, fun hne => ?_⟩
    obtain ⟨⟨q1, q2⟩, ⟨a1, a2⟩, ⟨b1, b2⟩⟩ := h3 hne
    exact ⟨(built_sets _ finish_from_kahypar_fields part_num t3 _ _ a1 a2).2.2 q2,
      (built_sets _ finish_from_kahypar_fields part_num t3 _ _ b1 b2).1.2 q1⟩

/-- Instance of C1 on the example network: gate 3 of partition 0 feeds gate 4 of
partition 1, for both constructors. -/
theorem boundary_completeness_witness :
    (∃ pm, partition_manager.from_map ntk_ex1 part_ex1 2 = some pm ∧
      3 ∈ pm.get_part_outputs 0 ∧ 3 ∈ pm.get_part_inputs 1) ∧
    (∃ pm, partition_manager.from_kahypar ntk_ex1 [0, 0, 0, 0, 1] 2 = some pm ∧
      3 ∈ pm.get_part_outputs 0 ∧ 3 ∈ pm.get_part_inputs 1) := by
  constructor
  · have h : (partition_manager.from_map ntk_ex1 part_ex1 2).isSome = true := by decide
    obtain ⟨pm, hpm⟩ := Option.isSome_iff_exists.1 h
    exact ⟨pm, hpm, (boundary_completeness ntk_ex1 2 pm 4 (by decide) rfl rfl ⟨3, false⟩
      (by decide) (by decide) rfl).1 part_ex1 hpm (by decide)⟩
  · have h : (partition_manager.from_kahypar ntk_ex1 [0, 0, 0, 0, 1] 2).isSome = true := by decide
    obtain ⟨pm, hpm⟩ := Option.isSome_iff_exists.1 h
    obtain ⟨pn, pc, h1, h2, h3⟩ := (boundary_completeness ntk_ex1 2 pm 4 (by decide) rfl rfl
      ⟨3, false⟩ (by decide) (by decide) rfl).2 [0, 0, 0, 0, 1] (by decide) hpm
    obtain rfl : (0 : Int) = pn := Option.some.inj h1
    obtain rfl : (1 : Int) = pc := Option.some.inj h2
    exact ⟨pm, hpm, h3 (by decide)⟩

theorem view_ext_refl (v : partition_view) : view_ext v v := ⟨⟨[], by simp⟩, rfl, rfl, rfl⟩

theorem view_ext_trans {a b c : partition_view} (h1 : view_ext a b) (h2 : view_ext b c) :
    view_ext a c := by
  obtain ⟨⟨l1, e1⟩, a1, a2, a3⟩ := h1
  obtain ⟨⟨l2, e2⟩, b1, b2, b3⟩ := h2
  exact ⟨⟨l1 ++ l2, by rw [e2, e1, List.append_assoc]⟩, b1.trans a1, b2.trans a2, b3.trans a3⟩

theorem view_ext_mem {v v' : partition_view} (h : view_ext v v') {n : Nat} (hn : n ∈ v._nodes) :
    n ∈ v'._nodes := by
  obtain ⟨⟨l, e⟩, _⟩ := h
  rw [e]; exact List.mem_append_left _ hn

/-- Appending a node that is not yet in the view, and marking it visited,
preserves the invariant when the reserved prefix is already complete and all
fan-ins of the node are in the view. -/
theorem add_gate_inv {ntk : Ntk} {leaves pivots : List Nat} {v : partition_view}
    (hv : view_inv ntk leaves pivots v) (n : Nat) (hn : n ∉ v._nodes)
    (hfan : ∀ f ∈ ntk.fanin n, get_node f ∈ v._nodes)
    (hreach : cone_reach ntk leaves pivots n) :
    view_inv ntk leaves pivots ((v.add_node ntk n).set_visited n 1) := by
  have hget : ∀ i m, (v._nodes ++ [n])[i]? = some m ↔
      (v._nodes[i]? = some m ∨ (i = v._nodes.length ∧ m = n)) := by
    intro i m
    rcases lt_trichotomy i v._nodes.length with h | h | h
    · rw [List.getElem?_append_left h]
      constructor
      · intro h1; exact Or.inl h1
      · rintro (h1 | ⟨h1, _⟩)
        · exact h1
        · omega
    · subst h
      rw [List.getElem?_append_right (le_refl _)]
      simp only [Nat.sub_self, List.getElem?_cons_zero, Option.some.injEq, true_and]
      constructor
      · intro h1; exact Or.inr h1.symm
      · rintro (h1 | h1)
        · rw [List.getElem?_eq_none (le_refl _)] at h1; exact absurd h1 (by simp)
        · exact h1.symm
    · rw [List.getElem?_eq_none (by simp; omega)]
      constructor
      · intro h1; exact absurd h1 (by simp)
      · rintro (h1 | ⟨h1, _⟩)
        · rw [List.getElem?_eq_none (by omega)] at h1; exact absurd h1 (by simp)
        · omega
  constructor
  · show (v._nodes ++ [n]).Nodup
    rw [List.nodup_append]
    refine ⟨hv.nodup, List.nodup_singleton n, ?_⟩
    intro a ha hb
    rw [List.mem_singleton] at hb
    subst hb; exact hn ha
  · intro m
    show upd v.visited n 1 m = 1 ↔ m ∈ v._nodes ++ [n]
    unfold upd
    by_cases hm : m = n
    · simp [hm]
    · simp [hm, hv.visited_iff m]
  · intro m i
    show upd v._node_to_index n (some v._nodes.length) m = some i ↔ (v._nodes ++ [n])[i]? = some m
    rw [hget]
    unfold upd
    by_cases hm : m = n
    · subst hm
      simp only [if_true, Option.some.injEq]
      constructor
      · intro h; exact Or.inr (by simp [h])
      · rintro (h | h)
        · exact absurd (List.getElem?_mem h) hn
        · simp at h; exact h.symm
    · simp only [hm, if_false, and_false, or_false]
      exact hv.index_iff m i
  · show v._num_constants + v._num_leaves ≤ (v._nodes ++ [n]).length
    have := hv.prefix_len
    simp; omega
  · intro i m hi hm
    change (v._nodes ++ [n])[i]? = some m at hm
    rw [hget] at hm
    rcases hm with hm | ⟨h1, _⟩
    · exact hv.boundary i m hi hm
    · have := hv.prefix_len
      change i < v._num_constants + v._num_leaves at hi
      omega
  · intro i m hi hm f hf
    change (v._nodes ++ [n])[i]? = some m at hm
    change ∃ j, j < i ∧ (v._nodes ++ [n])[j]? = some (get_node f)
    rw [hget] at hm
    rcases hm with hm | ⟨h1, h2⟩
    · obtain ⟨j, hj, hj2⟩ := hv.fanin_before i m hi hm f hf
      exact ⟨j, hj, (hget _ _).2 (Or.inl hj2)⟩
    · subst h2
      obtain ⟨j, hj⟩ := List.mem_iff_getElem?.1 (hfan f hf)
      refine ⟨j, ?_, (hget _ _).2 (Or.inl hj)⟩
      have : j < v._nodes.length := by
        by_contra hc
        rw [List.getElem?_eq_none (by omega)] at hj
        exact absurd hj (by simp)
      omega
  · intro i m hi hm
    change (v._nodes ++ [n])[i]? = some m at hm
    rw [hget] at hm
    rcases hm with hm | ⟨_, h2⟩
    · exact hv.gate_reach i m hi hm
    · subst h2; exact hreach

/-- A loop of traversals succeeds when each single traversal does. -/
theorem traverse_fold {α : Type} (ntk : Ntk) (leaves pivots : List Nat) (rank : Nat → Nat)
    (g : α → Nat) (fuel : Nat)
    (IH : ∀ n v, view_inv ntk leaves pivots v →
      (∀ m, view_boundary ntk leaves m → m ∈ v._nodes) → rank n < fuel →
      (¬ view_boundary ntk leaves n → cone_reach ntk leaves pivots n) →
      ∃ v', traverse ntk fuel n v = some v' ∧ traverse_post ntk leaves pivots rank n v v') :
    ∀ (l : List α) (v : partition_view), view_inv ntk leaves pivots v →
      (∀ m, view_boundary ntk leaves m → m ∈ v._nodes) →
      (∀ a ∈ l, rank (g a) < fuel ∧
        (¬ view_boundary ntk leaves (g a) → cone_reach ntk leaves pivots (g a))) →
      ∃ v', l.foldlM (fun v a => traverse ntk fuel (g a) v) v = some v' ∧
        view_inv ntk leaves pivots v' ∧ view_ext v v' ∧ (∀ a ∈ l, g a ∈ v'._nodes) ∧
        ∀ m ∈ v'._nodes, m ∉ v._nodes → ∃ a ∈ l, rank m ≤ rank (g a) := by
  intro l
  induction l with
  | nil =>
    intro v hv _ _
    exact ⟨v, by simp, hv, view_ext_refl v, by simp, fun m h1 h2 => absurd h1 h2⟩
  | cons a l ih =>
    intro v hv hb hl
    obtain ⟨h1, h2⟩ := hl a (List.mem_cons_self _ _)
    obtain ⟨v1, e1, i1, x1, m1, r1⟩ := IH (g a) v hv hb h1 h2
    obtain ⟨v2, e2, i2, x2, m2, r2⟩ := ih v1 i1 (fun m hm => view_ext_mem x1 (hb m hm))
      (fun b hb => hl b (List.mem_cons_of_mem _ hb))
    refine ⟨v2, ?_, i2, view_ext_trans x1 x2, ?_, ?_⟩
    · simp only [List.foldlM_cons, Option.bind_eq_bind, Option.bind_eq_some]
      exact ⟨v1, e1, e2⟩
    · intro b hb
      rcases List.mem_cons.1 hb with rfl | hb
      · exact view_ext_mem x2 m1
      · exact m2 b hb
    · intro m hm hm0
      by_cases hm1 : m ∈ v1._nodes
      · exact ⟨a, List.mem_cons_self _ _, r1 m hm1 hm0⟩
      · obtain ⟨b, hb, hr⟩ := r2 m hm hm1
        exact ⟨b, List.mem_cons_of_mem _ hb, hr⟩

/-- On an acyclic network a traversal with enough fuel succeeds, keeps the
invariant, and appends only nodes of the fan-in cone of its start node. -/
theorem traverse_spec (ntk : Ntk) (leaves pivots : List Nat) (rank : Nat → Nat)
    (hacyc : ∀ n, ∀ f ∈ ntk.fanin n, rank (get_node f) < rank n) :
    ∀ fuel n v, view_inv ntk leaves pivots v →
      (∀ m, view_boundary ntk leaves m → m ∈ v._nodes) → rank n < fuel →
      (¬ view_boundary ntk leaves n → cone_reach ntk leaves pivots n) →
      ∃ v', traverse ntk fuel n v = some v' ∧ traverse_post ntk leaves pivots rank n v v' := by
  intro fuel
  induction fuel with
  | zero => intro n v _ _ h; exact absurd h (Nat.not_lt_zero _)
  | succ fuel ih =>
    intro n v hv hb hfuel hpre
    unfold traverse
    by_cases hvis : v.visited n = 1
    · rw [if_pos hvis]
      exact ⟨v, rfl, hv, view_ext_refl v, (hv.visited_iff n).1 hvis, fun m h1 h2 => absurd h1 h2⟩
    · rw [if_neg hvis]
      have hn : n ∉ v._nodes := fun h => hvis ((hv.visited_iff n).2 h)
      have hreach : cone_reach ntk leaves pivots n := hpre (fun h => hn (hb n h))
      obtain ⟨v1, e1, i1, x1, m1, r1⟩ := traverse_fold ntk leaves pivots rank get_node fuel ih
        (ntk.fanin n) v hv hb (fun f hf =>
          ⟨lt_of_lt_of_le (hacyc n f hf) (Nat.lt_succ_iff.1 hfuel),
            fun hnb => cone_reach.step n f hreach hf hnb⟩)
      have hn1 : n ∉ v1._nodes := by
        intro h
        obtain ⟨f, hf, hr⟩ := r1 n h hn
        exact absurd (hacyc n f hf) (not_lt.2 hr)
      refine ⟨(v1.add_node ntk n).set_visited n 1, ?_, add_gate_inv i1 n hn1 m1 hreach, ?_, ?_, ?_⟩
      · rw [e1]; rfl
      · refine view_ext_trans x1 ⟨⟨[n], rfl⟩, rfl, rfl, rfl⟩
      · show n ∈ v1._nodes ++ [n]
        simp
      · intro m hm hm0
        change m ∈ v1._nodes ++ [n] at hm
        rcases List.mem_append.1 hm with hm | hm
        · obtain ⟨f, hf, hr⟩ := r1 m hm hm0
          exact le_trans hr (le_of_lt (hacyc n f hf))
        · rw [List.mem_singleton] at hm
          rw [hm]

theorem getElem?_snoc {n : Nat} (l : List Nat) (i m : Nat) :
    (l ++ [n])[i]? = some m ↔ (l[i]? = some m ∨ (i = l.length ∧ m = n)) := by
  rcases lt_trichotomy i l.length with h | h | h
  · rw [List.getElem?_append_left h]
    constructor
    · intro h1; exact Or.inl h1
    · rintro (h1 | ⟨h1, _⟩)
      · exact h1
      · omega
  · subst h
    rw [List.getElem?_append_right (le_refl _)]
    simp only [Nat.sub_self, List.getElem?_cons_zero, Option.some.injEq, true_and]
    constructor
    · intro h1; exact Or.inr h1.symm
    · rintro (h1 | h1)
      · rw [List.getElem?_eq_none (le_refl _)] at h1; exact absurd h1 (by simp)
      · exact h1.symm
  · rw [List.getElem?_eq_none (by simp; omega)]
    constructor
    · intro h1; exact absurd h1 (by simp)
    · rintro (h1 | ⟨h1, _⟩)
      · rw [List.getElem?_eq_none (by omega)] at h1; exact absurd h1 (by simp)
      · omega

theorem add_prefix_inv {ntk : Ntk} {leaves : List Nat} {v : partition_view}
    (hv : prefix_inv ntk leaves v) (n : Nat) (hn : n ∉ v._nodes)
    (hb : view_boundary ntk leaves n) :
    prefix_inv ntk leaves ((v.add_node ntk n).set_visited n 1) := by
  obtain ⟨h1, h2, h3, h4⟩ := hv
  refine ⟨?_, ?_, ?_, ?_⟩
  · show (v._nodes ++ [n]).Nodup
    rw [List.nodup_append]
    refine ⟨h1, List.nodup_singleton n, ?_⟩
    intro a ha hb
    rw [List.mem_singleton] at hb
    subst hb; exact hn ha
  · intro m
    show upd v.visited n 1 m = 1 ↔ m ∈ v._nodes ++ [n]
    unfold upd
    by_cases hm : m = n
    · simp [hm]
    · simp [hm, h2 m]
  · intro m i
    show upd v._node_to_index n (some v._nodes.length) m = some i ↔ (v._nodes ++ [n])[i]? = some m
    rw [getElem?_snoc]
    unfold upd
    by_cases hm : m = n
    · subst hm
      simp only [if_true, Option.some.injEq]
      constructor
      · intro h; exact Or.inr (by simp [h])
      · rintro (h | h)
        · exact absurd (List.getElem?_mem h) hn
        · simp at h; exact h.symm
    · simp only [hm, if_false, and_false, or_false]
      exact h3 m i
  · intro m hm
    change m ∈ v._nodes ++ [n] at hm
    rcases List.mem_append.1 hm with hm | hm
    · exact h4 m hm
    · rw [List.mem_singleton] at hm; rw [hm]; exact hb

/-- State after the constants have been inserted. -/
theorem view_constants_spec (ntk : Ntk) (leaves : List Nat) :
    prefix_inv ntk leaves (view_constants ntk partition_view.fresh) ∧
    (view_constants ntk partition_view.fresh)._nodes.length =
      (view_constants ntk partition_view.fresh)._num_constants +
      (view_constants ntk partition_view.fresh)._num_leaves ∧
    ntk.constant_false ∈ (view_constants ntk partition_view.fresh)._nodes ∧
    ntk.constant_true ∈ (view_constants ntk partition_view.fresh)._nodes := by
  have h0 : prefix_inv ntk leaves partition_view.fresh :=
    ⟨List.nodup_nil, fun n => by simp [partition_view.fresh],
      fun n i => by simp [partition_view.fresh], fun n hn => by simp [partition_view.fresh] at hn⟩
  have h1 := add_prefix_inv h0 ntk.constant_false (by simp [partition_view.fresh]) (Or.inl rfl)
  unfold view_constants
  by_cases hc : ntk.constant_true = ntk.constant_false
  · simp only [hc, ne_eq, not_true_eq_false, if_false]
    refine ⟨?_, ?_, ?_, ?_⟩
    · have := h1; simpa [hc] using this
    · simp [partition_view.fresh, partition_view.add_node, partition_view.set_visited]
    · simp [partition_view.fresh, partition_view.add_node, partition_view.set_visited]
    · simp [partition_view.fresh, partition_view.add_node, partition_view.set_visited]
  · simp only [ne_eq, hc, not_false_eq_true, if_true]
    have h2 := add_prefix_inv h1 ntk.constant_true
      (by simp [partition_view.fresh, partition_view.add_node, partition_view.set_visited, hc])
      (Or.inr (Or.inl rfl))
    refine ⟨h2, ?_, ?_, ?_⟩
    · simp [partition_view.fresh, partition_view.add_node, partition_view.set_visited]
    · simp [partition_view.fresh, partition_view.add_node, partition_view.set_visited]
    · simp [partition_view.fresh, partition_view.add_node, partition_view.set_visited]

/-- State after the declared inputs have been inserted. -/
theorem view_leaves_spec (ntk : Ntk) (leaves : List Nat) :
    ∀ (l : List Nat) (v : partition_view), (∀ x ∈ l, x ∈ leaves) → prefix_inv ntk leaves v →
      v._nodes.length = v._num_constants + v._num_leaves →
      prefix_inv ntk leaves (l.foldl (view_leaf ntk) v) ∧
      (l.foldl (view_leaf ntk) v)._nodes.length =
        (l.foldl (view_leaf ntk) v)._num_constants + (l.foldl (view_leaf ntk) v)._num_leaves ∧
      (∀ n, n ∈ v._nodes ∨ n ∈ l → n ∈ (l.foldl (view_leaf ntk) v)._nodes) := by
  intro l
  induction l with
  | nil => intro v _ hv hl; exact ⟨hv, hl, fun n h => by simpa using h⟩
  | cons a l ih =>
    intro v hsub hv hl
    have hstep : prefix_inv ntk leaves (view_leaf ntk v a) ∧
        (view_leaf ntk v a)._nodes.length =
          (view_leaf ntk v a)._num_constants + (view_leaf ntk v a)._num_leaves ∧
        (∀ n, n ∈ v._nodes ∨ n = a → n ∈ (view_leaf ntk v a)._nodes) := by
      unfold view_leaf
      by_cases hvis : v.visited a = 1
      · rw [if_pos hvis]
        refine ⟨hv, hl, fun n hn => ?_⟩
        rcases hn with hn | hn
        · exact hn
        · rw [hn]; exact (hv.2.1 a).1 hvis
      · rw [if_neg hvis]
        have ha : a ∉ v._nodes := fun h => hvis ((hv.2.1 a).2 h)
        refine ⟨add_prefix_inv hv a ha (Or.inr (Or.inr (hsub a (List.mem_cons_self _ _)))), ?_, ?_⟩
        · show (v._nodes ++ [a]).length = v._num_constants + (v._num_leaves + 1)
          simp; omega
        · intro n hn
          show n ∈ v._nodes ++ [a]
          simpa using hn
    obtain ⟨q1, q2, q3⟩ := ih (view_leaf ntk v a) (fun x hx => hsub x (List.mem_cons_of_mem _ hx))
      hstep.1 hstep.2.1
    refine ⟨q1, q2, fun n hn => ?_⟩
    apply q3
    rcases hn with hn | hn
    · exact Or.inl (hstep.2.2 n (Or.inl hn))
    · rcases List.mem_cons.1 hn with hn | hn
      · exact Or.inl (hstep.2.2 n (Or.inr hn))
      · exact Or.inr hn

theorem prefix_inv_view_inv {ntk : Ntk} {leaves : List Nat} (pivots : List Nat) {v : partition_view}
    (hv : prefix_inv ntk leaves v) (hl : v._nodes.length = v._num_constants + v._num_leaves) :
    view_inv ntk leaves pivots v := by
  obtain ⟨h1, h2, h3, h4⟩ := hv
  refine ⟨h1, h2, h3, le_of_eq hl.symm, fun i n _ hn => h4 n (List.getElem?_mem hn), ?_, ?_⟩
  · intro i n hi hn
    rw [List.getElem?_eq_none (by omega)] at hn
    exact absurd hn (by simp)
  · intro i n hi hn
    rw [List.getElem?_eq_none (by omega)] at hn
    exact absurd hn (by simp)

theorem view_root_loop_fields (l : List Nat) (v : partition_view) :
    (l.foldl view_root v)._nodes = v._nodes ∧
    (l.foldl view_root v)._node_to_index = v._node_to_index ∧
    (l.foldl view_root v)._num_constants = v._num_constants ∧
    (l.foldl view_root v)._num_leaves = v._num_leaves ∧
    (l.foldl view_root v)._fanout_size = v._fanout_size ∧
    (l.foldl view_root v).visited = v.visited := by
  induction l generalizing v with
  | nil => simp
  | cons a l ih =>
    obtain ⟨h1, h2, h3, h4, h5, h6⟩ := ih (view_root v a)
    exact ⟨h1, h2, h3, h4, h5, h6⟩

theorem view_unmark_loop_fields (l : List Nat) (v : partition_view) :
    (l.foldl (fun v n => v.set_visited n 0) v)._nodes = v._nodes ∧
    (l.foldl (fun v n => v.set_visited n 0) v)._node_to_index = v._node_to_index ∧
    (l.foldl (fun v n => v.set_visited n 0) v)._num_constants = v._num_constants ∧
    (l.foldl (fun v n => v.set_visited n 0) v)._num_leaves = v._num_leaves ∧
    (l.foldl (fun v n => v.set_visited n 0) v)._fanout_size = v._fanout_size ∧
    (l.foldl (fun v n => v.set_visited n 0) v)._roots = v._roots := by
  induction l generalizing v with
  | nil => simp
  | cons a l ih =>
    obtain ⟨h1, h2, h3, h4, h5, h6⟩ := ih (v.set_visited a 0)
    exact ⟨h1, h2, h3, h4, h5, h6⟩

/-- The last two loops of the constructor leave the node sequence, the index
map and the two counters alone. -/
theorem view_finish_fields (pivots : List Nat) (v : partition_view) :
    (view_finish pivots v)._nodes = v._nodes ∧
    (view_finish pivots v)._node_to_index = v._node_to_index ∧
    (view_finish pivots v)._num_constants = v._num_constants ∧
    (view_finish pivots v)._num_leaves = v._num_leaves := by
  unfold view_finish
  obtain ⟨h1, h2, h3, h4, _, _⟩ := view_root_loop_fields pivots v
  obtain ⟨g1, g2, g3, g4, _, _⟩ :=
    view_unmark_loop_fields (pivots.foldl view_root v)._nodes (pivots.foldl view_root v)
  exact ⟨g1.trans h1, g2.trans h2, g3.trans h3, g4.trans h4⟩

/-- On an acyclic network the constructor succeeds when the fuel exceeds the
depth of every declared output; the view it returns is the result of the
traversal phase, which satisfies the invariant, contains every constant,
declared input and declared output, and is then finished by the last two loops. -/
theorem construct_spec (ntk : Ntk) (rank : Nat → Nat)
    (hacyc : ∀ n, ∀ f ∈ ntk.fanin n, rank (get_node f) < rank n)
    (leaves pivots : List Nat) (fuel : Nat) (hfuel : ∀ p ∈ pivots, rank p < fuel) :
    ∃ v4, partition_view.construct ntk leaves pivots fuel = some (view_finish pivots v4) ∧
      view_inv ntk leaves pivots v4 ∧
      (∀ m, view_boundary ntk leaves m → m ∈ v4._nodes) ∧
      (∀ p ∈ pivots, p ∈ v4._nodes) := by
  obtain ⟨c1, c2, c3, c4⟩ := view_constants_spec ntk leaves
  obtain ⟨l1, l2, l3⟩ := view_leaves_spec ntk leaves leaves
    (view_constants ntk partition_view.fresh) (fun x hx => hx) c1 c2
  have hb : ∀ m, view_boundary ntk leaves m →
      m ∈ (leaves.foldl (view_leaf ntk) (view_constants ntk partition_view.fresh))._nodes := by
    intro m hm
    rcases hm with hm | hm | hm
    · exact l3 m (Or.inl (hm ▸ c3))
    · exact l3 m (Or.inl (hm ▸ c4))
    · exact l3 m (Or.inr hm)
  obtain ⟨v4, e4, i4, x4, m4, _⟩ := traverse_fold ntk leaves pivots rank id fuel
    (traverse_spec ntk leaves pivots rank hacyc fuel) pivots _
    (prefix_inv_view_inv pivots l1 l2) hb
    (fun p hp => ⟨hfuel p hp, fun hnb => cone_reach.root p hp hnb⟩)
  refine ⟨v4, ?_, i4, fun m hm => view_ext_mem x4 (hb m hm), m4⟩
  unfold partition_view.construct
  simp only [id] at e4
  simp only [e4, Option.map_some']

/-- A node stored at a gate position is not a constant or declared input. -/
theorem gate_not_boundary {ntk : Ntk} {leaves pivots : List Nat} {v : partition_view}
    (hv : view_inv ntk leaves pivots v) {i n : Nat}
    (hi : v._num_constants + v._num_leaves ≤ i) (hn : v._nodes[i]? = some n) :
    ¬ view_boundary ntk leaves n := by
  have h := hv.gate_reach i n hi hn
  cases h with
  | root p _ hb => exact hb
  | step m f _ _ hb => exact hb

/-- The example network stores every gate behind its fan-ins. -/
theorem ntk_ex1_acyclic : ∀ n, ∀ f ∈ ntk_ex1.fanin n, id (get_node f) < id n := by
  intro n f hf
  simp only [ntk_ex1] at hf
  split_ifs at hf with h1 h2
  · subst h1
    simp only [List.mem_cons, List.mem_singleton, List.not_mem_nil, or_false] at hf
    rcases hf with rfl | rfl <;> simp [get_node]
  · subst h2
    simp only [List.mem_cons, List.mem_singleton, List.not_mem_nil, or_false] at hf
    rcases hf with rfl | rfl <;> simp [get_node]
  · simp at hf

/-- C2 (view topological soundness).  In a view built over an acyclic network,
every fan-in `f` of a node `n` stored at a gate position (local index at least
`num_constants + num_leaves`) is in the view and `node_to_index(f) <
node_to_index(n)`; this holds for fan-ins that are declared inputs as well, so in
particular `f` is a declared input or precedes `n` in the node sequence. -/
theorem view_topological_soundness (ntk : Ntk) (rank : Nat → Nat)
    (hacyc : ∀ n, ∀ f ∈ ntk.fanin n, rank (get_node f) < rank n)
    (leaves pivots : List Nat) (fuel : Nat) (hfuel : ∀ p ∈ pivots, rank p < fuel) :
    ∃ v, partition_view.construct ntk leaves pivots fuel = some v ∧
      ∀ i n, v._num_constants + v._num_leaves ≤ i → v.index_to_node i = some n →
        ∀ f ∈ ntk.fanin n, ∃ j k, v.node_to_index (get_node f) = some j ∧
          v.node_to_index n = some k ∧ j < k := by
  obtain ⟨v4, e, hv, _, _⟩ := construct_spec ntk rank hacyc leaves pivots fuel hfuel
  obtain ⟨f1, f2, f3, f4⟩ := view_finish_fields pivots v4
  refine ⟨_, e, ?_⟩
  intro i n hi hn f hf
  unfold partition_view.index_to_node at hn
  unfold partition_view.node_to_index
  rw [List.get?_eq_getElem?, f1] at hn
  rw [f3, f4] at hi
  rw [f2]
  obtain ⟨j, hj, hj2⟩ := hv.fanin_before i n hi hn f hf
  exact ⟨j, i, (hv.index_iff _ _).2 hj2, (hv.index_iff _ _).2 hn, hj⟩

/-- Instance of C2 on the example network with declared inputs 1, 2 and declared
output 4: the fan-in 3 of gate 4 precedes it. -/
theorem view_topological_soundness_witness :
    ∃ v, partition_view.construct ntk_ex1 [1, 2] [4] 5 = some v ∧
      ∀ i n, v._num_constants + v._num_leaves ≤ i → v.index_to_node i = some n →
        ∀ f ∈ ntk_ex1.fanin n, ∃ j k, v.node_to_index (get_node f) = some j ∧
          v.node_to_index n = some k ∧ j < k :=
  view_topological_soundness ntk_ex1 id ntk_ex1_acyclic [1, 2] [4] 5 (by decide)

/-- C9 (index translation is a bijection).  In a view built over an acyclic
network no node appears twice in the node sequence; `node_to_index(index_to_node(i))
= i` for every local index `i < size()`, and `index_to_node(node_to_index(n)) = n`
for every node `n` of the view. -/
theorem view_index_bijection (ntk : Ntk) (rank : Nat → Nat)
    (hacyc : ∀ n, ∀ f ∈ ntk.fanin n, rank (get_node f) < rank n)
    (leaves pivots : List Nat) (fuel : Nat) (hfuel : ∀ p ∈ pivots, rank p < fuel) :
    ∃ v, partition_view.construct ntk leaves pivots fuel = some v ∧ v._nodes.Nodup ∧
      (∀ i, i < v.size → ∃ n, v.index_to_node i = some n ∧ v.node_to_index n = some i) ∧
      (∀ n, n ∈ v._nodes → ∃ i, v.node_to_index n = some i ∧ v.index_to_node i = some n) := by
  obtain ⟨v4, e, hv, _, _⟩ := construct_spec ntk rank hacyc leaves pivots fuel hfuel
  obtain ⟨f1, f2, f3, f4⟩ := view_finish_fields pivots v4
  refine ⟨_, e, ?_, ?_, ?_⟩
  · rw [f1]; exact hv.nodup
  · intro i hi
    unfold partition_view.size at hi
    unfold partition_view.index_to_node partition_view.node_to_index
    rw [f1] at hi
    rw [List.get?_eq_getElem?, f1, f2]
    refine ⟨v4._nodes[i], List.getElem?_eq_getElem hi, ?_⟩
    exact (hv.index_iff _ _).2 (List.getElem?_eq_getElem hi)
  · intro n hn
    unfold partition_view.index_to_node partition_view.node_to_index
    rw [f1] at hn
    obtain ⟨i, hi⟩ := List.getElem?_of_mem hn
    refine ⟨i, ?_, ?_⟩
    · rw [f2]; exact (hv.index_iff _ _).2 hi
    · rw [List.get?_eq_getElem?, f1]; exact hi

/-- Instance of C9 on the example network. -/
theorem view_index_bijection_witness :
    ∃ v, partition_view.construct ntk_ex1 [1, 2] [4] 5 = some v ∧ v._nodes.Nodup ∧
      (∀ i, i < v.size → ∃ n, v.index_to_node i = some n ∧ v.node_to_index n = some i) ∧
      (∀ n, n ∈ v._nodes → ∃ i, v.node_to_index n = some i ∧ v.index_to_node i = some n) :=
  view_index_bijection ntk_ex1 id ntk_ex1_acyclic [1, 2] [4] 5 (by decide)

/-- C10 (view membership).  In a view built over an acyclic network a node is
stored at a gate position if and only if it is neither a constant nor a declared
input and is reachable from a declared output along fan-in edges by a path that
passes through no declared input and no constant (`cone_reach`); hence no fan-in
of a declared input is added on account of that input. -/
theorem view_membership (ntk : Ntk) (rank : Nat → Nat)
    (hacyc : ∀ n, ∀ f ∈ ntk.fanin n, rank (get_node f) < rank n)
    (leaves pivots : List Nat) (fuel : Nat) (hfuel : ∀ p ∈ pivots, rank p < fuel) :
    ∃ v, partition_view.construct ntk leaves pivots fuel = some v ∧
      ∀ n, (∃ i, v._num_constants + v._num_leaves ≤ i ∧ v.index_to_node i = some n) ↔
        (¬ view_boundary ntk leaves n ∧ cone_reach ntk leaves pivots n) := by
  obtain ⟨v4, e, hv, hb, hp⟩ := construct_spec ntk rank hacyc leaves pivots fuel hfuel
  obtain ⟨f1, f2, f3, f4⟩ := view_finish_fields pivots v4
  refine ⟨_, e, fun n => ?_⟩
  unfold partition_view.index_to_node
  simp only [List.get?_eq_getElem?, f1, f3, f4]
  have gate_of_mem : ∀ m, m ∈ v4._nodes → ¬ view_boundary ntk leaves m →
      ∃ i, v4._num_constants + v4._num_leaves ≤ i ∧ v4._nodes[i]? = some m := by
    intro m hm hnb
    obtain ⟨i, hi⟩ := List.getElem?_of_mem hm
    refine ⟨i, ?_, hi⟩
    by_contra hlt
    exact hnb (hv.boundary i m (not_le.1 hlt) hi)
  constructor
  · rintro ⟨i, hi, hn⟩
    exact ⟨gate_not_boundary hv hi hn, hv.gate_reach i n hi hn⟩
  · rintro ⟨-, hr⟩
    induction hr with
    | root p hpm hnb => exact gate_of_mem p (hp p hpm) hnb
    | step m f _ hf hnb ih =>
      obtain ⟨i, hi, hm⟩ := ih
      obtain ⟨j, _, hj⟩ := hv.fanin_before i m hi hm f hf
      exact gate_of_mem _ (List.getElem?_mem hj) hnb

/-- Instance of C10 on the example network with declared inputs 2, 3 and
declared output 4: input 1, a fan-in of the declared input 3, is not in the view. -/
theorem view_membership_witness :
    ∃ v, partition_view.construct ntk_ex1 [2, 3] [4] 5 = some v ∧
      ∀ n, (∃ i, v._num_constants + v._num_leaves ≤ i ∧ v.index_to_node i = some n) ↔
        (¬ view_boundary ntk_ex1 [2, 3] n ∧ cone_reach ntk_ex1 [2, 3] [4] n) :=
  view_membership ntk_ex1 id ntk_ex1_acyclic [2, 3] [4] 5 (by decide)

theorem mem_foldl_insert (l init : List Nat) (a : Nat) :
    a ∈ l.foldl (fun acc x => set_insert x acc) init ↔ a ∈ init ∨ a ∈ l := by
  induction l generalizing init with
  | nil => simp
  | cons y ys ih =>
    simp only [List.foldl_cons, ih, mem_set_insert, List.mem_cons]
    tauto

theorem mem_set_union (x y : List Nat) (a : Nat) : a ∈ set_union x y ↔ a ∈ x ∨ a ∈ y := by
  unfold set_union
  rw [mem_foldl_insert, mem_foldl_insert]
  simp

theorem mem_set_erase (x : Nat) (s : List Nat) (a : Nat) : a ∈ set_erase x s ↔ a ∈ s ∧ a ≠ x := by
  unfold set_erase
  simp

theorem mem_shared_inner (i : Nat) (l acc : List Nat) (a : Nat) :
    a ∈ l.foldl (fun acc j => if i = j then set_insert i acc else acc) acc ↔
      a ∈ acc ∨ (a = i ∧ i ∈ l) := by
  induction l generalizing acc with
  | nil => simp
  | cons y ys ih =>
    simp only [List.foldl_cons, ih, List.mem_cons]
    by_cases h : i = y
    · simp only [h, if_true, mem_set_insert]
      subst h
      tauto
    · simp only [h, if_false, false_or]

theorem mem_shared_outer (l1 l2 acc : List Nat) (a : Nat) :
    a ∈ l1.foldl (fun acc i =>
      l2.foldl (fun acc j => if i = j then set_insert i acc else acc) acc) acc ↔
      a ∈ acc ∨ (a ∈ l1 ∧ a ∈ l2) := by
  induction l1 generalizing acc with
  | nil => simp
  | cons y ys ih =>
    simp only [List.foldl_cons, ih, mem_shared_inner, List.mem_cons]
    constructor
    · rintro ((h | ⟨h1, h2⟩) | ⟨h1, h2⟩)
      · exact Or.inl h
      · subst h1; exact Or.inr ⟨Or.inl rfl, h2⟩
      · exact Or.inr ⟨Or.inr h1, h2⟩
    · rintro (h | ⟨h1 | h1, h2⟩)
      · exact Or.inl (Or.inl h)
      · subst h1; exact Or.inl (Or.inr ⟨rfl, h2⟩)
      · exact Or.inr ⟨h1, h2⟩

/-- Membership in the set returned by `get_shared_io`. -/
theorem mem_get_shared_io (pm : partition_manager) (p1 p2 : Int) (a : Nat) :
    a ∈ pm.get_shared_io p1 p2 ↔
      (a ∈ pm.partitionInputs p1 ∧ a ∈ pm.partitionOutputs p2) ∨
      (a ∈ pm.partitionOutputs p1 ∧ a ∈ pm.partitionInputs p2) := by
  unfold partition_manager.get_shared_io
  simp only [mem_shared_outer, List.not_mem_nil, false_or]

/-- Effect of the last loop of `combine_partitions` on the two merged sets. -/
theorem merge_loop_sets (ntk : Ntk) (h : List Nat) (s : merge_state) (a : Nat) :
    (a ∈ (h.foldl (merge_shared ntk) s).merged_inputs ↔
      a ∈ s.merged_inputs ∧ (a ∈ h → ntk.is_pi a = true)) ∧
    (a ∈ (h.foldl (merge_shared ntk) s).merged_outputs ↔
      a ∈ s.merged_outputs ∧ (a ∈ h → ntk.is_po a = true)) := by
  induction h generalizing s with
  | nil => simp
  | cons y ys ih =>
    obtain ⟨h1, h2⟩ := ih (merge_shared ntk s y)
    simp only [List.foldl_cons, h1, h2, List.mem_cons]
    constructor
    · show (a ∈ (if !ntk.is_pi y then set_erase y s.merged_inputs else s.merged_inputs) ∧ _) ↔ _
      cases hp : ntk.is_pi y
      · simp only [Bool.not_false, if_true, mem_set_erase]
        constructor
        · rintro ⟨⟨q1, q2⟩, q3⟩
          exact ⟨q1, fun q => q.elim (fun e => absurd e q2) q3⟩
        · rintro ⟨q1, q2⟩
          have hay : a ≠ y := by
            intro e; subst e
            have := q2 (Or.inl rfl)
            rw [hp] at this; exact absurd this (by simp)
          exact ⟨⟨q1, hay⟩, fun q => q2 (Or.inr q)⟩
      · simp only [Bool.not_true, if_false, Bool.false_eq_true]
        constructor
        · rintro ⟨q1, q3⟩
          exact ⟨q1, fun q => q.elim (fun e => e ▸ hp) q3⟩
        · rintro ⟨q1, q2⟩
          exact ⟨q1, fun q => q2 (Or.inr q)⟩
    · show (a ∈ (if !ntk.is_po y then set_erase y s.merged_outputs else s.merged_outputs) ∧ _) ↔ _
      cases hp : ntk.is_po y
      · simp only [Bool.not_false, if_true, mem_set_erase]
        constructor
        · rintro ⟨⟨q1, q2⟩, q3⟩
          exact ⟨q1, fun q => q.elim (fun e => absurd e q2) q3⟩
        · rintro ⟨q1, q2⟩
          have hay : a ≠ y := by
            intro e; subst e
            have := q2 (Or.inl rfl)
            rw [hp] at this; exact absurd this (by simp)
          exact ⟨⟨q1, hay⟩, fun q => q2 (Or.inr q)⟩
      · simp only [Bool.not_true, if_false, Bool.false_eq_true]
        constructor
        · rintro ⟨q1, q3⟩
          exact ⟨q1, fun q => q.elim (fun e => e ▸ hp) q3⟩
        · rintro ⟨q1, q2⟩
          exact ⟨q1, fun q => q2 (Or.inr q)⟩

/-- The two sets returned by `combine_partitions`. -/
theorem combine_partitions_sets (pm : partition_manager) (ntk : Ntk) (p1 p2 : Int) (a : Nat) :
    ∃ I O, (pm.combine_partitions ntk p1 p2).2 = [I, O] ∧
      (a ∈ I ↔ (a ∈ pm.partitionInputs p1 ∨ a ∈ pm.partitionInputs p2) ∧ a ≠ 0 ∧
        (a ∈ pm.get_shared_io p1 p2 ∨ a ∈ pm.combined_deleted_nodes p1 → ntk.is_pi a = true)) ∧
      (a ∈ O ↔ (a ∈ pm.partitionOutputs p1 ∨ a ∈ pm.partitionOutputs p2) ∧
        (a ∈ pm.get_shared_io p1 p2 ∨ a ∈ pm.combined_deleted_nodes p1 → ntk.is_po a = true)) := by
  refine ⟨_, _, rfl, ?_, ?_⟩
  · rw [(merge_loop_sets ntk _ _ a).1]
    simp only [mem_set_erase, mem_set_union, Ntk.index_to_node, and_assoc]
  · rw [(merge_loop_sets ntk _ _ a).2]
    simp only [mem_set_union]

/-- An invariant kept by every step of a fold in `Option` holds at its end. -/
theorem foldlM_inv {α β : Type} (f : β → α → Option β) (J : β → Prop)
    (hstep : ∀ b a b', J b → f b a = some b' → J b') :
    ∀ (l : List α) (b b' : β), J b → l.foldlM f b = some b' → J b' := by
  intro l
  induction l with
  | nil => intro b b' hb h; simp at h; subst h; exact hb
  | cons a l ih =>
    intro b b' hb h
    simp only [List.foldlM_cons, Option.bind_eq_bind, Option.bind_eq_some] at h
    obtain ⟨b1, h1, h2⟩ := h
    exact ih _ _ (hstep _ _ _ hb h1) h2

theorem tables_sound_add_pis {ntk : Ntk} {part : Nat → Int} {t : part_tables}
    (h : tables_sound ntk part t) (sc : List (List Nat)) (p : Int) (n : Nat)
    (hn : p = part n → ntk.is_pi n = true ∨ ntk.is_ro n = true) :
    tables_sound ntk part { t with _part_scope := sc, _part_pis := t._part_pis ++ [(p, n)] } := by
  refine ⟨h.1, fun q m hm hq => ?_⟩
  simp only [List.mem_append, List.mem_singleton, Prod.mk.injEq] at hm
  rcases hm with hm | ⟨rfl, rfl⟩
  · exact h.2 q m hm hq
  · exact hn hq

theorem tables_sound_add_pos {ntk : Ntk} {part : Nat → Int} {t : part_tables}
    (h : tables_sound ntk part t) (sc : List (List Nat)) (n : Nat) :
    tables_sound ntk part { t with _part_scope := sc, _part_pos := t._part_pos ++ [(part n, n)] } := by
  refine ⟨fun q m hm => ?_, h.2⟩
  simp only [List.mem_append, List.mem_singleton, Prod.mk.injEq] at hm
  rcases hm with hm | ⟨rfl, rfl⟩
  · exact h.1 q m hm
  · rfl

theorem tables_sound_scope {ntk : Ntk} {part : Nat → Int} {t : part_tables}
    (h : tables_sound ntk part t) (sc : List (List Nat)) :
    tables_sound ntk part { t with _part_scope := sc } := ⟨h.1, h.2⟩

theorem crossing_edge_sound {ntk : Ntk} {partition : Nat → Option Int} {c : Nat}
    {t t' : part_tables} {conn : signal} (hs : tables_sound ntk (map_at partition) t)
    (h : crossing_edge ntk (fun n => some (map_at partition n)) c t conn = some t') :
    tables_sound ntk (map_at partition) t' := by
  unfold crossing_edge at h
  simp only [Ntk.index_to_node, Option.bind_eq_some, Option.some.injEq] at h
  obtain ⟨pn, hpn, pc, hpc, h⟩ := h
  subst hpn hpc
  split_ifs at h with hc
  · simp only [Option.map_eq_some'] at h
    obtain ⟨sc, _, rfl⟩ := h
    have h1 := tables_sound_add_pis hs sc (map_at partition c) conn.index
      (fun e => absurd e.symm hc.1)
    exact tables_sound_add_pos h1 sc conn.index
  · simp only [Option.some.injEq] at h; subst h; exact hs

theorem classify_node_sound {ntk : Ntk} {partition : Nat → Option Int} {t t' : part_tables}
    {c : Nat} (hs : tables_sound ntk (map_at partition) t)
    (h : classify_node ntk partition t c = some t') :
    tables_sound ntk (map_at partition) t' := by
  unfold classify_node at h
  simp only [Option.bind_eq_some] at h
  obtain ⟨t1, h1, t2, h2, h3⟩ := h
  have s1 : tables_sound ntk (map_at partition) t1 := by
    unfold classify_pi at h1
    split_ifs at h1 with hc
    · simp only [Option.map_eq_some'] at h1
      obtain ⟨sc, _, rfl⟩ := h1
      exact tables_sound_add_pis hs sc _ c (fun _ => Or.inl hc)
    · simp only [Option.some.injEq] at h1; subst h1; exact hs
  have s2 : tables_sound ntk (map_at partition) t2 := by
    unfold classify_kind at h2
    split_ifs at h2 with hc1 hc2 hc3 hc4
    · simp only [Option.map_eq_some'] at h2
      obtain ⟨sc, _, rfl⟩ := h2
      have hro : ntk.is_ro c = true := by simp at hc1; exact hc1.1
      exact tables_sound_add_pos (tables_sound_add_pis s1 sc _ c (fun _ => Or.inr hro)) sc c
    · simp only [Option.map_eq_some'] at h2
      obtain ⟨sc, _, rfl⟩ := h2
      have hro : ntk.is_ro c = true := by simp at hc1; exact hc1.1
      exact tables_sound_add_pis s1 sc _ c (fun _ => Or.inr hro)
    · simp only [Option.map_eq_some'] at h2
      obtain ⟨sc, _, rfl⟩ := h2
      exact tables_sound_add_pos s1 sc c
    · simp only [Option.map_eq_some'] at h2
      obtain ⟨sc, _, rfl⟩ := h2
      exact tables_sound_scope s1 sc
    · simp only [Option.some.injEq] at h2; subst h2; exact s1
  unfold classify_fanins at h3
  split_ifs at h3
  · exact foldlM_inv _ (tables_sound ntk (map_at partition))
      (fun _ _ _ hb hstep => crossing_edge_sound hb hstep) _ _ _ s2 h3
  · simp only [Option.some.injEq] at h3; subst h3; exact s2

/-- The boundary sets of a ledger built from an assignment only hold entries of
the multimaps, and these are sound. -/
theorem from_map_sound {ntk : Ntk} {partition : Nat → Option Int} {part_num : Int}
    {pm : partition_manager} (h : partition_manager.from_map ntk partition part_num = some pm) :
    ∃ t, tables_sound ntk (map_at partition) t ∧
      (∀ p n, n ∈ pm.partitionInputs p → (p, n) ∈ t._part_pis) ∧
      (∀ p n, n ∈ pm.partitionOutputs p → (p, n) ∈ t._part_pos) := by
  unfold partition_manager.from_map at h
  simp only [Option.map_eq_some'] at h
  obtain ⟨t, ht, rfl⟩ := h
  refine ⟨t, ?_, ?_, ?_⟩
  · refine foldlM_inv _ (tables_sound ntk (map_at partition))
      (fun _ _ _ hb hstep => classify_node_sound hb hstep) _ _ _ ?_ ht
    exact ⟨fun p n hm => by simp [part_tables.empty] at hm,
      fun p n hm => by simp [part_tables.empty] at hm⟩
  · intro p n hn
    obtain ⟨_, h2, _⟩ := finish_loop_spec finish_from_map finish_from_map_fields
      (part_ids part_num) (partition_manager.init part_num t)
    rw [h2 p] at hn
    split_ifs at hn
    · exact (mem_create_part_set _ _ _).1 hn
    · simp [partition_manager.init] at hn
  · intro p n hn
    obtain ⟨_, _, h3⟩ := finish_loop_spec finish_from_map finish_from_map_fields
      (part_ids part_num) (partition_manager.init part_num t)
    rw [h3 p] at hn
    split_ifs at hn
    · exact (mem_create_part_set _ _ _).1 hn
    · simp [partition_manager.init] at hn

/-- The ledger of the sequential example and the sets returned by merging its
partitions 0 and 1. -/
theorem ntk_ex2_merge :
    ∃ pm, partition_manager.from_map ntk_ex2 part_ex2 3 = some pm ∧
      (pm.combine_partitions ntk_ex2 0 1).2 = [[1, 2], [1, 2]] := by
  have h : (partition_manager.from_map ntk_ex2 part_ex2 3).isSome = true := by decide
  obtain ⟨pm, hpm⟩ := Option.isSome_iff_exists.1 h
  refine ⟨pm, hpm, ?_⟩
  have h2 : (partition_manager.from_map ntk_ex2 part_ex2 3).map
      (fun pm => (pm.combine_partitions ntk_ex2 0 1).2) = some [[1, 2], [1, 2]] := by decide
  rw [hpm] at h2
  exact Option.some.inj h2

/-- C6 as stated fails: in the sequential example the register output 1 is
both an input and an output of its own partition 0 (it feeds gate 3 of partition
2); after `combine_partitions(0, 1)` it is in the merged inputs and in the merged
outputs although it is neither a primary input nor a primary output. -/
theorem merge_boundaries_counterexample :
    ∃ pm, partition_manager.from_map ntk_ex2 part_ex2 3 = some pm ∧
      1 ∈ (pm.combine_partitions ntk_ex2 0 1).2.getD 0 [] ∧
      1 ∈ (pm.combine_partitions ntk_ex2 0 1).2.getD 1 [] ∧
      ¬ (ntk_ex2.is_pi 1 = true ∨ ntk_ex2.is_po 1 = true) := by
  obtain ⟨pm, hpm, hc⟩ := ntk_ex2_merge
  exact ⟨pm, hpm, by rw [hc]; decide, by rw [hc]; decide, by decide⟩

/-- C6, amended (merge idempotence on boundaries).  For a ledger built from an
assignment and any two partitions `p1`, `p2`, every node that is in both sets
returned by `combine_partitions(p1, p2)` is a primary input or a register output
of the network: no gate of the merged scope remains in both. -/
theorem merge_boundaries (ntk : Ntk) (partition : Nat → Option Int) (part_num : Int)
    (pm : partition_manager)
    (hpm : partition_manager.from_map ntk partition part_num = some pm) (p1 p2 : Int) (n : Nat)
    (hin : n ∈ ((pm.combine_partitions ntk p1 p2).2.getD 0 []))
    (hout : n ∈ ((pm.combine_partitions ntk p1 p2).2.getD 1 [])) :
    ntk.is_pi n = true ∨ ntk.is_ro n = true := by
  obtain ⟨t, hs, hi, ho⟩ := from_map_sound hpm
  obtain ⟨I, O, e, hI, hO⟩ := combine_partitions_sets pm ntk p1 p2 n
  rw [e] at hin hout
  simp only [List.getD_cons_zero, List.getD_cons_succ] at hin hout
  obtain ⟨hi1, _, hi3⟩ := hI.1 hin
  obtain ⟨ho1, ho3⟩ := hO.1 hout
  have same : ∀ p, n ∈ pm.partitionInputs p → n ∈ pm.partitionOutputs p →
      ntk.is_pi n = true ∨ ntk.is_ro n = true := by
    intro p a b
    exact hs.2 p n (hi p n a) (hs.1 p n (ho p n b))
  rcases hi1 with a | a <;> rcases ho1 with b | b
  · exact same p1 a b
  · exact Or.inl (hi3 (Or.inl ((mem_get_shared_io pm p1 p2 n).2 (Or.inl ⟨a, b⟩))))
  · exact Or.inl (hi3 (Or.inl ((mem_get_shared_io pm p1 p2 n).2 (Or.inr ⟨b, a⟩))))
  · exact same p2 a b

/-- Instance of the amended C6 on the sequential example: node 1, which stays
in both merged sets of partitions 0 and 1, is a register output. -/
theorem merge_boundaries_witness :
    ∃ pm, partition_manager.from_map ntk_ex2 part_ex2 3 = some pm ∧
      (ntk_ex2.is_pi 1 = true ∨ ntk_ex2.is_ro 1 = true) := by
  obtain ⟨pm, hpm, hc⟩ := ntk_ex2_merge
  exact ⟨pm, hpm, merge_boundaries ntk_ex2 part_ex2 3 pm hpm 0 1 1
    (by rw [hc]; decide) (by rw [hc]; decide)⟩

theorem to_binary_loop_append : ∀ (dec fuel : Nat) (bin : List Char), dec ≤ fuel →
    to_binary_loop fuel dec bin = to_binary_loop dec dec [] ++ bin := by
  intro dec
  induction dec using Nat.strong_induction_on with
  | _ dec ih =>
    intro fuel bin hf
    rcases Nat.eq_zero_or_pos dec with h0 | hpos
    · subst h0
      cases fuel <;> simp [to_binary_loop]
    · obtain ⟨fuel', rfl⟩ : ∃ f, fuel = f + 1 := ⟨fuel - 1, by omega⟩
      obtain ⟨dec', rfl⟩ : ∃ d, dec = d + 1 := ⟨dec - 1, by omega⟩
      have hlt : (dec' + 1) / 2 < dec' + 1 := Nat.div_lt_self (by omega) (by omega)
      have hne : dec' + 1 ≠ 0 := by omega
      simp only [to_binary_loop, ne_eq, hne, not_false_eq_true, if_true]
      rw [ih _ hlt fuel' _ (by omega), ih _ hlt dec' _ (by omega)]
      simp

/-- One round of `to_binary`: the digits of `dec / 2` followed by the last digit. -/
theorem to_binary_succ (dec : Nat) (h : dec ≠ 0) :
    to_binary dec = to_binary (dec / 2) ++ [if dec % 2 = 0 then '0' else '1'] := by
  obtain ⟨d, rfl⟩ : ∃ d, dec = d + 1 := ⟨dec - 1, by omega⟩
  unfold to_binary
  have hlt : (d + 1) / 2 < d + 1 := Nat.div_lt_self (by omega) (by omega)
  simp only [to_binary_loop, ne_eq, h, not_false_eq_true, if_true]
  rw [to_binary_loop_append _ d _ (by omega)]

theorem to_binary_zero : to_binary 0 = [] := rfl

theorem stoi2_append (s : List Char) (c : Char) :
    stoi2 (s ++ [c]) = 2 * stoi2 s + (if c = '1' then 1 else 0) := by
  unfold stoi2
  rw [List.foldl_append]
  rfl

theorem stoi2_to_binary : ∀ m, stoi2 (to_binary m) = m := by
  intro m
  induction m using Nat.strong_induction_on with
  | _ m ih =>
    rcases Nat.eq_zero_or_pos m with h0 | hpos
    · subst h0; rfl
    · rw [to_binary_succ m (by omega), stoi2_append, ih _ (Nat.div_lt_self hpos (by omega))]
      have hc : ('0' : Char) ≠ '1' := by decide
      by_cases h1 : m % 2 = 0
      · simp only [h1, if_true, hc, if_false]; omega
      · simp only [h1, if_false, if_true]; omega

theorem is_bin_to_binary : ∀ m, is_bin (to_binary m) := by
  intro m
  induction m using Nat.strong_induction_on with
  | _ m ih =>
    rcases Nat.eq_zero_or_pos m with h0 | hpos
    · subst h0; intro c hc; simp [to_binary_zero] at hc
    · rw [to_binary_succ m (by omega)]
      intro c hc
      rcases List.mem_append.1 hc with hc | hc
      · exact ih _ (Nat.div_lt_self hpos (by omega)) c hc
      · rw [List.mem_singleton] at hc
        subst hc
        split_ifs
        · exact Or.inl rfl
        · exact Or.inr rfl

theorem to_binary_length : ∀ k m, m < 2 ^ k → (to_binary m).length ≤ k := by
  intro k
  induction k with
  | zero =>
    intro m hm
    have : m = 0 := by simpa using hm
    subst this; simp [to_binary_zero]
  | succ k ih =>
    intro m hm
    rcases Nat.eq_zero_or_pos m with h0 | hpos
    · subst h0; simp [to_binary_zero]
    · rw [to_binary_succ m (by omega)]
      have : m / 2 < 2 ^ k := by
        rw [Nat.div_lt_iff_lt_mul (by omega)]
        rw [pow_succ] at hm; exact hm
      have := ih _ this
      simp; omega

theorem stoi2_zeros (n : Nat) (s : List Char) : stoi2 (List.replicate n '0' ++ s) = stoi2 s := by
  unfold stoi2
  rw [List.foldl_append]
  have : List.foldl (fun acc c => 2 * acc + (if c = '1' then 1 else 0)) 0 (List.replicate n '0') = 0 := by
    induction n with
    | zero => rfl
    | succ n ih =>
      rw [List.replicate_succ']
      rw [List.foldl_append, ih]
      have hc : ('0' : Char) ≠ '1' := by decide
      simp [hc]
  rw [this]

/-- The address string of an assignment below `2 ^ k`. -/
theorem km_address_eq (k m : Nat) (hm : m < 2 ^ k) :
    pad_reverse k (to_binary m) = some (km_address k m) ∧ (km_address k m).length = k ∧
    is_bin (km_address k m) ∧ stoi2 (km_address k m).reverse = m := by
  have hl := to_binary_length k m hm
  have e : pad_reverse k (to_binary m) =
      some (List.replicate (k - (to_binary m).length) '0' ++ to_binary m).reverse := by
    unfold pad_reverse; rw [if_pos hl]
  have e2 : km_address k m = (List.replicate (k - (to_binary m).length) '0' ++ to_binary m).reverse := by
    unfold km_address; rw [e]; rfl
  refine ⟨by rw [e, e2], ?_, ?_, ?_⟩
  · rw [e2]; simp; omega
  · rw [e2]
    intro c hc
    simp only [List.mem_reverse, List.mem_append, List.mem_replicate] at hc
    rcases hc with ⟨_, hc⟩ | hc
    · exact Or.inl hc
    · exact is_bin_to_binary m c hc
  · rw [e2, List.reverse_reverse, stoi2_zeros, stoi2_to_binary]

theorem km_address_inj (k m m' : Nat) (hm : m < 2 ^ k) (hm' : m' < 2 ^ k)
    (h : km_address k m = km_address k m') : m = m' := by
  have h1 := (km_address_eq k m hm).2.2.2
  have h2 := (km_address_eq k m' hm').2.2.2
  rw [h] at h1
  exact h1.symm.trans h2

theorem flip_ne (c : Char) : flip c ≠ c := by
  unfold flip
  split_ifs with h
  · rw [h]; decide
  · exact fun e => h e.symm

theorem flip_bin (c : Char) : flip c = '0' ∨ flip c = '1' := by
  unfold flip
  split_ifs
  · exact Or.inr rfl
  · exact Or.inl rfl

theorem graytoBinary_loop_length (prev : Char) (s : List Char) :
    (graytoBinary_loop prev s).length = s.length := by
  induction s generalizing prev with
  | nil => rfl
  | cons c cs ih => simp [graytoBinary_loop, ih]

theorem graytoBinary_loop_bin (prev : Char) (hp : prev = '0' ∨ prev = '1') (s : List Char) :
    is_bin (graytoBinary_loop prev s) := by
  induction s generalizing prev with
  | nil => intro c hc; simp [graytoBinary_loop] at hc
  | cons c cs ih =>
    have hb : (if c = '0' then prev else flip prev) = '0' ∨
        (if c = '0' then prev else flip prev) = '1' := by
      split_ifs
      · exact hp
      · exact flip_bin prev
    intro x hx
    simp only [graytoBinary_loop, List.mem_cons] at hx
    rcases hx with hx | hx
    · rw [hx]; exact hb
    · exact ih _ hb x hx

theorem graytoBinary_loop_inj (prev : Char) (s s' : List Char) (hs : is_bin s) (hs' : is_bin s')
    (hl : s.length = s'.length) (h : graytoBinary_loop prev s = graytoBinary_loop prev s') :
    s = s' := by
  induction s generalizing prev s' with
  | nil =>
    cases s' with
    | nil => rfl
    | cons _ _ => simp at hl
  | cons c cs ih =>
    cases s' with
    | nil => simp at hl
    | cons c' cs' =>
      simp only [graytoBinary_loop, List.cons.injEq] at h
      obtain ⟨h1, h2⟩ := h
      have hcc : c = c' := by
        have hc := hs c (List.mem_cons_self _ _)
        have hc' := hs' c' (List.mem_cons_self _ _)
        have h01 : ('1' : Char) ≠ '0' := by decide
        rcases hc with rfl | rfl <;> rcases hc' with rfl | rfl
        · rfl
        · simp only [if_true, h01, if_false] at h1
          exact absurd h1.symm (flip_ne prev)
        · simp only [if_true, h01, if_false] at h1
          exact absurd h1 (flip_ne prev)
        · rfl
      subst hcc
      rw [ih _ cs' (fun x hx => hs x (List.mem_cons_of_mem _ hx))
        (fun x hx => hs' x (List.mem_cons_of_mem _ hx)) (by simpa using hl) h2]

/-- On non-empty strings of binary digits `graytoBinary` keeps the length, yields
binary digits and is injective. -/
theorem graytoBinary_props (s : List Char) (hs : is_bin s) (hne : s ≠ []) :
    (graytoBinary s).length = s.length ∧ is_bin (graytoBinary s) ∧
    ∀ s', is_bin s' → s'.length = s.length → graytoBinary s' = graytoBinary s → s' = s := by
  cases s with
  | nil => exact absurd rfl hne
  | cons g gs =>
    have hg := hs g (List.mem_cons_self _ _)
    refine ⟨by simp [graytoBinary, graytoBinary_loop_length], ?_, ?_⟩
    · intro x hx
      simp only [graytoBinary, List.headD_cons, List.tail_cons, List.mem_cons] at hx
      rcases hx with hx | hx
      · rw [hx]; exact hg
      · exact graytoBinary_loop_bin g hg gs x hx
    · intro s' hs' hl h
      cases s' with
      | nil => simp at hl
      | cons g' gs' =>
        simp only [graytoBinary, List.headD_cons, List.tail_cons, List.cons.injEq] at h
        obtain ⟨h1, h2⟩ := h
        subst h1
        rw [graytoBinary_loop_inj g' gs' gs (fun x hx => hs' x (List.mem_cons_of_mem _ hx))
          (fun x hx => hs x (List.mem_cons_of_mem _ hx)) (by simpa using hl) h2]

theorem stoi2_foldl (acc : Nat) (s : List Char) :
    s.foldl (fun acc c => 2 * acc + (if c = '1' then 1 else 0)) acc =
      acc * 2 ^ s.length + stoi2 s := by
  unfold stoi2
  induction s generalizing acc with
  | nil => simp
  | cons c cs ih =>
    simp only [List.foldl_cons, List.length_cons]
    rw [ih (2 * acc + _), ih (2 * 0 + _)]
    ring

theorem stoi2_cons (c : Char) (cs : List Char) :
    stoi2 (c :: cs) = (if c = '1' then 1 else 0) * 2 ^ cs.length + stoi2 cs := by
  conv_lhs => unfold stoi2
  simp only [List.foldl_cons]
  rw [stoi2_foldl]
  simp

theorem stoi2_lt (s : List Char) : stoi2 s < 2 ^ s.length := by
  induction s with
  | nil => simp [stoi2]
  | cons c cs ih =>
    rw [stoi2_cons, List.length_cons, pow_succ]
    split_ifs <;> omega

theorem stoi2_inj (s s' : List Char) (hs : is_bin s) (hs' : is_bin s')
    (hl : s.length = s'.length) (h : stoi2 s = stoi2 s') : s = s' := by
  induction s generalizing s' with
  | nil =>
    cases s' with
    | nil => rfl
    | cons _ _ => simp at hl
  | cons c cs ih =>
    cases s' with
    | nil => simp at hl
    | cons c' cs' =>
      have hl' : cs.length = cs'.length := by simpa using hl
      rw [stoi2_cons, stoi2_cons, hl'] at h
      have b1 := stoi2_lt cs
      have b2 := stoi2_lt cs'
      rw [hl'] at b1
      have hc := hs c (List.mem_cons_self _ _)
      have hc' := hs' c' (List.mem_cons_self _ _)
      have h01 : ('0' : Char) ≠ '1' := by decide
      have hcc : c = c' ∧ stoi2 cs = stoi2 cs' := by
        rcases hc with rfl | rfl <;> rcases hc' with rfl | rfl
        · simp only [h01, if_false, zero_mul, zero_add] at h; exact ⟨rfl, h⟩
        · simp only [h01, if_false, zero_mul, zero_add, if_true, one_mul] at h; omega
        · simp only [h01, if_false, zero_mul, zero_add, if_true, one_mul] at h; omega
        · simp only [if_true, one_mul] at h; exact ⟨rfl, by omega⟩
      rw [hcc.1, ih cs' (fun x hx => hs x (List.mem_cons_of_mem _ hx))
        (fun x hx => hs' x (List.mem_cons_of_mem _ hx)) hl' hcc.2]

/-- A coordinate computed from a non-empty string of binary digits determines
the string and is below `2 ^ length`. -/
theorem gray_coord (s : List Char) (hs : is_bin s) (hne : s ≠ []) :
    stoi2 (graytoBinary s) < 2 ^ s.length ∧
    ∀ s', is_bin s' → s'.length = s.length →
      stoi2 (graytoBinary s') = stoi2 (graytoBinary s) → s' = s := by
  obtain ⟨h1, h2, h3⟩ := graytoBinary_props s hs hne
  refine ⟨by rw [← h1]; exact stoi2_lt _, ?_⟩
  intro s' hs' hl h
  have hne' : s' ≠ [] := by
    intro e; rw [e] at hl
    exact hne (List.length_eq_zero.1 hl.symm)
  obtain ⟨g1, g2, _⟩ := graytoBinary_props s' hs' hne'
  exact h3 s' hs' hl (stoi2_inj _ _ g2 h2 (by rw [g1, h1, hl]) h)

theorem km_rows_columns (k : Nat) :
    km_rows k = (k + 1) / 2 ∧ km_columns k = k / 2 ∧ km_rows k + km_columns k = k := by
  unfold km_rows km_columns
  split_ifs <;> omega

/-- The coordinates of an assignment lie inside the grid and determine it. -/
theorem km_decode_props (k : Nat) (hk : 2 ≤ k) (m : Nat) (hm : m < 2 ^ k) :
    km_row k m < 2 ^ km_rows k ∧ km_col k m < 2 ^ km_columns k ∧
    ∀ m', m' < 2 ^ k → km_row k m' = km_row k m → km_col k m' = km_col k m → m' = m := by
  obtain ⟨hr, hc, hrc⟩ := km_rows_columns k
  have hr1 : 1 ≤ km_rows k := by rw [hr]; omega
  have hc1 : 1 ≤ km_columns k := by rw [hc]; omega
  have hrk : km_rows k ≤ k := by omega
  have props : ∀ x, x < 2 ^ k →
      ((km_address k x).take (km_rows k)).length = km_rows k ∧
      is_bin ((km_address k x).take (km_rows k)) ∧
      (((km_address k x).drop (km_rows k)).take ((km_address k x).length - 1)) =
        (km_address k x).drop (km_rows k) ∧
      ((km_address k x).drop (km_rows k)).length = km_columns k ∧
      is_bin ((km_address k x).drop (km_rows k)) := by
    intro x hx
    obtain ⟨_, hl, hb, _⟩ := km_address_eq k x hx
    refine ⟨by rw [List.length_take, hl]; omega,
      fun c hc => hb c (List.mem_of_mem_take hc), ?_, by rw [List.length_drop, hl]; omega,
      fun c hc => hb c (List.mem_of_mem_drop hc)⟩
    apply List.take_of_length_le
    rw [List.length_drop, hl]; omega
  obtain ⟨p1, p2, p3, p4, p5⟩ := props m hm
  have ne1 : (km_address k m).take (km_rows k) ≠ [] := by
    intro e; rw [e] at p1; simp at p1; omega
  have ne2 : (km_address k m).drop (km_rows k) ≠ [] := by
    intro e; rw [e] at p4; simp at p4; omega
  obtain ⟨b1, i1⟩ := gray_coord _ p2 ne1
  obtain ⟨b2, i2⟩ := gray_coord _ p5 ne2
  refine ⟨?_, ?_, ?_⟩
  · unfold km_row km_row_index; rw [p1] at b1; exact b1
  · unfold km_col km_col_index; rw [p3]; rw [p4] at b2; exact b2
  · intro m' hm' er ec
    obtain ⟨q1, q2, q3, q4, q5⟩ := props m' hm'
    unfold km_row km_row_index at er
    unfold km_col km_col_index at ec
    rw [p3, q3] at ec
    have e1 := i1 _ q2 (by rw [q1, p1]) er
    have e2 := i2 _ q5 (by rw [q4, p4]) ec
    apply km_address_inj k m' m hm' hm
    rw [← List.take_append_drop (km_rows k) (km_address k m'),
      ← List.take_append_drop (km_rows k) (km_address k m), e1, e2]

/-- Cells of the unpadded grid: 2 at the coordinates of an onset index and 0
everywhere else. -/
theorem km_grid_cell (k : Nat) (onset : List (List Char)) (y x : Nat) :
    km_grid k onset y x =
      if ∃ idx ∈ onset, km_col_index (km_rows k) idx = y ∧ km_row_index (km_rows k) idx = x
      then 2 else 0 := by
  unfold km_grid
  have gen : ∀ (g0 : Nat → Nat → Nat),
      (onset.foldl (fun k_map idx =>
        upd2 k_map (km_col_index (km_rows k) idx) (km_row_index (km_rows k) idx) 2) g0) y x =
      if ∃ idx ∈ onset, km_col_index (km_rows k) idx = y ∧ km_row_index (km_rows k) idx = x
      then 2 else g0 y x := by
    induction onset with
    | nil => intro g0; simp
    | cons a l ih =>
      intro g0
      rw [List.foldl_cons, ih]
      by_cases h : ∃ idx ∈ l, km_col_index (km_rows k) idx = y ∧ km_row_index (km_rows k) idx = x
      · have h' : ∃ idx ∈ a :: l,
            km_col_index (km_rows k) idx = y ∧ km_row_index (km_rows k) idx = x := by
          obtain ⟨idx, hi, hh⟩ := h
          exact ⟨idx, List.mem_cons_of_mem _ hi, hh⟩
        rw [if_pos h, if_pos h']
      · rw [if_neg h]
        unfold upd2
        by_cases ha : y = km_col_index (km_rows k) a ∧ x = km_row_index (km_rows k) a
        · rw [if_pos ha, if_pos ⟨a, List.mem_cons_self _ _, ha.1.symm, ha.2.symm⟩]
        · rw [if_neg ha, if_neg]
          rintro ⟨idx, hi, h1, h2⟩
          rcases List.mem_cons.1 hi with rfl | hi
          · exact ha ⟨h1.symm, h2.symm⟩
          · exact h ⟨idx, hi, h1, h2⟩
  exact gen _

theorem opt_mapM_some {α β : Type} (f : α → Option β) (g : α → β) (l : List α)
    (h : ∀ a ∈ l, f a = some (g a)) : opt_mapM f l = some (l.map g) := by
  induction l with
  | nil => rfl
  | cons a l ih =>
    simp only [opt_mapM, h a (List.mem_cons_self _ _), Option.some_bind,
      ih (fun b hb => h b (List.mem_cons_of_mem _ hb)), Option.map_some', List.map_cons]

/-- The onset strings of a truth table with `2 ^ k` bits: the address strings of
the assignments at which the table is 1. -/
theorem onset_indeces_spec (k : Nat) (tt : dynamic_truth_table)
    (hlen : tt.bits.length = 2 ^ k) :
    ∃ onset, onset_indeces (kitty_to_binary tt) k = some onset ∧
      ∀ idx, idx ∈ onset ↔ ∃ m, m < 2 ^ k ∧ tt.bits.getD m false = true ∧ idx = km_address k m := by
  have hl : (kitty_to_binary tt).length = 2 ^ k := by simp [kitty_to_binary, hlen]
  have hbit : ∀ m, m < 2 ^ k →
      ((kitty_to_binary tt).getD ((kitty_to_binary tt).length - 1 - m) '0' = '1' ↔
        tt.bits.getD m false = true) := by
    intro m hm
    have h1 : (kitty_to_binary tt).length - 1 - m < tt.bits.reverse.length := by
      rw [hl]; simp [hlen]; omega
    have h2 : tt.bits.length - 1 - ((kitty_to_binary tt).length - 1 - m) = m := by
      rw [hl, hlen]; omega
    have h3 : m < tt.bits.length := by rw [hlen]; exact hm
    unfold kitty_to_binary at h1 ⊢
    rw [List.getD_eq_getElem?_getD, List.getElem?_map, List.getElem?_eq_getElem h1,
      List.getElem_reverse]
    simp only [Option.map_some', Option.getD_some]
    have h4 : tt.bits.length - 1 - ((List.map (fun b => if b = true then '1' else '0') tt.bits.reverse).length - 1 - m) = m := by
      simpa [kitty_to_binary] using h2
    simp only [h4]
    rw [List.getD_eq_getElem?_getD, List.getElem?_eq_getElem h3, Option.getD_some]
    have h01 : ('0' : Char) ≠ '1' := by decide
    cases tt.bits[m] <;> simp [h01]
  let raw := (List.range (kitty_to_binary tt).length).filterMap (fun indx =>
      if (kitty_to_binary tt).getD ((kitty_to_binary tt).length - 1 - indx) '0' = '1'
      then some indx else none)
  have hraw : ∀ m, m ∈ raw ↔ m < 2 ^ k ∧ tt.bits.getD m false = true := by
    intro m
    simp only [raw, List.mem_filterMap, List.mem_range, hl]
    constructor
    · rintro ⟨a, ha, h⟩
      split_ifs at h with hc
      simp only [Option.some.injEq] at h
      subst h
      rw [← hl] at hc
      exact ⟨ha, (hbit a ha).1 hc⟩
    · rintro ⟨h1, h2⟩
      refine ⟨m, h1, ?_⟩
      rw [if_pos]
      rw [← hl]
      exact (hbit m h1).2 h2
  have e : (List.range (kitty_to_binary tt).length).filterMap (fun indx =>
      if (kitty_to_binary tt).getD ((kitty_to_binary tt).length - 1 - indx) '0' = '1'
      then some (to_binary indx) else none) = raw.map to_binary := by
    simp only [raw]
    rw [List.map_filterMap]
    congr 1
    funext indx
    split_ifs <;> rfl
  refine ⟨raw.map (km_address k), ?_, ?_⟩
  · unfold onset_indeces
    rw [e]
    have := opt_mapM_some (pad_reverse k) (fun s => km_address k (stoi2 s)) (raw.map to_binary) (by
      intro a ha
      obtain ⟨m, hm, rfl⟩ := List.mem_map.1 ha
      simp only [stoi2_to_binary]
      exact (km_address_eq k m ((hraw m).1 hm).1).1)
    rw [this, List.map_map]
    congr 1
    apply List.map_congr_left
    intro m _
    simp [stoi2_to_binary]
  · intro idx
    simp only [List.mem_map, hraw]
    constructor
    · rintro ⟨m, ⟨h1, h2⟩, rfl⟩; exact ⟨m, h1, h2, rfl⟩
    · rintro ⟨m, h1, h2, rfl⟩; exact ⟨m, ⟨h1, h2⟩, rfl⟩

/-- Every cell of the grid is the image of an assignment. -/
theorem km_decode_surj (k : Nat) (hk : 2 ≤ k) (c r : Nat) (hc : c < 2 ^ km_columns k)
    (hr : r < 2 ^ km_rows k) : ∃ m, m < 2 ^ k ∧ km_row k m = r ∧ km_col k m = c := by
  obtain ⟨_, _, hrc⟩ := km_rows_columns k
  have h := Finset.surj_on_of_inj_on_of_card_le
    (s := Finset.range (2 ^ k))
    (t := Finset.range (2 ^ km_rows k) ×ˢ Finset.range (2 ^ km_columns k))
    (fun m _ => (km_row k m, km_col k m))
    (by
      intro m hm
      obtain ⟨h1, h2, _⟩ := km_decode_props k hk m (Finset.mem_range.1 hm)
      simp [h1, h2])
    (by
      intro a b ha hb hab
      simp only [Prod.mk.injEq] at hab
      exact (km_decode_props k hk b (Finset.mem_range.1 hb)).2.2 a (Finset.mem_range.1 ha)
        hab.1 hab.2)
    (by simp [← pow_add, hrc])
    (r, c) (by simp [hr, hc])
  obtain ⟨m, hm, e⟩ := h
  simp only [Prod.mk.injEq] at e
  exact ⟨m, Finset.mem_range.1 hm, e.1.symm, e.2.symm⟩

theorem upd2_apply (a : Nat → Nat → Nat) (y x v y' x' : Nat) :
    upd2 a y x v y' x' = if y' = y ∧ x' = x then v else a y' x' := rfl

theorem upd_apply (d : Nat → Nat) (k v i : Nat) : upd d k v i = if i = k then v else d i := rfl

theorem upd2_row_loop (X Y0 ox : Nat) (v : Nat → Nat) (a : Nat → Nat → Nat) (y' x' : Nat) :
    ((List.range X).foldl (fun a x => upd2 a Y0 (x + ox) (v x)) a) y' x' =
      if y' = Y0 ∧ ox ≤ x' ∧ x' < ox + X then v (x' - ox) else a y' x' := by
  induction X with
  | zero =>
    simp only [List.range_zero, List.foldl_nil, add_zero]
    rw [if_neg]; omega
  | succ X ih =>
    rw [List.range_succ, List.foldl_append, List.foldl_cons, List.foldl_nil, upd2_apply]
    by_cases h : y' = Y0 ∧ x' = X + ox
    · rw [if_pos h, if_pos ⟨h.1, by omega, by omega⟩]
      congr 1; omega
    · rw [if_neg h, ih]
      by_cases h2 : y' = Y0 ∧ ox ≤ x' ∧ x' < ox + X
      · rw [if_pos h2, if_pos ⟨h2.1, h2.2.1, by omega⟩]
      · rw [if_neg h2, if_neg]
        rintro ⟨q1, q2, q3⟩
        by_cases q4 : x' = X + ox
        · exact h ⟨q1, q4⟩
        · exact h2 ⟨q1, q2, by omega⟩

/-- A nested loop copying a `Y` x `X` block into a two-dimensional array at
offset `(oy, ox)`. -/
theorem upd2_block_loop (Y X oy ox : Nat) (v : Nat → Nat → Nat) (a : Nat → Nat → Nat)
    (y' x' : Nat) :
    ((List.range Y).foldl (fun a y =>
      (List.range X).foldl (fun a x => upd2 a (y + oy) (x + ox) (v y x)) a) a) y' x' =
      if oy ≤ y' ∧ y' < oy + Y ∧ ox ≤ x' ∧ x' < ox + X then v (y' - oy) (x' - ox)
      else a y' x' := by
  induction Y with
  | zero =>
    simp only [List.range_zero, List.foldl_nil, add_zero]
    rw [if_neg]; omega
  | succ Y ih =>
    rw [List.range_succ, List.foldl_append, List.foldl_cons, List.foldl_nil, upd2_row_loop, ih]
    by_cases h : y' = Y + oy ∧ ox ≤ x' ∧ x' < ox + X
    · rw [if_pos h, if_pos ⟨by omega, by omega, h.2.1, h.2.2⟩]
      have : y' - oy = Y := by omega
      rw [this]
    · rw [if_neg h]
      by_cases h2 : oy ≤ y' ∧ y' < oy + Y ∧ ox ≤ x' ∧ x' < ox + X
      · rw [if_pos h2, if_pos ⟨h2.1, by omega, h2.2.2.1, h2.2.2.2⟩]
      · rw [if_neg h2, if_neg]
        rintro ⟨q1, q2, q3, q4⟩
        by_cases q5 : y' = Y + oy
        · exact h ⟨q5, q3, q4⟩
        · exact h2 ⟨q1, by omega, q3, q4⟩

/-- Cells of the padded grid: the unpadded grid inside the centred window and
the padding value 1 outside. -/
theorem km_pad_cell (row_num col_num : Nat) (k_map : Nat → Nat → Nat) (y x : Nat)
    (hr : row_num % 2 = 0) (hc : col_num % 2 = 0) (hr2 : row_num ≤ 256) (hc2 : col_num ≤ 256) :
    km_pad row_num col_num k_map y x =
      if (256 - col_num) / 2 ≤ y ∧ y < (256 - col_num) / 2 + col_num ∧
         (256 - row_num) / 2 ≤ x ∧ x < (256 - row_num) / 2 + row_num
      then k_map (y - (256 - col_num) / 2) (x - (256 - row_num) / 2) else 1 := by
  unfold km_pad
  have e1 : (256 - row_num) % 2 = 0 := by omega
  have e2 : (256 - col_num) % 2 = 0 := by omega
  simp only [e1, e2, ne_eq, not_true_eq_false, if_false]
  rw [upd2_block_loop]

theorem upd_row_loop (X c : Nat) (v : Nat → Nat) (d : Nat → Nat) (i : Nat) :
    ((List.range X).foldl (fun d x => upd d (x + c) (v x)) d) i =
      if c ≤ i ∧ i < c + X then v (i - c) else d i := by
  induction X with
  | zero =>
    simp only [List.range_zero, List.foldl_nil, add_zero]
    rw [if_neg]; omega
  | succ X ih =>
    rw [List.range_succ, List.foldl_append, List.foldl_cons, List.foldl_nil, upd_apply]
    by_cases h : i = X + c
    · rw [if_pos h, if_pos ⟨by omega, by omega⟩]
      congr 1; omega
    · rw [if_neg h, ih]
      by_cases h2 : c ≤ i ∧ i < c + X
      · rw [if_pos h2, if_pos ⟨h2.1, by omega⟩]
      · rw [if_neg h2, if_neg]
        rintro ⟨q1, q2⟩
        exact h2 ⟨q1, by omega⟩

theorem row_range_iff (Y X stride i : Nat) (hX : X ≤ stride) :
    (Y * stride ≤ i ∧ i < Y * stride + X) ↔ (i / stride = Y ∧ i % stride < X) := by
  rcases Nat.eq_zero_or_pos stride with h0 | hs
  · subst h0
    have : X = 0 := by omega
    subst this
    simp
  · constructor
    · rintro ⟨h1, h2⟩
      have hd : i / stride = Y := by
        apply Nat.div_eq_of_lt_le h1
        have e : (Y + 1) * stride = Y * stride + stride := by ring
        rw [e]; omega
      refine ⟨hd, ?_⟩
      have := Nat.div_add_mod i stride
      rw [hd, Nat.mul_comm] at this
      omega
    · rintro ⟨h1, h2⟩
      have := Nat.div_add_mod i stride
      rw [h1, Nat.mul_comm] at this
      omega

/-- The flattening loop stores cell `(y, x)` of the grid at position
`x + y * stride`. -/
theorem flatten_loop (Y X stride : Nat) (hX : X ≤ stride) (grid : Nat → Nat → Nat) (i : Nat) :
    ((List.range Y).foldl (fun data y =>
      (List.range X).foldl (fun data x => upd data (x + y * stride) (grid y x)) data)
      (fun _ => 0)) i =
      if i / stride < Y ∧ i % stride < X then grid (i / stride) (i % stride) else 0 := by
  induction Y with
  | zero => simp
  | succ Y ih =>
    rw [List.range_succ, List.foldl_append, List.foldl_cons, List.foldl_nil, upd_row_loop, ih]
    by_cases h : Y * stride ≤ i ∧ i < Y * stride + X
    · obtain ⟨hd, hm⟩ := (row_range_iff Y X stride i hX).1 h
      rw [if_pos h, if_pos ⟨by omega, hm⟩, hd]
      congr 1
      have := Nat.div_add_mod i stride
      rw [hd, Nat.mul_comm] at this
      omega
    · rw [if_neg h]
      have h' : ¬ (i / stride = Y ∧ i % stride < X) := fun q => h ((row_range_iff Y X stride i hX).2 q)
      by_cases h2 : i / stride < Y ∧ i % stride < X
      · rw [if_pos h2, if_pos ⟨by omega, h2.2⟩]
      · rw [if_neg h2, if_neg]
        rintro ⟨q1, q2⟩
        by_cases q3 : i / stride = Y
        · exact h' ⟨q3, q2⟩
        · exact h2 ⟨by omega, q2⟩

/-- The flattened image: its length and its cells. -/
theorem km_flatten_spec (size row_num col_num stride : Nat) (hX : row_num ≤ stride)
    (grid : Nat → Nat → Nat) :
    (km_flatten size row_num col_num stride grid).length = size ∧
    ∀ i, i < size →
      (km_flatten size row_num col_num stride grid)[i]? =
        some (if i / stride < col_num ∧ i % stride < row_num
          then grid (i / stride) (i % stride) else 0) := by
  unfold km_flatten
  refine ⟨by simp, ?_⟩
  intro i hi
  rw [List.getElem?_map, List.getElem?_range hi, Option.map_some',
    flatten_loop col_num row_num stride hX grid i]

/-- The onset strings of the conjunction of four inputs, and the coordinates of
its single onset assignment 15. -/
theorem and4_onset :
    onset_indeces (kitty_to_binary and4) 4 = some [['1', '1', '1', '1']] ∧
    km_row_index (km_rows 4) ['1', '1', '1', '1'] = 2 ∧
    km_col_index (km_rows 4) ['1', '1', '1', '1'] = 2 := by
  decide

/-- C7 as stated fails: for the conjunction of four inputs the cell at
coordinate (0,0) of the 4 x 4 grid is not marked; the single marked cell is the
one at row 2, column 2, the Gray decoding of the address bits `11` and `11`. -/
theorem km_scenario_counterexample :
    ∃ onset, onset_indeces (kitty_to_binary and4) 4 = some onset ∧
      km_grid 4 onset 0 0 = 0 ∧ km_grid 4 onset 2 2 = 2 :=
  ⟨[['1', '1', '1', '1']], by decide, by decide, by decide⟩

/-- C7, amended (concrete Karnaugh scenario).  For a cone with `k = 4` inputs
whose truth table is `1000000000000000` (the conjunction of the inputs),
`get_km_image` uses a 2/2 row/column bit split and marks exactly one cell of the
4 x 4 grid, the one at Gray-decoded coordinate (2,2); the returned image has
256 x 256 cells, holds 2 at the centred position of that cell, 0 at the other
cells of the grid and the padding value 1 everywhere else. -/
theorem km_scenario :
    km_rows 4 = 2 ∧ km_columns 4 = 2 ∧
    ∃ onset, onset_indeces (kitty_to_binary and4) 4 = some onset ∧
      (∀ c r, km_grid 4 onset c r = 2 ↔ c = 2 ∧ r = 2) ∧
      ∃ img, km_image 4 (kitty_to_binary and4) = some img ∧ img.length = 256 * 256 ∧
        ∀ x y, x < 256 → y < 256 →
          img[x + 256 * y]? = some (if x = 128 ∧ y = 128 then 2
            else if 126 ≤ x ∧ x < 130 ∧ 126 ≤ y ∧ y < 130 then 0 else 1) := by
  obtain ⟨ho, hrow, hcol⟩ := and4_onset
  have hgrid : ∀ c r, km_grid 4 [['1', '1', '1', '1']] c r = if c = 2 ∧ r = 2 then 2 else 0 := by
    intro c r
    rw [km_grid_cell]
    by_cases h : c = 2 ∧ r = 2
    · rw [if_pos h, if_pos]
      exact ⟨_, List.mem_singleton.2 rfl, by rw [hcol, h.1], by rw [hrow, h.2]⟩
    · rw [if_neg h, if_neg]
      rintro ⟨idx, hi, h1, h2⟩
      rw [List.mem_singleton] at hi
      subst hi
      exact h ⟨by rw [← h1, hcol], by rw [← h2, hrow]⟩
  refine ⟨by decide, by decide, _, ho, ?_, ?_⟩
  · intro c r
    rw [hgrid]
    split_ifs with h
    · simp [h]
    · simp [h]
  · have himg : km_image 4 (kitty_to_binary and4) =
        some (km_flatten (256 * 256) 256 256 256
          (km_pad (2 ^ km_rows 4) (2 ^ km_columns 4) (km_grid 4 [['1', '1', '1', '1']]))) := by
      unfold km_image
      rw [ho]
      simp
    obtain ⟨hl, hcell⟩ := km_flatten_spec (256 * 256) 256 256 256 (le_refl _)
      (km_pad (2 ^ km_rows 4) (2 ^ km_columns 4) (km_grid 4 [['1', '1', '1', '1']]))
    refine ⟨_, himg, hl, ?_⟩
    intro x y hx hy
    have hi : x + 256 * y < 256 * 256 := by omega
    have hd : (x + 256 * y) / 256 = y := by omega
    have hm : (x + 256 * y) % 256 = x := by omega
    rw [hcell _ hi, hd, hm, if_pos ⟨hy, hx⟩]
    have e1 : km_rows 4 = 2 := by decide
    have e2 : km_columns 4 = 2 := by decide
    rw [e1, e2, km_pad_cell (2 ^ 2) (2 ^ 2) _ y x (by decide) (by decide) (by decide) (by decide)]
    simp only [hgrid]
    apply congrArg some
    by_cases h1 : x = 128 ∧ y = 128
    · obtain ⟨rfl, rfl⟩ := h1
      simp
    · rw [if_neg h1]
      by_cases h2 : 126 ≤ x ∧ x < 130 ∧ 126 ≤ y ∧ y < 130
      · rw [if_pos h2, if_pos (by norm_num; omega), if_neg]
        rintro ⟨a, b⟩
        apply h1
        norm_num at a b
        omega
      · rw [if_neg h2, if_neg]
        norm_num
        omega

/-- On a mapped signal that is not inverted, `data += 1` sets the inversion bit. -/
theorem sync_opt_out_plain (old_to_new : Nat → signal) (o : signal)
    (h : (old_to_new (get_node o)).complement = false) :
    sync_opt_out old_to_new o =
      ⟨(old_to_new (get_node o)).index, xor (old_to_new (get_node o)).complement o.complement⟩ := by
  unfold sync_opt_out is_complemented
  cases ho : o.complement
  · simp only [Bool.false_eq_true, if_false, Bool.xor_false]
  · simp only [if_true, signal.ofData, signal.data, h, Bool.false_eq_true, if_false, add_zero,
      Bool.xor_true, Bool.not_false, signal.mk.injEq]
    constructor
    · omega
    · simp [Nat.add_mod]

/-- On a mapped signal that is already inverted, `data += 1` for a complemented
output carries into the index: the result is the non-inverted signal of the next
node. -/
theorem sync_opt_out_carry (old_to_new : Nat → signal) (o : signal)
    (h : (old_to_new (get_node o)).complement = true) (ho : o.complement = true) :
    sync_opt_out old_to_new o = ⟨(old_to_new (get_node o)).index + 1, false⟩ := by
  unfold sync_opt_out is_complemented
  simp only [ho, if_true, signal.ofData, signal.data, h, signal.mk.injEq]
  constructor
  · omega
  · simp [Nat.add_mod]

/-- C8 (synchronizer output inversion), evaluated at a failing input.  Partition
0 of `ntk_ex3` is synchronized with `opt_ex3`; cloning gate 4 of the optimized
network finds gate 3 of the parent, cloning gate 5 = AND(!3,!4) then meets the
fan-ins (!3, !3) and returns the inverted signal !3, so the mapped signal of the
driver of output 0 is (node 3, inverted).  Output 0 is complemented; the
substitution recorded for root 6 is (node 4, not inverted) and not (node 3, not
inverted). -/
theorem sync_output_inversion_defect :
    (partition_view.construct ntk_ex3 [1, 2, 3] [6] 7).bind (fun v =>
      ([0, 1, 2, 3, 4, 5].foldlM (sync_node clone_and opt_ex3 (v.foreach_pi.map make_signal))
        { ntk := ntk_ex3, old_to_new := fun _ => ⟨0, false⟩ }).map (fun st =>
          (st.old_to_new 5, sync_output opt_ex3 v._roots st.old_to_new [] 0))) =
      some (⟨3, true⟩, some [(6, ⟨4, false⟩)]) := by
  decide

theorem tbl_nth_var (k j : Nat) :
    kitty_create_nth_var (kitty_construct k) j = tbl k (fun m => m.testBit j) := rfl

theorem tbl_not (k : Nat) (f : Nat → Bool) : kitty_not (tbl k f) = tbl k (fun m => !f m) := by
  simp [kitty_not, tbl]

theorem zipWith_map_same {α : Type} (h : Bool → Bool → Bool) (f g : α → Bool) (l : List α) :
    List.zipWith h (l.map f) (l.map g) = l.map (fun x => h (f x) (g x)) := by
  induction l with
  | nil => rfl
  | cons a l ih => simp [ih]

theorem zipWith3_map_same {α : Type} (h : Bool → Bool → Bool → Bool) (f g i : α → Bool)
    (l : List α) :
    List.zipWith3 h (l.map f) (l.map g) (l.map i) = l.map (fun x => h (f x) (g x) (i x)) := by
  induction l with
  | nil => rfl
  | cons a l ih => simp [List.zipWith3, ih]

theorem tbl_and (k : Nat) (f g : Nat → Bool) :
    kitty_binary_and (tbl k f) (tbl k g) = some (tbl k (fun m => f m && g m)) := by
  simp [kitty_binary_and, tbl, zipWith_map_same]

theorem tbl_maj (k : Nat) (f g i : Nat → Bool) :
    kitty_ternary_majority (tbl k f) (tbl k g) (tbl k i) =
      some (tbl k (fun m => maj3 (f m) (g m) (i m))) := by
  simp [kitty_ternary_majority, tbl, zipWith3_map_same]

theorem tbl_bits (k : Nat) (f : Nat → Bool) :
    (tbl k f).num_vars = k ∧ (tbl k f).bits.length = 2 ^ k ∧
    ∀ m, m < 2 ^ k → (tbl k f).bits[m]? = some (f m) := by
  refine ⟨rfl, by simp [tbl], fun m hm => ?_⟩
  simp [tbl, List.getElem?_range hm]

theorem pairwise_set_insert (x : Nat) (s : List Nat) (h : s.Pairwise (fun a b => a < b)) :
    (set_insert x s).Pairwise (fun a b => a < b) := by
  induction s with
  | nil => simp [set_insert]
  | cons y ys ih =>
    unfold set_insert
    rw [List.pairwise_cons] at h
    split_ifs with h1 h2
    · rw [List.pairwise_cons]
      refine ⟨?_, List.pairwise_cons.2 h⟩
      intro a ha
      rcases List.mem_cons.1 ha with rfl | ha
      · exact h1
      · exact lt_trans h1 (h.1 a ha)
    · exact List.pairwise_cons.2 h
    · rw [List.pairwise_cons]
      refine ⟨?_, ih h.2⟩
      intro a ha
      rcases (mem_set_insert a x ys).1 ha with rfl | ha
      · omega
      · exact h.1 a ha

/-- Effect of the loop over the children of a node. -/
theorem bfs_children_spec (cs : List signal) (st : bfs_state) :
    ((cs.foldl bfs_child st).inputs = st.inputs) ∧
    (∀ x, st.visited x = true → (cs.foldl bfs_child st).visited x = true) ∧
    (∀ c ∈ cs, (cs.foldl bfs_child st).visited c.index = true) ∧
    (∀ x, (cs.foldl bfs_child st).visited x = true →
      st.visited x = true ∨ ∃ c ∈ cs, c.index = x) ∧
    (∀ x, x ∈ (cs.foldl bfs_child st).net_queue →
      x ∈ st.net_queue ∨ (st.visited x = false ∧ ∃ c ∈ cs, c.index = x)) ∧
    (∀ x, x ∈ st.net_queue → x ∈ (cs.foldl bfs_child st).net_queue) := by
  induction cs generalizing st with
  | nil => simp
  | cons c cs ih =>
    obtain ⟨h1, h2, h3, h4, h5, h6⟩ := ih (bfs_child st c)
    have hstep : (bfs_child st c).inputs = st.inputs ∧
        (∀ x, st.visited x = true → (bfs_child st c).visited x = true) ∧
        (bfs_child st c).visited c.index = true ∧
        (∀ x, (bfs_child st c).visited x = true → st.visited x = true ∨ c.index = x) ∧
        (∀ x, x ∈ (bfs_child st c).net_queue →
          x ∈ st.net_queue ∨ (st.visited x = false ∧ c.index = x)) ∧
        (∀ x, x ∈ st.net_queue → x ∈ (bfs_child st c).net_queue) := by
      unfold bfs_child
      cases hv : st.visited c.index
      · simp only [Bool.not_false, if_true]
        refine ⟨trivial, ?_, by simp [upd], ?_, ?_, ?_⟩
        · intro x hx; simp only [upd]; split_ifs <;> simp [hx]
        · intro x hx
          simp only [upd] at hx
          split_ifs at hx with e
          · exact Or.inr e.symm
          · exact Or.inl hx
        · intro x hx
          simp only [List.mem_append, List.mem_singleton] at hx
          rcases hx with hx | hx
          · exact Or.inl hx
          · subst hx; exact Or.inr ⟨hv, rfl⟩
        · intro x hx; simp [hx]
      · simp only [Bool.not_true, Bool.false_eq_true, if_false]
        exact ⟨trivial, fun x hx => hx, hv, fun x hx => Or.inl hx, fun x hx => Or.inl hx,
          fun x hx => hx⟩
    obtain ⟨g1, g2, g3, g4, g5, g6⟩ := hstep
    simp only [List.foldl_cons]
    refine ⟨h1.trans g1, fun x hx => h2 x (g2 x hx), ?_, ?_, ?_, fun x hx => h6 x (g6 x hx)⟩
    · intro d hd
      rcases List.mem_cons.1 hd with rfl | hd
      · exact h2 _ g3
      · exact h3 d hd
    · intro x hx
      rcases h4 x hx with h | ⟨d, hd, e⟩
      · rcases g4 x h with h | h
        · exact Or.inl h
        · exact Or.inr ⟨c, List.mem_cons_self _ _, h⟩
      · exact Or.inr ⟨d, List.mem_cons_of_mem _ hd, e⟩
    · intro x hx
      rcases h5 x hx with h | ⟨hv, d, hd, e⟩
      · rcases g5 x h with h | ⟨hv, e⟩
        · exact Or.inl h
        · exact Or.inr ⟨hv, c, List.mem_cons_self _ _, e⟩
      · refine Or.inr ⟨?_, d, List.mem_cons_of_mem _ hd, e⟩
        cases hq : st.visited x
        · rfl
        · rw [g2 x hq] at hv; exact absurd hv (by simp)

/-- One round of the loop keeps the invariant. -/
theorem bfs_visit_inv (ntk : Ntk) (PI : List Nat) (out : Nat) (st : bfs_state) (curr : Nat)
    (rest : List Nat) (hq : st.net_queue = curr :: rest) (hinv : bfs_inv ntk PI out st) :
    bfs_inv ntk PI out (bfs_visit ntk PI { st with net_queue := rest } curr) := by
  have hcv : st.visited curr = true := hinv.queue_visited curr (by rw [hq]; simp)
  unfold bfs_visit
  by_cases hc : curr ∈ PI
  · rw [if_neg (not_not.2 hc)]
    refine ⟨?_, hinv.out_visited, ?_, ?_, pairwise_set_insert _ _ hinv.inputs_sorted⟩
    · intro x hx
      exact hinv.queue_visited x (by rw [hq]; exact List.mem_cons_of_mem _ hx)
    · intro x hx hnq
      change x ∉ rest at hnq
      by_cases hxc : x = curr
      · subst hxc
        exact Or.inl ⟨hc, (mem_set_insert _ _ _).2 (Or.inl rfl)⟩
      · have : x ∉ st.net_queue := by
          rw [hq]; intro h
          rcases List.mem_cons.1 h with h | h
          · exact hxc h
          · exact hnq h
        rcases hinv.closed x hx this with ⟨a, b⟩ | h
        · exact Or.inl ⟨a, (mem_set_insert _ _ _).2 (Or.inr b)⟩
        · exact Or.inr h
    · intro x hx
      rcases (mem_set_insert _ _ _).1 hx with rfl | hx
      · exact hc
      · exact hinv.inputs_sub x hx
  · rw [if_pos hc]
    obtain ⟨h1, h2, h3, h4, h5, h6⟩ := bfs_children_spec (ntk.children curr)
      { st with net_queue := rest }
    refine ⟨?_, h2 _ hinv.out_visited, ?_, ?_, ?_⟩
    · intro x hx
      rcases h5 x hx with h | ⟨_, c, hc', e⟩
      · exact h2 x (hinv.queue_visited x (by rw [hq]; exact List.mem_cons_of_mem _ h))
      · rw [← e]; exact h3 c hc'
    · intro x hx hnq
      rcases h4 x hx with h | ⟨c, hc', e⟩
      · by_cases hxc : x = curr
        · subst hxc
          exact Or.inr ⟨hc, fun c hc' => h3 c hc'⟩
        · have hnr : x ∉ rest := fun hr => hnq (h6 x hr)
          have : x ∉ st.net_queue := by
            rw [hq]; intro h'
            rcases List.mem_cons.1 h' with h' | h'
            · exact hxc h'
            · exact hnr h'
          rcases hinv.closed x h this with ⟨a, b⟩ | ⟨a, b⟩
          · exact Or.inl ⟨a, by rw [h1]; exact b⟩
          · exact Or.inr ⟨a, fun c hc' => h2 _ (b c hc')⟩
      · -- a child that was just visited is in the queue unless it was visited before
        cases hv : st.visited x
        · exfalso
          apply hnq
          -- it has been pushed
          have : x ∈ ((ntk.children curr).foldl bfs_child { st with net_queue := rest }).net_queue := by
            by_contra hcon
            -- pushed elements are exactly the newly visited ones
            have key : ∀ (cs : List signal) (s : bfs_state), s.visited x = false →
                (cs.foldl bfs_child s).visited x = true → x ∈ (cs.foldl bfs_child s).net_queue := by
              intro cs
              induction cs with
              | nil => intro s a b; simp at b; rw [a] at b; exact absurd b (by simp)
              | cons d ds ihd =>
                intro s a b
                simp only [List.foldl_cons] at b ⊢
                cases hd : (bfs_child s d).visited x
                · exact ihd _ hd b
                · have hin : x ∈ (bfs_child s d).net_queue := by
                    unfold bfs_child at hd ⊢
                    cases hsv : s.visited d.index
                    · simp only [hsv, Bool.not_false, if_true, upd] at hd ⊢
                      split_ifs at hd with e
                      · simp [e]
                      · rw [a] at hd; exact absurd hd (by simp)
                    · simp only [hsv, Bool.not_true, Bool.false_eq_true, if_false] at hd
                      rw [a] at hd; exact absurd hd (by simp)
                  exact (bfs_children_spec ds (bfs_child s d)).2.2.2.2.2 x hin
            exact hcon (key _ _ hv hx)
          exact this
        · by_cases hxc : x = curr
          · subst hxc
            exact Or.inr ⟨hc, fun c hc' => h3 c hc'⟩
          · have hnr : x ∉ rest := fun hr => hnq (h6 x hr)
            have : x ∉ st.net_queue := by
              rw [hq]; intro h'
              rcases List.mem_cons.1 h' with h' | h'
              · exact hxc h'
              · exact hnr h'
            rcases hinv.closed x hv this with ⟨a, b⟩ | ⟨a, b⟩
            · exact Or.inl ⟨a, by rw [h1]; exact b⟩
            · exact Or.inr ⟨a, fun c hc' => h2 _ (b c hc')⟩
    · intro x hx
      rw [h1] at hx
      exact hinv.inputs_sub x hx
    · rw [h1]; exact hinv.inputs_sorted

theorem countP_mark (v : Nat → Bool) (c : Nat) (hv : v c = false) (l : List Nat) (hl : l.Nodup) :
    l.countP (fun x => !(upd v c true) x) + (if c ∈ l then 1 else 0) =
      l.countP (fun x => !v x) := by
  induction l with
  | nil => simp
  | cons y ys ih =>
    rw [List.nodup_cons] at hl
    have ih' := ih hl.2
    rw [List.countP_cons, List.countP_cons]
    by_cases hy : y = c
    · subst hy
      have hnot : y ∉ ys := hl.1
      have e1 : (!(upd v y true) y) = false := by simp [upd]
      have e2 : (!v y) = true := by simp [hv]
      rw [if_neg hnot] at ih'
      rw [e1, e2, if_pos (List.mem_cons_self _ _)]
      simp only [Bool.false_eq_true, if_false, if_true]
      omega
    · have e1 : (!(upd v c true) y) = (!v y) := by simp [upd, hy]
      rw [e1]
      by_cases hcy : c ∈ ys
      · rw [if_pos hcy] at ih'
        rw [if_pos (List.mem_cons_of_mem _ hcy)]
        omega
      · rw [if_neg hcy] at ih'
        have : c ∉ y :: ys := by
          intro h
          rcases List.mem_cons.1 h with h | h
          · exact hy h.symm
          · exact hcy h
        rw [if_neg this]
        omega

theorem bfs_child_measure (ntk : Ntk) (st : bfs_state) (c : signal) (hc : c.index < ntk.size) :
    (bfs_child st c).net_queue.length + bfs_unvisited ntk (bfs_child st c) =
      st.net_queue.length + bfs_unvisited ntk st := by
  unfold bfs_child
  cases hv : st.visited c.index
  · simp only [Bool.not_false, if_true, bfs_unvisited, List.length_append, List.length_singleton]
    have := countP_mark st.visited c.index hv (List.range ntk.size) (List.nodup_range _)
    rw [if_pos (List.mem_range.2 hc)] at this
    omega
  · simp

theorem bfs_children_measure (ntk : Ntk) (cs : List signal) (hcs : ∀ c ∈ cs, c.index < ntk.size)
    (st : bfs_state) :
    (cs.foldl bfs_child st).net_queue.length + bfs_unvisited ntk (cs.foldl bfs_child st) =
      st.net_queue.length + bfs_unvisited ntk st := by
  induction cs generalizing st with
  | nil => rfl
  | cons c cs ih =>
    rw [List.foldl_cons, ih (fun d hd => hcs d (List.mem_cons_of_mem _ hd)),
      bfs_child_measure ntk st c (hcs c (List.mem_cons_self _ _))]

theorem bfs_visit_measure (ntk : Ntk) (PI : List Nat)
    (hwf : ∀ n, ∀ c ∈ ntk.children n, c.index < ntk.size) (st : bfs_state) (curr : Nat) :
    (bfs_visit ntk PI st curr).net_queue.length + bfs_unvisited ntk (bfs_visit ntk PI st curr) =
      st.net_queue.length + bfs_unvisited ntk st := by
  unfold bfs_visit
  split_ifs
  · rfl
  · exact bfs_children_measure ntk _ (hwf curr) st

/-- The traversal loop terminates within the fuel given by its measure, keeps
the invariant and ends with an empty queue. -/
theorem bfs_loop_spec (ntk : Ntk) (PI : List Nat) (out : Nat)
    (hwf : ∀ n, ∀ c ∈ ntk.children n, c.index < ntk.size) :
    ∀ (fuel : Nat) (st : bfs_state), bfs_inv ntk PI out st →
      st.net_queue.length + bfs_unvisited ntk st ≤ fuel →
      ∃ st', bfs_loop ntk PI fuel st = some st' ∧ bfs_inv ntk PI out st' ∧ st'.net_queue = [] := by
  intro fuel
  induction fuel with
  | zero =>
    intro st hinv hm
    have hq : st.net_queue = [] := List.length_eq_zero.1 (by omega)
    refine ⟨st, ?_, hinv, hq⟩
    unfold bfs_loop
    rw [hq]
  | succ fuel ih =>
    intro st hinv hm
    cases hq : st.net_queue with
    | nil =>
      refine ⟨st, ?_, hinv, hq⟩
      unfold bfs_loop
      rw [hq]
    | cons curr rest =>
      have hinv' := bfs_visit_inv ntk PI out st curr rest hq hinv
      have hmeas := bfs_visit_measure ntk PI hwf { st with net_queue := rest } curr
      have hu : bfs_unvisited ntk { st with net_queue := rest } = bfs_unvisited ntk st := rfl
      have hlen : st.net_queue.length = rest.length + 1 := by rw [hq]; simp
      obtain ⟨st', e, i', q'⟩ := ih _ hinv' (by
        rw [hmeas, hu]
        change rest.length + bfs_unvisited ntk st ≤ fuel
        omega)
      refine ⟨st', ?_, i', q'⟩
      unfold bfs_loop
      rw [hq]
      exact e

/-- The method `BFS_traversal` on a well-formed network: with fuel of at least
the number of nodes it returns; the recorded cone inputs are sorted inputs of the
partition, and there is a set of visited nodes that holds the output, is closed
under the children of the nodes that are not inputs of the partition, and whose
inputs of the partition are all recorded. -/
theorem BFS_traversal_spec (pm : partition_manager) (ntk : Ntk) (out : Nat) (p : Int)
    (fuel : Nat) (hwf : ∀ n, ∀ c ∈ ntk.children n, c.index < ntk.size)
    (hout : out < ntk.size) (hfuel : ntk.size ≤ fuel) :
    ∃ pm1 I, pm.BFS_traversal ntk out p fuel = some pm1 ∧
      pm1.logic_cone_inputs out = I ∧ pm1.tables = pm.tables ∧
      pm1.partitionInputs = pm.partitionInputs ∧ pm1.partitionOutputs = pm.partitionOutputs ∧
      pm1.tt_map = pm.tt_map ∧ pm1.output_tt = pm.output_tt ∧
      I.Pairwise (fun a b => a < b) ∧ (∀ x ∈ I, x ∈ pm.partitionInputs p) ∧
      ∃ V : Nat → Bool, V out = true ∧
        (∀ x, V x = true → x ∈ pm.partitionInputs p → x ∈ I) ∧
        (∀ x, V x = true → x ∉ pm.partitionInputs p → ∀ c ∈ ntk.children x, V c.index = true) := by
  have hinit : bfs_inv ntk (pm.partitionInputs p) out
      { net_queue := [out], visited := upd (fun _ => false) out true, inputs := [], size := 0 } := by
    refine ⟨?_, by simp [upd], ?_, by simp, List.Pairwise.nil⟩
    · intro x hx
      simp only [List.mem_singleton] at hx
      subst hx; simp [upd]
    · intro x hx hnq
      simp only [upd] at hx
      split_ifs at hx with e
      subst e; simp at hnq
  have hmeas : ([out] : List Nat).length + bfs_unvisited ntk
      { net_queue := [out], visited := upd (fun _ => false) out true, inputs := [], size := 0 }
      ≤ fuel := by
    have := countP_mark (fun _ => false) out rfl (List.range ntk.size) (List.nodup_range _)
    rw [if_pos (List.mem_range.2 hout)] at this
    have h2 : (List.range ntk.size).countP (fun x => !(fun _ => false) x) ≤ ntk.size := by
      have := List.countP_le_length (fun x => !(fun _ => false) x) (l := List.range ntk.size)
      simp at this ⊢
    simp only [bfs_unvisited, List.length_singleton]
    omega
  obtain ⟨st', e, i', q'⟩ := bfs_loop_spec ntk (pm.partitionInputs p) out hwf fuel _ hinit hmeas
  refine ⟨{ pm with
      cone_size := upd pm.cone_size out st'.size
      logic_cone_inputs := upd pm.logic_cone_inputs out st'.inputs }, st'.inputs, ?_, ?_,
    rfl, rfl, rfl, rfl, rfl, i'.inputs_sorted, i'.inputs_sub,
    st'.visited, i'.out_visited, ?_, ?_⟩
  · unfold partition_manager.BFS_traversal
    rw [e]; rfl
  · simp [upd]
  · intro x hx hxp
    rcases i'.closed x hx (by rw [q']; simp) with ⟨_, b⟩ | ⟨a, _⟩
    · exact b
    · exact absurd hxp a
  · intro x hx hxp
    rcases i'.closed x hx (by rw [q']; simp) with ⟨a, _⟩ | ⟨_, b⟩
    · exact absurd a hxp
    · exact b

/-- The table `tt_build` uses for a fan-in whose own table is correct. -/
theorem tt_child_spec (ntk : Ntk) (I : List Nat) (M : Nat → dynamic_truth_table) (conn : signal)
    (hpo : ∀ n, ntk.is_po n = true → ∃ o, get_output ntk n = some o)
    (val : Nat → Bool) (hM : M conn.index = tbl I.length val) :
    tt_child ntk I M conn =
      some (tbl I.length (fun m => edge_value (po_input_inverted ntk I) conn (val m))) := by
  have h1 : (if is_complemented conn then kitty_not (M conn.index) else M conn.index) =
      tbl I.length (fun m => xor (val m) conn.complement) := by
    unfold is_complemented
    rw [hM]
    cases conn.complement
    · simp
    · simp [tbl_not]
  unfold tt_child
  rw [h1]
  by_cases hc : (ntk.is_po conn.index && decide (conn.index ∈ I)) = true
  · rw [if_pos hc]
    have hp : ntk.is_po conn.index = true := by
      simp only [Bool.and_eq_true] at hc; exact hc.1
    obtain ⟨o, ho⟩ := hpo conn.index hp
    rw [ho, Option.map_some']
    have he : po_input_inverted ntk I conn = o.complement := by
      unfold po_input_inverted output_inverted
      rw [ho]
      simp only [Bool.and_eq_true] at hc
      simp [hc.1, hc.2]
    unfold edge_value
    rw [he]
    cases o.complement
    · simp
    · simp [tbl_not]
  · rw [if_neg hc]
    have he : po_input_inverted ntk I conn = false := by
      unfold po_input_inverted
      have : (ntk.is_po conn.index && decide (conn.index ∈ I)) = false := by
        cases h : (ntk.is_po conn.index && decide (conn.index ∈ I))
        · rfl
        · exact absurd h hc
      rw [this]; rfl
    unfold edge_value
    rw [he]
    simp

/-- Evaluation of a gate whose fan-ins have correct tables. -/
theorem tt_build_gate_spec (ntk : Ntk) (I : List Nat) (M : Nat → dynamic_truth_table) (n : Nat)
    (hpo : ∀ n, ntk.is_po n = true → ∃ o, get_output ntk n = some o)
    (hn : n ∉ I) (hc : ntk.is_constant n = false)
    (hlen : (ntk.fanin n).length = 2 ∨ (ntk.fanin n).length = 3)
    (hgood : ∀ f ∈ ntk.fanin n, good_tbl ntk I M (get_node f)) :
    ∃ val : Nat → Bool, tt_build_gate ntk I n M = some (upd M n (tbl I.length val)) ∧
      ∀ m, m < 2 ^ I.length → cone_sim ntk I (po_input_inverted ntk I) m n (val m) := by
  unfold tt_build_gate
  have hcond : (!ntk.is_constant n && decide (n ∉ I)) = true := by simp [hc, hn]
  rw [if_pos hcond]
  rcases hlen with h2 | h3
  · obtain ⟨a, b, hab⟩ := List.length_eq_two.1 h2
    obtain ⟨va, ha1, ha2⟩ := hgood a (by rw [hab]; simp)
    obtain ⟨vb, hb1, hb2⟩ := hgood b (by rw [hab]; simp)
    refine ⟨fun m => edge_value (po_input_inverted ntk I) a (va m) &&
      edge_value (po_input_inverted ntk I) b (vb m), ?_, ?_⟩
    · rw [hab]
      simp only [opt_mapM, tt_child_spec ntk I M a hpo va ha1, tt_child_spec ntk I M b hpo vb hb1,
        Option.some_bind, Option.map_some', tt_combine, List.length_cons, List.length_nil]
      simp [tbl_and]
    · intro m hm
      exact cone_sim.and2 n a b (va m) (vb m) hn hab (ha2 m hm) (hb2 m hm)
  · obtain ⟨a, b, c, habc⟩ := List.length_eq_three.1 h3
    obtain ⟨va, ha1, ha2⟩ := hgood a (by rw [habc]; simp)
    obtain ⟨vb, hb1, hb2⟩ := hgood b (by rw [habc]; simp)
    obtain ⟨vc, hc1, hc2⟩ := hgood c (by rw [habc]; simp)
    refine ⟨fun m => maj3 (edge_value (po_input_inverted ntk I) a (va m))
      (edge_value (po_input_inverted ntk I) b (vb m))
      (edge_value (po_input_inverted ntk I) c (vc m)), ?_, ?_⟩
    · rw [habc]
      simp only [opt_mapM, tt_child_spec ntk I M a hpo va ha1, tt_child_spec ntk I M b hpo vb hb1,
        tt_child_spec ntk I M c hpo vc hc1,
        Option.some_bind, Option.map_some', tt_combine, List.length_cons, List.length_nil]
      simp [tbl_maj]
    · intro m hm
      exact cone_sim.maj n a b c (va m) (vb m) (vc m) hn habc (ha2 m hm) (hb2 m hm) (hc2 m hm)

theorem good_tbl_upd (ntk : Ntk) (I : List Nat) (M : Nat → dynamic_truth_table) (n : Nat)
    (val : Nat → Bool)
    (hval : ∀ m, m < 2 ^ I.length → cone_sim ntk I (po_input_inverted ntk I) m n (val m)) :
    good_tbl ntk I (upd M n (tbl I.length val)) n ∧
    ∀ x, good_tbl ntk I M x → good_tbl ntk I (upd M n (tbl I.length val)) x := by
  constructor
  · exact ⟨val, by simp [upd], hval⟩
  · intro x hx
    by_cases hxn : x = n
    · subst hxn; exact ⟨val, by simp [upd], hval⟩
    · obtain ⟨v, h1, h2⟩ := hx
      exact ⟨v, by simp [upd, hxn, h1], h2⟩

/-- The loop over the fan-ins inside `tt_build`. -/
theorem tt_build_fold (ntk : Ntk) (scope I : List Nat) (root fuel : Nat) (P : Nat → Prop)
    (IH : ∀ n M, P n → tt_agree I M →
      ∃ M', tt_build ntk scope I root fuel n M = some M' ∧ tt_post ntk I n M M') :
    ∀ (l : List signal) (M : Nat → dynamic_truth_table), (∀ f ∈ l, P (get_node f)) →
      tt_agree I M →
      ∃ M', l.foldlM (fun m child => tt_build ntk scope I root fuel (get_node child) m) M = some M' ∧
        tt_agree I M' ∧ (∀ f ∈ l, good_tbl ntk I M' (get_node f)) ∧
        ∀ x, good_tbl ntk I M x → good_tbl ntk I M' x := by
  intro l
  induction l with
  | nil => intro M _ hM; exact ⟨M, rfl, hM, by simp, fun x hx => hx⟩
  | cons a l ih =>
    intro M hP hM
    obtain ⟨M1, e1, a1, g1, p1⟩ := IH (get_node a) M (hP a (List.mem_cons_self _ _)) hM
    obtain ⟨M2, e2, a2, g2, p2⟩ := ih M1 (fun f hf => hP f (List.mem_cons_of_mem _ hf)) a1
    refine ⟨M2, ?_, a2, ?_, fun x hx => p2 x (p1 x hx)⟩
    · simp only [List.foldlM_cons, Option.bind_eq_bind, Option.bind_eq_some]
      exact ⟨M1, e1, e2⟩
    · intro f hf
      rcases List.mem_cons.1 hf with rfl | hf
      · exact p2 _ g1
      · exact g2 f hf

theorem tt_agree_upd (I : List Nat) (M : Nat → dynamic_truth_table) (n : Nat)
    (t : dynamic_truth_table) (hn : n ∉ I) (hM : tt_agree I M) : tt_agree I (upd M n t) := by
  intro x hx
  have : x ≠ n := fun e => hn (e ▸ hx)
  simp only [upd, this, if_false]
  exact hM x hx

/-- The recursion of `tt_build` below the root of a cone that is not an input:
it returns, and the table of the node it was called on is correct. -/
theorem tt_build_inner (ntk : Ntk) (scope I : List Nat) (root : Nat) (rank : Nat → Nat)
    (C : Nat → Prop) (ctx : tt_ctx ntk scope I rank C) (hroot : root ∉ I) :
    ∀ fuel n M, (C n ∧ rank n < fuel ∧ rank n < rank root) → tt_agree I M →
      ∃ M', tt_build ntk scope I root fuel n M = some M' ∧ tt_post ntk I n M M' := by
  intro fuel
  induction fuel with
  | zero => intro n M h _; exact absurd h.2.1 (Nat.not_lt_zero _)
  | succ fuel ih =>
    intro n M ⟨hC, hfu, hr⟩ hM
    unfold tt_build
    by_cases hn : n ∈ I
    · rw [if_pos (Or.inl hn)]
      refine ⟨M, ?_, hM, ?_, fun x hx => hx⟩
      · unfold tt_build_boundary; rw [if_neg hroot]
      · exact ⟨_, hM n hn, fun m _ => cone_sim.input n hn⟩
    · rcases ctx.node_ok n hC with h | ⟨hs, hc, hlen, hch⟩
      · exact absurd h hn
      · have hcond : ¬ (n ∈ I ∨ n ∉ scope) := by
          rintro (h | h)
          · exact hn h
          · exact h hs
        rw [if_neg hcond]
        obtain ⟨M1, e1, a1, g1, p1⟩ := tt_build_fold ntk scope I root fuel
          (fun x => C x ∧ rank x < fuel ∧ rank x < rank root) ih (ntk.fanin n) M
          (fun f hf => ⟨hch f hf, lt_of_lt_of_le (ctx.acyc n f hf) (Nat.lt_succ_iff.1 hfu),
            lt_trans (ctx.acyc n f hf) hr⟩) hM
        obtain ⟨val, e2, hval⟩ := tt_build_gate_spec ntk I M1 n ctx.po_out hn hc hlen g1
        obtain ⟨q1, q2⟩ := good_tbl_upd ntk I M1 n val hval
        have hne : n ≠ root := fun e => by rw [e] at hr; exact lt_irrefl _ hr
        refine ⟨upd M1 n (tbl I.length val), ?_, tt_agree_upd I M1 n _ hn a1, q1,
          fun x hx => q2 x (p1 x hx)⟩
        rw [e1, Option.some_bind, e2, Option.some_bind]
        unfold tt_build_root
        rw [if_neg]
        simp [hne]

/-- The call of `tt_build` on the root of a cone that is not itself a cone
input: the table stored for the root is the simulated value, complemented when
the root drives an inverted output. -/
theorem tt_build_top (ntk : Ntk) (scope I : List Nat) (root : Nat) (rank : Nat → Nat)
    (C : Nat → Prop) (ctx : tt_ctx ntk scope I rank C) (hroot : root ∉ I) (hC : C root)
    (fuel : Nat) (hfuel : rank root < fuel) (M : Nat → dynamic_truth_table)
    (hM : tt_agree I M) :
    ∃ (M' : Nat → dynamic_truth_table) (val : Nat → Bool),
      tt_build ntk scope I root fuel root M = some M' ∧
      M' root = tbl I.length (fun m => xor (val m) (ntk.is_po root && output_inverted ntk root)) ∧
      ∀ m, m < 2 ^ I.length → cone_sim ntk I (po_input_inverted ntk I) m root (val m) := by
  obtain ⟨fuel, rfl⟩ : ∃ f, fuel = f + 1 := ⟨fuel - 1, by omega⟩
  rcases ctx.node_ok root hC with h | ⟨hs, hc, hlen, hch⟩
  · exact absurd h hroot
  · have hcond : ¬ (root ∈ I ∨ root ∉ scope) := by
      rintro (h | h)
      · exact hroot h
      · exact h hs
    obtain ⟨M1, e1, a1, g1, p1⟩ := tt_build_fold ntk scope I root fuel
      (fun x => C x ∧ rank x < fuel ∧ rank x < rank root)
      (tt_build_inner ntk scope I root rank C ctx hroot fuel) (ntk.fanin root) M
      (fun f hf => ⟨hch f hf, lt_of_lt_of_le (ctx.acyc root f hf) (Nat.lt_succ_iff.1 hfuel),
        ctx.acyc root f hf⟩) hM
    obtain ⟨val, e2, hval⟩ := tt_build_gate_spec ntk I M1 root ctx.po_out hroot hc hlen g1
    unfold tt_build
    rw [if_neg hcond, e1, Option.some_bind, e2, Option.some_bind]
    unfold tt_build_root
    cases hp : ntk.is_po root
    · refine ⟨upd M1 root (tbl I.length val), val, by simp, ?_, hval⟩
      simp [upd]
    · obtain ⟨o, ho⟩ := ctx.po_out root hp
      have hinv : output_inverted ntk root = o.complement := by
        unfold output_inverted; rw [ho]
      simp only [Bool.true_and, decide_True, if_true, tt_flip_output, ho, Option.map_some', hinv]
      cases o.complement
      · refine ⟨upd M1 root (tbl I.length val), val, by simp, ?_, hval⟩
        simp [upd]
      · refine ⟨upd (upd M1 root (tbl I.length val)) root
          (kitty_not (upd M1 root (tbl I.length val) root)), val, by simp, ?_, hval⟩
        simp [upd, tbl_not]

/-- The call of `tt_build` on a root that is itself a cone input and drives an
output: its single-variable table is complemented when that output is inverted. -/
theorem tt_build_top_input (ntk : Ntk) (scope I : List Nat) (root : Nat)
    (hroot : root ∈ I) (hpo : ntk.is_po root = true)
    (hout : ∀ n, ntk.is_po n = true → ∃ o, get_output ntk n = some o)
    (fuel : Nat) (hfuel : 0 < fuel) (M : Nat → dynamic_truth_table) (hM : tt_agree I M) :
    ∃ M', tt_build ntk scope I root fuel root M = some M' ∧
      M' root = tbl I.length (fun m =>
        xor (m.testBit (I.indexOf root)) (ntk.is_po root && output_inverted ntk root)) := by
  obtain ⟨fuel, rfl⟩ : ∃ f, fuel = f + 1 := ⟨fuel - 1, by omega⟩
  obtain ⟨o, ho⟩ := hout root hpo
  have hinv : output_inverted ntk root = o.complement := by
    unfold output_inverted; rw [ho]
  unfold tt_build
  rw [if_pos (Or.inl hroot)]
  unfold tt_build_boundary
  rw [if_pos hroot]
  simp only [tt_flip_output, ho, Option.map_some', hinv, hpo, Bool.true_and]
  cases o.complement
  · refine ⟨M, by simp, ?_⟩
    simp [hM root hroot]
  · refine ⟨upd M root (kitty_not (M root)), by simp, ?_⟩
    simp [upd, hM root hroot, tbl_not]

theorem tt_init_vars_other (size : Nat) (l : List Nat) (idx : Nat)
    (M : Nat → dynamic_truth_table) (n : Nat) (hn : n ∉ l) :
    tt_init_vars size idx l M n = M n := by
  induction l generalizing idx M with
  | nil => rfl
  | cons a l ih =>
    simp only [tt_init_vars]
    rw [ih _ _ (fun h => hn (List.mem_cons_of_mem _ h))]
    have : n ≠ a := fun e => hn (e ▸ List.mem_cons_self _ _)
    simp [upd, this]

/-- After the initialisation loop the `j`-th cone input holds the table of
variable `j`. -/
theorem tt_init_vars_spec (size : Nat) (l : List Nat) (hl : l.Nodup) (idx : Nat)
    (M : Nat → dynamic_truth_table) (n : Nat) (hn : n ∈ l) :
    tt_init_vars size idx l M n = tbl size (fun m => m.testBit (idx + l.indexOf n)) := by
  induction l generalizing idx M with
  | nil => simp at hn
  | cons a l ih =>
    rw [List.nodup_cons] at hl
    simp only [tt_init_vars]
    by_cases hna : n = a
    · subst hna
      rw [tt_init_vars_other _ _ _ _ _ hl.1]
      simp [upd, tbl_nth_var]
    · have hnl : n ∈ l := by
        rcases List.mem_cons.1 hn with h | h
        · exact absurd h hna
        · exact h
      rw [ih hl.2 _ _ hnl]
      have : (a :: l).indexOf n = l.indexOf n + 1 := by
        rw [List.indexOf_cons_ne _ (fun e => hna e.symm)]
      rw [this]
      congr 2
      funext m
      congr 1
      omega

theorem scope_le_refl (t : part_tables) : scope_le t t := ⟨tables_le_refl t, fun _ _ h => h⟩

theorem scope_le_trans (a b c : part_tables) (h1 : scope_le a b) (h2 : scope_le b c) :
    scope_le a c :=
  ⟨tables_le_trans _ _ _ h1.1 h2.1, fun i x h => h2.2 i x (h1.2 i x h)⟩

theorem scope_insert_mem {scope : List (List Nat)} {p : Int} {n : Nat} {sc : List (List Nat)}
    (h : scope_insert scope p n = some sc) :
    n ∈ sc.getD p.toNat [] ∧ ∀ i x, x ∈ scope.getD i [] → x ∈ sc.getD i [] := by
  unfold scope_insert at h
  split_ifs at h with hc
  simp only [Option.some.injEq] at h
  subst h
  constructor
  · rw [List.getD_eq_getElem?_getD, List.getElem?_set_self hc.2]
    simp [mem_set_insert]
  · intro i x hx
    by_cases hi : i = p.toNat
    · subst hi
      rw [List.getD_eq_getElem?_getD, List.getElem?_set_self hc.2]
      simp only [Option.getD_some, mem_set_insert]
      exact Or.inr hx
    · rw [List.getD_eq_getElem?_getD, List.getElem?_set_ne (fun e => hi e.symm)]
      rw [List.getD_eq_getElem?_getD] at hx
      exact hx

/-- A step that inserts `n` into the scope of `p` and only appends to the
multimaps. -/
theorem scope_step2 {t : part_tables} (t' : part_tables) {p : Int} {n : Nat}
    {sc : List (List Nat)} (hsc : scope_insert t._part_scope p n = some sc)
    (h1 : t'._part_scope = sc)
    (h2 : ∀ e, e ∈ t._part_pis → e ∈ t'._part_pis)
    (h3 : ∀ e, e ∈ t._part_pos → e ∈ t'._part_pos) :
    scope_le t t' ∧ n ∈ t'._part_scope.getD p.toNat [] := by
  obtain ⟨a, b⟩ := scope_insert_mem hsc
  refine ⟨⟨(scope_step t' hsc h1 h2 h3).1, ?_⟩, by rw [h1]; exact a⟩
  intro i x hx
  rw [h1]; exact b i x hx

theorem crossing_edge_scope {ntk : Ntk} {part_of : Nat → Option Int} {c : Nat}
    {t t' : part_tables} {conn : signal} (h : crossing_edge ntk part_of c t conn = some t') :
    scope_le t t' := by
  unfold crossing_edge at h
  simp only [Ntk.index_to_node, Option.bind_eq_some] at h
  obtain ⟨pn, _, pc, _, h⟩ := h
  split_ifs at h with hc
  · simp only [Option.map_eq_some'] at h
    obtain ⟨sc, hsc, rfl⟩ := h
    exact (scope_step2 _ hsc rfl (fun e he => by simp [he]) (fun e he => by simp [he])).1
  · simp only [Option.some.injEq] at h
    subst h; exact scope_le_refl _

theorem classify_fanins_scope {ntk : Ntk} {part_of : Nat → Option Int} {c : Nat}
    {t t' : part_tables} (h : classify_fanins ntk part_of t c = some t') : scope_le t t' := by
  unfold classify_fanins at h
  split_ifs at h
  · exact foldlM_rel _ scope_le scope_le_refl scope_le_trans
      (fun _ _ _ hs => crossing_edge_scope hs) _ _ _ h
  · simp only [Option.some.injEq] at h; subst h; exact scope_le_refl _

theorem classify_pi_home {ntk : Ntk} {partition : Nat → Option Int} {t t' : part_tables}
    {c : Nat} (h : classify_pi ntk partition t c = some t') :
    scope_le t t' ∧ (ntk.is_pi c = true → (map_at partition c, c) ∈ t'._part_pis) := by
  unfold classify_pi at h
  split_ifs at h with hc
  · simp only [Option.map_eq_some'] at h
    obtain ⟨sc, hsc, rfl⟩ := h
    exact ⟨(scope_step2 _ hsc rfl (fun e he => by simp [he]) (fun e he => by simp [he])).1,
      fun _ => by simp⟩
  · simp only [Option.some.injEq] at h; subst h
    exact ⟨scope_le_refl _, fun hh => absurd hh hc⟩

theorem classify_kind_home {ntk : Ntk} {partition : Nat → Option Int} {t t' : part_tables}
    {c : Nat} (h : classify_kind ntk partition t c = some t') :
    scope_le t t' ∧
    (ntk.is_constant c = false → c ∈ t'._part_scope.getD (map_at partition c).toNat []) ∧
    (ntk.is_ro c = true ∧ ntk.is_constant c = false → (map_at partition c, c) ∈ t'._part_pis) := by
  unfold classify_kind at h
  split_ifs at h with hc1 hc2 hc3 hc4
  · simp only [Option.map_eq_some'] at h
    obtain ⟨sc, hsc, rfl⟩ := h
    exact ⟨(scope_step2 _ hsc rfl (fun e he => by simp [he]) (fun e he => by simp [he])).1,
      fun _ => (scope_insert_mem hsc).1, fun _ => by simp⟩
  · simp only [Option.map_eq_some'] at h
    obtain ⟨sc, hsc, rfl⟩ := h
    exact ⟨(scope_step2 _ hsc rfl (fun e he => by simp [he]) (fun e he => by simp [he])).1,
      fun _ => (scope_insert_mem hsc).1, fun _ => by simp⟩
  · simp only [Option.map_eq_some'] at h
    obtain ⟨sc, hsc, rfl⟩ := h
    refine ⟨(scope_step2 _ hsc rfl (fun e he => by simp [he]) (fun e he => by simp [he])).1,
      fun _ => (scope_insert_mem hsc).1, fun hh => ?_⟩
    simp [hh.1, hh.2] at hc1
  · simp only [Option.map_eq_some'] at h
    obtain ⟨sc, hsc, rfl⟩ := h
    refine ⟨(scope_step2 _ hsc rfl (fun e he => by simp [he]) (fun e he => by simp [he])).1,
      fun _ => (scope_insert_mem hsc).1, fun hh => ?_⟩
    simp [hh.1, hh.2] at hc1
  · simp only [Option.some.injEq] at h; subst h
    refine ⟨scope_le_refl _, fun hk => ?_, fun hh => ?_⟩
    · simp [hk] at hc4
    · simp [hh.1, hh.2] at hc1

theorem node_home_mono {ntk : Ntk} {part : Nat → Int} {c : Nat} {t t' : part_tables}
    (h : node_home ntk part c t) (hle : scope_le t t') : node_home ntk part c t' :=
  ⟨fun hc => hle.2 _ _ (h.1 hc), fun hc => hle.1.2.1 _ (h.2 hc)⟩

theorem classify_node_home {ntk : Ntk} {partition : Nat → Option Int} {t t' : part_tables}
    {c : Nat} (h : classify_node ntk partition t c = some t') :
    scope_le t t' ∧ node_home ntk (map_at partition) c t' := by
  unfold classify_node at h
  simp only [Option.bind_eq_some] at h
  obtain ⟨t1, h1, t2, h2, h3⟩ := h
  obtain ⟨a1, b1⟩ := classify_pi_home h1
  obtain ⟨a2, b2, c2⟩ := classify_kind_home h2
  have a3 := classify_fanins_scope h3
  refine ⟨scope_le_trans _ _ _ (scope_le_trans _ _ _ a1 a2) a3, fun hc => a3.2 _ _ (b2 hc), ?_⟩
  rintro (hp | hr)
  · exact a3.1.2.1 _ (a2.1.2.1 _ (b1 hp))
  · exact a3.1.2.1 _ (c2 hr)

/-- Facts about a ledger built from an assignment: the length of the scope
vector, the boundary sets in terms of the multimaps, the soundness of the
multimaps, and what holds for every node of the network. -/
theorem from_map_facts {ntk : Ntk} {partition : Nat → Option Int} {part_num : Int}
    {pm : partition_manager} (h : partition_manager.from_map ntk partition part_num = some pm) :
    pm.tables._part_scope.length = part_num.toNat ∧
    (∀ p n, n ∈ pm.partitionInputs p ↔ (0 ≤ p ∧ p < part_num) ∧ (p, n) ∈ pm.tables._part_pis) ∧
    (∀ p n, n ∈ pm.partitionOutputs p ↔ (0 ≤ p ∧ p < part_num) ∧ (p, n) ∈ pm.tables._part_pos) ∧
    tables_sound ntk (map_at partition) pm.tables ∧
    (∀ c, c < ntk.size → node_done ntk (fun n => some (map_at partition n)) c pm.tables ∧
      node_home ntk (map_at partition) c pm.tables) := by
  obtain ⟨t', hs', _, _⟩ := from_map_sound h
  unfold partition_manager.from_map at h
  simp only [Option.map_eq_some'] at h
  obtain ⟨t, ht, rfl⟩ := h
  obtain ⟨f1, f2, f3⟩ := finish_loop_spec finish_from_map finish_from_map_fields
    (part_ids part_num) (partition_manager.init part_num t)
  have htab : ((part_ids part_num).foldl finish_from_map (partition_manager.init part_num t)).tables
      = t := f1
  rw [htab]
  obtain ⟨hle, hdone⟩ := node_loop_spec (fun n => some (map_at partition n))
    (classify_node ntk partition) (fun _ _ _ hs => classify_node_spec hs) ht
  have hhome : ∀ c, c < ntk.size → node_home ntk (map_at partition) c t := by
    intro c hc
    exact foldlM_each _ scope_le (fun c t => node_home ntk (map_at partition) c t)
      scope_le_refl scope_le_trans (fun _ _ _ hs => (classify_node_home hs).1)
      (fun _ _ _ hs => (classify_node_home hs).2) (fun _ _ _ hq hle => node_home_mono hq hle)
      _ _ _ ht c (by simp [Ntk.foreach_node, hc])
  have hsound : tables_sound ntk (map_at partition) t := by
    refine foldlM_inv _ (tables_sound ntk (map_at partition))
      (fun _ _ _ hb hstep => classify_node_sound hb hstep) _ _ _ ?_ ht
    exact ⟨fun p n hm => by simp [part_tables.empty] at hm,
      fun p n hm => by simp [part_tables.empty] at hm⟩
  refine ⟨?_, ?_, ?_, hsound, fun c hc => ⟨hdone c hc, hhome c hc⟩⟩
  · rw [hle.1]; simp [part_tables.empty]
  · intro p n
    rw [f2 p]
    by_cases hp : p ∈ part_ids part_num
    · rw [if_pos hp, mem_create_part_set]
      have := (mem_part_ids _ _).1 hp
      simp [partition_manager.init, this]
    · rw [if_neg hp]
      have : ¬ (0 ≤ p ∧ p < part_num) := fun q => hp ((mem_part_ids _ _).2 q)
      simp [partition_manager.init, this]
  · intro p n
    rw [f3 p]
    by_cases hp : p ∈ part_ids part_num
    · rw [if_pos hp, mem_create_part_set]
      have := (mem_part_ids _ _).1 hp
      simp [partition_manager.init, this]
    · rw [if_neg hp]
      have : ¬ (0 ≤ p ∧ p < part_num) := fun q => hp ((mem_part_ids _ _).2 q)
      simp [partition_manager.init, this]

/-- Direct simulation assigns at most one value to a node. -/
theorem cone_sim_det {ntk : Ntk} {I : List Nat} {extra : signal → Bool} {m n : Nat} {b b' : Bool}
    (h : cone_sim ntk I extra m n b) (h' : cone_sim ntk I extra m n b') : b = b' := by
  induction h generalizing b' with
  | input n hn =>
    cases h' with
    | input _ _ => rfl
    | and2 _ a b va vb hni _ _ _ => exact absurd hn hni
    | maj _ a b c va vb vc hni _ _ _ _ => exact absurd hn hni
  | and2 n a b va vb hni hf ha hb iha ihb =>
    cases h' with
    | input _ hn => exact absurd hn hni
    | and2 _ a' b' va' vb' _ hf' ha' hb' =>
      rw [hf] at hf'
      simp only [List.cons.injEq, and_true] at hf'
      obtain ⟨rfl, rfl⟩ := hf'
      rw [iha ha', ihb hb']
    | maj _ a' b' c' va' vb' vc' _ hf' _ _ _ =>
      rw [hf] at hf'; simp at hf'
  | maj n a b c va vb vc hni hf ha hb hc iha ihb ihc =>
    cases h' with
    | input _ hn => exact absurd hn hni
    | and2 _ a' b' va' vb' _ hf' ha' hb' =>
      rw [hf] at hf'; simp at hf'
    | maj _ a' b' c' va' vb' vc' _ hf' ha' hb' hc' =>
      rw [hf] at hf'
      simp only [List.cons.injEq, and_true] at hf'
      obtain ⟨rfl, rfl, rfl⟩ := hf'
      rw [iha ha', ihb hb', ihc hc']

/-- A node of the cone of an output of partition `p` is a node of the network
that lies in partition `p` or is one of its inputs. -/
theorem cone_node_facts {ntk : Ntk} {partition : Nat → Option Int} {part_num : Int}
    {pm0 : partition_manager}
    (h0 : partition_manager.from_map ntk partition part_num = some pm0)
    (hwf : ∀ n, ∀ c ∈ ntk.children n, c.index < ntk.size)
    (hfc : ∀ n, ∀ f ∈ ntk.fanin n, f ∈ ntk.children n)
    (p : Int) (o : Nat) (ho : o ∈ pm0.partitionOutputs p) (hosize : o < ntk.size)
    (hnc : ∀ n, cone_node ntk (pm0.partitionInputs p) o n → ntk.is_constant n = false)
    (n : Nat) (hn : cone_node ntk (pm0.partitionInputs p) o n) :
    n < ntk.size ∧ (map_at partition n = p ∨ n ∈ pm0.partitionInputs p) := by
  obtain ⟨hlen, hI, hO, hsound, hnode⟩ := from_map_facts h0
  have hp := ((hO p o).1 ho).1
  induction hn with
  | root => exact ⟨hosize, Or.inl (hsound.1 p o ((hO p o).1 ho).2).symm⟩
  | step c f hc hcn hf ih =>
    obtain ⟨hcs, hch⟩ := ih
    have hhome : map_at partition c = p := by
      rcases hch with h | h
      · exact h
      · exact absurd h hcn
    have hfs : get_node f < ntk.size := hwf c f (hfc c f hf)
    refine ⟨hfs, ?_⟩
    obtain ⟨hdone, hhm⟩ := hnode c hcs
    have hcc := hnc c hc
    have hpi : ntk.is_pi c = false := by
      by_contra hx
      have hx : ntk.is_pi c = true := by simpa using hx
      have := hhm.2 (Or.inl hx)
      rw [hhome] at this
      exact hcn ((hI p c).2 ⟨hp, this⟩)
    have hro : ntk.is_ro c = false := by
      by_contra hx
      have hx : ntk.is_ro c = true := by simpa using hx
      have := hhm.2 (Or.inr ⟨hx, hcc⟩)
      rw [hhome] at this
      exact hcn ((hI p c).2 ⟨hp, this⟩)
    obtain ⟨pn, pc, e1, e2, hedge⟩ := hdone.2 hpi hro f hf
    simp only [Option.some.injEq] at e1 e2
    by_cases hsame : map_at partition (get_node f) = p
    · exact Or.inl hsame
    · right
      have hne : pn ≠ pc := by
        rw [← e1, ← e2, hhome]; exact hsame
      have hfc2 : ntk.is_constant f.index = false := hnc _ (cone_node.step c f hc hcn hf)
      obtain ⟨q1, _, _, _⟩ := hedge hne hfc2
      rw [← e2, hhome] at q1
      exact (hI p _).2 ⟨hp, q1⟩

/-- The cone inputs found by `BFS_traversal` depend on the state only through
the inputs of the partition. -/
theorem BFS_traversal_inputs (pm pm' : partition_manager) (ntk : Ntk) (o : Nat) (p : Int)
    (fuel : Nat) (h : pm'.partitionInputs = pm.partitionInputs) (pm1 : partition_manager)
    (h1 : pm.BFS_traversal ntk o p fuel = some pm1) :
    ∃ pm1', pm'.BFS_traversal ntk o p fuel = some pm1' ∧
      pm1'.logic_cone_inputs o = pm1.logic_cone_inputs o := by
  unfold partition_manager.BFS_traversal at h1 ⊢
  rw [h]
  simp only [Option.map_eq_some'] at h1 ⊢
  obtain ⟨st, hst, rfl⟩ := h1
  exact ⟨_, ⟨st, hst, rfl⟩, by simp [upd]⟩

/-- A node of the cone that is not an input of the partition is a gate of the
partition. -/
theorem cone_node_gate {ntk : Ntk} {partition : Nat → Option Int} {part_num : Int}
    {pm0 : partition_manager}
    (h0 : partition_manager.from_map ntk partition part_num = some pm0)
    (hwf : ∀ n, ∀ c ∈ ntk.children n, c.index < ntk.size)
    (hfc : ∀ n, ∀ f ∈ ntk.fanin n, f ∈ ntk.children n)
    (p : Int) (o : Nat) (ho : o ∈ pm0.partitionOutputs p) (hosize : o < ntk.size)
    (hnc : ∀ n, cone_node ntk (pm0.partitionInputs p) o n → ntk.is_constant n = false)
    (n : Nat) (hn : cone_node ntk (pm0.partitionInputs p) o n)
    (hni : n ∉ pm0.partitionInputs p) :
    n < ntk.size ∧ n ∈ pm0.tables._part_scope.getD p.toNat [] ∧
      ntk.is_pi n = false ∧ ntk.is_ro n = false := by
  obtain ⟨hlen, hI, hO, hsound, hnode⟩ := from_map_facts h0
  have hp := ((hO p o).1 ho).1
  obtain ⟨hns, hh⟩ := cone_node_facts h0 hwf hfc p o ho hosize hnc n hn
  have hhome : map_at partition n = p := by
    rcases hh with h | h
    · exact h
    · exact absurd h hni
  obtain ⟨_, hhm⟩ := hnode n hns
  have hcc := hnc n hn
  refine ⟨hns, ?_, ?_, ?_⟩
  · have := hhm.1 hcc
    rw [hhome] at this; exact this
  · by_contra hx
    have hx : ntk.is_pi n = true := by simpa using hx
    have := hhm.2 (Or.inl hx)
    rw [hhome] at this
    exact hni ((hI p n).2 ⟨hp, this⟩)
  · by_contra hx
    have hx : ntk.is_ro n = true := by simpa using hx
    have := hhm.2 (Or.inr ⟨hx, hcc⟩)
    rw [hhome] at this
    exact hni ((hI p n).2 ⟨hp, this⟩)

/-- What `BFS_traversal` leaves unchanged. -/
theorem BFS_traversal_frame (pm : partition_manager) (ntk : Ntk) (o : Nat) (p : Int)
    (fuel : Nat) (pm1 : partition_manager) (h : pm.BFS_traversal ntk o p fuel = some pm1) :
    pm1.logic_cone_inputs = upd pm.logic_cone_inputs o (pm1.logic_cone_inputs o) ∧
    pm1.num_partitions = pm.num_partitions := by
  unfold partition_manager.BFS_traversal at h
  simp only [Option.map_eq_some'] at h
  obtain ⟨st, _, rfl⟩ := h
  refine ⟨?_, rfl⟩
  funext x
  simp only [upd]
  split_ifs <;> rfl

/-- One round of the inner loop of `generate_truth_tables`, from any state that
agrees with a ledger built from an assignment. -/
theorem gen_tt_output_spec (ntk : Ntk) (partition : Nat → Option Int) (part_num : Int)
    (pm0 pm : partition_manager)
    (h0 : partition_manager.from_map ntk partition part_num = some pm0)
    (htab : pm.tables = pm0.tables) (hin : pm.partitionInputs = pm0.partitionInputs)
    (rank : Nat → Nat) (hacyc : ∀ n, ∀ f ∈ ntk.fanin n, rank (get_node f) < rank n)
    (hwf : ∀ n, ∀ c ∈ ntk.children n, c.index < ntk.size)
    (hfc : ∀ n, ∀ f ∈ ntk.fanin n, f ∈ ntk.children n)
    (hgate : ∀ n, n < ntk.size → ntk.is_constant n = false → ntk.is_pi n = false →
      ntk.is_ro n = false → (ntk.fanin n).length = 2 ∨ (ntk.fanin n).length = 3)
    (hpo : ∀ n, ntk.is_po n = true → ∃ s, get_output ntk n = some s)
    (p : Int) (o : Nat) (ho : o ∈ pm0.partitionOutputs p) (hosize : o < ntk.size)
    (fuel : Nat) (hf1 : ntk.size ≤ fuel) (hf2 : rank o < fuel)
    (hsafe : ∀ pm1, pm.BFS_traversal ntk o p fuel = some pm1 → ntk.is_constant o = false →
      (pm1.logic_cone_inputs o).length ≤ 16 →
      (∀ n, cone_node ntk (pm0.partitionInputs p) o n → ntk.is_constant n = false) ∧
      (o ∈ pm0.partitionInputs p → ntk.is_po o = true)) :
    ∃ pm1 pm', pm.BFS_traversal ntk o p fuel = some pm1 ∧
      partition_manager.gen_tt_output ntk fuel pm p o = some pm' ∧
      pm'.tables = pm.tables ∧ pm'.partitionInputs = pm.partitionInputs ∧
      pm'.partitionOutputs = pm.partitionOutputs ∧
      pm'.logic_cone_inputs = upd pm.logic_cone_inputs o (pm1.logic_cone_inputs o) ∧
      (∀ o', o' ≠ o → pm'.output_tt o' = pm.output_tt o') ∧
      (ntk.is_constant o = false → (pm1.logic_cone_inputs o).length ≤ 16 →
        tt_stored ntk pm' o) := by
  obtain ⟨pm1, I, hbfs, hI, ht, hpi, hpout, htt, hott, hsorted, hsub, V, hV0, hVin, hVcl⟩ :=
    BFS_traversal_spec pm ntk o p fuel hwf hosize hf1
  obtain ⟨hfr, _⟩ := BFS_traversal_frame pm ntk o p fuel pm1 hbfs
  subst hI
  refine ⟨pm1, ?_⟩
  unfold partition_manager.gen_tt_output
  rw [hbfs]
  simp only [Option.some_bind]
  by_cases hc : ntk.is_constant o = true
  · rw [if_pos hc]
    exact ⟨pm1, trivial, rfl, ht, hpi, hpout, hfr, fun o' _ => by rw [hott],
      fun hh => by rw [hc] at hh; cases hh⟩
  have hc : ntk.is_constant o = false := by simpa using hc
  rw [if_neg (by simp [hc])]
  by_cases hk : (pm1.logic_cone_inputs o).length ≤ 16
  swap
  · rw [if_neg (by simp [hk])]
    exact ⟨pm1, trivial, rfl, ht, hpi, hpout, hfr, fun o' _ => by rw [hott],
      fun _ hh => absurd hh hk⟩
  rw [if_pos (by simp [hk, hc])]
  obtain ⟨hnc, hroot⟩ := hsafe pm1 hbfs hc hk
  obtain ⟨hlen, hIn, hO, hsound, hnode⟩ := from_map_facts h0
  have hp := ((hO p o).1 ho).1
  have hscope : pm1.scope_at p = some (pm0.tables._part_scope.getD p.toNat []) := by
    unfold partition_manager.scope_at
    rw [if_pos hp.1, ht, htab]
    have hlt : p.toNat < pm0.tables._part_scope.length := by
      rw [hlen]; omega
    rw [List.getD_eq_getElem?_getD, List.get?_eq_getElem?, List.getElem?_eq_getElem hlt]
    rfl
  rw [hscope]
  simp only [Option.some_bind]
  have hnodup : (pm1.logic_cone_inputs o).Nodup :=
    hsorted.imp (fun h => Nat.ne_of_lt h)
  have hagree : tt_agree (pm1.logic_cone_inputs o)
      (tt_init_vars (pm1.logic_cone_inputs o).length 0 (pm1.logic_cone_inputs o) pm1.tt_map) := by
    intro n hn
    rw [tt_init_vars_spec _ _ hnodup 0 _ n hn]
    simp
  have hVcone : ∀ n, cone_node ntk (pm0.partitionInputs p) o n → V n = true := by
    intro n hn
    induction hn with
    | root => exact hV0
    | step c f _ hcn hf ih =>
      exact hVcl c ih (by rw [hin]; exact hcn) f (hfc c f hf)
  have ctx : tt_ctx ntk (pm0.tables._part_scope.getD p.toNat []) (pm1.logic_cone_inputs o) rank
      (cone_node ntk (pm0.partitionInputs p) o) := by
    refine ⟨hacyc, hpo, fun n hn => ?_⟩
    by_cases hni : n ∈ pm0.partitionInputs p
    · exact Or.inl (hVin n (hVcone n hn) (by rw [hin]; exact hni))
    · obtain ⟨hns, hsc, hnpi, hnro⟩ := cone_node_gate h0 hwf hfc p o ho hosize hnc n hn hni
      exact Or.inr ⟨hsc, hnc n hn, hgate n hns (hnc n hn) hnpi hnro,
        fun f hf => cone_node.step n f hn hni hf⟩
  by_cases hoI : o ∈ pm1.logic_cone_inputs o
  · have hoP : o ∈ pm0.partitionInputs p := by rw [← hin]; exact hsub o hoI
    obtain ⟨M', hb, hM'⟩ := tt_build_top_input ntk (pm0.tables._part_scope.getD p.toNat [])
      (pm1.logic_cone_inputs o) o hoI (hroot hoP) hpo fuel (by omega) _ hagree
    rw [hb]
    refine ⟨_, trivial, rfl, ht, hpi, hpout, hfr, fun o' ho' => ?_, fun _ _ => ?_⟩
    · simp [upd, ho', hott]
    · refine ⟨M' o, by simp [upd], hsorted, ?_⟩
      rw [hM']
      obtain ⟨a, b, c⟩ := tbl_bits (pm1.logic_cone_inputs o).length (fun m =>
        xor (m.testBit ((pm1.logic_cone_inputs o).indexOf o)) (ntk.is_po o && output_inverted ntk o))
      exact ⟨a, b, fun m hm => ⟨_, cone_sim.input o hoI, c m hm⟩⟩
  · obtain ⟨M', val, hb, hM', hval⟩ := tt_build_top ntk (pm0.tables._part_scope.getD p.toNat [])
      (pm1.logic_cone_inputs o) o rank _ ctx hoI cone_node.root fuel hf2 _ hagree
    rw [hb]
    refine ⟨_, trivial, rfl, ht, hpi, hpout, hfr, fun o' ho' => ?_, fun _ _ => ?_⟩
    · simp [upd, ho', hott]
    · refine ⟨M' o, by simp [upd], hsorted, ?_⟩
      rw [hM']
      obtain ⟨a, b, c⟩ := tbl_bits (pm1.logic_cone_inputs o).length (fun m =>
        xor (val m) (ntk.is_po o && output_inverted ntk o))
      exact ⟨a, b, fun m hm => ⟨_, hval m hm, c m hm⟩⟩

/-- A loop whose rounds all succeed under an invariant `J`: the loop succeeds,
and what a round establishes for its element holds at the end when later rounds
preserve it. -/
theorem foldlM_total {α β : Type} (f : β → α → Option β) (J : β → Prop) (R : β → β → Prop)
    (Q : α → β → Prop) (hrefl : ∀ b, R b b) (htrans : ∀ a b c, R a b → R b c → R a c)
    (hmono : ∀ a b b', Q a b → R b b' → Q a b') :
    ∀ (l : List α), (∀ a ∈ l, ∀ b, J b → ∃ b', f b a = some b' ∧ J b' ∧ R b b' ∧ Q a b') →
      ∀ b, J b → ∃ b', l.foldlM f b = some b' ∧ J b' ∧ R b b' ∧ ∀ a ∈ l, Q a b' := by
  intro l
  induction l with
  | nil =>
    intro _ b hb
    exact ⟨b, rfl, hb, hrefl b, fun a ha => by simp at ha⟩
  | cons x l ih =>
    intro hstep b hb
    obtain ⟨b1, h1, hJ1, hR1, hQ1⟩ := hstep x (List.mem_cons_self _ _) b hb
    obtain ⟨b2, h2, hJ2, hR2, hQ2⟩ :=
      ih (fun a ha => hstep a (List.mem_cons_of_mem _ ha)) b1 hJ1
    refine ⟨b2, ?_, hJ2, htrans _ _ _ hR1 hR2, fun a ha => ?_⟩
    · simp only [List.foldlM_cons, Option.bind_eq_bind, h1, Option.some_bind, h2]
    · rcases List.mem_cons.1 ha with e | e
      · subst e; exact hmono _ _ _ hQ1 hR2
      · exact hQ2 a e

theorem finish_from_map_num (l : List Int) (pm : partition_manager) :
    (l.foldl finish_from_map pm).num_partitions = pm.num_partitions := by
  induction l generalizing pm with
  | nil => rfl
  | cons i l ih =>
    rw [List.foldl_cons, ih]
    rfl

theorem tt_stored_congr (ntk : Ntk) (pm pm' : partition_manager) (o : Nat)
    (h1 : pm'.logic_cone_inputs o = pm.logic_cone_inputs o)
    (h2 : pm'.output_tt o = pm.output_tt o) (h : tt_done ntk o pm) : tt_done ntk o pm' := by
  unfold tt_done tt_stored at *
  rw [h1, h2]
  exact h

/-- The loops of `generate_truth_tables` over a ledger built from an assignment:
every round succeeds and the tables stored are as described by `tt_stored`. -/
theorem generate_truth_tables_spec (ntk : Ntk) (partition : Nat → Option Int) (part_num : Int)
    (pm : partition_manager)
    (h0 : partition_manager.from_map ntk partition part_num = some pm)
    (rank : Nat → Nat) (hacyc : ∀ n, ∀ f ∈ ntk.fanin n, rank (get_node f) < rank n)
    (hwf : ∀ n, ∀ c ∈ ntk.children n, c.index < ntk.size)
    (hfc : ∀ n, ∀ f ∈ ntk.fanin n, f ∈ ntk.children n)
    (hgate : ∀ n, n < ntk.size → ntk.is_constant n = false → ntk.is_pi n = false →
      ntk.is_ro n = false → (ntk.fanin n).length = 2 ∨ (ntk.fanin n).length = 3)
    (hpo : ∀ n, ntk.is_po n = true → ∃ s, get_output ntk n = some s)
    (fuel : Nat) (hf1 : ntk.size ≤ fuel)
    (hosize : ∀ p, ∀ o ∈ pm.partitionOutputs p, o < ntk.size ∧ rank o < fuel)
    (hsafe : ∀ p, ∀ o ∈ pm.partitionOutputs p, ∀ pm1,
      pm.BFS_traversal ntk o p fuel = some pm1 → ntk.is_constant o = false →
      (pm1.logic_cone_inputs o).length ≤ 16 →
      (∀ n, cone_node ntk (pm.partitionInputs p) o n → ntk.is_constant n = false) ∧
      (o ∈ pm.partitionInputs p → ntk.is_po o = true)) :
    ∃ pm', pm.generate_truth_tables ntk fuel = some pm' ∧
      ∀ p, ∀ o ∈ pm.partitionOutputs p, tt_done ntk o pm' := by
  have hrefl : ∀ b, tt_keep ntk b b := fun _ _ h => h
  have htrans : ∀ a b c, tt_keep ntk a b → tt_keep ntk b c → tt_keep ntk a c :=
    fun _ _ _ h1 h2 o h => h2 o (h1 o h)
  have hround : ∀ p, ∀ o ∈ pm.partitionOutputs p, ∀ b, tt_frame pm b →
      ∃ b', partition_manager.gen_tt_output ntk fuel b p o = some b' ∧ tt_frame pm b' ∧
        tt_keep ntk b b' ∧ tt_done ntk o b' := by
    intro p o ho b hb
    obtain ⟨pm1, b', hbfs, hgen, ht, hi, hou, hlci, hott, hdone⟩ :=
      gen_tt_output_spec ntk partition part_num pm b h0 hb.1 hb.2.1 rank hacyc hwf hfc hgate hpo
        p o ho (hosize p o ho).1 fuel hf1 (hosize p o ho).2 (by
          intro pm1 hb1 hc hk
          obtain ⟨pm1', hb1', he⟩ := BFS_traversal_inputs b pm ntk o p fuel hb.2.1.symm pm1 hb1
          exact hsafe p o ho pm1' hb1' hc (by rw [he]; exact hk))
    have hl : b'.logic_cone_inputs o = pm1.logic_cone_inputs o := by
      rw [hlci]; simp [upd]
    refine ⟨b', hgen, ⟨by rw [ht, hb.1], by rw [hi, hb.2.1], by rw [hou, hb.2.2]⟩, ?_, ?_⟩
    · intro o' h'
      by_cases e : o' = o
      · subst e
        intro hc hk
        exact hdone hc (by rw [← hl]; exact hk)
      · exact tt_stored_congr ntk b b' o' (by rw [hlci]; simp [upd, e]) (hott o' e) h'
    · intro hc hk
      exact hdone hc (by rw [← hl]; exact hk)
  have hinner : ∀ p, ∀ b, tt_frame pm b →
      ∃ b', (b.partitionOutputs p).foldlM
          (fun pm o => partition_manager.gen_tt_output ntk fuel pm p o) b = some b' ∧
        tt_frame pm b' ∧ tt_keep ntk b b' ∧ ∀ o ∈ pm.partitionOutputs p, tt_done ntk o b' := by
    intro p b hb
    rw [hb.2.2]
    exact foldlM_total (fun pm o => partition_manager.gen_tt_output ntk fuel pm p o)
      (tt_frame pm) (tt_keep ntk) (fun o b => tt_done ntk o b) hrefl htrans
      (fun o b b' hq hr => hr o hq) (pm.partitionOutputs p) (fun o ho b hb => hround p o ho b hb)
      b hb
  obtain ⟨pm', hrun, _, _, hall⟩ := foldlM_total
    (fun pm i => (pm.partitionOutputs i).foldlM
      (fun pm o => partition_manager.gen_tt_output ntk fuel pm i o) pm)
    (tt_frame pm) (tt_keep ntk) (fun p b => ∀ o ∈ pm.partitionOutputs p, tt_done ntk o b)
    hrefl htrans (fun p b b' hq hr o ho => hr o (hq o ho)) (part_ids pm.num_partitions)
    (fun p _ b hb => hinner p b hb) pm ⟨rfl, rfl, rfl⟩
  refine ⟨pm', hrun, fun p o ho => ?_⟩
  obtain ⟨_, _, hO, _, _⟩ := from_map_facts h0
  have hp := ((hO p o).1 ho).1
  have hnum : pm.num_partitions = part_num := by
    unfold partition_manager.from_map at h0
    simp only [Option.map_eq_some'] at h0
    obtain ⟨t, _, rfl⟩ := h0
    exact finish_from_map_num _ _
  exact hall p (by rw [hnum]; exact (mem_part_ids _ _).2 hp) o ho

/-- The ledger of the example network `ntk_ex4` with all nodes in partition 0,
and what `generate_truth_tables` records for its output 3. -/
theorem ntk_ex4_tables :
    ∃ pm pm', partition_manager.from_map ntk_ex4 (fun _ => some 0) 1 = some pm ∧
      pm.generate_truth_tables ntk_ex4 5 = some pm' ∧
      pm.tables._part_pis = [(0, 1), (0, 2)] ∧ pm.tables._part_pos = [(0, 1), (0, 3)] ∧
      pm'.logic_cone_inputs 3 = [1, 2] ∧
      pm'.output_tt 3 = some ⟨2, [false, false, true, false]⟩ := by
  have h : (partition_manager.from_map ntk_ex4 (fun _ => some 0) 1).bind (fun pm =>
      (pm.generate_truth_tables ntk_ex4 5).map (fun pm' =>
        (pm.tables._part_pis, pm.tables._part_pos, pm'.logic_cone_inputs 3, pm'.output_tt 3)))
      = some ([(0, 1), (0, 2)], [(0, 1), (0, 3)], [1, 2],
          some ⟨2, [false, false, true, false]⟩) := by
    decide
  simp only [Option.bind_eq_some, Option.map_eq_some', Prod.mk.injEq] at h
  obtain ⟨pm, hpm, pm', hgen, h1, h2, h3, h4⟩ := h
  exact ⟨pm, pm', hpm, hgen, h1, h2, h3, h4⟩

theorem ntk_ex4_cone (PI : List Nat) (o : Nat) (ho : o ≠ 0) (n : Nat)
    (hn : cone_node ntk_ex4 PI o n) : ntk_ex4.is_constant n = false := by
  have : n ≠ 0 := by
    induction hn with
    | root => exact ho
    | step c f _ _ hf _ =>
      simp only [ntk_ex4] at hf
      split_ifs at hf
      · simp only [List.mem_cons, List.mem_singleton, List.not_mem_nil, or_false] at hf
        rcases hf with rfl | rfl <;> simp [get_node]
      · simp at hf
  simpa [ntk_ex4] using this

/-- C4 as stated fails.  In `ntk_ex4` (inputs 1 and 2, gate 3 = AND(1,2), the
outputs being the inverted input 1 and gate 3) with all nodes in partition 0, the
cone of output 3 has the inputs 1 and 2 and the direct simulation of the claim
gives `true` at the assignment 3 (both inputs 1), but the table stored by
`generate_truth_tables` holds `false` there: it is the table of AND(!x0, x1),
because input 1 also drives an inverted primary output. -/
theorem truth_table_round_trip_counterexample :
    ∃ pm pm' T, partition_manager.from_map ntk_ex4 (fun _ => some 0) 1 = some pm ∧
      pm.generate_truth_tables ntk_ex4 5 = some pm' ∧
      3 ∈ pm.get_part_outputs 0 ∧ ntk_ex4.is_constant 3 = false ∧
      pm'.logic_cone_inputs 3 = [1, 2] ∧ pm'.output_tt 3 = some T ∧
      output_inverted ntk_ex4 3 = false ∧
      cone_sim ntk_ex4 [1, 2] (fun _ => false) 3 3 true ∧
      (∀ b, cone_sim ntk_ex4 [1, 2] (fun _ => false) 3 3 b → b = true) ∧
      T.bits[3]? = some false := by
  obtain ⟨pm, pm', hpm, hgen, _, hpos, hl, ht⟩ := ntk_ex4_tables
  obtain ⟨_, _, hO, _, _⟩ := from_map_facts hpm
  have hsim : cone_sim ntk_ex4 [1, 2] (fun _ => false) 3 3 true :=
    cone_sim.and2 3 ⟨1, false⟩ ⟨2, false⟩ true true (by decide) (by decide)
      (cone_sim.input 1 (by decide)) (cone_sim.input 2 (by decide))
  refine ⟨pm, pm', _, hpm, hgen, ?_, by decide, hl, ht, by decide, hsim,
    fun b hb => cone_sim_det hb hsim, by decide⟩
  exact (hO 0 3).2 ⟨by decide, by rw [hpos]; decide⟩

/-- C4, amended (truth-table round trip).  Take a ledger built from an
assignment over an acyclic network whose gates have two or three fan-ins and whose
output-driving nodes are found among the outputs, and suppose that for every
non-constant partition output whose cone has at most 16 inputs the cone contains no
constant node and the output is a primary output if it is itself an input of its
partition.  Then `generate_truth_tables` succeeds, and for every non-constant
partition output `o` with `k ≤ 16` recorded cone inputs the table stored in
`output_tt` has `k` variables and `2^k` bits, the recorded cone inputs are in
ascending order, and at every assignment `m < 2^k` (variable `i` being the `i`-th
cone input) the stored bit is the value of the direct simulation of the cone, in
which a fan-in is complemented iff its edge is inverted and once more iff it is a
cone input that drives an inverted primary output, complemented iff `o` drives a
primary output whose inversion bit is set. -/
theorem truth_table_round_trip (ntk : Ntk) (partition : Nat → Option Int) (part_num : Int)
    (pm : partition_manager)
    (hpm : partition_manager.from_map ntk partition part_num = some pm)
    (rank : Nat → Nat) (hacyc : ∀ n, ∀ f ∈ ntk.fanin n, rank (get_node f) < rank n)
    (hwf : ∀ n, ∀ c ∈ ntk.children n, c.index < ntk.size)
    (hfc : ∀ n, ∀ f ∈ ntk.fanin n, f ∈ ntk.children n)
    (hgate : ∀ n, n < ntk.size → ntk.is_constant n = false → ntk.is_pi n = false →
      ntk.is_ro n = false → (ntk.fanin n).length = 2 ∨ (ntk.fanin n).length = 3)
    (hpo : ∀ n, ntk.is_po n = true → ∃ s, get_output ntk n = some s)
    (fuel : Nat) (hfuel : ntk.size ≤ fuel)
    (hout : ∀ p, ∀ o ∈ pm.get_part_outputs p, o < ntk.size ∧ rank o < fuel)
    (hsafe : ∀ p, ∀ o ∈ pm.get_part_outputs p, ∀ pm1,
      pm.BFS_traversal ntk o p fuel = some pm1 → ntk.is_constant o = false →
      (pm1.logic_cone_inputs o).length ≤ 16 →
      (∀ n, cone_node ntk (pm.get_part_inputs p) o n → ntk.is_constant n = false) ∧
      (o ∈ pm.get_part_inputs p → ntk.is_po o = true)) :
    ∃ pm', pm.generate_truth_tables ntk fuel = some pm' ∧
      ∀ p, ∀ o ∈ pm.get_part_outputs p, ntk.is_constant o = false →
        (pm'.logic_cone_inputs o).length ≤ 16 →
        ∃ T, pm'.output_tt o = some T ∧
          (pm'.logic_cone_inputs o).Pairwise (fun a b => a < b) ∧
          T.num_vars = (pm'.logic_cone_inputs o).length ∧
          T.bits.length = 2 ^ (pm'.logic_cone_inputs o).length ∧
          ∀ m, m < 2 ^ (pm'.logic_cone_inputs o).length →
            ∃ b, cone_sim ntk (pm'.logic_cone_inputs o)
                (po_input_inverted ntk (pm'.logic_cone_inputs o)) m o b ∧
              T.bits[m]? = some (xor b (ntk.is_po o && output_inverted ntk o)) := by
  obtain ⟨pm', hrun, hall⟩ := generate_truth_tables_spec ntk partition part_num pm hpm rank hacyc
    hwf hfc hgate hpo fuel hfuel hout hsafe
  exact ⟨pm', hrun, fun p o ho hc hk => hall p o ho hc hk⟩

theorem truth_table_round_trip_witness :
    ∃ pm, partition_manager.from_map ntk_ex4 (fun _ => some 0) 1 = some pm ∧
      ∃ pm', pm.generate_truth_tables ntk_ex4 5 = some pm' ∧
        ∀ p, ∀ o ∈ pm.get_part_outputs p, ntk_ex4.is_constant o = false →
          (pm'.logic_cone_inputs o).length ≤ 16 →
          ∃ T, pm'.output_tt o = some T ∧
            (pm'.logic_cone_inputs o).Pairwise (fun a b => a < b) ∧
            T.num_vars = (pm'.logic_cone_inputs o).length ∧
            T.bits.length = 2 ^ (pm'.logic_cone_inputs o).length ∧
            ∀ m, m < 2 ^ (pm'.logic_cone_inputs o).length →
              ∃ b, cone_sim ntk_ex4 (pm'.logic_cone_inputs o)
                  (po_input_inverted ntk_ex4 (pm'.logic_cone_inputs o)) m o b ∧
                T.bits[m]? = some (xor b (ntk_ex4.is_po o && output_inverted ntk_ex4 o)) := by
  obtain ⟨pm, _, hpm, _, _, hpos, _, _⟩ := ntk_ex4_tables
  obtain ⟨_, _, hO, _, _⟩ := from_map_facts hpm
  have hmem : ∀ p, ∀ o ∈ pm.get_part_outputs p, o = 1 ∨ o = 3 := by
    intro p o ho
    have := ((hO p o).1 ho).2
    rw [hpos] at this
    simp only [List.mem_cons, Prod.mk.injEq, List.mem_singleton, List.not_mem_nil, or_false]
      at this
    rcases this with h | h
    · exact Or.inl h.2
    · exact Or.inr h.2
  refine ⟨pm, hpm, truth_table_round_trip ntk_ex4 (fun _ => some 0) 1 pm hpm (fun n => n)
    ?_ ?_ (fun _ _ h => h) ?_ ?_ 5 (by decide) ?_ ?_⟩
  · intro n f hf
    simp only [ntk_ex4] at hf
    split_ifs at hf with e
    · simp only [List.mem_cons, List.mem_singleton, List.not_mem_nil, or_false] at hf
      rcases hf with rfl | rfl <;> simp [get_node, e]
    · simp at hf
  · intro n f hf
    simp only [ntk_ex4] at hf
    split_ifs at hf with e
    · simp only [List.mem_cons, List.mem_singleton, List.not_mem_nil, or_false] at hf
      rcases hf with rfl | rfl <;> simp [ntk_ex4]
    · simp at hf
  · intro n hn
    have hn4 : n < 4 := hn
    interval_cases n <;> decide
  · intro n hn
    have : n = 1 ∨ n = 3 := by simpa [ntk_ex4] using hn
    rcases this with rfl | rfl
    · exact ⟨⟨1, true⟩, by decide⟩
    · exact ⟨⟨3, false⟩, by decide⟩
  · intro p o ho
    rcases hmem p o ho with rfl | rfl
    · exact ⟨by decide, by decide⟩
    · exact ⟨by decide, by decide⟩
  · intro p o ho pm1 _ _ _
    have ho' := hmem p o ho
    refine ⟨fun n hn => ntk_ex4_cone _ o (by omega) n hn, fun _ => ?_⟩
    rcases ho' with rfl | rfl <;> decide

theorem ex3_run_eq {α : Type}
    (f : partition_manager → partition_view → partition_manager × Ntk → α) (a : α)
    (h : ex3_run f = some a) (pm : partition_manager) (v : partition_view)
    (r : partition_manager × Ntk)
    (h1 : partition_manager.from_map ntk_ex3 part_ex3 2 = some pm)
    (h2 : partition_view.construct ntk_ex3 (pm.get_part_inputs 0) (pm.get_part_outputs 0) 7
      = some v)
    (h3 : pm.synchronize_part clone_and v opt_ex3 [0, 1, 2, 3, 4, 5] ntk_ex3 = some r) :
    f pm v r = a := by
  unfold ex3_run at h
  rw [h1, Option.some_bind, h2, Option.some_bind, h3, Option.map_some'] at h
  exact Option.some.inj h

/-- C3 (synchronization conservativeness), evaluated at a failing input.  The
gates 4, 5, 6 of `ntk_ex3` form partition 0, with the inputs 1, 2, 3 and the root
6; the optimized network `opt_ex3` has as many inputs and outputs as the view
and its output computes the function of the root.  Cloning collapses gate 5 of
the optimized network to the inverted input 3, the complemented output then
records the replacement (node 4, not inverted) for the root, and after
`connect_outputs` the primary output of the graph is 0 on the input vector with
both inputs 1, where it was 1 before. -/
theorem sync_conservativeness_defect :
    ∃ pm v pm1 ntk1,
      partition_manager.from_map ntk_ex3 part_ex3 2 = some pm ∧
      partition_view.construct ntk_ex3 (pm.get_part_inputs 0) (pm.get_part_outputs 0) 7
        = some v ∧
      v.foreach_pi.length = opt_ex3.foreach_pi.length ∧
      v._roots.length = opt_ex3.outputs.length ∧
      (∀ a b c : Bool,
        opt_ex3.outputs.map (simulate_signal opt_ex3 opt_ex3.foreach_pi (vec3 a b c) 6) =
          v._roots.map (simulate_signal ntk_ex3 v.foreach_pi (vec3 a b c) 7)) ∧
      pm.synchronize_part clone_and v opt_ex3 [0, 1, 2, 3, 4, 5] ntk_ex3 = some (pm1, ntk1) ∧
      ntk_ex3.outputs.map (simulate_signal ntk_ex3 ntk_ex3.foreach_pi (fun _ => true) 7)
        = [some true] ∧
      (pm1.connect_outputs substitute_refs ntk1).outputs.map
        (simulate_signal (pm1.connect_outputs substitute_refs ntk1) ntk_ex3.foreach_pi
          (fun _ => true) 8) = [some false] := by
  have ha : ex3_run (fun _ v _ => (v.foreach_pi, v._roots)) = some ([1, 2, 3], [⟨6, false⟩]) := by
    decide
  have hb : ex3_run (fun _ _ r =>
      (r.1.connect_outputs substitute_refs r.2).outputs.map
        (simulate_signal (r.1.connect_outputs substitute_refs r.2) ntk_ex3.foreach_pi
          (fun _ => true) 8)) = some [some false] := by
    decide
  have h := ha
  unfold ex3_run at h
  simp only [Option.bind_eq_some, Option.map_eq_some'] at h
  obtain ⟨pm, h1, v, h2, r, h3, _⟩ := h
  have ea := ex3_run_eq _ _ ha pm v r h1 h2 h3
  have eb := ex3_run_eq _ _ hb pm v r h1 h2 h3
  simp only [Prod.mk.injEq] at ea
  refine ⟨pm, v, r.1, r.2, h1, h2, ?_, ?_, ?_, h3, by decide, eb⟩
  · rw [ea.1]; decide
  · rw [ea.2]; decide
  · rw [ea.1, ea.2]; decide

theorem view_constants_layout (ntk : Ntk) :
    (view_constants ntk partition_view.fresh)._nodes = view_constant_nodes ntk ∧
    (view_constants ntk partition_view.fresh)._num_constants = (view_constant_nodes ntk).length ∧
    (view_constants ntk partition_view.fresh)._num_leaves = 0 ∧
    (view_constants ntk partition_view.fresh)._roots = [] ∧
    marks01 (view_constants ntk partition_view.fresh) := by
  unfold view_constants view_constant_nodes marks01
  by_cases hc : ntk.constant_true = ntk.constant_false
  · simp only [hc, ne_eq, not_true_eq_false, if_false]
    refine ⟨rfl, rfl, rfl, rfl, fun n => ?_⟩
    simp only [partition_view.fresh, partition_view.add_node, partition_view.set_visited, upd]
    split_ifs <;> simp
  · simp only [ne_eq, hc, not_false_eq_true, if_true]
    refine ⟨rfl, rfl, rfl, rfl, fun n => ?_⟩
    simp only [partition_view.fresh, partition_view.add_node, partition_view.set_visited, upd]
    split_ifs <;> simp

/-- The loop over the declared inputs appends those not yet in the view, in
order. -/
theorem view_leaves_layout (ntk : Ntk) :
    ∀ (l : List Nat) (v : partition_view), l.Nodup → (∀ n, v.visited n = 1 ↔ n ∈ v._nodes) →
      (l.foldl (view_leaf ntk) v)._nodes = v._nodes ++ l.filter (fun n => decide (n ∉ v._nodes)) ∧
      (l.foldl (view_leaf ntk) v)._num_leaves =
        v._num_leaves + (l.filter (fun n => decide (n ∉ v._nodes))).length ∧
      (l.foldl (view_leaf ntk) v)._num_constants = v._num_constants ∧
      (l.foldl (view_leaf ntk) v)._roots = v._roots ∧
      (marks01 v → marks01 (l.foldl (view_leaf ntk) v)) := by
  intro l
  induction l with
  | nil => intro v _ _; simp
  | cons a l ih =>
    intro v hl hv
    rw [List.nodup_cons] at hl
    rw [List.foldl_cons]
    by_cases hvis : v.visited a = 1
    · have ha : a ∈ v._nodes := (hv a).1 hvis
      have e : view_leaf ntk v a = v := by unfold view_leaf; rw [if_pos hvis]
      rw [e]
      obtain ⟨h1, h2, h3, h4, h5⟩ := ih v hl.2 hv
      refine ⟨?_, ?_, h3, h4, h5⟩
      · rw [h1, List.filter_cons]; simp [ha]
      · rw [h2, List.filter_cons]; simp [ha]
    · have ha : a ∉ v._nodes := fun h => hvis ((hv a).2 h)
      have e : view_leaf ntk v a =
          { (v.add_node ntk a).set_visited a 1 with _num_leaves := v._num_leaves + 1 } := by
        unfold view_leaf; rw [if_neg hvis]
      have hv' : ∀ n, (view_leaf ntk v a).visited n = 1 ↔ n ∈ (view_leaf ntk v a)._nodes := by
        intro n
        rw [e]
        show upd v.visited a 1 n = 1 ↔ n ∈ v._nodes ++ [a]
        unfold upd
        by_cases hn : n = a
        · simp [hn]
        · simp [hn, hv n]
      obtain ⟨h1, h2, h3, h4, h5⟩ := ih (view_leaf ntk v a) hl.2 hv'
      have hnodes : (view_leaf ntk v a)._nodes = v._nodes ++ [a] := by rw [e]; rfl
      have hfil : l.filter (fun n => decide (n ∉ (view_leaf ntk v a)._nodes)) =
          l.filter (fun n => decide (n ∉ v._nodes)) := by
        apply List.filter_congr
        intro x hx
        have : x ≠ a := fun h => hl.1 (h ▸ hx)
        rw [hnodes]
        simp [this]
      rw [hfil] at h1 h2
      refine ⟨?_, ?_, ?_, ?_, ?_⟩
      · rw [h1, hnodes, List.filter_cons]; simp [ha]
      · rw [h2, List.filter_cons]
        have : (view_leaf ntk v a)._num_leaves = v._num_leaves + 1 := by rw [e]
        rw [this]; simp [ha]; omega
      · rw [h3, e]; rfl
      · rw [h4, e]; rfl
      · intro hm
        apply h5
        intro n
        rw [e]
        show upd v.visited a 1 n = 0 ∨ upd v.visited a 1 n = 1
        unfold upd
        split_ifs
        · exact Or.inr rfl
        · exact hm n

/-- A successful traversal keeps every mark 0 or 1. -/
theorem traverse_marks (ntk : Ntk) :
    ∀ fuel n v v', traverse ntk fuel n v = some v' → marks01 v → marks01 v' := by
  intro fuel
  induction fuel with
  | zero => intro n v v' h; simp [traverse] at h
  | succ fuel ih =>
    intro n v v' h hm
    unfold traverse at h
    split_ifs at h with hvis
    · simp only [Option.some.injEq] at h; subst h; exact hm
    · simp only [Option.map_eq_some'] at h
      obtain ⟨v1, h1, rfl⟩ := h
      have hm1 : marks01 v1 :=
        foldlM_inv (fun v f => traverse ntk fuel (get_node f) v) marks01
          (fun b a b' hb hs => ih (get_node a) b b' hs hb) _ _ _ hm h1
      intro m
      show upd v1.visited n 1 m = 0 ∨ upd v1.visited n 1 m = 1
      unfold upd
      split_ifs
      · exact Or.inr rfl
      · exact hm1 m

theorem view_root_loop_roots (l : List Nat) (v : partition_view) :
    (l.foldl view_root v)._roots = v._roots ++ l.map make_signal := by
  induction l generalizing v with
  | nil => simp
  | cons a l ih =>
    rw [List.foldl_cons, ih]
    simp [view_root, make_signal, is_complemented]

theorem view_unmark_loop_visited (l : List Nat) (v : partition_view) (n : Nat) :
    (l.foldl (fun v n => v.set_visited n 0) v).visited n = if n ∈ l then 0 else v.visited n := by
  induction l generalizing v with
  | nil => simp
  | cons a l ih =>
    rw [List.foldl_cons, ih]
    by_cases h : n ∈ l
    · simp [h]
    · simp only [h, if_false, List.mem_cons, or_false]
      simp only [partition_view.set_visited, upd]

/-- The roots and the marks after the last two loops of the constructor. -/
theorem view_finish_roots (pivots : List Nat) (v : partition_view) (n : Nat) :
    (view_finish pivots v)._roots = v._roots ++ pivots.map make_signal ∧
    (view_finish pivots v).visited n = if n ∈ v._nodes then 0 else v.visited n := by
  unfold view_finish
  obtain ⟨h1, _, _, _, _, h6⟩ := view_root_loop_fields pivots v
  obtain ⟨_, _, _, _, _, g6⟩ :=
    view_unmark_loop_fields (pivots.foldl view_root v)._nodes (pivots.foldl view_root v)
  constructor
  · exact g6.trans (view_root_loop_roots pivots v)
  · rw [view_unmark_loop_visited, h1, h6]

/-- The constructor on an acyclic network, phase by phase: the view returned is
the traversal result `v4` finished by the last two loops, and `v4` extends the
view `v3` that holds the constants and the declared inputs. -/
theorem construct_run (ntk : Ntk) (rank : Nat → Nat)
    (hacyc : ∀ n, ∀ f ∈ ntk.fanin n, rank (get_node f) < rank n)
    (leaves pivots : List Nat) (fuel : Nat) (hfuel : ∀ p ∈ pivots, rank p < fuel) :
    ∃ v4, partition_view.construct ntk leaves pivots fuel = some (view_finish pivots v4) ∧
      view_inv ntk leaves pivots v4 ∧
      view_ext (leaves.foldl (view_leaf ntk) (view_constants ntk partition_view.fresh)) v4 ∧
      (marks01 (leaves.foldl (view_leaf ntk) (view_constants ntk partition_view.fresh)) →
        marks01 v4) := by
  obtain ⟨c1, c2, c3, c4⟩ := view_constants_spec ntk leaves
  obtain ⟨l1, l2, l3⟩ := view_leaves_spec ntk leaves leaves
    (view_constants ntk partition_view.fresh) (fun x hx => hx) c1 c2
  have hb : ∀ m, view_boundary ntk leaves m →
      m ∈ (leaves.foldl (view_leaf ntk) (view_constants ntk partition_view.fresh))._nodes := by
    intro m hm
    rcases hm with hm | hm | hm
    · exact l3 m (Or.inl (hm ▸ c3))
    · exact l3 m (Or.inl (hm ▸ c4))
    · exact l3 m (Or.inr hm)
  obtain ⟨v4, e4, i4, x4, _, _⟩ := traverse_fold ntk leaves pivots rank id fuel
    (traverse_spec ntk leaves pivots rank hacyc fuel) pivots _
    (prefix_inv_view_inv pivots l1 l2) hb
    (fun p hp => ⟨hfuel p hp, fun hnb => cone_reach.root p hp hnb⟩)
  simp only [id] at e4
  refine ⟨v4, ?_, i4, x4, fun hm => ?_⟩
  · unfold partition_view.construct
    simp only [e4, Option.map_some']
  · exact foldlM_inv (fun v p => traverse ntk fuel p v) marks01
      (fun b a b' hb hs => traverse_marks ntk fuel a b b' hs hb) _ _ _ hm e4

/-- The layout of a view built over an acyclic network from a duplicate-free
sequence of declared inputs. -/
theorem construct_layout (ntk : Ntk) (rank : Nat → Nat)
    (hacyc : ∀ n, ∀ f ∈ ntk.fanin n, rank (get_node f) < rank n)
    (leaves pivots : List Nat) (hl : leaves.Nodup) (fuel : Nat)
    (hfuel : ∀ p ∈ pivots, rank p < fuel) :
    ∃ v gates, partition_view.construct ntk leaves pivots fuel = some v ∧
      v._nodes = view_constant_nodes ntk ++ view_leaf_nodes ntk leaves ++ gates ∧
      v._num_constants = (view_constant_nodes ntk).length ∧
      v._num_leaves = (view_leaf_nodes ntk leaves).length := by
  obtain ⟨v4, e, _, ⟨⟨g, hg⟩, x2, x3, _⟩, _⟩ := construct_run ntk rank hacyc leaves pivots fuel hfuel
  obtain ⟨k1, k2, k3, _, _⟩ := view_constants_layout ntk
  obtain ⟨c1, _, _, _⟩ := view_constants_spec ntk leaves
  obtain ⟨a1, a2, a3, _, _⟩ := view_leaves_layout ntk leaves
    (view_constants ntk partition_view.fresh) hl c1.2.1
  obtain ⟨f1, _, f3, f4⟩ := view_finish_fields pivots v4
  refine ⟨_, g, e, ?_, ?_, ?_⟩
  · rw [f1, hg, a1, k1]; rfl
  · rw [f3, x2, a3, k2]
  · rw [f4, x3, a2, k3, k1]; simp [view_leaf_nodes]

/-- C11 (Partition View layout).  In a view built over an acyclic network from
a duplicate-free sequence of declared inputs, local index 0 holds the
constant-false node, the local indices `[0, num_constants)` hold exactly the
constant nodes (the nodes of `get_constant(false)` and `get_constant(true)`), the
next `num_leaves` local indices hold the declared inputs that are not constant
nodes, each once and in the order of the declared inputs, and `num_pis()` is the
number of these inputs. -/
theorem view_layout (ntk : Ntk) (rank : Nat → Nat)
    (hacyc : ∀ n, ∀ f ∈ ntk.fanin n, rank (get_node f) < rank n)
    (leaves pivots : List Nat) (hl : leaves.Nodup) (fuel : Nat)
    (hfuel : ∀ p ∈ pivots, rank p < fuel) :
    ∃ v, partition_view.construct ntk leaves pivots fuel = some v ∧
      v.index_to_node 0 = some ntk.constant_false ∧
      (∀ n, n ∈ v._nodes.take v._num_constants ↔
        n = ntk.constant_false ∨ n = ntk.constant_true) ∧
      (v._nodes.drop v._num_constants).take v._num_leaves =
        leaves.filter (fun n => decide (n ≠ ntk.constant_false ∧ n ≠ ntk.constant_true)) ∧
      v.num_pis = (leaves.filter
        (fun n => decide (n ≠ ntk.constant_false ∧ n ≠ ntk.constant_true))).length := by
  obtain ⟨v, g, e, hn, hc, hlv⟩ := construct_layout ntk rank hacyc leaves pivots hl fuel hfuel
  have hmem : ∀ n, n ∈ view_constant_nodes ntk ↔
      n = ntk.constant_false ∨ n = ntk.constant_true := by
    intro n
    unfold view_constant_nodes
    by_cases h : ntk.constant_true = ntk.constant_false
    · simp [h]
    · simp [h]
  have hfil : view_leaf_nodes ntk leaves =
      leaves.filter (fun n => decide (n ≠ ntk.constant_false ∧ n ≠ ntk.constant_true)) := by
    unfold view_leaf_nodes
    apply List.filter_congr
    intro x _
    simp only [hmem x, not_or, ne_eq]
  have htake : v._nodes.take v._num_constants = view_constant_nodes ntk := by
    rw [hn, hc, List.append_assoc, List.take_left]
  have hdrop : (v._nodes.drop v._num_constants).take v._num_leaves = view_leaf_nodes ntk leaves := by
    rw [hn, hc, hlv, List.append_assoc, List.drop_left, List.take_left]
  refine ⟨v, e, ?_, ?_, ?_, ?_⟩
  · unfold partition_view.index_to_node
    rw [hn]
    unfold view_constant_nodes
    by_cases h : ntk.constant_true = ntk.constant_false
    · simp [h]
    · simp [h]
  · intro n
    rw [htake]; exact hmem n
  · rw [hdrop, hfil]
  · unfold partition_view.num_pis
    rw [hlv, hfil]

/-- Instance of C11 on the example network with declared inputs 0, 1, 2 and
declared output 4: the constant 0 is not repeated among the leaves. -/
theorem view_layout_witness :
    ∃ v, partition_view.construct ntk_ex1 [0, 1, 2] [4] 5 = some v ∧
      v.index_to_node 0 = some ntk_ex1.constant_false ∧
      (∀ n, n ∈ v._nodes.take v._num_constants ↔
        n = ntk_ex1.constant_false ∨ n = ntk_ex1.constant_true) ∧
      (v._nodes.drop v._num_constants).take v._num_leaves =
        [0, 1, 2].filter
          (fun n => decide (n ≠ ntk_ex1.constant_false ∧ n ≠ ntk_ex1.constant_true)) ∧
      v.num_pis = ([0, 1, 2].filter
        (fun n => decide (n ≠ ntk_ex1.constant_false ∧ n ≠ ntk_ex1.constant_true))).length :=
  view_layout ntk_ex1 id ntk_ex1_acyclic [0, 1, 2] [4] (by decide) 5 (by decide)

/-- C12 (Partition View roots).  In a view built over an acyclic network,
`num_pos()` is the number of declared outputs and the `i`-th root signal refers to
the `i`-th declared output, whatever kind of node that output is. -/
theorem view_roots (ntk : Ntk) (rank : Nat → Nat)
    (hacyc : ∀ n, ∀ f ∈ ntk.fanin n, rank (get_node f) < rank n)
    (leaves pivots : List Nat) (fuel : Nat) (hfuel : ∀ p ∈ pivots, rank p < fuel) :
    ∃ v, partition_view.construct ntk leaves pivots fuel = some v ∧
      v.num_pos = pivots.length ∧
      ∀ i, (v._roots.get? i).map get_node = pivots.get? i := by
  obtain ⟨v4, e, _, ⟨_, _, _, x4⟩, _⟩ := construct_run ntk rank hacyc leaves pivots fuel hfuel
  obtain ⟨_, _, _, k4, _⟩ := view_constants_layout ntk
  have hroots3 : (leaves.foldl (view_leaf ntk) (view_constants ntk partition_view.fresh))._roots
      = [] := by
    have : ∀ (l : List Nat) (v : partition_view), (l.foldl (view_leaf ntk) v)._roots = v._roots := by
      intro l
      induction l with
      | nil => intro v; rfl
      | cons a l ih =>
        intro v
        rw [List.foldl_cons, ih]
        unfold view_leaf
        split_ifs <;> rfl
    rw [this, k4]
  have hr : (view_finish pivots v4)._roots = pivots.map make_signal := by
    rw [(view_finish_roots pivots v4 0).1, x4, hroots3, List.nil_append]
  refine ⟨_, e, ?_, fun i => ?_⟩
  · unfold partition_view.num_pos
    rw [hr, List.length_map]
  · rw [hr, List.get?_eq_getElem?, List.get?_eq_getElem?, List.getElem?_map]
    cases pivots[i]? <;> rfl

/-- Instance of C12 on the example network with the declared outputs 0, 2, 4:
a constant, a declared input and a gate. -/
theorem view_roots_witness :
    ∃ v, partition_view.construct ntk_ex1 [1, 2] [0, 2, 4] 5 = some v ∧
      v.num_pos = [0, 2, 4].length ∧
      ∀ i, (v._roots.get? i).map get_node = [0, 2, 4].get? i :=
  view_roots ntk_ex1 id ntk_ex1_acyclic [1, 2] [0, 2, 4] 5 (by decide)

/-- C13 (`fanout_size`), evaluated at a failing input.  In the view of the
example network with declared inputs 1, 2 and declared output 4 the node sequence
is 0, 1, 2, 3, 4; gate 3 feeds gate 4 and gate 4 feeds no node, input 1 feeds gate
3 and input 2 feeds the gates 3 and 4.  `fanout_size` returns 0, 0, 0, 2, 2: the
number of fan-ins of the node that were in the view when it was inserted. -/
theorem fanout_size_defect :
    (partition_view.construct ntk_ex1 [1, 2] [4] 5).map (fun v =>
      (v._nodes, v._nodes.map v.fanout_size, v._nodes.map (view_consumers ntk_ex1 v))) =
    some ([0, 1, 2, 3, 4], [some 0, some 0, some 0, some 2, some 2], [0, 1, 2, 1, 0]) := by
  decide

/-- C14 (Partition View leaf test).  In a view built over an acyclic network
from a duplicate-free sequence of declared inputs, `is_pi(n)` and `is_ci(n)` agree
for every node `n`, and they hold exactly when `n` is stored at a local index in
`[num_constants, num_constants + num_leaves)`, that is, exactly when `n` is a
declared input that is not a constant node. -/
theorem view_leaf_test (ntk : Ntk) (rank : Nat → Nat)
    (hacyc : ∀ n, ∀ f ∈ ntk.fanin n, rank (get_node f) < rank n)
    (leaves pivots : List Nat) (hl : leaves.Nodup) (fuel : Nat)
    (hfuel : ∀ p ∈ pivots, rank p < fuel) :
    ∃ v, partition_view.construct ntk leaves pivots fuel = some v ∧
      ∀ n, v.is_pi n = v.is_ci n ∧
        (v.is_pi n = true ↔ ∃ i, v._num_constants ≤ i ∧ i < v._num_constants + v._num_leaves ∧
          v.index_to_node i = some n) ∧
        (v.is_pi n = true ↔
          n ∈ leaves ∧ n ≠ ntk.constant_false ∧ n ≠ ntk.constant_true) := by
  obtain ⟨v, g, e, hn, hc, hlv⟩ := construct_layout ntk rank hacyc leaves pivots hl fuel hfuel
  have hmem : ∀ n, n ∈ view_constant_nodes ntk ↔
      n = ntk.constant_false ∨ n = ntk.constant_true := by
    intro n
    unfold view_constant_nodes
    by_cases h : ntk.constant_true = ntk.constant_false
    · simp [h]
    · simp [h]
  have hdrop : (v._nodes.drop v._num_constants).take v._num_leaves = view_leaf_nodes ntk leaves := by
    rw [hn, hc, hlv, List.append_assoc, List.drop_left, List.take_left]
  refine ⟨v, e, fun n => ⟨rfl, ?_, ?_⟩⟩
  · unfold partition_view.is_pi partition_view.index_to_node
    rw [decide_eq_true_iff]
    constructor
    · intro h
      obtain ⟨j, hj⟩ := List.getElem?_of_mem h
      have hjl : j < v._num_leaves := by
        by_contra hge
        rw [List.getElem?_take_eq_none (not_lt.1 hge)] at hj
        exact absurd hj (by simp)
      rw [List.getElem?_take, if_pos hjl, List.getElem?_drop] at hj
      exact ⟨v._num_constants + j, by omega, by omega, by rw [List.get?_eq_getElem?]; exact hj⟩
    · rintro ⟨i, h1, h2, h3⟩
      rw [List.get?_eq_getElem?] at h3
      obtain ⟨j, rfl⟩ : ∃ j, i = v._num_constants + j := ⟨i - v._num_constants, by omega⟩
      have hjl : j < v._num_leaves := by omega
      have : ((v._nodes.drop v._num_constants).take v._num_leaves)[j]? = some n := by
        rw [List.getElem?_take, if_pos hjl, List.getElem?_drop]; exact h3
      exact List.getElem?_mem this
  · unfold partition_view.is_pi
    rw [decide_eq_true_iff, hdrop]
    unfold view_leaf_nodes
    simp only [List.mem_filter, decide_eq_true_eq, hmem n, not_or, ne_eq]

/-- Instance of C14 on the example network with declared inputs 0, 1, 2. -/
theorem view_leaf_test_witness :
    ∃ v, partition_view.construct ntk_ex1 [0, 1, 2] [4] 5 = some v ∧
      ∀ n, v.is_pi n = v.is_ci n ∧
        (v.is_pi n = true ↔ ∃ i, v._num_constants ≤ i ∧ i < v._num_constants + v._num_leaves ∧
          v.index_to_node i = some n) ∧
        (v.is_pi n = true ↔
          n ∈ [0, 1, 2] ∧ n ≠ ntk_ex1.constant_false ∧ n ≠ ntk_ex1.constant_true) :=
  view_leaf_test ntk_ex1 id ntk_ex1_acyclic [0, 1, 2] [4] (by decide) 5 (by decide)

/-- C15 (visitation marks after view construction).  When the constructor
returns over an acyclic network, every node of the underlying graph has
visitation mark 0: the nodes of the view have been reset and no other node was
marked. -/
theorem view_marks_restored (ntk : Ntk) (rank : Nat → Nat)
    (hacyc : ∀ n, ∀ f ∈ ntk.fanin n, rank (get_node f) < rank n)
    (leaves pivots : List Nat) (fuel : Nat) (hfuel : ∀ p ∈ pivots, rank p < fuel) :
    ∃ v, partition_view.construct ntk leaves pivots fuel = some v ∧ ∀ n, v.visited n = 0 := by
  obtain ⟨v4, e, hv, _, hm⟩ := construct_run ntk rank hacyc leaves pivots fuel hfuel
  obtain ⟨_, _, _, _, k5⟩ := view_constants_layout ntk
  have hm3 : marks01 (leaves.foldl (view_leaf ntk) (view_constants ntk partition_view.fresh)) := by
    have : ∀ (l : List Nat) (v : partition_view), marks01 v → marks01 (l.foldl (view_leaf ntk) v) := by
      intro l
      induction l with
      | nil => intro v h; exact h
      | cons a l ih =>
        intro v h
        rw [List.foldl_cons]
        apply ih
        unfold view_leaf
        split_ifs
        · exact h
        · intro n
          show upd v.visited a 1 n = 0 ∨ upd v.visited a 1 n = 1
          unfold upd
          split_ifs
          · exact Or.inr rfl
          · exact h n
    exact this _ _ k5
  refine ⟨_, e, fun n => ?_⟩
  rw [(view_finish_roots pivots v4 n).2]
  split_ifs with h
  · rfl
  · rcases hm hm3 n with h0 | h1
    · exact h0
    · exact absurd ((hv.visited_iff n).1 h1) h

/-- Instance of C15 on the example network. -/
theorem view_marks_restored_witness :
    ∃ v, partition_view.construct ntk_ex1 [1, 2] [4] 5 = some v ∧ ∀ n, v.visited n = 0 :=
  view_marks_restored ntk_ex1 id ntk_ex1_acyclic [1, 2] [4] 5 (by decide)

theorem pairwise_foldl_insert (l init : List Nat) (h : init.Pairwise (fun a b => a < b)) :
    (l.foldl (fun acc x => set_insert x acc) init).Pairwise (fun a b => a < b) := by
  induction l generalizing init with
  | nil => exact h
  | cons y ys ih => exact ih _ (pairwise_set_insert y init h)

theorem pairwise_set_union (x y : List Nat) : (set_union x y).Pairwise (fun a b => a < b) := by
  unfold set_union
  exact pairwise_foldl_insert _ _ (pairwise_foldl_insert _ _ List.Pairwise.nil)

theorem pairwise_set_erase (x : Nat) (s : List Nat) (h : s.Pairwise (fun a b => a < b)) :
    (set_erase x s).Pairwise (fun a b => a < b) := by
  unfold set_erase
  exact h.filter _

/-- The last loop of `combine_partitions` keeps the merged sets in ascending
order. -/
theorem merge_loop_pairwise (ntk : Ntk) (h : List Nat) (s : merge_state)
    (h1 : s.merged_inputs.Pairwise (fun a b => a < b))
    (h2 : s.merged_outputs.Pairwise (fun a b => a < b)) :
    (h.foldl (merge_shared ntk) s).merged_inputs.Pairwise (fun a b => a < b) ∧
    (h.foldl (merge_shared ntk) s).merged_outputs.Pairwise (fun a b => a < b) := by
  induction h generalizing s with
  | nil => exact ⟨h1, h2⟩
  | cons y ys ih =>
    rw [List.foldl_cons]
    apply ih
    · show (if !ntk.is_pi y then set_erase y s.merged_inputs else s.merged_inputs).Pairwise _
      split_ifs
      · exact pairwise_set_erase _ _ h1
      · exact h1
    · show (if !ntk.is_po y then set_erase y s.merged_outputs else s.merged_outputs).Pairwise _
      split_ifs
      · exact pairwise_set_erase _ _ h2
      · exact h2

/-- C16 (result of `combine_partitions`).  With `H` the nodes that are an input
of one of the two partitions and an output of the other, together with the
deleted-node history of `p1` before the call, `combine_partitions(p1, p2)` returns
two sets `[I, O]`: `I` holds the nodes of `inputs[p1] ∪ inputs[p2]` other than node
0 that are a primary input or not in `H`, and `O` holds the nodes of
`outputs[p1] ∪ outputs[p2]` that are a primary output or not in `H`.  In particular
a primary input other than node 0 of either input set stays in `I` and a primary
output of either output set stays in `O`. -/
theorem combine_partitions_result (pm : partition_manager) (ntk : Ntk) (p1 p2 : Int) :
    ∃ I O, (pm.combine_partitions ntk p1 p2).2 = [I, O] ∧
      I.Pairwise (fun a b => a < b) ∧ O.Pairwise (fun a b => a < b) ∧
      (∀ a, a ∈ I ↔ (a ∈ pm.get_part_inputs p1 ∨ a ∈ pm.get_part_inputs p2) ∧
        a ≠ ntk.index_to_node 0 ∧
        ¬ (((a ∈ pm.get_part_inputs p1 ∧ a ∈ pm.get_part_outputs p2) ∨
            (a ∈ pm.get_part_outputs p1 ∧ a ∈ pm.get_part_inputs p2) ∨
            a ∈ pm.combined_deleted_nodes p1) ∧ ntk.is_pi a = false)) ∧
      (∀ a, a ∈ O ↔ (a ∈ pm.get_part_outputs p1 ∨ a ∈ pm.get_part_outputs p2) ∧
        ¬ (((a ∈ pm.get_part_inputs p1 ∧ a ∈ pm.get_part_outputs p2) ∨
            (a ∈ pm.get_part_outputs p1 ∧ a ∈ pm.get_part_inputs p2) ∨
            a ∈ pm.combined_deleted_nodes p1) ∧ ntk.is_po a = false)) ∧
      (∀ a, (a ∈ pm.get_part_inputs p1 ∨ a ∈ pm.get_part_inputs p2) → ntk.is_pi a = true →
        a ≠ ntk.index_to_node 0 → a ∈ I) ∧
      (∀ a, (a ∈ pm.get_part_outputs p1 ∨ a ∈ pm.get_part_outputs p2) → ntk.is_po a = true →
        a ∈ O) := by
  have hI : ∀ a, a ∈ ((pm.combine_partitions ntk p1 p2).2.getD 0 []) ↔
      (a ∈ pm.get_part_inputs p1 ∨ a ∈ pm.get_part_inputs p2) ∧
        a ≠ ntk.index_to_node 0 ∧
        ¬ (((a ∈ pm.get_part_inputs p1 ∧ a ∈ pm.get_part_outputs p2) ∨
            (a ∈ pm.get_part_outputs p1 ∧ a ∈ pm.get_part_inputs p2) ∨
            a ∈ pm.combined_deleted_nodes p1) ∧ ntk.is_pi a = false) := by
    intro a
    obtain ⟨I, O, e, h1, _⟩ := combine_partitions_sets pm ntk p1 p2 a
    rw [e]
    simp only [List.getD_cons_zero, h1, mem_get_shared_io, Ntk.index_to_node,
      partition_manager.get_part_inputs, partition_manager.get_part_outputs]
    cases ntk.is_pi a <;> first | (simp; done) | (simp; tauto)
  have hO : ∀ a, a ∈ ((pm.combine_partitions ntk p1 p2).2.getD 1 []) ↔
      (a ∈ pm.get_part_outputs p1 ∨ a ∈ pm.get_part_outputs p2) ∧
        ¬ (((a ∈ pm.get_part_inputs p1 ∧ a ∈ pm.get_part_outputs p2) ∨
            (a ∈ pm.get_part_outputs p1 ∧ a ∈ pm.get_part_inputs p2) ∨
            a ∈ pm.combined_deleted_nodes p1) ∧ ntk.is_po a = false) := by
    intro a
    obtain ⟨I, O, e, _, h2⟩ := combine_partitions_sets pm ntk p1 p2 a
    rw [e]
    simp only [List.getD_cons_succ, List.getD_cons_zero, h2, mem_get_shared_io,
      partition_manager.get_part_inputs, partition_manager.get_part_outputs]
    cases ntk.is_po a <;> first | (simp; done) | (simp; tauto)
  obtain ⟨q1, q2⟩ := merge_loop_pairwise ntk
    (set_union (pm.get_shared_io p1 p2) (pm.combined_deleted_nodes p1))
    { merged_inputs := set_erase (ntk.index_to_node 0)
        (set_union (pm.partitionInputs p1) (pm.partitionInputs p2))
      merged_outputs := set_union (pm.partitionOutputs p1) (pm.partitionOutputs p2)
      deleted := pm.combined_deleted_nodes p1 }
    (pairwise_set_erase _ _ (pairwise_set_union _ _)) (pairwise_set_union _ _)
  refine ⟨_, _, rfl, q1, q2, hI, hO, fun a h1 h2 h3 => ?_, fun a h1 h2 => ?_⟩
  · refine (hI a).2 ⟨h1, h3, ?_⟩
    rintro ⟨_, h⟩
    rw [h2] at h; cases h
  · refine (hO a).2 ⟨h1, ?_⟩
    rintro ⟨_, h⟩
    rw [h2] at h; cases h

theorem ex5_run_eq {α : Type} (f : partition_manager → α) (a : α) (h : ex5_run f = some a)
    (pm : partition_manager) (h1 : partition_manager.from_map ntk_ex5 part_ex5 3 = some pm) :
    f pm = a := by
  unfold ex5_run at h
  rw [h1, Option.map_some'] at h
  exact Option.some.inj h

theorem ex5_ledger : ∃ pm, partition_manager.from_map ntk_ex5 part_ex5 3 = some pm := by
  have h : (partition_manager.from_map ntk_ex5 part_ex5 3).isSome = true := by decide
  exact Option.isSome_iff_exists.1 h

/-- The first loop of `combine_partitions` overwrites every entry of the list
of an input of `p2`, and leaves the lists of the other nodes alone. -/
theorem rehome_loop (p1 p2 : Int) (l : List Nat) (m : Nat → List Int) (n : Nat) :
    (l.foldl (rehome_inputs p1 p2) m) n =
      if n ∈ l then (m n).map (fun _ => if p2 ≠ 0 then p1 else p2) else m n := by
  induction l generalizing m with
  | nil => simp
  | cons a l ih =>
    rw [List.foldl_cons, ih]
    by_cases ha : n = a
    · subst ha
      by_cases hl : n ∈ l
      · simp [hl, rehome_inputs, upd]
      · simp [hl, rehome_inputs, upd]
    · by_cases hl : n ∈ l
      · simp [hl, ha, rehome_inputs, upd]
      · simp [hl, ha, rehome_inputs, upd]

/-- What `combine_partitions(p1, p2)` does to the reverse map of the inputs: for
an input of `p2` every entry of the list becomes `p1` (or `p2` when `p2` is 0),
whatever partition it named. -/
theorem combine_partitions_rehome (pm : partition_manager) (ntk : Ntk) (p1 p2 : Int) (n : Nat) :
    (pm.combine_partitions ntk p1 p2).1.get_input_part n =
      if n ∈ pm.get_part_inputs p2 then
        (pm.get_input_part n).map (fun _ => if p2 ≠ 0 then p1 else p2)
      else pm.get_input_part n := by
  unfold partition_manager.get_input_part partition_manager.get_part_inputs
  exact rehome_loop p1 p2 (pm.partitionInputs p2) pm.input_partition n

/-- C17 (re-homing of reverse-map entries on merge), evaluated at a failing
input.  In the ledger of `ntk_ex5` gate 3 is an input of the partitions 1 and 2,
so `get_input_part(3)` is `[1, 2]`.  After `combine_partitions(0, 1)` the list is
`[0, 0]`: the entry naming partition 2 has been overwritten as well, where
replacing the occurrences of partition 1 gives `[0, 2]`. -/
theorem rehome_defect :
    ∃ pm, partition_manager.from_map ntk_ex5 part_ex5 3 = some pm ∧
      3 ∈ pm.get_part_inputs 1 ∧ pm.get_input_part 3 = [1, 2] ∧
      (pm.combine_partitions ntk_ex5 0 1).1.get_input_part 3 = [0, 0] ∧
      (pm.get_input_part 3).map (fun q => if q = 1 then 0 else q) = [0, 2] := by
  obtain ⟨pm, hpm⟩ := ex5_ledger
  have h1 : ex5_run (fun pm => (pm.get_part_inputs 1, pm.get_input_part 3)) =
      some ([1, 3], [1, 2]) := by decide
  have h2 : ex5_run (fun pm => (pm.combine_partitions ntk_ex5 0 1).1.get_input_part 3) =
      some [0, 0] := by decide
  have e1 := ex5_run_eq _ _ h1 pm hpm
  have e2 := ex5_run_eq _ _ h2 pm hpm
  simp only [Prod.mk.injEq] at e1
  refine ⟨pm, hpm, by rw [e1.1]; decide, e1.2, e2, by rw [e1.2]; decide⟩

theorem create_part_set_pairwise (m : List (Int × Nat)) (i : Int) :
    (create_part_set m i).Pairwise (fun a b => a < b) := by
  unfold create_part_set
  have : ∀ (l acc : List Nat), acc.Pairwise (fun a b => a < b) →
      (l.foldl (fun acc n => if n ∈ acc then acc else set_insert n acc) acc).Pairwise
        (fun a b => a < b) := by
    intro l
    induction l with
    | nil => intro acc h; exact h
    | cons y ys ih =>
      intro acc h
      rw [List.foldl_cons]
      apply ih
      split_ifs
      · exact h
      · exact pairwise_set_insert y acc h
  exact this _ _ List.Pairwise.nil

/-- One loop of `update_io` over a duplicate-free set. -/
theorem push_loop (i : Int) (l : List Nat) (hl : l.Nodup) (m : Nat → List Int) (n : Nat) :
    (l.foldl (fun m n => upd m n (m n ++ [i])) m) n = if n ∈ l then m n ++ [i] else m n := by
  induction l generalizing m with
  | nil => simp
  | cons a l ih =>
    rw [List.nodup_cons] at hl
    rw [List.foldl_cons, ih hl.2]
    by_cases ha : n = a
    · subst ha
      simp [hl.1, upd]
    · by_cases h : n ∈ l
      · simp [h, ha, upd]
      · simp [h, ha, upd]

/-- The reverse maps after one round of the final loop of the constructor. -/
theorem finish_from_map_reverse (pm : partition_manager) (i : Int) (n : Nat) :
    (finish_from_map pm i).input_partition n =
      pm.input_partition n ++ (if n ∈ create_part_set pm.tables._part_pis i then [i] else []) ∧
    (finish_from_map pm i).output_partition n =
      pm.output_partition n ++ (if n ∈ create_part_set pm.tables._part_pos i then [i] else []) := by
  have hn1 : (create_part_set pm.tables._part_pis i).Nodup :=
    (create_part_set_pairwise _ _).imp (fun h => Nat.ne_of_lt h)
  have hn2 : (create_part_set pm.tables._part_pos i).Nodup :=
    (create_part_set_pairwise _ _).imp (fun h => Nat.ne_of_lt h)
  constructor
  · show ((upd pm.partitionInputs i (create_part_set pm.tables._part_pis i) i).foldl
      (fun m n => upd m n (m n ++ [i])) pm.input_partition) n = _
    rw [show upd pm.partitionInputs i (create_part_set pm.tables._part_pis i) i =
      create_part_set pm.tables._part_pis i by simp [upd], push_loop i _ hn1]
    split_ifs <;> simp
  · show ((upd pm.partitionOutputs i (create_part_set pm.tables._part_pos i) i).foldl
      (fun m n => upd m n (m n ++ [i])) pm.output_partition) n = _
    rw [show upd pm.partitionOutputs i (create_part_set pm.tables._part_pos i) i =
      create_part_set pm.tables._part_pos i by simp [upd], push_loop i _ hn2]
    split_ifs <;> simp

/-- The reverse maps after the final loop of the constructor: the list of a
node holds, in ascending order, the partitions whose boundary set contains it. -/
theorem finish_loop_reverse (l : List Int) (pm : partition_manager) (n : Nat) :
    (l.foldl finish_from_map pm).input_partition n =
      pm.input_partition n ++
        l.filter (fun i => decide (n ∈ create_part_set pm.tables._part_pis i)) ∧
    (l.foldl finish_from_map pm).output_partition n =
      pm.output_partition n ++
        l.filter (fun i => decide (n ∈ create_part_set pm.tables._part_pos i)) := by
  induction l generalizing pm with
  | nil => simp
  | cons a l ih =>
    obtain ⟨h1, h2⟩ := ih (finish_from_map pm a)
    obtain ⟨g1, g2⟩ := finish_from_map_reverse pm a n
    have ht : (finish_from_map pm a).tables = pm.tables := (finish_from_map_fields pm a).1
    rw [List.foldl_cons, h1, h2, g1, g2, ht]
    constructor
    · rw [List.filter_cons]
      split_ifs <;> simp_all
    · rw [List.filter_cons]
      split_ifs <;> simp_all

theorem part_ids_nodup (part_num : Int) : (part_ids part_num).Nodup := by
  unfold part_ids
  exact (List.nodup_range _).map (fun a b h => Int.ofNat.inj h)

/-- The reverse maps of a ledger built from an assignment. -/
theorem from_map_reverse {ntk : Ntk} {partition : Nat → Option Int} {part_num : Int}
    {pm : partition_manager} (h : partition_manager.from_map ntk partition part_num = some pm)
    (n : Nat) :
    (∀ p, p ∈ pm.input_partition n ↔ n ∈ pm.partitionInputs p) ∧
    (∀ p, p ∈ pm.output_partition n ↔ n ∈ pm.partitionOutputs p) ∧
    (pm.input_partition n).Nodup ∧ (pm.output_partition n).Nodup := by
  obtain ⟨_, hI, hO, _, _⟩ := from_map_facts h
  unfold partition_manager.from_map at h
  simp only [Option.map_eq_some'] at h
  obtain ⟨t, _, rfl⟩ := h
  obtain ⟨r1, r2⟩ := finish_loop_reverse (part_ids part_num) (partition_manager.init part_num t) n
  have ht : ((part_ids part_num).foldl finish_from_map (partition_manager.init part_num t)).tables
      = t := (finish_loop_spec finish_from_map finish_from_map_fields _ _).1
  rw [ht] at hI hO
  have e1 : (partition_manager.init part_num t).input_partition n = [] := rfl
  have e2 : (partition_manager.init part_num t).output_partition n = [] := rfl
  have e3 : (partition_manager.init part_num t).tables = t := rfl
  rw [e1, e3, List.nil_append] at r1
  rw [e2, e3, List.nil_append] at r2
  refine ⟨fun p => ?_, fun p => ?_, ?_, ?_⟩
  · rw [r1, hI p n, List.mem_filter, mem_part_ids, decide_eq_true_iff, mem_create_part_set]
  · rw [r2, hO p n, List.mem_filter, mem_part_ids, decide_eq_true_iff, mem_create_part_set]
  · rw [r1]; exact (part_ids_nodup part_num).filter _
  · rw [r2]; exact (part_ids_nodup part_num).filter _

/-- C18 (reverse-map consistency).  After a ledger is built from an assignment,
for every node `n` and every partition `p`, `p` occurs in `get_input_part(n)` if
and only if `n` is in `get_part_inputs(p)`, `p` occurs in `get_output_part(n)` if
and only if `n` is in `get_part_outputs(p)`, and no partition id occurs more than
once in either list. -/
theorem reverse_map_consistency (ntk : Ntk) (partition : Nat → Option Int) (part_num : Int)
    (pm : partition_manager)
    (hpm : partition_manager.from_map ntk partition part_num = some pm) (n : Nat) (p : Int) :
    (p ∈ pm.get_input_part n ↔ n ∈ pm.get_part_inputs p) ∧
    (p ∈ pm.get_output_part n ↔ n ∈ pm.get_part_outputs p) ∧
    (pm.get_input_part n).Nodup ∧ (pm.get_output_part n).Nodup := by
  obtain ⟨h1, h2, h3, h4⟩ := from_map_reverse hpm n
  exact ⟨h1 p, h2 p, h3, h4⟩

/-- Instance of C18 on the ledger of `ntk_ex5`, for gate 3 and partition 2. -/
theorem reverse_map_consistency_witness :
    ∃ pm, partition_manager.from_map ntk_ex5 part_ex5 3 = some pm ∧
      (2 ∈ pm.get_input_part 3 ↔ 3 ∈ pm.get_part_inputs 2) ∧
      (2 ∈ pm.get_output_part 3 ↔ 3 ∈ pm.get_part_outputs 2) ∧
      (pm.get_input_part 3).Nodup ∧ (pm.get_output_part 3).Nodup := by
  obtain ⟨pm, hpm⟩ := ex5_ledger
  exact ⟨pm, hpm, reverse_map_consistency ntk_ex5 part_ex5 3 pm hpm 3 2⟩

theorem mem_int_set_insert (a x : Int) (s : List Int) :
    a ∈ int_set_insert x s ↔ a = x ∨ a ∈ s := by
  induction s with
  | nil => simp [int_set_insert]
  | cons y ys ih =>
    unfold int_set_insert
    split_ifs with h1 h2
    · simp
    · subst h2; simp
    · simp [ih]; tauto

theorem mem_conn_inner (c : Int → Bool) (l acc : List Int) (q : Int) :
    q ∈ l.foldl (fun acc x => if c x then int_set_insert x acc else acc) acc ↔
      q ∈ acc ∨ (q ∈ l ∧ c q = true) := by
  induction l generalizing acc with
  | nil => simp
  | cons y ys ih =>
    rw [List.foldl_cons, ih]
    by_cases hy : c y = true
    · simp only [hy, if_true, mem_int_set_insert, List.mem_cons]
      constructor
      · rintro ((h | h) | h)
        · subst h; exact Or.inr ⟨Or.inl rfl, hy⟩
        · exact Or.inl h
        · exact Or.inr ⟨Or.inr h.1, h.2⟩
      · rintro (h | ⟨h | h, h2⟩)
        · exact Or.inl (Or.inr h)
        · exact Or.inl (Or.inl h)
        · exact Or.inr ⟨h, h2⟩
    · simp only [hy, if_false, List.mem_cons, Bool.false_eq_true]
      constructor
      · rintro (h | h)
        · exact Or.inl h
        · exact Or.inr ⟨Or.inr h.1, h.2⟩
      · rintro (h | ⟨h | h, h2⟩)
        · exact Or.inl h
        · subst h; exact absurd h2 hy
        · exact Or.inr ⟨h, h2⟩

theorem mem_conn_outer (g : Nat → List Int) (c : Nat → Int → Bool) (l : List Nat)
    (acc : List Int) (q : Int) :
    q ∈ l.foldl (fun acc n =>
      (g n).foldl (fun acc x => if c n x then int_set_insert x acc else acc) acc) acc ↔
      q ∈ acc ∨ ∃ n, n ∈ l ∧ q ∈ g n ∧ c n q = true := by
  induction l generalizing acc with
  | nil => simp
  | cons y ys ih =>
    rw [List.foldl_cons, ih, mem_conn_inner]
    constructor
    · rintro ((h | h) | ⟨n, h1, h2⟩)
      · exact Or.inl h
      · exact Or.inr ⟨y, List.mem_cons_self _ _, h⟩
      · exact Or.inr ⟨n, List.mem_cons_of_mem _ h1, h2⟩
    · rintro (h | ⟨n, h1, h2⟩)
      · exact Or.inl (Or.inl h)
      · rcases List.mem_cons.1 h1 with rfl | h1
        · exact Or.inl (Or.inr h2)
        · exact Or.inr ⟨n, h1, h2⟩

/-- Membership in the set returned by `get_connected_parts`. -/
theorem mem_get_connected_parts (pm : partition_manager) (ntk : Ntk) (p q : Int) :
    q ∈ pm.get_connected_parts ntk p ↔ q ≠ p ∧ ∃ n, ntk.is_pi n = false ∧
      ((n ∈ pm.partitionInputs p ∧ q ∈ pm.output_partition n) ∨
       (n ∈ pm.partitionOutputs p ∧ q ∈ pm.input_partition n)) := by
  unfold partition_manager.get_connected_parts
  simp only
  rw [mem_conn_outer pm.input_partition (fun n q => decide (q ≠ p) && !ntk.is_pi n),
    mem_conn_outer pm.output_partition (fun n q => decide (q ≠ p) && !ntk.is_pi n)]
  simp only [List.not_mem_nil, false_or, Bool.and_eq_true, decide_eq_true_eq,
    Bool.not_eq_true']
  constructor
  · rintro (⟨n, h1, h2, h3, h4⟩ | ⟨n, h1, h2, h3, h4⟩)
    · exact ⟨h3, n, h4, Or.inl ⟨h1, h2⟩⟩
    · exact ⟨h3, n, h4, Or.inr ⟨h1, h2⟩⟩
  · rintro ⟨h3, n, h4, ⟨h1, h2⟩ | ⟨h1, h2⟩⟩
    · exact Or.inl ⟨n, h1, h2, h3, h4⟩
    · exact Or.inr ⟨n, h1, h2, h3, h4⟩

/-- C19 (connected partitions).  For a ledger built from an assignment,
`get_connected_parts(p)` never contains `p`; a partition `q` is in it if and only
if `q ≠ p` and some node that is not a primary input is an input of `p` and an
output of `q`, or an output of `p` and an input of `q`; hence `q` is connected to
`p` exactly when `p` is connected to `q`. -/
theorem connected_parts (ntk : Ntk) (partition : Nat → Option Int) (part_num : Int)
    (pm : partition_manager)
    (hpm : partition_manager.from_map ntk partition part_num = some pm) (p q : Int) :
    p ∉ pm.get_connected_parts ntk p ∧
    (q ∈ pm.get_connected_parts ntk p ↔ q ≠ p ∧ ∃ n, ntk.is_pi n = false ∧
      ((n ∈ pm.get_part_inputs p ∧ n ∈ pm.get_part_outputs q) ∨
       (n ∈ pm.get_part_outputs p ∧ n ∈ pm.get_part_inputs q))) ∧
    (q ∈ pm.get_connected_parts ntk p ↔ p ∈ pm.get_connected_parts ntk q) := by
  have key : ∀ a b, b ∈ pm.get_connected_parts ntk a ↔ b ≠ a ∧ ∃ n, ntk.is_pi n = false ∧
      ((n ∈ pm.get_part_inputs a ∧ n ∈ pm.get_part_outputs b) ∨
       (n ∈ pm.get_part_outputs a ∧ n ∈ pm.get_part_inputs b)) := by
    intro a b
    rw [mem_get_connected_parts]
    unfold partition_manager.get_part_inputs partition_manager.get_part_outputs
    constructor
    · rintro ⟨h, n, hn, hc⟩
      refine ⟨h, n, hn, ?_⟩
      obtain ⟨r1, r2, _, _⟩ := from_map_reverse hpm n
      rcases hc with ⟨h1, h2⟩ | ⟨h1, h2⟩
      · exact Or.inl ⟨h1, (r2 b).1 h2⟩
      · exact Or.inr ⟨h1, (r1 b).1 h2⟩
    · rintro ⟨h, n, hn, hc⟩
      refine ⟨h, n, hn, ?_⟩
      obtain ⟨r1, r2, _, _⟩ := from_map_reverse hpm n
      rcases hc with ⟨h1, h2⟩ | ⟨h1, h2⟩
      · exact Or.inl ⟨h1, (r2 b).2 h2⟩
      · exact Or.inr ⟨h1, (r1 b).2 h2⟩
  refine ⟨fun h => ((key p p).1 h).1 rfl, key p q, ?_⟩
  rw [key p q, key q p]
  constructor
  · rintro ⟨h, n, hn, hc⟩
    exact ⟨fun e => h e.symm, n, hn, hc.symm.imp (fun x => ⟨x.2, x.1⟩) (fun x => ⟨x.2, x.1⟩)⟩
  · rintro ⟨h, n, hn, hc⟩
    exact ⟨fun e => h e.symm, n, hn, hc.symm.imp (fun x => ⟨x.2, x.1⟩) (fun x => ⟨x.2, x.1⟩)⟩

/-- Instance of C19 on the ledger of `ntk_ex5`, for the partitions 0 and 1,
which gate 3 connects. -/
theorem connected_parts_witness :
    ∃ pm, partition_manager.from_map ntk_ex5 part_ex5 3 = some pm ∧
      0 ∉ pm.get_connected_parts ntk_ex5 0 ∧
      (1 ∈ pm.get_connected_parts ntk_ex5 0 ↔ (1 : Int) ≠ 0 ∧ ∃ n, ntk_ex5.is_pi n = false ∧
        ((n ∈ pm.get_part_inputs 0 ∧ n ∈ pm.get_part_outputs 1) ∨
         (n ∈ pm.get_part_outputs 0 ∧ n ∈ pm.get_part_inputs 1))) ∧
      (1 ∈ pm.get_connected_parts ntk_ex5 0 ↔ 0 ∈ pm.get_connected_parts ntk_ex5 1) := by
  obtain ⟨pm, hpm⟩ := ex5_ledger
  exact ⟨pm, hpm, connected_parts ntk_ex5 part_ex5 3 pm hpm 0 1⟩

/-- The ledger built for `ntk_ex1` from the assignment `part_ex6`. -/
theorem ex6_ledger :
    ∃ pm, partition_manager.from_map ntk_ex1 part_ex6 2 = some pm ∧
      pm.scope_at 0 = some [4] ∧ pm.scope_at 1 = some [1, 2, 3] := by
  have h : (partition_manager.from_map ntk_ex1 part_ex6 2).isSome = true := by decide
  obtain ⟨pm, hpm⟩ := Option.isSome_iff_exists.1 h
  have h2 : (partition_manager.from_map ntk_ex1 part_ex6 2).map
      (fun pm => (pm.scope_at 0, pm.scope_at 1)) = some (some [4], some [1, 2, 3]) := by decide
  rw [hpm, Option.map_some', Option.some.injEq, Prod.mk.injEq] at h2
  exact ⟨pm, hpm, h2.1, h2.2⟩

/-- C20 as stated fails.  The assignment `part_ex6` has no entry for gate 4 of
`ntk_ex1`; the constructor nevertheless returns a ledger, in which gate 4 is in the
scope of partition 0. -/
theorem missing_assignment_counterexample :
    ∃ pm sc, part_ex6 4 = none ∧ 4 < ntk_ex1.size ∧
      partition_manager.from_map ntk_ex1 part_ex6 2 = some pm ∧
      pm.scope_at 0 = some sc ∧ 4 ∈ sc := by
  obtain ⟨pm, hpm, h0, _⟩ := ex6_ledger
  exact ⟨pm, [4], by decide, by decide, hpm, h0, by decide⟩

/-- C20, amended (missing partition assignment).  Building a ledger from an
assignment map that has no entry for some node does not fail on that account: a
missing entry reads as partition 0, so the constructor behaves exactly as on the
map completed with 0, and when it returns a ledger every non-constant node
without an entry is in the scope of partition 0. -/
theorem missing_assignment_default (ntk : Ntk) (partition : Nat → Option Int) (part_num : Int) :
    partition_manager.from_map ntk partition part_num =
      partition_manager.from_map ntk (fun n => some (map_at partition n)) part_num ∧
    ∀ pm n, partition_manager.from_map ntk partition part_num = some pm → n < ntk.size →
      partition n = none → ntk.is_constant n = false →
      ∃ sc, pm.scope_at 0 = some sc ∧ n ∈ sc := by
  constructor
  · have e : classify_node ntk partition = classify_node ntk (fun n => some (map_at partition n)) := by
      funext t c
      rfl
    unfold partition_manager.from_map
    rw [e]
  · intro pm n hpm hn hnone hc
    obtain ⟨_, _, _, _, hnode⟩ := from_map_facts hpm
    have hmem := (hnode n hn).2.1 hc
    have h0 : map_at partition n = 0 := by simp [map_at, hnone]
    rw [h0] at hmem
    unfold partition_manager.scope_at
    simp only [le_refl, if_true, Int.toNat_zero]
    simp only [Int.toNat_zero] at hmem
    rw [List.getD_eq_getElem?_getD] at hmem
    rw [List.get?_eq_getElem?]
    cases hs : pm.tables._part_scope[0]? with
    | none => rw [hs] at hmem; simp at hmem
    | some sc => rw [hs] at hmem; exact ⟨sc, rfl, hmem⟩

/-- Instance of C20 (amended) on `ntk_ex1` with the assignment `part_ex6`. -/
theorem missing_assignment_default_witness :
    ∃ pm, partition_manager.from_map ntk_ex1 part_ex6 2 = some pm ∧
      ∃ sc, pm.scope_at 0 = some sc ∧ 4 ∈ sc := by
  obtain ⟨pm, hpm, _, _⟩ := ex6_ledger
  exact ⟨pm, hpm, (missing_assignment_default ntk_ex1 part_ex6 2).2 pm 4 hpm (by decide)
    (by decide) (by decide)⟩

theorem foldlM_inv_mem {α β : Type} (f : β → α → Option β) (J : β → Prop) :
    ∀ (l : List α) (b b' : β), (∀ b a b', a ∈ l → J b → f b a = some b' → J b') →
      J b → l.foldlM f b = some b' → J b' := by
  intro l
  induction l with
  | nil => intro b b' _ hb h; simp at h; subst h; exact hb
  | cons a l ih =>
    intro b b' hstep hb h
    simp only [List.foldlM_cons, Option.bind_eq_bind, Option.bind_eq_some] at h
    obtain ⟨b1, h1, h2⟩ := h
    exact ih _ _ (fun b a b' ha => hstep b a b' (List.mem_cons_of_mem _ ha))
      (hstep _ _ _ (List.mem_cons_self _ _) hb h1) h2

/-- The tables of a ledger built from an assignment are those collected by the
walk over the nodes. -/
theorem from_map_tables {ntk : Ntk} {partition : Nat → Option Int} {part_num : Int}
    {pm : partition_manager} (h : partition_manager.from_map ntk partition part_num = some pm) :
    ntk.foreach_node.foldlM (classify_node ntk partition) (part_tables.empty part_num) =
      some pm.tables := by
  unfold partition_manager.from_map at h
  simp only [Option.map_eq_some'] at h
  obtain ⟨t, ht, rfl⟩ := h
  rw [ht, (finish_loop_spec finish_from_map finish_from_map_fields _ _).1]
  rfl

theorem scope_insert_origin {scope : List (List Nat)} {p : Int} {n : Nat} {sc : List (List Nat)}
    (h : scope_insert scope p n = some sc) (i x : Nat) (hx : x ∈ sc.getD i []) :
    x ∈ scope.getD i [] ∨ (x = n ∧ i = p.toNat ∧ 0 ≤ p) := by
  unfold scope_insert at h
  split_ifs at h with hc
  simp only [Option.some.injEq] at h
  subst h
  by_cases hi : i = p.toNat
  · subst hi
    rw [List.getD_eq_getElem?_getD, List.getElem?_set_self hc.2] at hx
    simp only [Option.getD_some, mem_set_insert] at hx
    rcases hx with hx | hx
    · exact Or.inr ⟨hx, rfl, hc.1⟩
    · exact Or.inl hx
  · rw [List.getD_eq_getElem?_getD, List.getElem?_set_ne (fun e => hi e.symm)] at hx
    rw [List.getD_eq_getElem?_getD]
    exact Or.inl hx

/-- Inserting a non-constant node into the scope of its own partition keeps the
scope sets justified. -/
theorem scope_origin_insert {ntk : Ntk} {part : Nat → Int} {t : part_tables} (t' : part_tables)
    {n : Nat} {sc : List (List Nat)} (hs : scope_origin ntk part t)
    (h : scope_insert t._part_scope (part n) n = some sc) (ht : t'._part_scope = sc)
    (hn : ntk.is_constant n = false) : scope_origin ntk part t' := by
  intro i x hx
  rw [ht] at hx
  rcases scope_insert_origin h i x hx with h1 | ⟨rfl, h2, h3⟩
  · exact hs i x h1
  · exact ⟨hn, h3, h2⟩

theorem crossing_edge_scope_origin {ntk : Ntk} {partition : Nat → Option Int} {c : Nat}
    {t t' : part_tables} {conn : signal} (hc : ntk.is_constant c = false)
    (hs : scope_origin ntk (map_at partition) t)
    (h : crossing_edge ntk (fun n => some (map_at partition n)) c t conn = some t') :
    scope_origin ntk (map_at partition) t' := by
  unfold crossing_edge at h
  simp only [Ntk.index_to_node, Option.bind_eq_some, Option.some.injEq] at h
  obtain ⟨pn, hpn, pc, hpc, h⟩ := h
  subst hpn hpc
  split_ifs at h with hx
  · simp only [Option.map_eq_some'] at h
    obtain ⟨sc, hsc, rfl⟩ := h
    exact scope_origin_insert _ hs hsc rfl hc
  · simp only [Option.some.injEq] at h; subst h; exact hs

theorem classify_node_scope_origin {ntk : Ntk} {partition : Nat → Option Int}
    (hpi : ∀ n, ntk.is_pi n = true → ntk.is_constant n = false)
    (hcf : ∀ n, ntk.is_constant n = true → ntk.fanin n = [])
    {t t' : part_tables} {c : Nat} (hs : scope_origin ntk (map_at partition) t)
    (h : classify_node ntk partition t c = some t') :
    scope_origin ntk (map_at partition) t' := by
  unfold classify_node at h
  simp only [Option.bind_eq_some] at h
  obtain ⟨t1, h1, t2, h2, h3⟩ := h
  have s1 : scope_origin ntk (map_at partition) t1 := by
    unfold classify_pi at h1
    split_ifs at h1 with hc
    · simp only [Option.map_eq_some'] at h1
      obtain ⟨sc, hsc, rfl⟩ := h1
      exact scope_origin_insert _ hs hsc rfl (hpi c hc)
    · simp only [Option.some.injEq] at h1; subst h1; exact hs
  have s2 : scope_origin ntk (map_at partition) t2 := by
    unfold classify_kind at h2
    split_ifs at h2 with hc1 hc2 hc3 hc4
    · simp only [Option.map_eq_some'] at h2
      obtain ⟨sc, hsc, rfl⟩ := h2
      exact scope_origin_insert _ s1 hsc rfl (by simp at hc1; exact hc1.2)
    · simp only [Option.map_eq_some'] at h2
      obtain ⟨sc, hsc, rfl⟩ := h2
      exact scope_origin_insert _ s1 hsc rfl (by simp at hc1; exact hc1.2)
    · simp only [Option.map_eq_some'] at h2
      obtain ⟨sc, hsc, rfl⟩ := h2
      exact scope_origin_insert _ s1 hsc rfl (by simp at hc3; exact hc3.2)
    · simp only [Option.map_eq_some'] at h2
      obtain ⟨sc, hsc, rfl⟩ := h2
      exact scope_origin_insert _ s1 hsc rfl (by simpa using hc4)
    · simp only [Option.some.injEq] at h2; subst h2; exact s1
  unfold classify_fanins at h3
  split_ifs at h3
  · cases hk : ntk.is_constant c
    · exact foldlM_inv _ (scope_origin ntk (map_at partition))
        (fun _ _ _ hb hstep => crossing_edge_scope_origin hk hb hstep) _ _ _ s2 h3
    · rw [hcf c hk] at h3
      simp only [List.foldlM_nil, Option.pure_def, Option.some.injEq] at h3
      subst h3; exact s2
  · simp only [Option.some.injEq] at h3; subst h3; exact s2

/-- The scope sets of a ledger built from an assignment hold non-constant nodes
only, each under its own partition. -/
theorem from_map_scope_origin {ntk : Ntk} {partition : Nat → Option Int} {part_num : Int}
    {pm : partition_manager} (h : partition_manager.from_map ntk partition part_num = some pm)
    (hpi : ∀ n, ntk.is_pi n = true → ntk.is_constant n = false)
    (hcf : ∀ n, ntk.is_constant n = true → ntk.fanin n = []) :
    scope_origin ntk (map_at partition) pm.tables := by
  refine foldlM_inv _ (scope_origin ntk (map_at partition))
    (fun _ _ _ hb hstep => classify_node_scope_origin hpi hcf hb hstep) _ _ _ ?_
    (from_map_tables h)
  intro i x hx
  simp only [part_tables.empty, List.getD_eq_getElem?_getD] at hx
  rcases hi : (List.replicate part_num.toNat ([] : List Nat))[i]? with _ | l
  · rw [hi] at hx; simp at hx
  · rw [hi] at hx
    have := List.getElem?_mem hi
    rw [List.mem_replicate] at this
    rw [this.2] at hx; simp at hx

/-- C26 (home scopes).  For a ledger built from an assignment over a network
whose primary inputs are not constants and whose constants have no fan-ins, every
non-constant node of the network is in the scope set of the partition the
assignment gives it; a member of any scope set is a non-constant node and that
scope set is the one of its assigned partition, so a non-constant node is in
exactly one scope set and a constant node in none. -/
theorem home_scopes (ntk : Ntk) (partition : Nat → Option Int) (part_num : Int)
    (pm : partition_manager)
    (hpm : partition_manager.from_map ntk partition part_num = some pm)
    (hpi : ∀ n, ntk.is_pi n = true → ntk.is_constant n = false)
    (hcf : ∀ n, ntk.is_constant n = true → ntk.fanin n = []) :
    (∀ n, n < ntk.size → ntk.is_constant n = false →
      ∃ sc, pm.get_part_context (map_at partition n) = some sc ∧ n ∈ sc) ∧
    (∀ q sc n, pm.get_part_context q = some sc → n ∈ sc →
      ntk.is_constant n = false ∧ q = map_at partition n) := by
  obtain ⟨hlen, _, _, _, hnode⟩ := from_map_facts hpm
  have ho := from_map_scope_origin hpm hpi hcf
  constructor
  · intro n hn hc
    obtain ⟨hd, hh⟩ := hnode n hn
    obtain ⟨pc, e, h0, h1⟩ := hd.1 hc
    simp only [Option.some.injEq] at e
    subst e
    have hmem := hh.1 hc
    have hlt : (map_at partition n).toNat < pm.tables._part_scope.length := by omega
    unfold partition_manager.get_part_context
    rw [if_pos h0, List.get?_eq_getElem?, List.getElem?_eq_getElem hlt]
    rw [List.getD_eq_getElem?_getD, List.getElem?_eq_getElem hlt] at hmem
    exact ⟨_, rfl, hmem⟩
  · intro q sc n hq hn
    unfold partition_manager.get_part_context at hq
    split_ifs at hq with h0
    rw [List.get?_eq_getElem?] at hq
    have hmem : n ∈ pm.tables._part_scope.getD q.toNat [] := by
      rw [List.getD_eq_getElem?_getD, hq]; exact hn
    obtain ⟨a, b, c⟩ := ho q.toNat n hmem
    refine ⟨a, ?_⟩
    have := congrArg (fun k : Nat => (k : Int)) c
    simp only [Int.toNat_of_nonneg h0, Int.toNat_of_nonneg b] at this
    exact this

/-- Instance of C26 on the ledger of `ntk_ex5`: gate 4 is in the scope of
partition 1 and of no other. -/
theorem home_scopes_witness :
    ∃ pm, partition_manager.from_map ntk_ex5 part_ex5 3 = some pm ∧
      (∀ n, n < ntk_ex5.size → ntk_ex5.is_constant n = false →
        ∃ sc, pm.get_part_context (map_at part_ex5 n) = some sc ∧ n ∈ sc) ∧
      (∀ q sc n, pm.get_part_context q = some sc → n ∈ sc →
        ntk_ex5.is_constant n = false ∧ q = map_at part_ex5 n) := by
  obtain ⟨pm, hpm⟩ := ex5_ledger
  refine ⟨pm, hpm, home_scopes ntk_ex5 part_ex5 3 pm hpm ?_ ?_⟩
  · intro n hn
    have : n = 1 ∨ n = 2 := by simpa [ntk_ex5] using hn
    rcases this with rfl | rfl <;> decide
  · intro n hn
    have : n = 0 := by simpa [ntk_ex5] using hn
    subst this; decide

theorem classify_kind_po {ntk : Ntk} {partition : Nat → Option Int} {t t' : part_tables}
    {c : Nat} (h : classify_kind ntk partition t c = some t') :
    node_po_done ntk (map_at partition) c t' := by
  intro hpo hc
  unfold classify_kind at h
  split_ifs at h with hc1 hc2 hc3 hc4
  · simp only [Option.map_eq_some'] at h
    obtain ⟨sc, _, rfl⟩ := h
    simp
  · simp [hpo, hc] at hc2
  · simp only [Option.map_eq_some'] at h
    obtain ⟨sc, _, rfl⟩ := h
    simp
  · simp [hpo, hc] at hc3
  · simp [hc] at hc4

theorem classify_node_po {ntk : Ntk} {partition : Nat → Option Int} {t t' : part_tables}
    {c : Nat} (h : classify_node ntk partition t c = some t') :
    node_po_done ntk (map_at partition) c t' := by
  unfold classify_node at h
  simp only [Option.bind_eq_some] at h
  obtain ⟨t1, _, t2, h2, h3⟩ := h
  intro hpo hc
  exact (classify_fanins_spec h3).1.2.2 _ (classify_kind_po h2 hpo hc)

/-- In a ledger built from an assignment every non-constant primary output of
the network is filed as an output under its own partition. -/
theorem from_map_po {ntk : Ntk} {partition : Nat → Option Int} {part_num : Int}
    {pm : partition_manager} (h : partition_manager.from_map ntk partition part_num = some pm)
    (c : Nat) (hc : c < ntk.size) : node_po_done ntk (map_at partition) c pm.tables :=
  foldlM_each _ tables_le (fun c t => node_po_done ntk (map_at partition) c t)
    tables_le_refl tables_le_trans (fun _ _ _ hs => (classify_node_spec hs).1)
    (fun _ _ _ hs => classify_node_po hs)
    (fun _ _ _ hq hle hpo hk => hle.2.2 _ (hq hpo hk)) _ _ _ (from_map_tables h) c
    (by simp [Ntk.foreach_node, hc])

/-- C27 (primary I/O registration).  For a ledger built from an assignment,
every non-constant node `n` of the network that is a primary input or a register
output is in `get_part_inputs(partition(n))`, every non-constant primary output
`n` is in `get_part_outputs(partition(n))`, and a non-constant register output
that is also a primary output is in both sets of its partition. -/
theorem primary_io_registration (ntk : Ntk) (partition : Nat → Option Int) (part_num : Int)
    (pm : partition_manager)
    (hpm : partition_manager.from_map ntk partition part_num = some pm)
    (n : Nat) (hn : n < ntk.size) (hc : ntk.is_constant n = false) :
    (ntk.is_pi n = true ∨ ntk.is_ro n = true → n ∈ pm.get_part_inputs (map_at partition n)) ∧
    (ntk.is_po n = true → n ∈ pm.get_part_outputs (map_at partition n)) ∧
    (ntk.is_ro n = true → ntk.is_po n = true →
      n ∈ pm.get_part_inputs (map_at partition n) ∧
      n ∈ pm.get_part_outputs (map_at partition n)) := by
  obtain ⟨hlen, hI, hO, _, hnode⟩ := from_map_facts hpm
  obtain ⟨hd, hh⟩ := hnode n hn
  obtain ⟨pc, e, h0, h1⟩ := hd.1 hc
  simp only [Option.some.injEq] at e
  subst e
  have hr : 0 ≤ map_at partition n ∧ map_at partition n < part_num := by
    rw [hlen] at h1
    constructor
    · exact h0
    · omega
  have hin : ntk.is_pi n = true ∨ ntk.is_ro n = true →
      n ∈ pm.get_part_inputs (map_at partition n) := by
    intro h
    refine (hI _ n).2 ⟨hr, hh.2 ?_⟩
    rcases h with h | h
    · exact Or.inl h
    · exact Or.inr ⟨h, hc⟩
  have hout : ntk.is_po n = true → n ∈ pm.get_part_outputs (map_at partition n) :=
    fun h => (hO _ n).2 ⟨hr, from_map_po hpm n hn h hc⟩
  exact ⟨hin, hout, fun h1 h2 => ⟨hin (Or.inr h1), hout h2⟩⟩

/-- Instance of C27 on the ledger of `ntk_ex5` for the primary output 4. -/
theorem primary_io_registration_witness :
    ∃ pm, partition_manager.from_map ntk_ex5 part_ex5 3 = some pm ∧
      (ntk_ex5.is_pi 4 = true ∨ ntk_ex5.is_ro 4 = true → 4 ∈ pm.get_part_inputs (map_at part_ex5 4)) ∧
      (ntk_ex5.is_po 4 = true → 4 ∈ pm.get_part_outputs (map_at part_ex5 4)) ∧
      (ntk_ex5.is_ro 4 = true → ntk_ex5.is_po 4 = true →
        4 ∈ pm.get_part_inputs (map_at part_ex5 4) ∧
        4 ∈ pm.get_part_outputs (map_at part_ex5 4)) := by
  obtain ⟨pm, hpm⟩ := ex5_ledger
  exact ⟨pm, hpm, primary_io_registration ntk_ex5 part_ex5 3 pm hpm 4 (by decide) (by decide)⟩

/-- A step that only appends justified entries keeps the multimaps justified. -/
theorem origin_step {ntk : Ntk} {part : Nat → Int} (t t' : part_tables)
    (hpos : ∀ e ∈ t'._part_pos, e ∈ t._part_pos ∨ pos_ok ntk part e)
    (hpis : ∀ e ∈ t'._part_pis, e ∈ t._part_pis ∨ pis_ok ntk part e)
    (h : tables_origin ntk part t) : tables_origin ntk part t' := by
  refine ⟨fun e he => ?_, fun e he => ?_⟩
  · rcases hpos e he with h1 | h1
    · exact h.1 e h1
    · exact h1
  · rcases hpis e he with h1 | h1
    · exact h.2 e h1
    · exact h1

theorem crossing_edge_origin {ntk : Ntk} {partition : Nat → Option Int} {c : Nat}
    {t t' : part_tables} {conn : signal} (hc : c < ntk.size) (hconn : conn ∈ ntk.fanin c)
    (hs : tables_origin ntk (map_at partition) t)
    (h : crossing_edge ntk (fun n => some (map_at partition n)) c t conn = some t') :
    tables_origin ntk (map_at partition) t' := by
  unfold crossing_edge at h
  simp only [Ntk.index_to_node, Option.bind_eq_some, Option.some.injEq] at h
  obtain ⟨pn, hpn, pc, hpc, h⟩ := h
  subst hpn hpc
  split_ifs at h with hx
  · simp only [Option.map_eq_some'] at h
    obtain ⟨sc, _, rfl⟩ := h
    have hk : ntk.is_constant conn.index = false := by simpa using hx.2
    refine origin_step t _ (fun e he => ?_) (fun e he => ?_) hs
    · simp only [List.mem_append, List.mem_singleton] at he
      rcases he with he | rfl
      · exact Or.inl he
      · exact Or.inr ⟨rfl, Or.inr ⟨c, conn, hc, hconn, rfl, fun e => hx.1 e.symm⟩⟩
    · simp only [List.mem_append, List.mem_singleton] at he
      rcases he with he | rfl
      · exact Or.inl he
      · exact Or.inr (Or.inr ⟨hk, hx.1, c, conn, hc, hconn, rfl, rfl⟩)
  · simp only [Option.some.injEq] at h; subst h; exact hs

theorem classify_node_origin {ntk : Ntk} {partition : Nat → Option Int} {t t' : part_tables}
    {c : Nat} (hc : c < ntk.size) (hs : tables_origin ntk (map_at partition) t)
    (h : classify_node ntk partition t c = some t') :
    tables_origin ntk (map_at partition) t' := by
  unfold classify_node at h
  simp only [Option.bind_eq_some] at h
  obtain ⟨t1, h1, t2, h2, h3⟩ := h
  have s1 : tables_origin ntk (map_at partition) t1 := by
    unfold classify_pi at h1
    split_ifs at h1 with hp
    · simp only [Option.map_eq_some'] at h1
      obtain ⟨sc, _, rfl⟩ := h1
      refine origin_step t _ (fun e he => Or.inl he) (fun e he => ?_) hs
      simp only [List.mem_append, List.mem_singleton] at he
      rcases he with he | rfl
      · exact Or.inl he
      · exact Or.inr (Or.inl ⟨Or.inl hp, rfl⟩)
    · simp only [Option.some.injEq] at h1; subst h1; exact hs
  have s2 : tables_origin ntk (map_at partition) t2 := by
    unfold classify_kind at h2
    split_ifs at h2 with hc1 hc2 hc3 hc4
    · simp only [Option.map_eq_some'] at h2
      obtain ⟨sc, _, rfl⟩ := h2
      have hro : ntk.is_ro c = true := by simp at hc1; exact hc1.1
      have hpo : ntk.is_po c = true := by simp at hc2; exact hc2.1
      refine origin_step t1 _ (fun e he => ?_) (fun e he => ?_) s1
      · simp only [List.mem_append, List.mem_singleton] at he
        rcases he with he | rfl
        · exact Or.inl he
        · exact Or.inr ⟨rfl, Or.inl hpo⟩
      · simp only [List.mem_append, List.mem_singleton] at he
        rcases he with he | rfl
        · exact Or.inl he
        · exact Or.inr (Or.inl ⟨Or.inr hro, rfl⟩)
    · simp only [Option.map_eq_some'] at h2
      obtain ⟨sc, _, rfl⟩ := h2
      have hro : ntk.is_ro c = true := by simp at hc1; exact hc1.1
      refine origin_step t1 _ (fun e he => Or.inl he) (fun e he => ?_) s1
      simp only [List.mem_append, List.mem_singleton] at he
      rcases he with he | rfl
      · exact Or.inl he
      · exact Or.inr (Or.inl ⟨Or.inr hro, rfl⟩)
    · simp only [Option.map_eq_some'] at h2
      obtain ⟨sc, _, rfl⟩ := h2
      have hpo : ntk.is_po c = true := by simp at hc3; exact hc3.1
      refine origin_step t1 _ (fun e he => ?_) (fun e he => Or.inl he) s1
      simp only [List.mem_append, List.mem_singleton] at he
      rcases he with he | rfl
      · exact Or.inl he
      · exact Or.inr ⟨rfl, Or.inl hpo⟩
    · simp only [Option.map_eq_some'] at h2
      obtain ⟨sc, _, rfl⟩ := h2
      exact origin_step t1 _ (fun e he => Or.inl he) (fun e he => Or.inl he) s1
    · simp only [Option.some.injEq] at h2; subst h2; exact s1
  unfold classify_fanins at h3
  split_ifs at h3
  · exact foldlM_inv_mem _ (tables_origin ntk (map_at partition)) _ _ _
      (fun _ _ _ ha hb hstep => crossing_edge_origin hc ha hb hstep) s2 h3
  · simp only [Option.some.injEq] at h3; subst h3; exact s2

/-- Every entry of the boundary multimaps of a ledger built from an assignment
is justified. -/
theorem from_map_origin {ntk : Ntk} {partition : Nat → Option Int} {part_num : Int}
    {pm : partition_manager} (h : partition_manager.from_map ntk partition part_num = some pm) :
    tables_origin ntk (map_at partition) pm.tables := by
  refine foldlM_inv_mem _ (tables_origin ntk (map_at partition)) _ _ _
    (fun _ a _ ha hb hstep => classify_node_origin (by simpa [Ntk.foreach_node] using ha) hb hstep)
    ?_ (from_map_tables h)
  exact ⟨fun e he => by simp [part_tables.empty] at he,
    fun e he => by simp [part_tables.empty] at he⟩

/-- C28 (boundary soundness).  For a ledger built from an assignment, every
node `n` in `get_part_outputs(p)` has home partition `p` and is a primary output
or the fan-in of some node of the network whose home partition differs from `p`;
every node `n` in `get_part_inputs(p)` is a primary input or register output with
home `p`, or a non-constant node with another home that is a fan-in of some node
with home `p`; and a node is in the output set of at most one partition. -/
theorem boundary_soundness (ntk : Ntk) (partition : Nat → Option Int) (part_num : Int)
    (pm : partition_manager)
    (hpm : partition_manager.from_map ntk partition part_num = some pm) :
    (∀ p n, n ∈ pm.get_part_outputs p → map_at partition n = p ∧
      (ntk.is_po n = true ∨ ∃ c f, c < ntk.size ∧ f ∈ ntk.fanin c ∧ get_node f = n ∧
        map_at partition c ≠ p)) ∧
    (∀ p n, n ∈ pm.get_part_inputs p →
      ((ntk.is_pi n = true ∨ ntk.is_ro n = true) ∧ map_at partition n = p) ∨
      (ntk.is_constant n = false ∧ map_at partition n ≠ p ∧
        ∃ c f, c < ntk.size ∧ f ∈ ntk.fanin c ∧ get_node f = n ∧ map_at partition c = p)) ∧
    (∀ p q n, n ∈ pm.get_part_outputs p → n ∈ pm.get_part_outputs q → p = q) := by
  obtain ⟨_, hI, hO, _, _⟩ := from_map_facts hpm
  obtain ⟨o1, o2⟩ := from_map_origin hpm
  have hout : ∀ p n, n ∈ pm.get_part_outputs p → map_at partition n = p ∧
      (ntk.is_po n = true ∨ ∃ c f, c < ntk.size ∧ f ∈ ntk.fanin c ∧ get_node f = n ∧
        map_at partition c ≠ p) := by
    intro p n hn
    obtain ⟨a, b⟩ := o1 (p, n) ((hO p n).1 hn).2
    exact ⟨a.symm, b⟩
  refine ⟨hout, fun p n hn => o2 (p, n) ((hI p n).1 hn).2, fun p q n h1 h2 => ?_⟩
  rw [← (hout p n h1).1, ← (hout q n h2).1]

/-- Instance of C28 on the ledger of `ntk_ex5`: gate 3, an output of partition
0, is an output of no other partition. -/
theorem boundary_soundness_witness :
    ∃ pm, partition_manager.from_map ntk_ex5 part_ex5 3 = some pm ∧
      (∀ p n, n ∈ pm.get_part_outputs p → map_at part_ex5 n = p ∧
        (ntk_ex5.is_po n = true ∨ ∃ c f, c < ntk_ex5.size ∧ f ∈ ntk_ex5.fanin c ∧
          get_node f = n ∧ map_at part_ex5 c ≠ p)) ∧
      (∀ p n, n ∈ pm.get_part_inputs p →
        ((ntk_ex5.is_pi n = true ∨ ntk_ex5.is_ro n = true) ∧ map_at part_ex5 n = p) ∨
        (ntk_ex5.is_constant n = false ∧ map_at part_ex5 n ≠ p ∧
          ∃ c f, c < ntk_ex5.size ∧ f ∈ ntk_ex5.fanin c ∧ get_node f = n ∧
            map_at part_ex5 c = p)) ∧
      (∀ p q n, n ∈ pm.get_part_outputs p → n ∈ pm.get_part_outputs q → p = q) := by
  obtain ⟨pm, hpm⟩ := ex5_ledger
  exact ⟨pm, hpm, boundary_soundness ntk_ex5 part_ex5 3 pm hpm⟩

theorem scope_insert_zero (scope : List (List Nat)) (n : Nat) (h : 0 < scope.length) :
    ∃ sc, scope_insert scope 0 n = some sc ∧ sc.length = scope.length ∧
      n ∈ sc.getD 0 [] ∧ ∀ x, x ∈ scope.getD 0 [] → x ∈ sc.getD 0 [] := by
  have hc : (0 : Int) ≤ 0 ∧ (0 : Int).toNat < scope.length := ⟨le_refl _, by simpa using h⟩
  have e : scope_insert scope 0 n = some (scope.set 0 (set_insert n (scope.getD 0 []))) := by
    unfold scope_insert
    rw [if_pos hc]
    rfl
  obtain ⟨a, b⟩ := scope_insert_mem e
  exact ⟨_, e, by simp, by simpa using a, fun x hx => by simpa using b 0 x hx⟩

/-- The loop over the primary inputs in the single-partition branch. -/
theorem single_pi_loop (ntk : Ntk) (l : List Nat) (t : part_tables)
    (h : 0 < t._part_scope.length) :
    ∃ t', l.foldlM (single_pi ntk) t = some t' ∧ 0 < t'._part_scope.length ∧
      t'._part_pis = t._part_pis ++ l.map (fun pi => ((0 : Int), pi)) ∧
      t'._part_pos = t._part_pos ∧
      ∀ x, x ∈ t._part_scope.getD 0 [] → x ∈ t'._part_scope.getD 0 [] := by
  induction l generalizing t with
  | nil => exact ⟨t, rfl, h, by simp, rfl, fun x hx => hx⟩
  | cons a l ih =>
    obtain ⟨sc, e, hl, _, hg⟩ := scope_insert_zero t._part_scope a h
    have e1 : single_pi ntk t a = some
        { t with _part_scope := sc, _part_pis := t._part_pis ++ [(0, a)] } := by
      unfold single_pi
      simp only [Ntk.index_to_node, e, Option.map_some']
    obtain ⟨t', e2, h2, h3, h4, h5⟩ :=
      ih { t with _part_scope := sc, _part_pis := t._part_pis ++ [(0, a)] } (by rw [hl]; exact h)
    refine ⟨t', ?_, h2, ?_, h4, fun x hx => h5 x (hg x hx)⟩
    · simp only [List.foldlM_cons, Option.bind_eq_bind, e1, Option.some_bind, e2]
    · rw [h3]; simp

/-- The loop over the primary outputs in the single-partition branch. -/
theorem single_po_loop (ntk : Ntk) (l : List signal) (t : part_tables)
    (h : 0 < t._part_scope.length) :
    ∃ t', l.foldlM (single_po ntk) t = some t' ∧ 0 < t'._part_scope.length ∧
      t'._part_pis = t._part_pis ∧
      t'._part_pos = t._part_pos ++ l.map (fun po => ((0 : Int), po.index)) ∧
      ∀ x, x ∈ t._part_scope.getD 0 [] → x ∈ t'._part_scope.getD 0 [] := by
  induction l generalizing t with
  | nil => exact ⟨t, rfl, h, rfl, by simp, fun x hx => hx⟩
  | cons a l ih =>
    obtain ⟨sc, e, hl, _, hg⟩ := scope_insert_zero t._part_scope a.index h
    have e1 : single_po ntk t a = some
        { t with _part_scope := sc, _part_pos := t._part_pos ++ [(0, a.index)] } := by
      unfold single_po
      simp only [Ntk.index_to_node, e, Option.map_some']
    obtain ⟨t', e2, h2, h3, h4, h5⟩ :=
      ih { t with _part_scope := sc, _part_pos := t._part_pos ++ [(0, a.index)] }
        (by rw [hl]; exact h)
    refine ⟨t', ?_, h2, h3, ?_, fun x hx => h5 x (hg x hx)⟩
    · simp only [List.foldlM_cons, Option.bind_eq_bind, e1, Option.some_bind, e2]
    · rw [h4]; simp

/-- The loop over the gates in the single-partition branch. -/
theorem single_gate_loop (l : List Nat) (t : part_tables) (h : 0 < t._part_scope.length) :
    ∃ t', l.foldlM single_gate t = some t' ∧ 0 < t'._part_scope.length ∧
      t'._part_pis = t._part_pis ∧ t'._part_pos = t._part_pos ∧
      (∀ x, x ∈ t._part_scope.getD 0 [] → x ∈ t'._part_scope.getD 0 []) ∧
      ∀ g ∈ l, g ∈ t'._part_scope.getD 0 [] := by
  induction l generalizing t with
  | nil => exact ⟨t, rfl, h, rfl, rfl, fun x hx => hx, fun g hg => by simp at hg⟩
  | cons a l ih =>
    obtain ⟨sc, e, hl, ha, hg⟩ := scope_insert_zero t._part_scope a h
    have e1 : single_gate t a = some { t with _part_scope := sc } := by
      unfold single_gate
      simp only [e, Option.map_some']
    obtain ⟨t', e2, h2, h3, h4, h5, h6⟩ := ih { t with _part_scope := sc } (by rw [hl]; exact h)
    refine ⟨t', ?_, h2, h3, h4, fun x hx => h5 x (hg x hx), fun g hgm => ?_⟩
    · simp only [List.foldlM_cons, Option.bind_eq_bind, e1, Option.some_bind, e2]
    · rcases List.mem_cons.1 hgm with rfl | hgm
      · exact h5 _ ha
      · exact h6 g hgm

/-- C29 (single-partition degenerate case).  A ledger constructed with target
partition count 1 is built whatever the partitioner would answer; in it
`get_part_inputs(0)` is the set of the primary inputs of the network,
`get_part_outputs(0)` is the set of the nodes that drive a primary output, and
every gate of the network is in the scope of partition 0. -/
theorem single_partition (ntk : Ntk) (partition : List Int) :
    ∃ pm, partition_manager.from_kahypar ntk partition 1 = some pm ∧
      (∀ other, partition_manager.from_kahypar ntk other 1 = some pm) ∧
      (∀ n, n ∈ pm.get_part_inputs 0 ↔ n ∈ ntk.foreach_pi) ∧
      (∀ n, n ∈ pm.get_part_outputs 0 ↔ ∃ po ∈ ntk.foreach_po, po.index = n) ∧
      ∃ sc, pm.get_part_context 0 = some sc ∧ ∀ g ∈ ntk.foreach_gate, g ∈ sc := by
  have h0 : 0 < (part_tables.empty 1)._part_scope.length := by simp [part_tables.empty]
  obtain ⟨t1, e1, l1, p1, o1, _⟩ := single_pi_loop ntk ntk.foreach_pi _ h0
  obtain ⟨t2, e2, l2, p2, o2, _⟩ := single_po_loop ntk ntk.foreach_po t1 l1
  obtain ⟨t3, e3, l3, p3, o3, _, g3⟩ := single_gate_loop ntk.foreach_gate t2 l2
  have hrun : ∀ other, partition_manager.from_kahypar ntk other 1 =
      some ((part_ids 1).foldl finish_single (partition_manager.init 1 t3)) := by
    intro other
    unfold partition_manager.from_kahypar
    rw [if_pos rfl]
    unfold partition_manager.single
    simp only [e1, Option.some_bind, e2, e3, Option.map_some']
  have hids : part_ids 1 = [0] := by decide
  refine ⟨_, hrun partition, hrun, fun n => ?_, fun n => ?_, ?_⟩
  · rw [hids]
    unfold partition_manager.get_part_inputs
    simp only [List.foldl_cons, List.foldl_nil, finish_single, partition_manager.init, upd, if_true, mem_create_part_set, p3, p2, p1, part_tables.empty,
      List.nil_append, List.mem_map, Prod.mk.injEq, true_and, exists_eq_right]
  · rw [hids]
    unfold partition_manager.get_part_outputs
    simp only [List.foldl_cons, List.foldl_nil, finish_single, partition_manager.init, upd, if_true, mem_create_part_set, o3, o2, o1, part_tables.empty,
      List.nil_append, List.mem_map, Prod.mk.injEq, true_and]
  · rw [hids]
    unfold partition_manager.get_part_context
    simp only [List.foldl_cons, List.foldl_nil, finish_single, partition_manager.init, le_refl,
      if_true, Int.toNat_zero]
    rcases hs : t3._part_scope with _ | ⟨s, rest⟩
    · rw [hs] at l3; simp at l3
    · refine ⟨s, by simp, fun g hg => ?_⟩
      have := g3 g hg
      rw [hs] at this
      simpa using this

theorem bfs_visit_sound (ntk : Ntk) (PI : List Nat) (out : Nat) (st : bfs_state) (curr : Nat)
    (rest : List Nat) (hq : st.net_queue = curr :: rest) (hinv : bfs_inv ntk PI out st)
    (hs : bfs_sound ntk PI out st) :
    bfs_sound ntk PI out (bfs_visit ntk PI { st with net_queue := rest } curr) := by
  have hcv : st.visited curr = true := hinv.queue_visited curr (by rw [hq]; simp)
  unfold bfs_visit
  by_cases hc : curr ∈ PI
  · rw [if_neg (not_not.2 hc)]
    refine ⟨hs.1, fun x hx => ?_⟩
    rcases (mem_set_insert _ _ _).1 hx with rfl | hx
    · exact hcv
    · exact hs.2 x hx
  · rw [if_pos hc]
    obtain ⟨h1, h2, _, h4, _, _⟩ :=
      bfs_children_spec (ntk.children curr) { st with net_queue := rest }
    refine ⟨fun x hx => ?_, fun x hx => ?_⟩
    · rcases h4 x hx with h | ⟨c, hcm, rfl⟩
      · exact hs.1 x h
      · exact bfs_reach.step curr c (hs.1 curr hcv) hc hcm
    · rw [h1] at hx
      exact h2 x (hs.2 x hx)

theorem bfs_loop_sound (ntk : Ntk) (PI : List Nat) (out : Nat) :
    ∀ (fuel : Nat) (st st' : bfs_state), bfs_inv ntk PI out st → bfs_sound ntk PI out st →
      bfs_loop ntk PI fuel st = some st' → bfs_sound ntk PI out st' := by
  intro fuel
  induction fuel with
  | zero =>
    intro st st' _ hs h
    unfold bfs_loop at h
    cases hq : st.net_queue with
    | nil => rw [hq] at h; simp only [Option.some.injEq] at h; subst h; exact hs
    | cons a l => rw [hq] at h; simp at h
  | succ fuel ih =>
    intro st st' hinv hs h
    unfold bfs_loop at h
    cases hq : st.net_queue with
    | nil => rw [hq] at h; simp only [Option.some.injEq] at h; subst h; exact hs
    | cons curr rest =>
      rw [hq] at h
      exact ih _ _ (bfs_visit_inv ntk PI out st curr rest hq hinv)
        (bfs_visit_sound ntk PI out st curr rest hq hinv hs) h

/-- C30 (logic cone boundary).  On a network whose stored fan-ins are nodes of
the network, the breadth-first traversal from a node `o` for partition `p`
returns, and the cone inputs it records for `o` are exactly the inputs of `p` that
are reached from `o` along fan-in edges by a path on which no node before them is
an input of `p`; the fan-ins of an input of `p` are not followed. -/
theorem logic_cone_boundary (pm : partition_manager) (ntk : Ntk) (o : Nat) (p : Int)
    (fuel : Nat) (hwf : ∀ n, ∀ c ∈ ntk.children n, c.index < ntk.size)
    (ho : o < ntk.size) (hfuel : ntk.size ≤ fuel) :
    ∃ pm1, pm.BFS_traversal ntk o p fuel = some pm1 ∧
      ∀ n, n ∈ pm1.logic_cone_inputs o ↔
        n ∈ pm.get_part_inputs p ∧ bfs_reach ntk (pm.get_part_inputs p) o n := by
  obtain ⟨pm1, I, hb, hI, _, _, _, _, _, _, hsub, V, hV0, hVin, hVcl⟩ :=
    BFS_traversal_spec pm ntk o p fuel hwf ho hfuel
  subst hI
  refine ⟨pm1, hb, fun n => ?_⟩
  unfold partition_manager.get_part_inputs
  constructor
  · intro hn
    refine ⟨hsub n hn, ?_⟩
    have hinit : bfs_inv ntk (pm.partitionInputs p) o
        { net_queue := [o], visited := upd (fun _ => false) o true, inputs := [], size := 0 } := by
      refine ⟨?_, by simp [upd], ?_, by simp, List.Pairwise.nil⟩
      · intro x hx
        simp only [List.mem_singleton] at hx
        subst hx; simp [upd]
      · intro x hx hnq
        simp only [upd] at hx
        split_ifs at hx with e
        subst e; simp at hnq
    have hsinit : bfs_sound ntk (pm.partitionInputs p) o
        { net_queue := [o], visited := upd (fun _ => false) o true, inputs := [], size := 0 } := by
      refine ⟨fun x hx => ?_, fun x hx => by simp at hx⟩
      simp only [upd] at hx
      split_ifs at hx with e
      subst e; exact bfs_reach.root
    unfold partition_manager.BFS_traversal at hb
    simp only [Option.map_eq_some'] at hb
    obtain ⟨st, hst, rfl⟩ := hb
    have hs := bfs_loop_sound ntk _ o fuel _ st hinit hsinit hst
    have hn' : n ∈ st.inputs := by simpa [upd] using hn
    exact hs.1 n (hs.2 n hn')
  · rintro ⟨hn, hr⟩
    have hV : ∀ x, bfs_reach ntk (pm.partitionInputs p) o x → V x = true := by
      intro x hx
      induction hx with
      | root => exact hV0
      | step c f _ hc hf ih => exact hVcl c ih hc f hf
    exact hVin n (hV n hr) hn

/-- Instance of C30 on the example network `ntk_ex4` with all nodes in
partition 0, for the gate 3. -/
theorem logic_cone_boundary_witness :
    ∃ pm pm1, partition_manager.from_map ntk_ex4 (fun _ => some 0) 1 = some pm ∧
      pm.BFS_traversal ntk_ex4 3 0 4 = some pm1 ∧
      ∀ n, n ∈ pm1.logic_cone_inputs 3 ↔
        n ∈ pm.get_part_inputs 0 ∧ bfs_reach ntk_ex4 (pm.get_part_inputs 0) 3 n := by
  obtain ⟨pm, _, hpm, _⟩ := ntk_ex4_tables
  obtain ⟨pm1, h1, h2⟩ := logic_cone_boundary pm ntk_ex4 3 0 4 (by
    intro n c hc
    simp only [ntk_ex4] at hc
    split_ifs at hc
    · simp only [List.mem_cons, List.mem_singleton, List.not_mem_nil, or_false] at hc
      rcases hc with rfl | rfl <;> simp [ntk_ex4]
    · simp at hc) (by decide) (by decide)
  exact ⟨pm, pm1, hpm, h1, h2⟩

theorem ex3_sync_eq {α : Type} (opt : Ntk) (topo : List Nat)
    (f : partition_manager → partition_view → partition_manager × Ntk → α) (a : α)
    (h : ex3_sync opt topo f = some a) (pm : partition_manager) (v : partition_view)
    (r : partition_manager × Ntk)
    (h1 : partition_manager.from_map ntk_ex3 part_ex3 2 = some pm)
    (h2 : partition_view.construct ntk_ex3 (pm.get_part_inputs 0) (pm.get_part_outputs 0) 7
      = some v)
    (h3 : pm.synchronize_part clone_and v opt topo ntk_ex3 = some r) :
    f pm v r = a := by
  unfold ex3_sync at h
  rw [h1, Option.some_bind, h2, Option.some_bind, h3, Option.map_some'] at h
  exact Option.some.inj h

theorem ex3_sync_some {α : Type} (opt : Ntk) (topo : List Nat)
    (f : partition_manager → partition_view → partition_manager × Ntk → α) (a : α)
    (h : ex3_sync opt topo f = some a) :
    ∃ pm v r, partition_manager.from_map ntk_ex3 part_ex3 2 = some pm ∧
      partition_view.construct ntk_ex3 (pm.get_part_inputs 0) (pm.get_part_outputs 0) 7
        = some v ∧
      pm.synchronize_part clone_and v opt topo ntk_ex3 = some r ∧ f pm v r = a := by
  unfold ex3_sync at h
  simp only [Option.bind_eq_some, Option.map_eq_some'] at h
  obtain ⟨pm, h1, v, h2, r, h3, h4⟩ := h
  exact ⟨pm, v, r, h1, h2, h3, h4⟩

theorem opt_mapM_total {α β : Type} (f : α → Option β) (l : List α)
    (h : ∀ a ∈ l, ∃ b, f a = some b) : ∃ bs, opt_mapM f l = some bs := by
  induction l with
  | nil => exact ⟨[], rfl⟩
  | cons a l ih =>
    obtain ⟨b, hb⟩ := h a (List.mem_cons_self _ _)
    obtain ⟨bs, hbs⟩ := ih (fun x hx => h x (List.mem_cons_of_mem _ hx))
    exact ⟨b :: bs, by simp only [opt_mapM, hb, Option.some_bind, hbs, Option.map_some']⟩

theorem foldlM_succeeds {α β : Type} (f : β → α → Option β) (l : List α)
    (h : ∀ a ∈ l, ∀ b, ∃ b', f b a = some b') (b : β) : ∃ b', l.foldlM f b = some b' := by
  induction l generalizing b with
  | nil => exact ⟨b, rfl⟩
  | cons a l ih =>
    obtain ⟨b1, h1⟩ := h a (List.mem_cons_self _ _) b
    obtain ⟨b2, h2⟩ := ih (fun x hx => h x (List.mem_cons_of_mem _ hx)) b1
    exact ⟨b2, by simp only [List.foldlM_cons, Option.bind_eq_bind, h1, Option.some_bind, h2]⟩

/-- C21 as stated fails.  The view of partition 0 of `ntk_ex3` has the three
inputs 1, 2, 3; the optimized network `opt_ex8` has two.  `synchronize_part`
returns: the gate of `opt_ex8` has been cloned as the new node 7 of the parent
graph and the substitution of root 6 by node 7 has been recorded. -/
theorem sync_input_count_counterexample :
    ∃ pm v pm1 ntk1, partition_manager.from_map ntk_ex3 part_ex3 2 = some pm ∧
      partition_view.construct ntk_ex3 (pm.get_part_inputs 0) (pm.get_part_outputs 0) 7
        = some v ∧
      v.num_pis = 3 ∧ opt_ex8.num_pis = 2 ∧ opt_ex8.foreach_pi.length = 2 ∧
      pm.synchronize_part clone_and v opt_ex8 [0, 1, 2, 3] ntk_ex3 = some (pm1, ntk1) ∧
      ntk_ex3.size = 7 ∧ ntk1.size = 8 ∧
      pm1.output_substitutions = [(6, ⟨7, false⟩)] := by
  have h : ex3_sync opt_ex8 [0, 1, 2, 3] (fun _ v r =>
      (v.num_pis, r.2.size, r.1.output_substitutions)) = some (3, 8, [(6, ⟨7, false⟩)]) := by
    decide
  obtain ⟨pm, v, r, h1, h2, h3, h4⟩ := ex3_sync_some _ _ _ _ h
  simp only [Prod.mk.injEq] at h4
  exact ⟨pm, v, r.1, r.2, h1, h2, h4.1, rfl, rfl, h3, rfl, h4.2.1, h4.2.2⟩

theorem map_find_some {β : Type} (m : List (Nat × β)) (n : Nat) :
    (∃ s, map_find m n = some s) ↔ ∃ e ∈ m, e.1 = n := by
  unfold map_find
  constructor
  · rintro ⟨s, hs⟩
    simp only [Option.map_eq_some'] at hs
    obtain ⟨e, he, _⟩ := hs
    exact ⟨e, List.mem_of_find?_eq_some he, by simpa using List.find?_some he⟩
  · rintro ⟨e, he, hn⟩
    cases hf : m.find? (fun e => e.1 == n) with
    | none =>
      rw [List.find?_eq_none] at hf
      exact absurd (by simpa using hn) (hf e he)
    | some x => exact ⟨x.2, rfl⟩

theorem map_assign_keys {β : Type} (m : List (Nat × β)) (k : Nat) (v : β) (n : Nat) :
    (∃ e ∈ map_assign m k v, e.1 = n) ↔ n = k ∨ ∃ e ∈ m, e.1 = n := by
  unfold map_assign
  split_ifs with h
  · simp only [List.any_eq_true, beq_iff_eq] at h
    obtain ⟨x, hx, hxk⟩ := h
    simp only [List.mem_map]
    constructor
    · rintro ⟨e, ⟨a, ha, rfl⟩, hn⟩
      split_ifs at hn with hak
      · exact Or.inl hn.symm
      · exact Or.inr ⟨a, ha, hn⟩
    · rintro (rfl | ⟨e, he, hn⟩)
      · exact ⟨(n, v), ⟨x, hx, by simp [hxk]⟩, rfl⟩
      · by_cases hek : e.1 = k
        · exact ⟨(k, v), ⟨e, he, by simp [hek]⟩, by rw [← hn, hek]⟩
        · exact ⟨e, ⟨e, he, by simp [hek]⟩, hn⟩
  · simp only [List.mem_append, List.mem_singleton]
    constructor
    · rintro ⟨e, he | rfl, hn⟩
      · exact Or.inr ⟨e, he, hn⟩
      · exact Or.inl hn.symm
    · rintro (rfl | ⟨e, he, hn⟩)
      · exact ⟨(n, v), Or.inr rfl, rfl⟩
      · exact ⟨e, Or.inl he, hn⟩

/-- The keys of the substitution map after the output loop of
`synchronize_part` over the indices `l`. -/
theorem sync_output_keys (opt : Ntk) (roots : List signal) (otn : Nat → signal) (l : List Nat)
    (subs subs' : List (Nat × signal)) (h : l.foldlM (sync_output opt roots otn) subs = some subs')
    (n : Nat) :
    (∃ e ∈ subs', e.1 = n) ↔ (∃ e ∈ subs, e.1 = n) ∨
      ∃ i o r, i ∈ l ∧ opt.outputs.get? i = some o ∧ roots.get? i = some r ∧
        get_node r = n ∧ opt_gate opt o := by
  induction l generalizing subs with
  | nil =>
    simp only [List.foldlM_nil, Option.pure_def, Option.some.injEq] at h
    subst h
    simp
  | cons a l ih =>
    simp only [List.foldlM_cons, Option.bind_eq_bind, Option.bind_eq_some] at h
    obtain ⟨s1, h1, h2⟩ := h
    rw [ih s1 h2]
    unfold sync_output at h1
    simp only [Option.bind_eq_some, Option.map_eq_some'] at h1
    obtain ⟨o, ho, r, hr, hs1⟩ := h1
    by_cases hg : opt_gate opt o
    · have hcond : (!opt.is_constant (get_node o) && !opt.is_pi (get_node o) &&
          !opt.is_ro (get_node o)) = true := by
        obtain ⟨g1, g2, g3⟩ := hg
        simp [g1, g2, g3]
      rw [if_pos hcond] at hs1
      subst hs1
      rw [map_assign_keys]
      constructor
      · rintro ((rfl | h) | ⟨i, o', r', hi, h3⟩)
        · exact Or.inr ⟨a, o, r, List.mem_cons_self _ _, ho, hr, rfl, hg⟩
        · exact Or.inl h
        · exact Or.inr ⟨i, o', r', List.mem_cons_of_mem _ hi, h3⟩
      · rintro (h | ⟨i, o', r', hi, h3, h4, h5, h6⟩)
        · exact Or.inl (Or.inr h)
        · rcases List.mem_cons.1 hi with rfl | hi
          · rw [hr] at h4
            simp only [Option.some.injEq] at h4
            subst h4
            exact Or.inl (Or.inl h5.symm)
          · exact Or.inr ⟨i, o', r', hi, h3, h4, h5, h6⟩
    · have hcond : ¬ ((!opt.is_constant (get_node o) && !opt.is_pi (get_node o) &&
          !opt.is_ro (get_node o)) = true) := by
        intro hc
        apply hg
        simp only [Bool.and_eq_true, Bool.not_eq_true'] at hc
        exact ⟨hc.1.1, hc.1.2, hc.2⟩
      rw [if_neg hcond] at hs1
      subst hs1
      constructor
      · rintro (h | ⟨i, o', r', hi, h3⟩)
        · exact Or.inl h
        · exact Or.inr ⟨i, o', r', List.mem_cons_of_mem _ hi, h3⟩
      · rintro (h | ⟨i, o', r', hi, h3, h4, h5, h6⟩)
        · exact Or.inl h
        · rcases List.mem_cons.1 hi with rfl | hi
          · rw [ho] at h3
            simp only [Option.some.injEq] at h3
            subst h3
            exact absurd h6 hg
          · exact Or.inr ⟨i, o', r', hi, h3, h4, h5, h6⟩

/-- The log written by the recording primitive during `connect_outputs`. -/
theorem connect_outputs_log (l : List (Nat × signal)) (ntk : Ntk) :
    (l.foldl (fun g e => substitute_log g e.1 e.2) ntk).foreach_gate =
      ntk.foreach_gate ++ l.map Prod.fst ∧
    (l.foldl (fun g e => substitute_log g e.1 e.2) ntk).foreach_po =
      ntk.foreach_po ++ l.map Prod.snd := by
  induction l generalizing ntk with
  | nil => simp
  | cons a l ih =>
    obtain ⟨h1, h2⟩ := ih (substitute_log ntk a.1 a.2)
    rw [List.foldl_cons, h1, h2]
    simp [substitute_log]

/-- C24 as stated fails.  After the synchronization of `ntk_ex3` with
`opt_ex3` the substitution map holds one entry, for root 6.  A call of
`connect_outputs` applies it; a second call, made on the resulting graph with the
recording primitive, invokes the primitive for root 6 again: the map has not been
emptied. -/
theorem connect_outputs_drain_counterexample :
    ∃ pm v pm1 ntk1, partition_manager.from_map ntk_ex3 part_ex3 2 = some pm ∧
      partition_view.construct ntk_ex3 (pm.get_part_inputs 0) (pm.get_part_outputs 0) 7
        = some v ∧
      pm.synchronize_part clone_and v opt_ex3 [0, 1, 2, 3, 4, 5] ntk_ex3 = some (pm1, ntk1) ∧
      pm1.output_substitutions = [(6, ⟨4, false⟩)] ∧
      (pm1.connect_outputs substitute_log
        (pm1.connect_outputs substitute_refs ntk1)).foreach_gate =
        (pm1.connect_outputs substitute_refs ntk1).foreach_gate ++ [6] := by
  have h : ex3_sync opt_ex3 [0, 1, 2, 3, 4, 5] (fun _ _ r => r.1.output_substitutions) =
      some [(6, ⟨4, false⟩)] := by decide
  obtain ⟨pm, v, r, h1, h2, h3, h4⟩ := ex3_sync_some _ _ _ _ h
  refine ⟨pm, v, r.1, r.2, h1, h2, h3, h4, ?_⟩
  unfold partition_manager.connect_outputs
  rw [(connect_outputs_log _ _).1, h4]
  rfl

/-- C24, amended (`connect_outputs` and the substitution map).
`connect_outputs` leaves the substitution map of the ledger as it is: a second
call invokes the substitute primitive again, once for every entry, as the first
call did. -/
theorem connect_outputs_repeat (pm : partition_manager) (ntk : Ntk) :
    (pm.connect_outputs substitute_log (pm.connect_outputs substitute_log ntk)).foreach_gate =
      ntk.foreach_gate ++ pm.output_substitutions.map Prod.fst ++
        pm.output_substitutions.map Prod.fst ∧
    (pm.connect_outputs substitute_log (pm.connect_outputs substitute_log ntk)).foreach_po =
      ntk.foreach_po ++ pm.output_substitutions.map Prod.snd ++
        pm.output_substitutions.map Prod.snd := by
  unfold partition_manager.connect_outputs
  rw [(connect_outputs_log _ _).1, (connect_outputs_log _ _).2, (connect_outputs_log _ _).1,
    (connect_outputs_log _ _).2]
  exact ⟨rfl, rfl⟩

/-- C25 (`connect_outputs` applies every queued substitution exactly once).
For a substitution map with the entries `(N_1, S_1), ..., (N_m, S_m)`,
`connect_outputs` is the composition of the `m` calls of the substitute primitive
on these pairs, whatever the primitive; run with the recording primitive, the log
of the nodes passed is `N_1, ..., N_m` and the log of the signals passed is
`S_1, ..., S_m`, so there are exactly `m` calls, one with each pair. -/
theorem connect_outputs_calls (pm : partition_manager) (ntk : Ntk) :
    (∀ substitute_node : Ntk → Nat → signal → Ntk,
      pm.connect_outputs substitute_node ntk =
        (pm.output_substitutions.map (fun e => fun g => substitute_node g e.1 e.2)).foldl
          (fun g call => call g) ntk) ∧
    (pm.connect_outputs substitute_log ntk).foreach_gate =
      ntk.foreach_gate ++ pm.output_substitutions.map Prod.fst ∧
    (pm.connect_outputs substitute_log ntk).foreach_po =
      ntk.foreach_po ++ pm.output_substitutions.map Prod.snd ∧
    ((pm.connect_outputs substitute_log ntk).foreach_gate.length =
      ntk.foreach_gate.length + pm.output_substitutions.length) := by
  refine ⟨fun f => ?_, ?_, ?_, ?_⟩
  · unfold partition_manager.connect_outputs
    rw [List.foldl_map]
  · exact (connect_outputs_log _ _).1
  · exact (connect_outputs_log _ _).2
  · unfold partition_manager.connect_outputs
    rw [(connect_outputs_log _ _).1]
    simp

theorem bfs_child_count (out : Nat) (st : bfs_state) (child : signal) (h : bfs_count out st) :
    bfs_count out (bfs_child st child) := by
  obtain ⟨h0, l, hl, hmem, hsz⟩ := h
  unfold bfs_child
  split_ifs with hv
  · simp only [Bool.not_eq_true'] at hv
    have hne : child.index ≠ out := by
      intro e; rw [e, h0] at hv; exact absurd hv (by decide)
    refine ⟨by simp [upd, h0], child.index :: l, ?_, ?_, by simp [hsz]⟩
    · refine List.nodup_cons.2 ⟨fun hin => ?_, hl⟩
      rw [((hmem _).1 hin).1] at hv
      exact absurd hv (by decide)
    · intro n
      simp only [List.mem_cons, hmem, upd]
      by_cases e : n = child.index
      · subst e; simp [hne]
      · simp [e]
  · exact ⟨h0, l, hl, hmem, hsz⟩

theorem bfs_visit_count (ntk : Ntk) (PI : List Nat) (out : Nat) (st : bfs_state) (curr : Nat)
    (h : bfs_count out st) : bfs_count out (bfs_visit ntk PI st curr) := by
  unfold bfs_visit
  split_ifs
  · exact h
  · have gen : ∀ (cs : List signal) (s : bfs_state), bfs_count out s →
        bfs_count out (cs.foldl bfs_child s) := by
      intro cs
      induction cs with
      | nil => intro s hs; exact hs
      | cons c cs ih => intro s hs; exact ih _ (bfs_child_count out s c hs)
    exact gen _ _ h

theorem bfs_loop_count (ntk : Ntk) (PI : List Nat) (out : Nat) :
    ∀ (fuel : Nat) (st st' : bfs_state), bfs_count out st →
      bfs_loop ntk PI fuel st = some st' → bfs_count out st' := by
  intro fuel
  induction fuel with
  | zero =>
    intro st st' h hrun
    unfold bfs_loop at hrun
    cases hq : st.net_queue with
    | nil => simp only [hq, Option.some.injEq] at hrun; subst hrun; exact h
    | cons a rest => simp [hq] at hrun
  | succ fuel ih =>
    intro st st' h hrun
    unfold bfs_loop at hrun
    cases hq : st.net_queue with
    | nil => simp only [hq, Option.some.injEq] at hrun; subst hrun; exact h
    | cons a rest =>
      simp only [hq] at hrun
      exact ih _ _ (bfs_visit_count ntk PI out { st with net_queue := rest } a h) hrun

/-- The traversal from `o`: it returns, the nodes it has visited are those
reached from `o`, and its counter is the number of visited nodes other than
`o`. -/
theorem BFS_traversal_count (pm : partition_manager) (ntk : Ntk) (o : Nat) (p : Int)
    (fuel : Nat) (hwf : ∀ n, ∀ c ∈ ntk.children n, c.index < ntk.size)
    (ho : o < ntk.size) (hfuel : ntk.size ≤ fuel) :
    ∃ (pm1 : partition_manager) (l : List Nat), pm.BFS_traversal ntk o p fuel = some pm1 ∧ l.Nodup ∧
      (∀ n, n ∈ l ↔ bfs_reach ntk (pm.partitionInputs p) o n ∧ n ≠ o) ∧
      pm1.cone_size o = l.length := by
  have hinit : bfs_inv ntk (pm.partitionInputs p) o
      { net_queue := [o], visited := upd (fun _ => false) o true, inputs := [], size := 0 } := by
    refine ⟨?_, by simp [upd], ?_, by simp, List.Pairwise.nil⟩
    · intro x hx
      simp only [List.mem_singleton] at hx
      subst hx; simp [upd]
    · intro x hx hnq
      simp only [upd] at hx
      split_ifs at hx with e
      subst e; simp at hnq
  have hsinit : bfs_sound ntk (pm.partitionInputs p) o
      { net_queue := [o], visited := upd (fun _ => false) o true, inputs := [], size := 0 } := by
    refine ⟨fun x hx => ?_, fun x hx => by simp at hx⟩
    simp only [upd] at hx
    split_ifs at hx with e
    subst e; exact bfs_reach.root
  have hcinit : bfs_count o
      { net_queue := [o], visited := upd (fun _ => false) o true, inputs := [], size := 0 } := by
    refine ⟨by simp [upd], [], List.nodup_nil, fun n => ?_, rfl⟩
    simp only [List.not_mem_nil, upd, false_iff, not_and, not_not]
    intro hx
    split_ifs at hx with e
    exact e
  have hmeasure : ([o] : List Nat).length + bfs_unvisited ntk
      { net_queue := [o], visited := upd (fun _ => false) o true, inputs := [], size := 0 }
      ≤ fuel := by
    have h1 : bfs_unvisited ntk
        { net_queue := [o], visited := upd (fun _ => false) o true, inputs := [], size := 0 }
        + 1 ≤ ntk.size := by
      unfold bfs_unvisited
      have hlt : (List.range ntk.size).countP (fun x => !(upd (fun _ => false) o true) x)
          < (List.range ntk.size).length := by
        rw [List.countP_eq_length_filter]
        apply List.length_filter_lt_length_iff_exists.2
        exact ⟨o, List.mem_range.2 ho, by simp [upd]⟩
      rw [List.length_range] at hlt
      exact hlt
    simp only [List.length_singleton]
    omega
  obtain ⟨st', hrun, hinv, hq⟩ := bfs_loop_spec ntk (pm.partitionInputs p) o hwf fuel _ hinit
    hmeasure
  have hs := bfs_loop_sound ntk _ o fuel _ st' hinit hsinit hrun
  obtain ⟨_, l, hl, hmem, hsz⟩ := bfs_loop_count ntk _ o fuel _ st' hcinit hrun
  have hcomplete : ∀ x, bfs_reach ntk (pm.partitionInputs p) o x → st'.visited x = true := by
    intro x hx
    induction hx with
    | root => exact hinv.out_visited
    | step c f _ hc hf ih =>
      rcases hinv.closed c ih (by rw [hq]; simp) with h | h
      · exact absurd h.1 hc
      · exact h.2 f hf
  have hres : pm.BFS_traversal ntk o p fuel = some
      { pm with
        cone_size := upd pm.cone_size o st'.size
        logic_cone_inputs := upd pm.logic_cone_inputs o st'.inputs } := by
    unfold partition_manager.BFS_traversal
    rw [hrun]
    rfl
  refine ⟨_, l, hres, hl, fun n => ?_, ?_⟩
  · rw [hmem]
    exact ⟨fun h => ⟨hs.1 n h.1, h.2⟩, fun h => ⟨hcomplete n h.1, h.2⟩⟩
  · simp [upd, hsz]

/-- The nodes reached from gate 3 of `ntk_ex4` when the traversal stops at the
inputs 1 and 2. -/
theorem ntk_ex4_reach (PI : List Nat) (h1 : 1 ∈ PI) (h2 : 2 ∈ PI) (h3 : 3 ∉ PI) (n : Nat) :
    bfs_reach ntk_ex4 PI 3 n ↔ n = 3 ∨ n = 1 ∨ n = 2 := by
  constructor
  · intro h
    induction h with
    | root => exact Or.inl rfl
    | step c f _ hc hf ih =>
      rcases ih with rfl | rfl | rfl
      · have : f = ⟨1, false⟩ ∨ f = ⟨2, false⟩ := by simpa [ntk_ex4] using hf
        rcases this with rfl | rfl
        · exact Or.inr (Or.inl rfl)
        · exact Or.inr (Or.inr rfl)
      · exact absurd h1 hc
      · exact absurd h2 hc
  · have r3 : bfs_reach ntk_ex4 PI 3 3 := bfs_reach.root
    rintro (rfl | rfl | rfl)
    · exact r3
    · exact bfs_reach.step 3 ⟨1, false⟩ r3 h3 (by decide)
    · exact bfs_reach.step 3 ⟨2, false⟩ r3 h3 (by decide)

/-- C31 as stated fails.  In `ntk_ex4` (inputs 1 and 2, gate 3 = AND(1,2)) with
all nodes in partition 0, the traversal from output 3 records the cone size 2,
while the only node reached from 3 that is not an input of the partition is 3
itself: every duplicate-free list of the interior nodes reached has length 1. -/
theorem cone_size_counterexample :
    ∃ pm pm1, partition_manager.from_map ntk_ex4 (fun _ => some 0) 1 = some pm ∧
      3 ∈ pm.get_part_outputs 0 ∧
      pm.BFS_traversal ntk_ex4 3 0 4 = some pm1 ∧ pm1.cone_size 3 = 2 ∧
      ∀ l : List Nat, l.Nodup →
        (∀ n, n ∈ l ↔ bfs_reach ntk_ex4 (pm.get_part_inputs 0) 3 n ∧ n ∉ pm.get_part_inputs 0) →
        l.length = 1 ∧ pm1.cone_size 3 ≠ l.length := by
  obtain ⟨pm, _, hpm, _, hpis, hpos, _, _⟩ := ntk_ex4_tables
  obtain ⟨_, hI, hO, _, _⟩ := from_map_facts hpm
  have hrun : (partition_manager.from_map ntk_ex4 (fun _ => some 0) 1).bind (fun pm =>
      (pm.BFS_traversal ntk_ex4 3 0 4).map (fun pm1 => pm1.cone_size 3)) = some 2 := by decide
  simp only [Option.bind_eq_some, Option.map_eq_some'] at hrun
  obtain ⟨pm', hpm', pm1, hb, hsz⟩ := hrun
  rw [hpm] at hpm'
  obtain rfl := Option.some.inj hpm'
  have hin : ∀ n, n ∈ pm.get_part_inputs 0 ↔ n = 1 ∨ n = 2 := by
    intro n
    unfold partition_manager.get_part_inputs
    rw [hI, hpis]
    simp
  have hlen : ∀ l : List Nat, l.Nodup → (∀ n, n ∈ l ↔ n = 3) → l.length = 1 := by
    intro l hl hm
    match l, hl, hm with
    | [], _, hm => exact absurd ((hm 3).2 rfl) (by simp)
    | [a], _, _ => rfl
    | a :: b :: t, hl, hm =>
      have ha := (hm a).1 (by simp)
      have hb := (hm b).1 (by simp)
      rw [ha, hb] at hl
      simp at hl
  refine ⟨pm, pm1, hpm, ?_, hb, hsz, fun l hl hm => ?_⟩
  · exact (hO 0 3).2 ⟨by decide, by rw [hpos]; decide⟩
  · have h1 : l.length = 1 := by
      apply hlen l hl
      intro n
      rw [hm, ntk_ex4_reach _ ((hin 1).2 (Or.inl rfl)) ((hin 2).2 (Or.inr rfl))
        (fun h => by have := (hin 3).1 h; omega), hin]
      omega
    exact ⟨h1, by rw [hsz, h1]; decide⟩

/-- C31, amended (cone size).  For a node `o` of a network whose stored children
are nodes of the network, the breadth-first traversal from `o` in partition `p`
returns, and the cone size it records for `o` is the number of distinct nodes
other than `o` itself that are reached from `o` without continuing behind a node
of `inputs[p]`; the inputs of the partition that are reached are counted. -/
theorem cone_size_count (pm : partition_manager) (ntk : Ntk) (o : Nat) (p : Int)
    (fuel : Nat) (hwf : ∀ n, ∀ c ∈ ntk.children n, c.index < ntk.size)
    (ho : o < ntk.size) (hfuel : ntk.size ≤ fuel) :
    ∃ (pm1 : partition_manager) (l : List Nat), pm.BFS_traversal ntk o p fuel = some pm1 ∧ l.Nodup ∧
      (∀ n, n ∈ l ↔ bfs_reach ntk (pm.get_part_inputs p) o n ∧ n ≠ o) ∧
      pm1.cone_size o = l.length :=
  BFS_traversal_count pm ntk o p fuel hwf ho hfuel

/-- Instance of the amended C31 on `ntk_ex4` with all nodes in partition 0, for
the gate 3. -/
theorem cone_size_count_witness :
    ∃ (pm pm1 : partition_manager) (l : List Nat), partition_manager.from_map ntk_ex4 (fun _ => some 0) 1 = some pm ∧
      pm.BFS_traversal ntk_ex4 3 0 4 = some pm1 ∧ l.Nodup ∧
      (∀ n, n ∈ l ↔ bfs_reach ntk_ex4 (pm.get_part_inputs 0) 3 n ∧ n ≠ 3) ∧
      pm1.cone_size 3 = l.length := by
  obtain ⟨pm, _, hpm, _⟩ := ntk_ex4_tables
  obtain ⟨pm1, l, h1, h2, h3, h4⟩ := cone_size_count pm ntk_ex4 3 0 4 (by
    intro n c hc
    simp only [ntk_ex4] at hc
    split_ifs at hc
    · simp only [List.mem_cons, List.mem_singleton, List.not_mem_nil, or_false] at hc
      rcases hc with rfl | rfl <;> simp [ntk_ex4]
    · simp at hc) (by decide) (by decide)
  exact ⟨pm, pm1, l, hpm, h1, h2, h3, h4⟩

/-- The boundary sets of partition 0 of the example `ntk_ex5`: the inputs 1 and
2 are inputs of the partition and, feeding the gates 4 and 5 of the partitions 1
and 2, outputs of it as well. -/
theorem ex5_boundary :
    ∃ pm, partition_manager.from_map ntk_ex5 part_ex5 3 = some pm ∧
      pm.num_partitions = 3 ∧ pm.partitionInputs 0 = [1, 2] ∧
      pm.partitionOutputs 0 = [1, 2, 3] := by
  have h : ex5_run (fun pm => (pm.num_partitions, pm.partitionInputs 0, pm.partitionOutputs 0))
      = some (3, [1, 2], [1, 2, 3]) := by decide
  unfold ex5_run at h
  simp only [Option.map_eq_some', Prod.mk.injEq] at h
  obtain ⟨pm, hpm, h1, h2, h3⟩ := h
  exact ⟨pm, hpm, h1, h2, h3⟩

/-- The traversal from a node that is itself an input of the partition records
that node as the only cone input. -/
theorem bfs_loop_input (ntk : Ntk) (PI : List Nat) (o : Nat) (ho : o ∈ PI) (fuel : Nat) :
    bfs_loop ntk PI (fuel + 1)
      { net_queue := [o], visited := upd (fun _ => false) o true, inputs := [], size := 0 } =
    some { net_queue := [], visited := upd (fun _ => false) o true, inputs := [o], size := 0 } := by
  unfold bfs_loop
  simp only [bfs_visit, ho, not_true_eq_false, if_false, set_insert]
  unfold bfs_loop
  rfl

/-- Evaluation of the root by `tt_build` when the root is one of its own cone
inputs and drives no primary output: `get_output_index` is called on a node that
is not a primary output, whatever the recursion bound. -/
theorem tt_build_root_input (ntk : Ntk) (scope I : List Nat) (root : Nat) (hr : root ∈ I)
    (hpo : ntk.is_po root = false) (fuel : Nat) (m : Nat → dynamic_truth_table) :
    tt_build ntk scope I root fuel root m = none := by
  cases fuel with
  | zero => rfl
  | succ fuel =>
    rw [tt_build, if_pos (Or.inl hr)]
    simp [tt_build_boundary, hr, tt_flip_output, get_output, get_output_index, hpo]

/-- C32, evaluated at a failing input.  In `ntk_ex5` the primary input 1 is in
partition 0 and feeds gate 4 of partition 1, so it is an output of partition 0;
it is not a constant, it drives no primary output, and its cone has the single
input 1, at most 16.  The claim has a table recorded for it; `tt_build` instead
calls `get_output_index` on it, whose assertion `is_po` fails, so that neither
the step for this output nor `generate_truth_tables` as a whole returns, whatever
the recursion bound. -/
theorem tabulation_defect :
    ∃ pm pm1, partition_manager.from_map ntk_ex5 part_ex5 3 = some pm ∧
      1 ∈ pm.get_part_outputs 0 ∧ ntk_ex5.is_constant 1 = false ∧
      pm.BFS_traversal ntk_ex5 1 0 6 = some pm1 ∧ pm1.logic_cone_inputs 1 = [1] ∧
      (pm1.logic_cone_inputs 1).length ≤ 16 ∧
      ntk_ex5.is_po 1 = false ∧ get_output_index ntk_ex5 1 = none ∧
      (∀ fuel, partition_manager.gen_tt_output ntk_ex5 fuel pm 0 1 = none) ∧
      (∀ fuel, pm.generate_truth_tables ntk_ex5 fuel = none) := by
  obtain ⟨pm, hpm, hN, hI, hO⟩ := ex5_boundary
  have hin : 1 ∈ pm.partitionInputs 0 := by rw [hI]; decide
  have hbfs : ∀ fuel, pm.BFS_traversal ntk_ex5 1 0 (fuel + 1) = some
      { pm with
        cone_size := upd pm.cone_size 1 0
        logic_cone_inputs := upd pm.logic_cone_inputs 1 [1] } := by
    intro fuel
    unfold partition_manager.BFS_traversal
    rw [bfs_loop_input ntk_ex5 _ 1 hin fuel]
    rfl
  have hstep : ∀ fuel, partition_manager.gen_tt_output ntk_ex5 fuel pm 0 1 = none := by
    intro fuel
    cases fuel with
    | zero =>
      unfold partition_manager.gen_tt_output partition_manager.BFS_traversal bfs_loop
      rfl
    | succ fuel =>
      unfold partition_manager.gen_tt_output
      rw [hbfs fuel]
      have hc : ntk_ex5.is_constant 1 = false := by decide
      simp only [Option.some_bind, hc, upd, if_true, Bool.false_eq_true, if_false,
        List.length_singleton, Bool.not_false, Bool.and_true]
      rw [if_pos (by decide)]
      cases partition_manager.scope_at _ 0 with
      | none => rfl
      | some scope =>
        simp only [Option.some_bind]
        rw [tt_build_root_input ntk_ex5 scope [1] 1 (by decide) (by decide)]
        rfl
  refine ⟨pm, _, hpm, ?_, by decide, hbfs 5, by simp [upd], by simp [upd], by decide,
    by decide, hstep, fun fuel => ?_⟩
  · unfold partition_manager.get_part_outputs
    rw [hO]; decide
  · unfold partition_manager.generate_truth_tables
    rw [hN]
    have hids : part_ids 3 = [0, 1, 2] := by decide
    rw [hids, List.foldlM_cons, hO, List.foldlM_cons, hstep fuel]
    rfl

/-- The image computed for a truth table with `2 ^ k` bits, case by case. -/
theorem km_image_cases (k : Nat) (tt : dynamic_truth_table) (hlen : tt.bits.length = 2 ^ k) :
    ∃ onset, onset_indeces (kitty_to_binary tt) k = some onset ∧
      (∀ idx, idx ∈ onset ↔
        ∃ m, m < 2 ^ k ∧ tt.bits.getD m false = true ∧ idx = km_address k m) ∧
      km_image k (kitty_to_binary tt) = some
        (if k ≤ 16 ∧ k ≥ 2 then
          (if k < 16 then
            km_flatten (256 * 256) 256 256 256
              (km_pad (2 ^ km_rows k) (2 ^ km_columns k) (km_grid k onset))
          else km_flatten (2 ^ km_rows k * 2 ^ km_columns k) (2 ^ km_rows k) (2 ^ km_columns k)
            (2 ^ km_columns k) (km_grid k onset))
        else []) := by
  obtain ⟨onset, ho, hmem⟩ := onset_indeces_spec k tt hlen
  refine ⟨onset, ho, hmem, ?_⟩
  unfold km_image
  rw [ho]
  rfl

/-- Size and parity of the unpadded grid of a cone with `2 ≤ k ≤ 16` inputs. -/
theorem km_grid_size (k : Nat) (hk : 2 ≤ k) (hk16 : k ≤ 16) :
    (2 ^ km_rows k) % 2 = 0 ∧ (2 ^ km_columns k) % 2 = 0 ∧
    2 ^ km_rows k ≤ 256 ∧ 2 ^ km_columns k ≤ 256 := by
  obtain ⟨hr, hc, _⟩ := km_rows_columns k
  have h1 : ∀ n, 1 ≤ n → (2 ^ n) % 2 = 0 := by
    intro n hn
    obtain ⟨m, rfl⟩ : ∃ m, n = m + 1 := ⟨n - 1, by omega⟩
    rw [pow_succ]; omega
  have h2 : ∀ n, n ≤ 8 → 2 ^ n ≤ 256 := by
    intro n hn
    calc 2 ^ n ≤ 2 ^ 8 := Nat.pow_le_pow_right (by decide) hn
      _ = 256 := by norm_num
  exact ⟨h1 _ (by omega), h1 _ (by omega), h2 _ (by omega), h2 _ (by omega)⟩

/-- C33 as stated fails.  For the cone with the single input `k = 1` and the
truth table `10` the computation of `get_km_image` returns the empty default
image, not one of 65536 cells. -/
theorem km_image_size_counterexample :
    var1.bits.length = 2 ^ 1 ∧ km_image 1 (kitty_to_binary var1) = some [] := by
  decide

/-- C37 (centred three-valued padding).  For a cone with `2 ≤ k < 16` inputs and
a truth table of `2 ^ k` bits, with `R = 2 ^ ceil(k/2)` and `C = 2 ^ floor(k/2)`:
the image cell at flat position `x + 256 * y` is the cell of the unpadded grid at
column `y - (256 - C) / 2` and row `x - (256 - R) / 2` when that coordinate lies
inside the `C x R` grid, and the padding value 1 otherwise; a cell of the grid is
2 when it is the position of an onset assignment and 0 otherwise; so every cell
of the image is 0, 1 or 2. -/
theorem km_image_padding (k : Nat) (hk2 : 2 ≤ k) (hk16 : k < 16) (tt : dynamic_truth_table)
    (hlen : tt.bits.length = 2 ^ k) :
    ∃ onset img, onset_indeces (kitty_to_binary tt) k = some onset ∧
      km_image k (kitty_to_binary tt) = some img ∧
      (∀ x y, x < 256 → y < 256 →
        img[x + 256 * y]? = some
          (if (256 - 2 ^ (k / 2)) / 2 ≤ y ∧ y < (256 - 2 ^ (k / 2)) / 2 + 2 ^ (k / 2) ∧
              (256 - 2 ^ ((k + 1) / 2)) / 2 ≤ x ∧
              x < (256 - 2 ^ ((k + 1) / 2)) / 2 + 2 ^ ((k + 1) / 2)
            then km_grid k onset (y - (256 - 2 ^ (k / 2)) / 2) (x - (256 - 2 ^ ((k + 1) / 2)) / 2)
            else 1)) ∧
      (∀ c r, km_grid k onset c r =
        if ∃ m, m < 2 ^ k ∧ tt.bits.getD m false = true ∧ km_col k m = c ∧ km_row k m = r
        then 2 else 0) ∧
      (∀ v ∈ img, v = 0 ∨ v = 1 ∨ v = 2) := by
  obtain ⟨onset, ho, hmem, himg⟩ := km_image_cases k tt hlen
  obtain ⟨hr, hc, _⟩ := km_rows_columns k
  obtain ⟨p1, p2, p3, p4⟩ := km_grid_size k hk2 (by omega)
  rw [if_pos ⟨by omega, hk2⟩, if_pos hk16] at himg
  obtain ⟨hl, hcell⟩ := km_flatten_spec (256 * 256) 256 256 256 (le_refl _)
    (km_pad (2 ^ km_rows k) (2 ^ km_columns k) (km_grid k onset))
  have hgrid : ∀ c r, km_grid k onset c r =
      if ∃ m, m < 2 ^ k ∧ tt.bits.getD m false = true ∧ km_col k m = c ∧ km_row k m = r
      then 2 else 0 := by
    intro c r
    rw [km_grid_cell]
    apply if_congr _ rfl rfl
    constructor
    · rintro ⟨idx, hi, e1, e2⟩
      obtain ⟨m, hm, hb, rfl⟩ := (hmem idx).1 hi
      exact ⟨m, hm, hb, e1, e2⟩
    · rintro ⟨m, hm, hb, e1, e2⟩
      exact ⟨km_address k m, (hmem _).2 ⟨m, hm, hb, rfl⟩, e1, e2⟩
  have hpix : ∀ x y, x < 256 → y < 256 →
      (km_flatten (256 * 256) 256 256 256
        (km_pad (2 ^ km_rows k) (2 ^ km_columns k) (km_grid k onset)))[x + 256 * y]? = some
        (if (256 - 2 ^ (k / 2)) / 2 ≤ y ∧ y < (256 - 2 ^ (k / 2)) / 2 + 2 ^ (k / 2) ∧
            (256 - 2 ^ ((k + 1) / 2)) / 2 ≤ x ∧
            x < (256 - 2 ^ ((k + 1) / 2)) / 2 + 2 ^ ((k + 1) / 2)
          then km_grid k onset (y - (256 - 2 ^ (k / 2)) / 2) (x - (256 - 2 ^ ((k + 1) / 2)) / 2)
          else 1) := by
    intro x y hx hy
    have hi : x + 256 * y < 256 * 256 := by omega
    have hd : (x + 256 * y) / 256 = y := by omega
    have hm : (x + 256 * y) % 256 = x := by omega
    rw [hcell _ hi, hd, hm, if_pos ⟨hy, hx⟩, km_pad_cell _ _ _ y x p1 p2 p3 p4, hr, hc]
  refine ⟨onset, _, ho, himg, hpix, hgrid, ?_⟩
  intro v hv
  obtain ⟨i, hi, rfl⟩ := List.getElem_of_mem hv
  rw [hl] at hi
  have hxy := hpix (i % 256) (i / 256) (Nat.mod_lt _ (by decide)) (by omega)
  have e : i % 256 + 256 * (i / 256) = i := Nat.mod_add_div i 256
  rw [e, List.getElem?_eq_getElem (by rw [hl]; exact hi)] at hxy
  simp only [Option.some.injEq] at hxy
  rw [hxy]
  split_ifs
  · rw [hgrid]
    split_ifs
    · exact Or.inr (Or.inr rfl)
    · exact Or.inl rfl
  · exact Or.inr (Or.inl rfl)

/-- Instance of C37 for the conjunction of four inputs. -/
theorem km_image_padding_witness :
    ∃ onset img, onset_indeces (kitty_to_binary and4) 4 = some onset ∧
      km_image 4 (kitty_to_binary and4) = some img ∧
      (∀ x y, x < 256 → y < 256 →
        img[x + 256 * y]? = some
          (if (256 - 2 ^ (4 / 2)) / 2 ≤ y ∧ y < (256 - 2 ^ (4 / 2)) / 2 + 2 ^ (4 / 2) ∧
              (256 - 2 ^ ((4 + 1) / 2)) / 2 ≤ x ∧
              x < (256 - 2 ^ ((4 + 1) / 2)) / 2 + 2 ^ ((4 + 1) / 2)
            then km_grid 4 onset (y - (256 - 2 ^ (4 / 2)) / 2) (x - (256 - 2 ^ ((4 + 1) / 2)) / 2)
            else 1)) ∧
      (∀ c r, km_grid 4 onset c r =
        if ∃ m, m < 2 ^ 4 ∧ and4.bits.getD m false = true ∧ km_col 4 m = c ∧ km_row 4 m = r
        then 2 else 0) ∧
      (∀ v ∈ img, v = 0 ∨ v = 1 ∨ v = 2) :=
  km_image_padding 4 (by decide) (by decide) and4 (by decide)

/-- The deleted-node history after the last loop of `combine_partitions`: what
it held, and every node of the shared history that is neither a primary input
nor a primary output. -/
theorem merge_loop_deleted (ntk : Ntk) (h : List Nat) (s : merge_state) (a : Nat) :
    a ∈ (h.foldl (merge_shared ntk) s).deleted ↔
      a ∈ s.deleted ∨ (a ∈ h ∧ ntk.is_pi a = false ∧ ntk.is_po a = false) := by
  induction h generalizing s with
  | nil => simp
  | cons x h ih =>
    rw [List.foldl_cons, ih]
    have hx : a ∈ (merge_shared ntk s x).deleted ↔
        a ∈ s.deleted ∨ (a = x ∧ ntk.is_pi a = false ∧ ntk.is_po a = false) := by
      simp only [merge_shared]
      split_ifs with hc
      · simp only [Bool.and_eq_true, Bool.not_eq_true', decide_eq_true_eq] at hc
        rw [mem_set_insert]
        constructor
        · rintro (rfl | h1)
          · exact Or.inr ⟨rfl, hc.1.2, hc.2⟩
          · exact Or.inl h1
        · rintro (h1 | ⟨rfl, _⟩)
          · exact Or.inr h1
          · exact Or.inl rfl
      · simp only [Bool.and_eq_true, Bool.not_eq_true', decide_eq_true_eq, not_and,
          Bool.not_eq_false] at hc
        constructor
        · exact Or.inl
        · rintro (h1 | ⟨rfl, h2, h3⟩)
          · exact h1
          · by_contra hn
            have := hc ⟨hn, h2⟩
            rw [h3] at this
            exact absurd this (by decide)
    rw [hx, List.mem_cons]
    tauto

/-- The deleted-node histories after `combine_partitions(p1, p2)`. -/
theorem combine_partitions_deleted (pm : partition_manager) (ntk : Ntk) (p1 p2 q : Int)
    (a : Nat) :
    a ∈ (pm.combine_partitions ntk p1 p2).1.combined_deleted_nodes q ↔
      a ∈ pm.combined_deleted_nodes q ∨
      (q = p1 ∧ (a ∈ pm.get_shared_io p1 p2 ∨ a ∈ pm.combined_deleted_nodes p1) ∧
        ntk.is_pi a = false ∧ ntk.is_po a = false) := by
  simp only [partition_manager.combine_partitions, upd]
  split_ifs with hq
  · subst hq
    rw [merge_loop_deleted, mem_set_union]
    simp
  · simp [hq]

/-- The history of a partition only grows along a sequence of merges. -/
theorem combine_seq_deleted (ntk : Ntk) (calls : List (Int × Int)) (pm : partition_manager)
    (q : Int) (a : Nat) (h : a ∈ pm.combined_deleted_nodes q) :
    a ∈ (combine_seq ntk pm calls).combined_deleted_nodes q := by
  induction calls generalizing pm with
  | nil => exact h
  | cons c calls ih =>
    simp only [combine_seq, List.foldl_cons]
    exact ih _ ((combine_partitions_deleted pm ntk c.1 c.2 q a).2 (Or.inl h))

/-- C34 (repeated merges stay consistent).  Let `s` be in the shared boundary of
`p1` and `p2` and neither a primary input nor a primary output.  Then after
`combine_partitions(p1, p2)` the node `s` is in the deleted-node history of `p1`;
no call of `combine_partitions` removes a node from the history of any partition;
and after any further sequence of merges on the same network, `s` is still in the
history of `p1` and every call `combine_partitions(p1, p3)` returns merged input
and output sets that do not contain `s`. -/
theorem merge_history (pm : partition_manager) (ntk : Ntk) (p1 p2 : Int) (s : Nat)
    (hs : s ∈ pm.get_shared_io p1 p2) (hpi : ntk.is_pi s = false) (hpo : ntk.is_po s = false) :
    s ∈ (pm.combine_partitions ntk p1 p2).1.combined_deleted_nodes p1 ∧
    (∀ (pm0 : partition_manager) (q1 q2 q : Int) (n : Nat),
      n ∈ pm0.combined_deleted_nodes q →
      n ∈ (pm0.combine_partitions ntk q1 q2).1.combined_deleted_nodes q) ∧
    (∀ (calls : List (Int × Int)) (p3 : Int),
      s ∈ (combine_seq ntk (pm.combine_partitions ntk p1 p2).1 calls).combined_deleted_nodes p1 ∧
      ∃ I O, ((combine_seq ntk (pm.combine_partitions ntk p1 p2).1 calls).combine_partitions
          ntk p1 p3).2 = [I, O] ∧ s ∉ I ∧ s ∉ O) := by
  have h1 : s ∈ (pm.combine_partitions ntk p1 p2).1.combined_deleted_nodes p1 :=
    (combine_partitions_deleted pm ntk p1 p2 p1 s).2 (Or.inr ⟨rfl, Or.inl hs, hpi, hpo⟩)
  refine ⟨h1, ?_, ?_⟩
  · intro pm0 q1 q2 q n hn
    exact (combine_partitions_deleted pm0 ntk q1 q2 q n).2 (Or.inl hn)
  · intro calls p3
    have h2 := combine_seq_deleted ntk calls _ p1 s h1
    obtain ⟨I, O, e, hI, hO⟩ := combine_partitions_sets
      (combine_seq ntk (pm.combine_partitions ntk p1 p2).1 calls) ntk p1 p3 s
    refine ⟨h2, I, O, e, ?_, ?_⟩
    · intro hin
      have := (hI.1 hin).2.2 (Or.inr h2)
      rw [hpi] at this
      exact absurd this (by decide)
    · intro hout
      have := (hO.1 hout).2 (Or.inr h2)
      rw [hpo] at this
      exact absurd this (by decide)

/-- Instance of C34 on the sequential example: the register output 1 of
partition 0 feeds gate 3 of partition 2, so it is shared between the partitions 2
and 0 and is internalized by `combine_partitions(2, 0)`. -/
theorem merge_history_witness :
    ∃ pm, partition_manager.from_map ntk_ex2 part_ex2 3 = some pm ∧
      1 ∈ pm.get_shared_io 2 0 ∧
      1 ∈ (pm.combine_partitions ntk_ex2 2 0).1.combined_deleted_nodes 2 ∧
      (∀ (calls : List (Int × Int)) (p3 : Int),
        1 ∈ (combine_seq ntk_ex2 (pm.combine_partitions ntk_ex2 2 0).1 calls).combined_deleted_nodes 2 ∧
        ∃ I O, ((combine_seq ntk_ex2 (pm.combine_partitions ntk_ex2 2 0).1 calls).combine_partitions
            ntk_ex2 2 p3).2 = [I, O] ∧ 1 ∉ I ∧ 1 ∉ O) := by
  obtain ⟨pm, hpm, _⟩ := ntk_ex2_merge
  have h2 : (partition_manager.from_map ntk_ex2 part_ex2 3).map
      (fun pm => pm.get_shared_io 2 0) = some [1] := by decide
  rw [hpm] at h2
  have hs : 1 ∈ pm.get_shared_io 2 0 := by
    simp only [Option.map_some', Option.some.injEq] at h2
    rw [h2]; decide
  obtain ⟨a, _, c⟩ := merge_history pm ntk_ex2 2 0 1 hs (by decide) (by decide)
  exact ⟨pm, hpm, hs, a, c⟩

/-- C35 (frame of a merge).  `combine_partitions` does not apply the merge to
the boundary tables: for every partition `p`, the two merged partitions included,
`get_part_inputs p` and `get_part_outputs p` of the ledger after the call are the
sets they were before it, and the tables they were built from are untouched; the
merged sets are the two entries of the returned vector only. -/
theorem combine_partitions_frame (pm : partition_manager) (ntk : Ntk) (p1 p2 : Int) :
    (∀ p, (pm.combine_partitions ntk p1 p2).1.get_part_inputs p = pm.get_part_inputs p) ∧
    (∀ p, (pm.combine_partitions ntk p1 p2).1.get_part_outputs p = pm.get_part_outputs p) ∧
    (pm.combine_partitions ntk p1 p2).1.tables = pm.tables ∧
    ∃ I O, (pm.combine_partitions ntk p1 p2).2 = [I, O] :=
  ⟨fun _ => rfl, fun _ => rfl, rfl, _, _, rfl⟩

/-- A traversal leaves the recorded roots alone. -/
theorem traverse_roots (ntk : Ntk) :
    ∀ (fuel n : Nat) (v v' : partition_view), traverse ntk fuel n v = some v' →
      v'._roots = v._roots := by
  intro fuel
  induction fuel with
  | zero => intro n v v' h; simp [traverse] at h
  | succ fuel ih =>
    intro n v v' h
    unfold traverse at h
    split_ifs at h with hv
    · simp only [Option.some.injEq] at h
      rw [h]
    · simp only [Option.map_eq_some'] at h
      obtain ⟨w, hw, rfl⟩ := h
      have := foldlM_rel (fun v f => traverse ntk fuel (get_node f) v)
        (fun a b => b._roots = a._roots) (fun _ => rfl) (fun _ _ _ h1 h2 => h2.trans h1)
        (fun b a b' hb => ih _ _ _ hb) _ _ _ hw
      simpa [partition_view.add_node, partition_view.set_visited] using this

/-- The roots of a constructed view are the non-inverted signals of the declared
outputs, in order. -/
theorem construct_roots (ntk : Ntk) (leaves pivots : List Nat) (fuel : Nat) (v : partition_view)
    (h : partition_view.construct ntk leaves pivots fuel = some v) :
    v._roots = pivots.map make_signal := by
  unfold partition_view.construct at h
  simp only [Option.map_eq_some'] at h
  obtain ⟨v4, h4, rfl⟩ := h
  have h3 := foldlM_rel (fun v p => traverse ntk fuel p v)
    (fun a b => b._roots = a._roots) (fun _ => rfl) (fun _ _ _ h1 h2 => h2.trans h1)
    (fun b a b' hb => traverse_roots ntk fuel a b b' hb) _ _ _ h4
  obtain ⟨_, _, _, k4, _⟩ := view_constants_layout ntk
  have hl : ∀ (l : List Nat) (v : partition_view), (l.foldl (view_leaf ntk) v)._roots = v._roots := by
    intro l
    induction l with
    | nil => intro v; rfl
    | cons a l ih =>
      intro v
      rw [List.foldl_cons, ih]
      unfold view_leaf
      split_ifs <;> rfl
  rw [(view_finish_roots pivots v4 0).1, h3, hl, k4, List.nil_append]

/-- C40 (roots are never inverted).  For every network, every declared input
set and every declared output set, the roots of a constructed view are the
non-inverted signals of the declared outputs, in order: the `i`-th root refers
to the `i`-th declared output and its inversion bit is 0, whatever the outputs of
the parent network are; on an acyclic network the constructor returns such a
view. -/
theorem roots_never_inverted (ntk : Ntk) (leaves pivots : List Nat) (fuel : Nat) :
    (∀ v, partition_view.construct ntk leaves pivots fuel = some v →
      v._roots = pivots.map make_signal ∧
      (∀ r ∈ v._roots, is_complemented r = false ∧ r.data % 2 = 0) ∧
      ∀ outs v', partition_view.construct { ntk with outputs := outs, foreach_po := outs }
        leaves pivots fuel = some v' → v'._roots = v._roots) ∧
    (∀ rank : Nat → Nat, (∀ n, ∀ f ∈ ntk.fanin n, rank (get_node f) < rank n) →
      (∀ p ∈ pivots, rank p < fuel) →
      ∃ v, partition_view.construct ntk leaves pivots fuel = some v) := by
  refine ⟨fun v h => ?_, fun rank hacyc hfuel => ?_⟩
  · have hr := construct_roots ntk leaves pivots fuel v h
    refine ⟨hr, ?_, ?_⟩
    · intro r hr'
      rw [hr] at hr'
      obtain ⟨n, _, rfl⟩ := List.mem_map.1 hr'
      simp [make_signal, is_complemented, signal.data]
    · intro outs v' h'
      rw [hr, construct_roots _ leaves pivots fuel v' h']
  · obtain ⟨v4, e, _⟩ := construct_spec ntk rank hacyc leaves pivots fuel hfuel
    exact ⟨_, e⟩

/-- Instance of C40 on the example network `ntk_ex4`, whose first primary
output refers to input 1 with the inversion bit set: the root recorded for the
declared output 1 is not inverted. -/
theorem roots_never_inverted_witness :
    ∃ v, partition_view.construct ntk_ex4 [1, 2] [1, 3] 4 = some v ∧
      v._roots = [1, 3].map make_signal ∧
      (∀ r ∈ v._roots, is_complemented r = false ∧ r.data % 2 = 0) := by
  obtain ⟨h1, h2⟩ := roots_never_inverted ntk_ex4 [1, 2] [1, 3] 4
  obtain ⟨v, hv⟩ := h2 id (by
    intro n f hf
    simp only [ntk_ex4] at hf
    split_ifs at hf with e
    · simp only [List.mem_cons, List.mem_singleton, List.not_mem_nil, or_false] at hf
      rcases hf with rfl | rfl <;> simp [get_node, e]
    · simp at hf) (by decide)
  exact ⟨v, hv, (h1 v hv).1, (h1 v hv).2.1⟩

theorem gray_encode_loop_length (prev : Char) (cs : List Char) :
    (gray_encode_loop prev cs).length = cs.length := by
  induction cs generalizing prev with
  | nil => rfl
  | cons c cs ih => simp [gray_encode_loop, ih]

theorem gray_encode_loop_bin (prev : Char) (cs : List Char) :
    is_bin (gray_encode_loop prev cs) := by
  induction cs generalizing prev with
  | nil => intro x hx; simp [gray_encode_loop] at hx
  | cons c cs ih =>
    intro x hx
    simp only [gray_encode_loop, List.mem_cons] at hx
    rcases hx with rfl | hx
    · split_ifs
      · exact Or.inl rfl
      · exact Or.inr rfl
    · exact ih c x hx

/-- Decoding undoes the encoding loop. -/
theorem graytoBinary_loop_encode (prev : Char) (hp : prev = '0' ∨ prev = '1') (cs : List Char)
    (hcs : is_bin cs) : graytoBinary_loop prev (gray_encode_loop prev cs) = cs := by
  induction cs generalizing prev with
  | nil => rfl
  | cons c cs ih =>
    have hc := hcs c (List.mem_cons_self _ _)
    have hd : (if (if c = prev then '0' else '1') = '0' then prev else flip prev) = c := by
      by_cases e : c = prev
      · simp [e]
      · rw [if_neg e, if_neg (by decide)]
        rcases hp with rfl | rfl <;> rcases hc with rfl | rfl <;> first | rfl | exact absurd rfl e
    simp only [gray_encode_loop, graytoBinary_loop, hd]
    rw [ih c hc (fun x hx => hcs x (List.mem_cons_of_mem _ hx))]

/-- The digits of the Gray code of `b`. -/
theorem gray_encode_digits (b : List Char) :
    (gray_encode b).length = b.length ∧ (gray_encode b)[0]? = b[0]? ∧
    ∀ i c d, b[i]? = some d → b[i + 1]? = some c →
      (gray_encode b)[i + 1]? = some (if c = d then '0' else '1') := by
  cases b with
  | nil => simp [gray_encode]
  | cons a cs =>
    refine ⟨by simp [gray_encode, gray_encode_loop_length], by simp [gray_encode], ?_⟩
    have gen : ∀ (cs : List Char) (prev : Char) (i : Nat) (c d : Char),
        (prev :: cs)[i]? = some d → cs[i]? = some c →
        (gray_encode_loop prev cs)[i]? = some (if c = d then '0' else '1') := by
      intro cs
      induction cs with
      | nil => intro prev i c d _ h; simp at h
      | cons x xs ih =>
        intro prev i c d h1 h2
        cases i with
        | zero =>
          simp only [List.getElem?_cons_zero, Option.some.injEq] at h1 h2
          subst h1 h2
          simp [gray_encode_loop]
        | succ i =>
          simp only [List.getElem?_cons_succ] at h1 h2
          simp only [gray_encode_loop, List.getElem?_cons_succ]
          exact ih x i c d h1 h2
    intro i c d h1 h2
    simp only [List.getElem?_cons_succ] at h2
    simp only [gray_encode, List.getElem?_cons_succ]
    exact gen cs a i c d h1 h2

/-- C38 (`graytoBinary` inverts the reflected-binary Gray code).  Let `b` be a
non-empty string of binary digits, most significant first, and `g` its Gray code:
`g` has the length of `b`, `g[0] = b[0]`, and `g[i]` is `'0'` when
`b[i] = b[i-1]` and `'1'` otherwise.  Then `graytoBinary g = b`.  On non-empty
strings `graytoBinary` keeps the length, maps strings of binary digits to strings
of binary digits, is injective on the strings of binary digits of each length
and reaches every such string: it is a bijection on them. -/
theorem gray_decoding (b g : List Char) (hb : is_bin b) (hne : b ≠ [])
    (hl : g.length = b.length) (h0 : g[0]? = b[0]?)
    (hi : ∀ i c d, b[i]? = some d → b[i + 1]? = some c →
      g[i + 1]? = some (if c = d then '0' else '1')) :
    graytoBinary g = b ∧
    (∀ s : List Char, s ≠ [] → (graytoBinary s).length = s.length) ∧
    (∀ s, is_bin s → s ≠ [] → is_bin (graytoBinary s)) ∧
    (∀ s s', is_bin s → is_bin s' → s ≠ [] → s'.length = s.length →
      graytoBinary s' = graytoBinary s → s' = s) ∧
    (∀ t, is_bin t → t ≠ [] →
      ∃ s, is_bin s ∧ s.length = t.length ∧ graytoBinary s = t) := by
  have henc : ∀ t, is_bin t → t ≠ [] →
      is_bin (gray_encode t) ∧ graytoBinary (gray_encode t) = t := by
    intro t ht hne'
    cases t with
    | nil => exact absurd rfl hne'
    | cons a cs =>
      have ha := ht a (List.mem_cons_self _ _)
      constructor
      · intro x hx
        simp only [gray_encode, List.mem_cons] at hx
        rcases hx with rfl | hx
        · exact ha
        · exact gray_encode_loop_bin a cs x hx
      · simp only [gray_encode, graytoBinary, List.headD_cons, List.tail_cons]
        rw [graytoBinary_loop_encode a ha cs (fun x hx => ht x (List.mem_cons_of_mem _ hx))]
  have hg : g = gray_encode b := by
    obtain ⟨e1, e2, e3⟩ := gray_encode_digits b
    apply List.ext_getElem?
    intro n
    cases n with
    | zero => rw [h0, e2]
    | succ i =>
      by_cases hlt : i + 1 < b.length
      · have h1 : b[i]? = some b[i] := List.getElem?_eq_getElem (by omega)
        have h2 : b[i + 1]? = some b[i + 1] := List.getElem?_eq_getElem hlt
        rw [hi i _ _ h1 h2, e3 i _ _ h1 h2]
      · rw [List.getElem?_eq_none (by omega), List.getElem?_eq_none (by omega)]
  refine ⟨by rw [hg]; exact (henc b hb hne).2, ?_, ?_, ?_, ?_⟩
  · intro s hs
    cases s with
    | nil => exact absurd rfl hs
    | cons a cs => simp [graytoBinary, graytoBinary_loop_length]
  · intro s hs hs'
    exact (graytoBinary_props s hs hs').2.1
  · intro s s' hs hs' hne' hlen h
    exact (graytoBinary_props s hs hne').2.2 s' hs' hlen h
  · intro t ht hne'
    exact ⟨gray_encode t, (henc t ht hne').1, (gray_encode_digits t).1, (henc t ht hne').2⟩

/-- Instance of C38: the binary string `110` has the Gray code `101`. -/
theorem gray_decoding_witness :
    graytoBinary ['1', '0', '1'] = ['1', '1', '0'] ∧
    (∀ s : List Char, s ≠ [] → (graytoBinary s).length = s.length) ∧
    (∀ s, is_bin s → s ≠ [] → is_bin (graytoBinary s)) ∧
    (∀ s s', is_bin s → is_bin s' → s ≠ [] → s'.length = s.length →
      graytoBinary s' = graytoBinary s → s' = s) ∧
    (∀ t, is_bin t → t ≠ [] →
      ∃ s, is_bin s ∧ s.length = t.length ∧ graytoBinary s = t) :=
  gray_decoding ['1', '1', '0'] ['1', '0', '1'] (by intro c hc; simp at hc; tauto)
    (by simp) rfl rfl (by
      intro i c d h1 h2
      match i with
      | 0 => simp at h1 h2; subst h1 h2; rfl
      | 1 => simp at h1 h2; subst h1 h2; rfl
      | i + 2 => simp at h2)

/-- A node reached by the traversal of a view is neither a constant nor a
declared input. -/
theorem cone_reach_not_boundary {ntk : Ntk} {leaves pivots : List Nat} {n : Nat}
    (h : cone_reach ntk leaves pivots n) : ¬ view_boundary ntk leaves n := by
  cases h with
  | root p _ hb => exact hb
  | step m f _ _ hb => exact hb

/-- In the view of partition `p` of a ledger built from an assignment, every
node reached by the traversal from the outputs of `p` is a non-constant node of
the network whose home partition is `p`. -/
theorem cone_reach_home {ntk : Ntk} {partition : Nat → Option Int} {part_num : Int}
    {pm : partition_manager}
    (hpm : partition_manager.from_map ntk partition part_num = some pm)
    (hconst : ∀ n, ntk.is_constant n = true → n = ntk.constant_false ∨ n = ntk.constant_true)
    (hfan : ∀ n, ∀ f ∈ ntk.fanin n, get_node f < ntk.size)
    (hpo : ∀ n, ntk.is_po n = true → n < ntk.size)
    (p : Int) (n : Nat)
    (h : cone_reach ntk (pm.partitionInputs p) (pm.partitionOutputs p) n) :
    n < ntk.size ∧ ntk.is_constant n = false ∧ map_at partition n = p ∧
      (0 ≤ p ∧ p < part_num) := by
  obtain ⟨_, hI, hO, _, hnode⟩ := from_map_facts hpm
  obtain ⟨hpos, _⟩ := from_map_origin hpm
  have hnc : ∀ m, ¬ view_boundary ntk (pm.partitionInputs p) m → ntk.is_constant m = false := by
    intro m hb
    by_contra hc
    rw [Bool.not_eq_false] at hc
    rcases hconst m hc with e | e
    · exact hb (Or.inl e)
    · exact hb (Or.inr (Or.inl e))
  induction h with
  | root o ho hb =>
    obtain ⟨hrange, hmem⟩ := (hO p o).1 ho
    obtain ⟨e, hj⟩ := hpos _ hmem
    refine ⟨?_, hnc o hb, e.symm, hrange⟩
    rcases hj with h1 | ⟨c, f, _, hf, hg, _⟩
    · exact hpo o h1
    · have := hfan c f hf
      rw [hg] at this
      exact this
  | step m f hm hf hb ih =>
    obtain ⟨hsz, hcm, hhome, hrange⟩ := ih
    have hbm := cone_reach_not_boundary hm
    obtain ⟨hd, hh⟩ := hnode m hsz
    have hin : (map_at partition m, m) ∈ pm.tables._part_pis → False := by
      intro hmem
      apply hbm
      refine Or.inr (Or.inr ((hI p m).2 ⟨hrange, ?_⟩))
      rw [← hhome]
      exact hmem
    have hpi : ntk.is_pi m = false := by
      by_contra hc
      rw [Bool.not_eq_false] at hc
      exact hin (hh.2 (Or.inl hc))
    have hro : ntk.is_ro m = false := by
      by_contra hc
      rw [Bool.not_eq_false] at hc
      exact hin (hh.2 (Or.inr ⟨hc, hcm⟩))
    have hcf := hnc _ hb
    obtain ⟨pn, pc, e1, e2, hedge⟩ := hd.2 hpi hro f hf
    simp only [Option.some.injEq] at e1 e2
    refine ⟨hfan m f hf, hcf, ?_, hrange⟩
    by_contra hne
    have hne' : pn ≠ pc := by
      rw [← e1, ← e2, hhome]
      exact hne
    obtain ⟨hmem, _⟩ := hedge hne' hcf
    apply hb
    refine Or.inr (Or.inr ((hI p _).2 ⟨hrange, ?_⟩))
    rw [← e2, hhome] at hmem
    exact hmem

/-- C39 (a view contains only the logic of its partition).  For a ledger built
from an assignment over an acyclic network whose constant nodes are those of
`get_constant`, whose fan-ins and primary outputs are nodes of the network, and
for any partition `p`: the view built from `inputs[p]` and `outputs[p]` exists,
and every node stored at a gate position of it has home partition `p` and is in
the scope set of `p`; so no node whose home is another partition is generated
again inside the view of `p`. -/
theorem view_own_logic (ntk : Ntk) (partition : Nat → Option Int) (part_num : Int)
    (pm : partition_manager)
    (hpm : partition_manager.from_map ntk partition part_num = some pm)
    (rank : Nat → Nat) (hacyc : ∀ n, ∀ f ∈ ntk.fanin n, rank (get_node f) < rank n)
    (hconst : ∀ n, ntk.is_constant n = true → n = ntk.constant_false ∨ n = ntk.constant_true)
    (hfan : ∀ n, ∀ f ∈ ntk.fanin n, get_node f < ntk.size)
    (hpo : ∀ n, ntk.is_po n = true → n < ntk.size)
    (p : Int) (fuel : Nat) (hfuel : ∀ o ∈ pm.get_part_outputs p, rank o < fuel) :
    ∃ v, partition_view.construct ntk (pm.get_part_inputs p) (pm.get_part_outputs p) fuel
        = some v ∧
      ∀ i n, v._num_constants + v._num_leaves ≤ i → v.index_to_node i = some n →
        map_at partition n = p ∧
        (∀ q, q ≠ p → map_at partition n ≠ q) ∧
        ∃ sc, pm.get_part_context p = some sc ∧ n ∈ sc := by
  obtain ⟨v4, e, hv, _, _⟩ := construct_spec ntk rank hacyc (pm.get_part_inputs p)
    (pm.get_part_outputs p) fuel hfuel
  obtain ⟨f1, _, f3, f4⟩ := view_finish_fields (pm.get_part_outputs p) v4
  obtain ⟨_, _, _, _, hnode⟩ := from_map_facts hpm
  refine ⟨_, e, fun i n hi hn => ?_⟩
  unfold partition_view.index_to_node at hn
  rw [List.get?_eq_getElem?, f1] at hn
  rw [f3, f4] at hi
  obtain ⟨hsz, hc, hhome, _⟩ := cone_reach_home hpm hconst hfan hpo p n (hv.gate_reach i n hi hn)
  refine ⟨hhome, fun q hq h => hq (h.symm.trans hhome), ?_⟩
  obtain ⟨hd, hh⟩ := hnode n hsz
  obtain ⟨pc, e', h0, h1⟩ := hd.1 hc
  simp only [Option.some.injEq] at e'
  subst e'
  have hmem := hh.1 hc
  have hlt : (map_at partition n).toNat < pm.tables._part_scope.length := by omega
  rw [← hhome]
  unfold partition_manager.get_part_context
  rw [if_pos h0, List.get?_eq_getElem?, List.getElem?_eq_getElem hlt]
  rw [List.getD_eq_getElem?_getD, List.getElem?_eq_getElem hlt] at hmem
  exact ⟨_, rfl, hmem⟩

/-- Instance of C39 on the ledger of `ntk_ex5`, for partition 1, whose only
gate is node 4. -/
theorem view_own_logic_witness :
    ∃ pm v, partition_manager.from_map ntk_ex5 part_ex5 3 = some pm ∧
      partition_view.construct ntk_ex5 (pm.get_part_inputs 1) (pm.get_part_outputs 1) 6
        = some v ∧
      ∀ i n, v._num_constants + v._num_leaves ≤ i → v.index_to_node i = some n →
        map_at part_ex5 n = 1 ∧
        (∀ q, q ≠ 1 → map_at part_ex5 n ≠ q) ∧
        ∃ sc, pm.get_part_context 1 = some sc ∧ n ∈ sc := by
  have h : ex5_run (fun pm => pm.partitionOutputs 1) = some [4] := by decide
  unfold ex5_run at h
  simp only [Option.map_eq_some'] at h
  obtain ⟨pm, hpm, hO⟩ := h
  obtain ⟨v, h1, h2⟩ := view_own_logic ntk_ex5 part_ex5 3 pm hpm id
    (by
      intro n f hf
      simp only [ntk_ex5] at hf
      split_ifs at hf with e1 e2 e3
      all_goals
        first
        | (simp at hf; done)
        | (simp only [List.mem_cons, List.mem_singleton, List.not_mem_nil, or_false] at hf
           rcases hf with rfl | rfl <;> simp [get_node, *]))
    (by
      intro n hn
      have : n = 0 := by simpa [ntk_ex5] using hn
      subst this; decide)
    (by
      intro n f hf
      simp only [ntk_ex5] at hf
      split_ifs at hf with e1 e2 e3
      all_goals
        first
        | (simp at hf; done)
        | (simp only [List.mem_cons, List.mem_singleton, List.not_mem_nil, or_false] at hf
           rcases hf with rfl | rfl <;> simp [get_node, ntk_ex5]))
    (by
      intro n hn
      have : n = 4 ∨ n = 5 := by simpa [ntk_ex5] using hn
      rcases this with rfl | rfl <;> decide)
    1 6 (by
      intro o ho
      unfold partition_manager.get_part_outputs at ho
      rw [hO] at ho
      simp only [List.mem_singleton] at ho
      subst ho; decide)
  exact ⟨pm, v, hpm, h1, h2⟩

/-- Decoding undoes the Gray encoding of a non-empty string of binary digits,
and the code of such a string is a string of binary digits. -/
theorem graytoBinary_gray_encode (t : List Char) (ht : is_bin t) (hne : t ≠ []) :
    is_bin (gray_encode t) ∧ (gray_encode t).length = t.length ∧
    graytoBinary (gray_encode t) = t := by
  cases t with
  | nil => exact absurd rfl hne
  | cons a cs =>
    have ha := ht a (List.mem_cons_self _ _)
    refine ⟨?_, (gray_encode_digits _).1, ?_⟩
    · intro x hx
      simp only [gray_encode, List.mem_cons] at hx
      rcases hx with rfl | hx
      · exact ha
      · exact gray_encode_loop_bin a cs x hx
    · simp only [gray_encode, graytoBinary, List.headD_cons, List.tail_cons]
      rw [graytoBinary_loop_encode a ha cs (fun x hx => ht x (List.mem_cons_of_mem _ hx))]

/-- What `graytoBinary` returns on a non-empty string `g` of binary digits is
the string of binary digits whose reflected-binary Gray code is `g`. -/
theorem gray_encode_graytoBinary (g : List Char) (hg : is_bin g) (hne : g ≠ []) :
    is_bin (graytoBinary g) ∧ (graytoBinary g).length = g.length ∧
    gray_encode (graytoBinary g) = g := by
  obtain ⟨h1, h2, h3⟩ := graytoBinary_props g hg hne
  have hne' : graytoBinary g ≠ [] := by
    intro e
    rw [e] at h1
    exact hne (List.length_eq_zero.1 h1.symm)
  obtain ⟨e1, e2, e3⟩ := graytoBinary_gray_encode (graytoBinary g) h2 hne'
  exact ⟨h2, h1, h3 _ e1 (by rw [e2, h1]) e3⟩

/-- The coordinates of assignment `m` are Gray decodings of its address bits:
the row is the number written by the binary string whose Gray code is the first
`rows` address bits, the column the one whose Gray code is the remaining
`columns` address bits. -/
theorem km_coords_gray (k : Nat) (hk : 2 ≤ k) (m : Nat) (hm : m < 2 ^ k) :
    ∃ br bc, is_bin br ∧ br.length = km_rows k ∧
      gray_encode br = (km_address k m).take (km_rows k) ∧ km_row k m = stoi2 br ∧
      is_bin bc ∧ bc.length = km_columns k ∧
      gray_encode bc = (km_address k m).drop (km_rows k) ∧ km_col k m = stoi2 bc := by
  obtain ⟨hr, hc, hrc⟩ := km_rows_columns k
  obtain ⟨_, hl, hb, _⟩ := km_address_eq k m hm
  have p1 : ((km_address k m).take (km_rows k)).length = km_rows k := by
    rw [List.length_take, hl]; omega
  have p2 : is_bin ((km_address k m).take (km_rows k)) :=
    fun c hc => hb c (List.mem_of_mem_take hc)
  have p4 : ((km_address k m).drop (km_rows k)).length = km_columns k := by
    rw [List.length_drop, hl]; omega
  have p3 : ((km_address k m).drop (km_rows k)).take ((km_address k m).length - 1) =
      (km_address k m).drop (km_rows k) := by
    apply List.take_of_length_le
    rw [p4, hl]; omega
  have p5 : is_bin ((km_address k m).drop (km_rows k)) :=
    fun c hc => hb c (List.mem_of_mem_drop hc)
  have ne1 : (km_address k m).take (km_rows k) ≠ [] := by
    intro e; rw [e] at p1; simp at p1; omega
  have ne2 : (km_address k m).drop (km_rows k) ≠ [] := by
    intro e; rw [e] at p4; simp at p4; omega
  obtain ⟨a1, a2, a3⟩ := gray_encode_graytoBinary _ p2 ne1
  obtain ⟨b1, b2, b3⟩ := gray_encode_graytoBinary _ p5 ne2
  refine ⟨_, _, a1, by rw [a2, p1], a3, rfl, b1, by rw [b2, p4], b3, ?_⟩
  unfold km_col km_col_index
  rw [p3]

/-- The binary digits written by `to_binary`, read from the least significant
end: digit `i` is bit `i` of the number, and there are only zeros behind them. -/
theorem to_binary_bits : ∀ (m i : Nat),
    (to_binary m).reverse.getD i '0' = if m.testBit i then '1' else '0' := by
  intro m
  induction m using Nat.strong_induction_on with
  | _ m ih =>
    intro i
    by_cases h0 : m = 0
    · subst h0
      simp [to_binary_zero]
    · rw [to_binary_succ m h0, List.reverse_append, List.reverse_singleton, List.singleton_append]
      cases i with
      | zero =>
        simp only [List.getD_cons_zero, Nat.testBit_zero]
        by_cases hm : m % 2 = 0
        · simp [hm]
        · have : m % 2 = 1 := by omega
          simp [this]
      | succ i =>
        rw [List.getD_cons_succ, ih (m / 2) (Nat.div_lt_self (Nat.pos_of_ne_zero h0) (by decide)),
          Nat.testBit_succ]

/-- The address bits of assignment `m` of a cone with `k` inputs: bit `i` of
the address is bit `i` of `m`, the least significant first. -/
theorem km_address_bits (k m : Nat) (hm : m < 2 ^ k) (i : Nat) (hi : i < k) :
    (km_address k m)[i]? = some (if m.testBit i then '1' else '0') := by
  obtain ⟨hp, hl, _, _⟩ := km_address_eq k m hm
  unfold pad_reverse at hp
  split_ifs at hp with hle
  simp only [Option.some.injEq] at hp
  rw [List.getElem?_eq_getElem (by rw [hl]; exact hi)]
  apply congrArg some
  rw [← to_binary_bits m i, ← List.getD_eq_getElem _ '0' (by rw [hl]; exact hi), ← hp,
    List.reverse_append, List.reverse_replicate]
  by_cases hlt : i < (to_binary m).reverse.length
  · rw [List.getD_append _ _ _ _ hlt]
  · rw [List.getD_append_right _ _ _ _ (not_lt.1 hlt), List.getD_eq_default _ _ (not_lt.1 hlt)]
    rw [List.getD_eq_getElem?_getD, List.getElem?_replicate]
    split_ifs <;> rfl

/-- C5 (image packing invertibility).  For a cone with `2 ≤ k ≤ 16` inputs and
a truth table of `2 ^ k` bits, `get_km_image` splits the address of an assignment
into `rows = ceil(k/2)` and `columns = floor(k/2)` bits.  The address of
assignment `m` has `k` bits, bit `i` being bit `i` of `m`; its row `km_row k m` is
the number written by the binary string whose reflected-binary Gray code is the
first `rows` address bits, and its column `km_col k m` the one whose Gray code is
the remaining `columns` bits.  The unpadded grid has the cell of assignment `m`
marked with 2 exactly when the table is 1 at `m`; the map from assignments to
cells is a bijection, a cell is marked exactly when the table is 1 at the
assignment that decodes to it, and every unmarked cell is 0. -/
theorem km_image_packing (k : Nat) (hk2 : 2 ≤ k) (_hk16 : k ≤ 16) (tt : dynamic_truth_table)
    (hlen : tt.bits.length = 2 ^ k) :
    km_rows k = (k + 1) / 2 ∧ km_columns k = k / 2 ∧
    ∃ onset, onset_indeces (kitty_to_binary tt) k = some onset ∧
      (∀ m, m < 2 ^ k → km_row k m < 2 ^ km_rows k ∧ km_col k m < 2 ^ km_columns k ∧
        (km_grid k onset (km_col k m) (km_row k m) = 2 ↔ tt.bits.getD m false = true)) ∧
      (∀ c r, c < 2 ^ km_columns k → r < 2 ^ km_rows k →
        ∃! m, m < 2 ^ k ∧ km_row k m = r ∧ km_col k m = c) ∧
      (∀ c r, km_grid k onset c r = 2 ∨ km_grid k onset c r = 0) ∧
      (∀ m, m < 2 ^ k →
        (km_address k m).length = k ∧
        (∀ i, i < k → (km_address k m)[i]? = some (if m.testBit i then '1' else '0')) ∧
        ∃ br bc, is_bin br ∧ br.length = km_rows k ∧
          gray_encode br = (km_address k m).take (km_rows k) ∧ km_row k m = stoi2 br ∧
          is_bin bc ∧ bc.length = km_columns k ∧
          gray_encode bc = (km_address k m).drop (km_rows k) ∧ km_col k m = stoi2 bc) ∧
      (∀ c r, c < 2 ^ km_columns k → r < 2 ^ km_rows k →
        (km_grid k onset c r = 2 ↔
          ∃ m, m < 2 ^ k ∧ km_row k m = r ∧ km_col k m = c ∧ tt.bits.getD m false = true)) := by
  obtain ⟨hr, hc, _⟩ := km_rows_columns k
  obtain ⟨onset, ho, hmem⟩ := onset_indeces_spec k tt hlen
  have hcell : ∀ m, m < 2 ^ k →
      (km_grid k onset (km_col k m) (km_row k m) = 2 ↔ tt.bits.getD m false = true) := by
    intro m hm
    obtain ⟨_, _, inj⟩ := km_decode_props k hk2 m hm
    rw [km_grid_cell]
    constructor
    · intro h
      split_ifs at h with hex
      obtain ⟨idx, hi, e1, e2⟩ := hex
      obtain ⟨m', hm', hb, rfl⟩ := (hmem idx).1 hi
      have := inj m' hm' e2 e1
      rw [← this]; exact hb
    · intro hb
      rw [if_pos]
      exact ⟨km_address k m, (hmem _).2 ⟨m, hm, hb, rfl⟩, rfl, rfl⟩
  refine ⟨hr, hc, onset, ho, ?_, ?_, ?_, ?_, ?_⟩
  · intro m hm
    obtain ⟨b1, b2, _⟩ := km_decode_props k hk2 m hm
    exact ⟨b1, b2, hcell m hm⟩
  · intro c r hc' hr'
    obtain ⟨m, hm, e1, e2⟩ := km_decode_surj k hk2 c r hc' hr'
    refine ⟨m, ⟨hm, e1, e2⟩, ?_⟩
    rintro m' ⟨hm', f1, f2⟩
    exact (km_decode_props k hk2 m hm).2.2 m' hm' (f1.trans e1.symm) (f2.trans e2.symm)
  · intro c r
    rw [km_grid_cell]
    split_ifs
    · exact Or.inl rfl
    · exact Or.inr rfl
  · intro m hm
    exact ⟨(km_address_eq k m hm).2.1, fun i hi => km_address_bits k m hm i hi,
      km_coords_gray k hk2 m hm⟩
  · intro c r hc' hr'
    obtain ⟨m, hm, e1, e2⟩ := km_decode_surj k hk2 c r hc' hr'
    constructor
    · intro h
      rw [← e1, ← e2] at h
      exact ⟨m, hm, e1, e2, (hcell m hm).1 h⟩
    · rintro ⟨m', hm', f1, f2, hb⟩
      rw [← f1, ← f2]
      exact (hcell m' hm').2 hb

/-- Instance of C5 for the conjunction of four inputs. -/
theorem km_image_packing_witness :
    km_rows 4 = (4 + 1) / 2 ∧ km_columns 4 = 4 / 2 ∧
    ∃ onset, onset_indeces (kitty_to_binary and4) 4 = some onset ∧
      (∀ m, m < 2 ^ 4 → km_row 4 m < 2 ^ km_rows 4 ∧ km_col 4 m < 2 ^ km_columns 4 ∧
        (km_grid 4 onset (km_col 4 m) (km_row 4 m) = 2 ↔ and4.bits.getD m false = true)) ∧
      (∀ c r, c < 2 ^ km_columns 4 → r < 2 ^ km_rows 4 →
        ∃! m, m < 2 ^ 4 ∧ km_row 4 m = r ∧ km_col 4 m = c) ∧
      (∀ c r, km_grid 4 onset c r = 2 ∨ km_grid 4 onset c r = 0) ∧
      (∀ m, m < 2 ^ 4 →
        (km_address 4 m).length = 4 ∧
        (∀ i, i < 4 → (km_address 4 m)[i]? = some (if m.testBit i then '1' else '0')) ∧
        ∃ br bc, is_bin br ∧ br.length = km_rows 4 ∧
          gray_encode br = (km_address 4 m).take (km_rows 4) ∧ km_row 4 m = stoi2 br ∧
          is_bin bc ∧ bc.length = km_columns 4 ∧
          gray_encode bc = (km_address 4 m).drop (km_rows 4) ∧ km_col 4 m = stoi2 bc) ∧
      (∀ c r, c < 2 ^ km_columns 4 → r < 2 ^ km_rows 4 →
        (km_grid 4 onset c r = 2 ↔
          ∃ m, m < 2 ^ 4 ∧ km_row 4 m = r ∧ km_col 4 m = c ∧ and4.bits.getD m false = true)) :=
  km_image_packing 4 (by decide) (by decide) and4 (by decide)

/-- The onset loop of `get_km_image` terminates on every table string of at most
`2 ^ k` digits. -/
theorem onset_indeces_total (k : Nat) (s : List Char) (hs : s.length ≤ 2 ^ k) :
    ∃ onset, onset_indeces s k = some onset := by
  unfold onset_indeces
  apply opt_mapM_total
  intro a ha
  simp only [List.mem_filterMap, List.mem_range] at ha
  obtain ⟨indx, hi, he⟩ := ha
  split_ifs at he
  simp only [Option.some.injEq] at he
  subst he
  unfold pad_reverse
  rw [if_pos (to_binary_length k indx (lt_of_lt_of_le hi hs))]
  exact ⟨_, rfl⟩

/-- C33, amended (image size).  For a cone with `2 ≤ k ≤ 16` inputs and a truth
table of `2 ^ k` bits `get_km_image` returns an image: with exactly
256 x 256 = 65536 cells when `k < 16`, and the native grid of `2^8 x 2^8` cells,
cell `x + y * 2^8` being the grid cell of column `y` and row `x`, when `k = 16`.
For `k < 2` and for `k > 16` it returns the empty image, whatever table string of
at most `2 ^ k` digits it reads, the empty string of an output without a recorded
table included. -/
theorem km_image_size (k : Nat) :
    (∀ tt : dynamic_truth_table, tt.bits.length = 2 ^ k → 2 ≤ k → k ≤ 16 →
      ∃ onset img, onset_indeces (kitty_to_binary tt) k = some onset ∧
        km_image k (kitty_to_binary tt) = some img ∧
        (k < 16 → img.length = 256 * 256 ∧ img.length = 65536) ∧
        (k = 16 → img.length = 2 ^ 8 * 2 ^ 8 ∧
          ∀ x y, x < 2 ^ 8 → y < 2 ^ 8 →
            img[x + y * 2 ^ 8]? = some (km_grid 16 onset y x))) ∧
    (k < 2 ∨ 16 < k →
      (∀ s : List Char, s.length ≤ 2 ^ k → km_image k s = some []) ∧
      km_image k (kitty_to_binary ⟨0, []⟩) = some []) := by
  constructor
  · intro tt hlen h2 h16'
    obtain ⟨onset, ho, _, himg⟩ := km_image_cases k tt hlen
    refine ⟨onset, _, ho, himg, ?_, ?_⟩
    · intro h16
      rw [if_pos ⟨by omega, h2⟩, if_pos h16]
      have := (km_flatten_spec (256 * 256) 256 256 256 (le_refl _)
        (km_pad (2 ^ km_rows k) (2 ^ km_columns k) (km_grid k onset))).1
      exact ⟨this, this⟩
    · rintro rfl
      have e1 : km_rows 16 = 8 := by decide
      have e2 : km_columns 16 = 8 := by decide
      rw [if_pos ⟨by decide, by decide⟩, if_neg (by decide), e1, e2]
      obtain ⟨hl, hcell⟩ := km_flatten_spec (2 ^ 8 * 2 ^ 8) (2 ^ 8) (2 ^ 8) (2 ^ 8) (le_refl _)
        (km_grid 16 onset)
      refine ⟨hl, fun x y hx hy => ?_⟩
      have hi : x + y * 2 ^ 8 < 2 ^ 8 * 2 ^ 8 := by norm_num at hx hy ⊢; omega
      have hd : (x + y * 2 ^ 8) / 2 ^ 8 = y := by norm_num at hx hy ⊢; omega
      have hm : (x + y * 2 ^ 8) % 2 ^ 8 = x := by norm_num at hx hy ⊢; omega
      rw [hcell _ hi, hd, hm, if_pos ⟨hy, hx⟩]
  · intro hk
    have hall : ∀ s : List Char, s.length ≤ 2 ^ k → km_image k s = some [] := by
      intro s hs
      obtain ⟨onset, ho⟩ := onset_indeces_total k s hs
      unfold km_image
      rw [ho, Option.map_some', if_neg (by omega)]
    exact ⟨hall, hall _ (by simp [kitty_to_binary])⟩

/-- Instance of C33 for the conjunction of four inputs. -/
theorem km_image_size_witness :
    ∃ onset img, onset_indeces (kitty_to_binary and4) 4 = some onset ∧
      km_image 4 (kitty_to_binary and4) = some img ∧
      (4 < 16 → img.length = 256 * 256 ∧ img.length = 65536) ∧
      (4 = 16 → img.length = 2 ^ 8 * 2 ^ 8 ∧
        ∀ x y, x < 2 ^ 8 → y < 2 ^ 8 →
          img[x + y * 2 ^ 8]? = some (km_grid 16 onset y x)) :=
  (km_image_size 4).1 and4 (by decide) (by decide) (by decide)

/-- The signal computed by the fan-in lambda of `synchronize_part` is the
positionally matched one, as long as `pis.at` does not throw. -/
theorem sync_child_positional (opt : Ntk) (part : partition_view) (old_to_new : Nat → signal)
    (child : signal)
    (h : (opt.is_pi (get_node child) || opt.is_ro (get_node child)) = true →
      child.index ≠ 0 ∧ child.index - 1 < part.foreach_pi.length) :
    sync_child opt (part.foreach_pi.map make_signal) old_to_new child =
      some (positional_signal part opt old_to_new child) := by
  unfold sync_child positional_signal
  cases hp : (opt.is_pi (get_node child) || opt.is_ro (get_node child))
  · simp
  · obtain ⟨h0, h1⟩ := h hp
    simp only [if_true, if_neg h0]
    rw [List.get?_eq_getElem?, List.getElem?_map, List.getElem?_eq_getElem h1,
      List.getD_eq_getElem _ _ h1]
    simp only [Option.map_some', Option.some.injEq]
    cases hcc : child.complement <;> simp [is_complemented, hcc, create_not, make_signal]

/-- The cloning pass of `synchronize_part` makes the calls of `clone_calls`. -/
theorem sync_nodes_calls (clone_node : Ntk → Ntk → Nat → List signal → Ntk × signal)
    (part : partition_view) (opt : Ntk) (topo : List Nat)
    (hin : ∀ node ∈ topo, (opt.is_constant node || opt.is_pi node || opt.is_ro node) = false →
      ∀ child ∈ opt.fanin node,
        (opt.is_pi (get_node child) || opt.is_ro (get_node child)) = true →
        child.index ≠ 0 ∧ child.index - 1 < part.foreach_pi.length)
    (st : sync_state) :
    topo.foldlM (sync_node clone_node opt (part.foreach_pi.map make_signal)) st =
      some (topo.foldl (clone_calls clone_node part opt) st) := by
  induction topo generalizing st with
  | nil => rfl
  | cons node topo ih =>
    have hstep : sync_node clone_node opt (part.foreach_pi.map make_signal) st node =
        some (clone_calls clone_node part opt st node) := by
      unfold sync_node clone_calls
      cases hk : (opt.is_constant node || opt.is_pi node || opt.is_ro node)
      · simp only [Bool.false_eq_true, if_false]
        rw [opt_mapM_some _ (positional_signal part opt st.old_to_new) _ (fun child hchild =>
          sync_child_positional opt part st.old_to_new child
            (hin node (List.mem_cons_self _ _) hk child hchild))]
        rfl
      · simp
    rw [List.foldlM_cons, hstep, List.foldl_cons]
    exact ih (fun n hn => hin n (List.mem_cons_of_mem _ hn)) _

/-- A run of `synchronize_part` whose reads of `pis` and of the roots are in
range: the graph returned is the one left by the calls of `clone_calls`, and the
ledger returned differs in the substitutions only, which are those of the output
loop. -/
theorem synchronize_part_run (pm : partition_manager)
    (clone_node : Ntk → Ntk → Nat → List signal → Ntk × signal)
    (part : partition_view) (opt : Ntk) (topo : List Nat) (ntk : Ntk)
    (hin : ∀ node ∈ topo, (opt.is_constant node || opt.is_pi node || opt.is_ro node) = false →
      ∀ child ∈ opt.fanin node,
        (opt.is_pi (get_node child) || opt.is_ro (get_node child)) = true →
        child.index ≠ 0 ∧ child.index - 1 < part.foreach_pi.length)
    (hout : opt.outputs.length ≤ part._roots.length) :
    ∃ subs, (List.range opt.outputs.length).foldlM
        (sync_output opt part._roots
          (topo.foldl (clone_calls clone_node part opt)
            { ntk := ntk, old_to_new := fun _ => ⟨0, false⟩ }).old_to_new)
        pm.output_substitutions = some subs ∧
      pm.synchronize_part clone_node part opt topo ntk =
        some ({ pm with output_substitutions := subs },
          (topo.foldl (clone_calls clone_node part opt)
            { ntk := ntk, old_to_new := fun _ => ⟨0, false⟩ }).ntk) := by
  obtain ⟨subs, hsubs⟩ := foldlM_succeeds (sync_output opt part._roots
      (topo.foldl (clone_calls clone_node part opt)
        { ntk := ntk, old_to_new := fun _ => ⟨0, false⟩ }).old_to_new)
    (List.range opt.outputs.length) (by
      intro i hi subs
      rw [List.mem_range] at hi
      unfold sync_output
      rw [List.get?_eq_getElem?, List.getElem?_eq_getElem hi, List.get?_eq_getElem?,
        List.getElem?_eq_getElem (lt_of_lt_of_le hi hout)]
      simp) pm.output_substitutions
  refine ⟨subs, hsubs, ?_⟩
  unfold partition_manager.synchronize_part
  simp only [sync_nodes_calls clone_node part opt topo hin, Option.some_bind, hsubs,
    Option.map_some']

/-- C36 (positional input matching in the Synchronizer).  Take a run of
`synchronize_part` on a view `P` and an optimized network `O` in which every
fan-in of a gate of `O` that refers to an input or register output of `O` has a
node index between 1 and the number of inputs of `P`, and `O` has no more outputs
than `P` has roots.  The run returns, and the graph it returns is the one left by
one call of `clone_node` per gate of `O`, in the order of the gates; each call
gets one signal per fan-in, in the order of the fan-ins, and for a fan-in that
refers to the input or register output with node index `i` that signal is the
signal of the `i`-th input of `P` in `foreach_pi` order, counted from 1, its
inversion bit being the inversion bit of the fan-in edge in `O`. -/
theorem positional_inputs (pm : partition_manager)
    (clone_node : Ntk → Ntk → Nat → List signal → Ntk × signal)
    (part : partition_view) (opt : Ntk) (topo : List Nat) (ntk : Ntk)
    (hin : ∀ node ∈ topo, (opt.is_constant node || opt.is_pi node || opt.is_ro node) = false →
      ∀ child ∈ opt.fanin node,
        (opt.is_pi (get_node child) || opt.is_ro (get_node child)) = true →
        child.index ≠ 0 ∧ child.index - 1 < part.foreach_pi.length)
    (hout : opt.outputs.length ≤ part._roots.length) :
    (∃ pm1, pm.synchronize_part clone_node part opt topo ntk =
      some (pm1, (topo.foldl (clone_calls clone_node part opt)
        { ntk := ntk, old_to_new := fun _ => ⟨0, false⟩ }).ntk)) ∧
    ∀ (st : sync_state) (node : Nat), node ∈ topo →
      (opt.is_constant node || opt.is_pi node || opt.is_ro node) = false →
      ∃ children,
        clone_calls clone_node part opt st node =
          { ntk := (clone_node st.ntk opt node children).1
            old_to_new := upd st.old_to_new node (clone_node st.ntk opt node children).2 } ∧
        children.length = (opt.fanin node).length ∧
        ∀ (j : Nat) (child : signal), (opt.fanin node)[j]? = some child →
          (opt.is_pi (get_node child) || opt.is_ro (get_node child)) = true →
          ∃ n, 1 ≤ child.index ∧ part.foreach_pi[child.index - 1]? = some n ∧
            children[j]? = some (⟨n, is_complemented child⟩ : signal) ∧
            (is_complemented (⟨n, is_complemented child⟩ : signal) = true ↔
              is_complemented child = true) := by
  obtain ⟨subs, _, hrun⟩ := synchronize_part_run pm clone_node part opt topo ntk hin hout
  refine ⟨⟨_, hrun⟩, fun st node hnode hk => ?_⟩
  refine ⟨(opt.fanin node).map (positional_signal part opt st.old_to_new), ?_,
    List.length_map _ _, fun j child hj hp => ?_⟩
  · unfold clone_calls
    rw [hk]
    rfl
  · obtain ⟨h0, h1⟩ := hin node hnode hk child (List.getElem?_mem hj) hp
    refine ⟨part.foreach_pi[child.index - 1], by omega, List.getElem?_eq_getElem h1, ?_,
      by simp [is_complemented]⟩
    rw [List.getElem?_map, hj, Option.map_some']
    unfold positional_signal
    rw [hp, if_pos rfl, List.getD_eq_getElem _ _ h1]

/-- Instance of C36 with a recording `clone_node`: the optimized network
`opt_ex3` has the gates 4 = AND(1, 2) and 5 = AND(!3, !4) over its inputs 1, 2, 3;
synchronized with the view whose inputs are 7, 8, 9, `clone_node` is called for
gate 4 with the signals of 7 and 8 and for gate 5 with the inverted signal of 9
and the inverted signal returned for gate 4. -/
theorem positional_inputs_witness :
    ∃ pm1 ntk1,
      (partition_manager.init 1 (part_tables.empty 1)).synchronize_part clone_log view_ex9
        opt_ex3 [0, 1, 2, 3, 4, 5] ntk_ex3 = some (pm1, ntk1) ∧
      ntk1.foreach_gate = ntk_ex3.foreach_gate ++ [4, 5] ∧
      ntk1.foreach_po = ntk_ex3.foreach_po ++ [⟨7, false⟩, ⟨8, false⟩, ⟨9, true⟩, ⟨4, true⟩] := by
  obtain ⟨⟨pm1, h⟩, _⟩ := positional_inputs (partition_manager.init 1 (part_tables.empty 1))
    clone_log view_ex9 opt_ex3 [0, 1, 2, 3, 4, 5] ntk_ex3 (by decide) (by decide)
  exact ⟨pm1, _, h, by decide, by decide⟩

/-- C21, amended (malformed optimized network).  `synchronize_part` does not
compare the number of inputs of the optimized network with that of the view.  It
reads `pis.at(index - 1)` for every fan-in of a gate that is an input or register
output of the optimized network and the `i`-th root for every output `i`; when
every such fan-in has an index between 1 and the number of inputs of the view and
the optimized network has no more outputs than the view has roots, it returns,
whatever the number of inputs of the optimized network: the graph it returns is
the one left by one call of `clone_node` for every gate of the optimized network,
and the substitutions it returns have as keys those there were and the root of
every output of the optimized network that is driven by a gate. -/
theorem sync_input_count (pm : partition_manager)
    (clone_node : Ntk → Ntk → Nat → List signal → Ntk × signal)
    (part : partition_view) (opt : Ntk) (topo : List Nat) (ntk : Ntk)
    (hin : ∀ node ∈ topo, (opt.is_constant node || opt.is_pi node || opt.is_ro node) = false →
      ∀ child ∈ opt.fanin node,
        (opt.is_pi (get_node child) || opt.is_ro (get_node child)) = true →
        child.index ≠ 0 ∧ child.index - 1 < part.foreach_pi.length)
    (hout : opt.outputs.length ≤ part._roots.length) :
    ∃ pm1 ntk1, pm.synchronize_part clone_node part opt topo ntk = some (pm1, ntk1) ∧
      ntk1 = (topo.foldl (clone_calls clone_node part opt)
        { ntk := ntk, old_to_new := fun _ => ⟨0, false⟩ }).ntk ∧
      (∀ n, (∃ s, map_find pm1.output_substitutions n = some s) ↔
        (∃ s, map_find pm.output_substitutions n = some s) ∨
        ∃ i o r, opt.outputs.get? i = some o ∧ part._roots.get? i = some r ∧
          get_node r = n ∧ opt_gate opt o) ∧
      (∀ i o, opt.outputs.get? i = some o → opt_gate opt o →
        ∃ r s, part._roots.get? i = some r ∧
          map_find pm1.output_substitutions (get_node r) = some s) := by
  obtain ⟨subs, hsubs, hrun⟩ := synchronize_part_run pm clone_node part opt topo ntk hin hout
  have hkeys : ∀ n, (∃ s, map_find subs n = some s) ↔
      (∃ s, map_find pm.output_substitutions n = some s) ∨
      ∃ i o r, opt.outputs.get? i = some o ∧ part._roots.get? i = some r ∧
        get_node r = n ∧ opt_gate opt o := by
    intro n
    rw [map_find_some, map_find_some, sync_output_keys _ _ _ _ _ _ hsubs n]
    constructor
    · rintro (h | ⟨i, o, r, _, h1, h2, h3, h4⟩)
      · exact Or.inl h
      · exact Or.inr ⟨i, o, r, h1, h2, h3, h4⟩
    · rintro (h | ⟨i, o, r, h1, h2, h3, h4⟩)
      · exact Or.inl h
      · refine Or.inr ⟨i, o, r, ?_, h1, h2, h3, h4⟩
        rw [List.get?_eq_getElem?] at h1
        exact List.mem_range.2 (List.getElem?_eq_some.1 h1).1
  refine ⟨_, _, hrun, rfl, hkeys, fun i o ho hg => ?_⟩
  have hi : i < opt.outputs.length := by
    rw [List.get?_eq_getElem?] at ho
    exact (List.getElem?_eq_some.1 ho).1
  have hlt : i < part._roots.length := lt_of_lt_of_le hi hout
  obtain ⟨r, hr⟩ : ∃ r, part._roots.get? i = some r := ⟨_, List.get?_eq_get hlt⟩
  obtain ⟨s, hs⟩ := (hkeys (get_node r)).2 (Or.inr ⟨i, o, r, ho, hr, rfl, hg⟩)
  exact ⟨r, s, hr, hs⟩

/-- Instance of C21 (amended): the synchronization of the view of partition 0
of `ntk_ex3`, which has three inputs, with the two-input network `opt_ex8`; the
run returns, the graph has one node more, and a substitution is recorded for the
root 6. -/
theorem sync_input_count_witness :
    ∃ pm v pm1 ntk1, partition_manager.from_map ntk_ex3 part_ex3 2 = some pm ∧
      partition_view.construct ntk_ex3 (pm.get_part_inputs 0) (pm.get_part_outputs 0) 7
        = some v ∧
      v.num_pis = 3 ∧ opt_ex8.num_pis = 2 ∧
      pm.synchronize_part clone_and v opt_ex8 [0, 1, 2, 3] ntk_ex3 = some (pm1, ntk1) ∧
      ntk1 = ([0, 1, 2, 3].foldl (clone_calls clone_and v opt_ex8)
        { ntk := ntk_ex3, old_to_new := fun _ => ⟨0, false⟩ }).ntk ∧
      ntk1.size = ntk_ex3.size + 1 ∧
      ∃ s, map_find pm1.output_substitutions 6 = some s := by
  have h : ex3_sync opt_ex8 [0, 1, 2, 3] (fun _ v r =>
      (v.foreach_pi, v._roots, v.num_pis, r.2.size)) =
      some ([1, 2, 3], [⟨6, false⟩], 3, 8) := by decide
  obtain ⟨pm, v, r, h1, h2, hr, h4⟩ := ex3_sync_some _ _ _ _ h
  simp only [Prod.mk.injEq] at h4
  obtain ⟨pm1, ntk1, h3, hg, _, hrec⟩ := sync_input_count pm clone_and v opt_ex8 [0, 1, 2, 3]
    ntk_ex3 (by
      intro node hnode hk child hchild hp
      rw [h4.1]
      simp only [List.mem_cons, List.mem_singleton, List.not_mem_nil, or_false] at hnode
      rcases hnode with rfl | rfl | rfl | rfl
      · simp [opt_ex8] at hchild
      · simp [opt_ex8] at hchild
      · simp [opt_ex8] at hchild
      · simp only [opt_ex8, if_true, List.mem_cons, List.mem_singleton, List.not_mem_nil,
          or_false] at hchild
        rcases hchild with rfl | rfl <;> decide)
    (by rw [h4.2.1]; decide)
  obtain ⟨r', s, hr', hs⟩ := hrec 0 ⟨3, false⟩ (by decide) ⟨by decide, by decide, by decide⟩
  rw [h4.2.1] at hr'
  have e : r' = ⟨6, false⟩ := by
    have := Option.some.inj hr'
    exact this.symm
  subst e
  have hsz : ntk1.size = ntk_ex3.size + 1 := by
    have h3' := h3
    rw [hr] at h3'
    have e3 := Option.some.inj h3'
    have e4 : r.2 = ntk1 := by rw [e3]
    rw [← e4, h4.2.2.2]
    decide
  exact ⟨pm, v, pm1, ntk1, h1, h2, h4.2.2.1, rfl, h3, hg, hsz, s, hs⟩

end Oracle
